import Mathlib

/-!
# Particle System Generator: geometry kernel, cost function and swarm optimizer

A shallow embedding of `get_particle_parameters.c` and `PSOAlgorithm.c`.

Modelling conventions
* a C `double` is an exact number: the algebraic routines are written over an arbitrary
  linearly ordered field `K` (so they run on `ℚ`), the routines that call `sqrt`, `cos`,
  `sin`, `atan2` or use `M_PI` are written over `ℝ`;
* a C array is a function `ℕ → K` together with its length (pointer plus `nDim`);
* a `for` loop that accumulates into a variable is a `List.foldl` over `List.range`;
* `pow (x, 2)` is `x ^ 2`, `fabs` is `|·|`, `sqrt` is `Real.sqrt`,
  `atan2 (y, x)` is `Complex.arg ⟨x, y⟩`;
* the stack arrays with a top pointer of the hull construction are lists, top first.
-/

set_option autoImplicit false

namespace PSG

/-! ## Geometry kernel: algebraic part -/

section Algebraic

variable {K : Type} [LinearOrderedField K]

/-- The ring successor used by every loop: `0` at the last index, `i + 1` otherwise. -/
def nextIdx (nDim i : ℕ) : ℕ := if i = nDim - 1 then 0 else i + 1

/-- Source `calc_area_pix`: signed shoelace area of the ring. -/
def calc_area_pix (nDim : ℕ) (dimsCoordMidX dimsCoordMidY : ℕ → K) : K :=
  (List.range nDim).foldl
    (fun a i =>
      let x := dimsCoordMidX (nextIdx nDim i)
      let y := dimsCoordMidY (nextIdx nDim i)
      a + (dimsCoordMidX i * y - x * dimsCoordMidY i)) 0 / 2

/-- Source `cross`: z-component of the cross product of `OA` and `OB`. -/
def cross (Ox Oy Ax Ay Bx By : K) : K :=
  (Ax - Ox) * (By - Oy) - (Ay - Oy) * (Bx - Ox)

/-- Modelled from the spec: `sort_array` (declared in `sort_array.h`, absent from the
sources) sorts the points by x, ties broken by y. The order relation it sorts by. -/
def lexLE (p q : K × K) : Prop := p.1 < q.1 ∨ (p.1 = q.1 ∧ p.2 ≤ q.2)

instance lexLE_decidable : DecidableRel (lexLE : K × K → K × K → Prop) :=
  fun p q => by unfold lexLE; exact inferInstance

/-- Modelled from the spec: `sort_array` (declared in `sort_array.h`, absent from the
sources) sorts the points by x, ties broken by y. -/
def sort_array (pts : List (K × K)) : List (K × K) :=
  pts.insertionSort lexLE

/-- The `while` loop of the hull sweeps: pop the stack while it holds at least two points
(`ptr >= 1`) and the two topmost points with the new point make no left turn. -/
def popWhile (p : K × K) : List (K × K) → List (K × K)
  | top :: second :: rest =>
      if cross second.1 second.2 top.1 top.2 p.1 p.2 ≤ 0 then popWhile p (second :: rest)
      else top :: second :: rest
  | st => st

/-- One sweep of the hull construction (`for (i = 0; i < nDim; i++)`): the stack after all
points were pushed, top first. -/
def sweep (pts : List (K × K)) : List (K × K) :=
  pts.foldl (fun st p => p :: popWhile p st) []

/-- Source `reverse_array`. -/
def reverse_array (pts : List (K × K)) : List (K × K) := pts.reverse

/-- Source `calc_convex_hull_coords` (Andrew's monotone chain) on a list of points: the
entries `0 .. ptrLower - 1` of the lower chain followed by the entries
`0 .. ptrUpper - 1` of the upper chain. -/
def hullOfList (pts : List (K × K)) : List (K × K) :=
  let coordMid := sort_array pts
  let lower := (sweep coordMid).reverse
  let upper := (sweep (reverse_array coordMid)).reverse
  lower.take (lower.length - 1) ++ upper.take (upper.length - 1)

/-- Source `calc_convex_hull_coords`: the hull of the `nDim` points held in the two
coordinate arrays. The returned list stands for `hullCoordMidX`, `hullCoordMidY`; its
length is the returned count `ptr`. -/
def calc_convex_hull_coords (nDim : ℕ) (dimsCoordMidX dimsCoordMidY : ℕ → K) :
    List (K × K) :=
  hullOfList ((List.range nDim).map (fun i => (dimsCoordMidX i, dimsCoordMidY i)))

/-- Source `calc_inertia`: moments and product of inertia about the centroid,
as `(Ixx, Iyy, Ixy)`. -/
def calc_inertia (nDim : ℕ) (dimsCoordMidX dimsCoordMidY : ℕ → K)
    (areaPixels centreXPos centreYPos : K) : K × K × K :=
  let s := (List.range nDim).foldl
    (fun (s : K × K × K) i =>
      let x := dimsCoordMidX (nextIdx nDim i)
      let y := dimsCoordMidY (nextIdx nDim i)
      let tmp := dimsCoordMidX i * y - x * dimsCoordMidY i
      (s.1 + (dimsCoordMidY i ^ 2 + dimsCoordMidY i * y + y ^ 2) * tmp,
       s.2.1 + (dimsCoordMidX i ^ 2 + dimsCoordMidX i * x + x ^ 2) * tmp,
       s.2.2 + (dimsCoordMidX i * y + 2 * dimsCoordMidX i * dimsCoordMidY i + 2 * x * y
                + x * dimsCoordMidY i) * tmp))
    (0, 0, 0)
  (s.1 / 12 - areaPixels * centreYPos ^ 2,
   s.2.1 / 12 - areaPixels * centreXPos ^ 2,
   s.2.2 / 24 - areaPixels * centreXPos * centreYPos)

/-- The clamp of `calc_principal`: a half-difference strictly between 0 and 1 becomes 1,
one strictly between -1 and 0 becomes -1. -/
def clampDiff (d : K) : K :=
  let d1 := if d < 1 ∧ d > 0 then 1 else d
  if d1 > -1 ∧ d1 < 0 then -1 else d1

/-- The projection of one vertex on the axis through `(x1, y1)`, `(x2, y2)`, as computed in
the first loop of `calc_projection_length`. -/
def projectPoint (x1 y1 x2 y2 px py : K) : K × K :=
  let a := y2 - y1
  let b := x2 - x1
  if |a| ≤ 0.5 then (px, y1)
  else if |b| ≤ 0.5 then (x1, py)
  else
    let c := -1 * x1 * a / b + y1
    let d := px * b / a + py
    let x := ((d - c) * b * a) / (a ^ 2 + b ^ 2)
    let y := x * a / b + c
    (x, y)

/-- The state of an extreme search of `calc_projection_length`: the running maximum and
minimum as `(key, other coordinate)`; `none` is the initial `-INFINITY` / `INFINITY`
sentinel, below / above every number. -/
abbrev Extremes (K : Type) := Option (K × K) × Option (K × K)

/-- One pass of an extreme search loop of `calc_projection_length`. -/
def extremeStep (key other : ℕ → K) (st : Extremes K) (i : ℕ) : Extremes K :=
  (match st.1 with
    | none => some (key i, other i)
    | some m => if key i > m.1 then some (key i, other i) else some m,
   match st.2 with
    | none => some (key i, other i)
    | some m => if key i < m.1 then some (key i, other i) else some m)

/-- An extreme search loop of `calc_projection_length` over all `nDim` projections. -/
def extremes (nDim : ℕ) (key other : ℕ → K) : Extremes K :=
  (List.range nDim).foldl (extremeStep key other) (none, none)

/-- The two loops of `calc_projection_length`: project every vertex, then search the
extreme projections by x when `fabs (x2 - x1) > fabs (y2 - y1)` and by y otherwise.
Returns `(maxX, maxY, minX, minY)`, or `none` when `nDim = 0` left the sentinels. -/
def projectionExtremes (x1 y1 x2 y2 : K) (nDim : ℕ) (dimsCoordMidX dimsCoordMidY : ℕ → K) :
    Option (K × K × K × K) :=
  let projectionsX := fun i => (projectPoint x1 y1 x2 y2 (dimsCoordMidX i) (dimsCoordMidY i)).1
  let projectionsY := fun i => (projectPoint x1 y1 x2 y2 (dimsCoordMidX i) (dimsCoordMidY i)).2
  if |x2 - x1| > |y2 - y1| then
    match extremes nDim projectionsX projectionsY with
    | (some mx, some mn) => some (mx.1, mx.2, mn.1, mn.2)
    | _ => none
  else
    match extremes nDim projectionsY projectionsX with
    | (some mx, some mn) => some (mx.2, mx.1, mn.2, mn.1)
    | _ => none

end Algebraic

/-! ## Geometry kernel: the part over the reals -/

noncomputable section RealPart

open Real

/-- Source `atan2 (y, x)` of the C library: the argument of `x + y i`, in `(-π, π]`,
and `0` at the origin. -/
def atan2 (y x : ℝ) : ℝ := Complex.arg ⟨x, y⟩

/-- Source `calc_perimeter_pix`: sum of the edge lengths of the ring. -/
def calc_perimeter_pix (nDim : ℕ) (dimsCoordMidX dimsCoordMidY : ℕ → ℝ) : ℝ :=
  (List.range nDim).foldl
    (fun perimeter i =>
      let x1 := dimsCoordMidX i
      let y1 := dimsCoordMidY i
      let x2 := dimsCoordMidX (nextIdx nDim i)
      let y2 := dimsCoordMidY (nextIdx nDim i)
      perimeter + √((x2 - x1) ^ 2 + (y2 - y1) ^ 2)) 0

/-- Source `calc_principal`: principal moments and orientation, as `(I1, I2, theta)`. -/
def calc_principal (Ixx Iyy Ixy : ℝ) : ℝ × ℝ × ℝ :=
  let avg := (Ixx + Iyy) / 2
  let diff := clampDiff ((Ixx - Iyy) / 2)
  (avg + √(diff ^ 2 + Ixy ^ 2), avg - √(diff ^ 2 + Ixy ^ 2), atan2 (-Ixy) diff / 2)

/-- Source `calc_theta`: angle of the major axis in radians. -/
def calc_theta (nDim : ℕ) (dimsCoordMidX dimsCoordMidY : ℕ → ℝ)
    (areaPixels centreXPos centreYPos : ℝ) : ℝ :=
  let result := calc_inertia nDim dimsCoordMidX dimsCoordMidY areaPixels centreXPos centreYPos
  (calc_principal result.1 result.2.1 result.2.2).2.2

/-- Source `calc_projection_length`: distance between the extreme projections of the
vertices on the axis, times the scale. With `nDim = 0` the C result is built from the
infinite sentinels and is not a number; it is given as `0` here. -/
def calc_projection_length (x1 y1 x2 y2 : ℝ) (nDim : ℕ) (dimsCoordMidX dimsCoordMidY : ℕ → ℝ)
    (imgScale : ℝ) : ℝ :=
  match projectionExtremes x1 y1 x2 y2 nDim dimsCoordMidX dimsCoordMidY with
  | some (maxX, maxY, minX, minY) => √((maxX - minX) ^ 2 + (maxY - minY) ^ 2) * imgScale
  | none => 0

/-- Source `struct paramsStruct` of `data_types.h`. -/
structure paramsStruct where
  nDim : ℕ
  imgScale : ℝ
  imgWidth : ℤ
  realWidth : ℝ
  centreXPos : ℝ
  centreYPos : ℝ
  areaPixels : ℝ
  areaUm2 : ℝ
  CEDiameter : ℝ
  perimeter : ℝ
  circularity : ℝ
  HSCircularity : ℝ
  convexity : ℝ
  solidity : ℝ
  SEVolume : ℝ
  major_x1 : ℝ
  major_y1 : ℝ
  major_x2 : ℝ
  major_y2 : ℝ
  minor_x1 : ℝ
  minor_y1 : ℝ
  minor_x2 : ℝ
  minor_y2 : ℝ
  majorAxisDeg : ℝ
  length : ℝ
  width : ℝ
  aspectRatio : ℝ
  elongation : ℝ
  maxDistance : ℝ

/-- Source `get_particle_parameters`: the descriptor record of the polygon given by the
`nDim` radial offsets `dimsValues` at scale `imgScale`. -/
def get_particle_parameters (imgScale : ℝ) (dimsValues : ℕ → ℝ) (nDim : ℕ) : paramsStruct :=
  let imgWidth : ℝ := 360.0
  let centreRadius : ℝ := 5.0
  let realWidth := imgScale * imgWidth
  let dN := 2 * π / (nDim : ℝ)
  let radius := fun i : ℕ => dimsValues i * (180.0 - centreRadius) + centreRadius
  let angle := fun i : ℕ => (i : ℝ) * dN
  let dimsCoordX := fun i : ℕ => cos (angle i) * radius i + 180.0
  let dimsCoordY := fun i : ℕ => sin (angle i) * radius i + 180.0
  let dimsCoordMidX := fun i : ℕ => dimsCoordX i - 180.0
  let dimsCoordMidY := fun i : ℕ => dimsCoordY i - 180.0
  let areaPixels := calc_area_pix nDim dimsCoordMidX dimsCoordMidY
  let ab := (List.range nDim).foldl
    (fun (ab : ℝ × ℝ) i =>
      let x1 := dimsCoordMidX (nextIdx nDim i)
      let y1 := dimsCoordMidY (nextIdx nDim i)
      (ab.1 + (dimsCoordMidX i + x1) * (dimsCoordMidX i * y1 - x1 * dimsCoordMidY i),
       ab.2 + (dimsCoordMidY i + y1) * (dimsCoordMidX i * y1 - x1 * dimsCoordMidY i)))
    (0, 0)
  let centreXPos := ab.1 / (6.0 * areaPixels)
  let centreYPos := ab.2 / (6.0 * areaPixels)
  let areaUm2 := imgScale ^ 2 * areaPixels
  let CEDiameter := √(areaUm2 * 4 / π)
  let perimeter := calc_perimeter_pix nDim dimsCoordMidX dimsCoordMidY * imgScale
  let circularity := 2 * √(π * areaUm2) / perimeter
  let HSCircularity := (4 * π * areaUm2) / perimeter ^ 2
  let hull := calc_convex_hull_coords nDim dimsCoordMidX dimsCoordMidY
  let hullPointsNum := hull.length
  let hullCoordMidX := fun i : ℕ => (hull.getD i (0, 0)).1
  let hullCoordMidY := fun i : ℕ => (hull.getD i (0, 0)).2
  let areaConvexHullPix := calc_area_pix hullPointsNum hullCoordMidX hullCoordMidY
  let convexHullPerimeter := calc_perimeter_pix hullPointsNum hullCoordMidX hullCoordMidY * imgScale
  let convexity := convexHullPerimeter / perimeter
  let solidity := areaPixels / areaConvexHullPix
  let SEVolume := (π * CEDiameter ^ 3) / 6
  let theta := calc_theta nDim dimsCoordMidX dimsCoordMidY areaPixels centreXPos centreYPos
  let orientation := π / 2 - theta
  let major_x1 := centreXPos + cos orientation * CEDiameter / (2 * imgScale)
  let major_y1 := centreYPos - sin orientation * CEDiameter / (2 * imgScale)
  let major_x2 := centreXPos - cos orientation * CEDiameter / (2 * imgScale)
  let major_y2 := centreYPos + sin orientation * CEDiameter / (2 * imgScale)
  let minor_x1 := centreXPos - sin orientation * CEDiameter / (2 * imgScale)
  let minor_y1 := centreYPos - cos orientation * CEDiameter / (2 * imgScale)
  let minor_x2 := centreXPos + sin orientation * CEDiameter / (2 * imgScale)
  let minor_y2 := centreYPos + cos orientation * CEDiameter / (2 * imgScale)
  let majorAxisDeg := 180.0 - orientation * 180.0 / π
  let length := calc_projection_length major_x1 major_y1 major_x2 major_y2 nDim
    dimsCoordMidX dimsCoordMidY imgScale
  let width := calc_projection_length minor_x1 minor_y1 minor_x2 minor_y2 nDim
    dimsCoordMidX dimsCoordMidY imgScale
  let aspectRatio := width / length
  let swap : Prop := aspectRatio > 1
  let maxDistance := (List.range nDim).foldl
    (fun (maxDistance : ℝ) i =>
      (List.range nDim).foldl
        (fun (maxDistance : ℝ) j =>
          if i ≠ j then
            let c := √((dimsCoordMidX i - dimsCoordMidX j) ^ 2
                        + (dimsCoordMidY i - dimsCoordMidY j) ^ 2)
            if c > maxDistance then c else maxDistance
          else maxDistance)
        maxDistance)
    0
  { nDim := nDim
    imgScale := imgScale
    imgWidth := 360
    realWidth := realWidth
    centreXPos := centreXPos
    centreYPos := centreYPos
    areaPixels := areaPixels
    areaUm2 := areaUm2
    CEDiameter := CEDiameter
    perimeter := perimeter
    circularity := circularity
    HSCircularity := HSCircularity
    convexity := convexity
    solidity := solidity
    SEVolume := SEVolume
    major_x1 := if swap then minor_x1 else major_x1
    major_y1 := if swap then minor_y1 else major_y1
    major_x2 := if swap then minor_x2 else major_x2
    major_y2 := if swap then minor_y2 else major_y2
    minor_x1 := if swap then major_x1 else minor_x1
    minor_y1 := if swap then major_y1 else minor_y1
    minor_x2 := if swap then major_x2 else minor_x2
    minor_y2 := if swap then major_y2 else minor_y2
    majorAxisDeg :=
      if swap then (if majorAxisDeg > 90.0 then majorAxisDeg - 90.0 else majorAxisDeg + 90.0)
      else majorAxisDeg
    length := if swap then width else length
    width := if swap then length else width
    aspectRatio := if swap then length / width else aspectRatio
    elongation := 1.0 - (if swap then length / width else aspectRatio)
    maxDistance := maxDistance * imgScale }

/-! ## Cost function and swarm optimizer -/

/-- Source `calculate_cost`: Euclidean distance between the target triple and the
descriptors of the polygon `position`. -/
def calculate_cost (imgScale init_circularity init_convexity init_elongation : ℝ) (nVar : ℕ)
    (position : ℕ → ℝ) : ℝ :=
  let allParams := get_particle_parameters imgScale position nVar
  let circularity := allParams.circularity
  let convexity := allParams.convexity
  let elongation := allParams.elongation
  √((init_circularity - circularity) ^ 2 + (init_convexity - convexity) ^ 2
      + (init_elongation - elongation) ^ 2)

/-- The input parameters of `PSOAlg_run_search`. The C `int` flags and periods are
integers, the population size and the dimension are counts. -/
structure PSOConfig where
  init_circularity : ℝ
  init_convexity : ℝ
  init_elongation : ℝ
  nVar : ℕ
  varMin : ℝ
  varMax : ℝ
  useIterLimit : ℤ
  iterLimit : ℤ
  usePrecisionLimit : ℤ
  precisionLimit : ℝ
  showErrorPlot : ℤ
  nPop : ℕ
  w : ℝ
  wDamp : ℝ
  c1 : ℝ
  c2 : ℝ
  a : ℤ
  b : ℤ

/-- The memory of one run of `PSOAlg_run_search`: its working arrays, the caller's output
locations, the inertia weight, the number of `rand ()` calls made so far, and (a history
variable, not in the source) the list of the positions handed to `calculate_cost` with the
cost returned, in order. `⊤` is `INFINITY`. -/
structure PSOState where
  PSOPart_position : ℕ → ℕ → ℝ
  PSOPart_bestPosition : ℕ → ℕ → ℝ
  PSOPart_velocity : ℕ → ℕ → ℝ
  PSOPart_cost : ℕ → ℝ
  PSOPart_bestCost : ℕ → WithTop ℝ
  globalBestCost : WithTop ℝ
  globalBestPosition : ℕ → ℝ
  arrayBestCosts : ℕ → WithTop ℝ
  w : ℝ
  iteration : ℕ
  randCalls : ℕ
  evaluated : List (List ℝ × ℝ)

/-- The ways a run of the model stops without a result. -/
inductive PSOError where
  | divisionByZero
  | outOfFuel
  deriving DecidableEq

/-- Conversion of an `int` to `unsigned int`, as C does when the two are compared or
combined. -/
def toUnsigned (n : ℤ) : ℕ := (n % 2 ^ 32).toNat

/-- Source `rand ()`: the next value of the process-wide stream `rng`. -/
def rand (rng : ℕ → ℕ) (s : PSOState) : ℕ × PSOState :=
  (rng s.randCalls, { s with randCalls := s.randCalls + 1 })

/-- Source `random_double`. -/
def random_double (rng : ℕ → ℕ) (s : PSOState) : ℝ × PSOState :=
  let r := rand rng s
  (((r.1 % 32767 : ℕ) : ℝ) / (32767 : ℝ), r.2)

/-- The assignment `PSOPart_position[i][j] = varMin + (varMax - varMin) * random_double ()`. -/
def redraw (cfg : PSOConfig) (rng : ℕ → ℕ) (i j : ℕ) (s : PSOState) : PSOState :=
  let r := random_double rng s
  let s1 := r.2
  let row := Function.update (s1.PSOPart_position i) j
    (cfg.varMin + (cfg.varMax - cfg.varMin) * r.1)
  { s1 with PSOPart_position := Function.update s1.PSOPart_position i row }

/-- The block of `PSOAlg_run_search` that copies candidate `i` to `position`, evaluates its
cost and updates the personal and the global best (the same text at INIT and in the
search loop). -/
def updateCosts (cfg : PSOConfig) (i : ℕ) (s : PSOState) : PSOState :=
  let position := fun j : ℕ => s.PSOPart_position i j
  let cost := calculate_cost 1.0 cfg.init_circularity cfg.init_convexity cfg.init_elongation
    cfg.nVar position
  let s1 : PSOState :=
    { s with PSOPart_cost := Function.update s.PSOPart_cost i cost,
             evaluated := s.evaluated ++ [((List.range cfg.nVar).map position, cost)] }
  let bestRow := fun j : ℕ => if j < cfg.nVar then position j else s1.PSOPart_bestPosition i j
  let s2 : PSOState :=
    if (cost : WithTop ℝ) < s1.PSOPart_bestCost i then
      { s1 with PSOPart_bestCost := Function.update s1.PSOPart_bestCost i (cost : WithTop ℝ),
                PSOPart_bestPosition := Function.update s1.PSOPart_bestPosition i bestRow }
    else s1
  let globalRow := fun j : ℕ => if j < cfg.nVar then position j else s2.globalBestPosition j
  if (cost : WithTop ℝ) < s2.globalBestCost then
    { s2 with globalBestCost := (cost : WithTop ℝ), globalBestPosition := globalRow }
  else s2

/-- Part 1 of `PSOAlg_run_search` (INIT). The argument `mem` gives what the memory holds on
entry: the contents of the freshly allocated working arrays, which the source does not
initialise, and of the caller's output buffers. -/
def psoInit (cfg : PSOConfig) (rng : ℕ → ℕ) (mem : PSOState) : PSOState :=
  let bestCost0 := fun i : ℕ => if i < cfg.nPop then (⊤ : WithTop ℝ) else mem.PSOPart_bestCost i
  let s0 : PSOState :=
    { mem with iteration := 1, globalBestCost := ⊤, PSOPart_bestCost := bestCost0,
               w := cfg.w, randCalls := 0, evaluated := [] }
  let s1 := (List.range cfg.nPop).foldl
    (fun s i => (List.range cfg.nVar).foldl (fun s j => redraw cfg rng i j s) s) s0
  let s2 := (List.range cfg.nPop).foldl (fun s i => updateCosts cfg i s) s1
  if cfg.showErrorPlot ≠ 0 then
    { s2 with arrayBestCosts := Function.update s2.arrayBestCosts 0 s2.globalBestCost }
  else s2

/-- The body of the loop over the dimensions `j` in the search loop: velocity and position
update of component `j` of candidate `i`, then the two boundary tests. -/
def moveStep (cfg : PSOConfig) (rng : ℕ → ℕ) (i j : ℕ) (s : PSOState) : PSOState :=
  let r1 := random_double rng s
  let r2 := random_double rng r1.2
  let s2 := r2.2
  let v := s2.w * s2.PSOPart_velocity i j
    + r1.1 * cfg.c1 * (s2.PSOPart_bestPosition i j - s2.PSOPart_position i j)
    + r2.1 * cfg.c2 * (s2.globalBestPosition j - s2.PSOPart_position i j)
  let velRow := Function.update (s2.PSOPart_velocity i) j v
  let posRow := Function.update (s2.PSOPart_position i) j (s2.PSOPart_position i j + v)
  let s3 : PSOState :=
    { s2 with PSOPart_velocity := Function.update s2.PSOPart_velocity i velRow,
              PSOPart_position := Function.update s2.PSOPart_position i posRow }
  let s4 := if s3.PSOPart_position i j > 1.0 then redraw cfg rng i j s3 else s3
  if s4.PSOPart_position i j < 0.0 then redraw cfg rng i j s4 else s4

/-- The body of the loop of the reset every `b`-th iteration: redraw component `j` of
candidate `i` and reseed the inertia weight `w = (rand () % 32767) / (double) 32767`. -/
def reseedStep (cfg : PSOConfig) (rng : ℕ → ℕ) (i j : ℕ) (s : PSOState) : PSOState :=
  let s1 := redraw cfg rng i j s
  let r := rand rng s1
  let s2 := r.2
  { s2 with w := ((r.1 % 32767 : ℕ) : ℝ) / (32767 : ℝ) }

/-- The body of the loop over the candidates `i` in the search loop. The remainders
`i % a` and `*iteration % b` (the latter unsigned) have no value when the divisor is zero. -/
def candidatePass (cfg : PSOConfig) (rng : ℕ → ℕ) (s : PSOState) (i : ℕ) :
    Except PSOError PSOState :=
  let s1 := (List.range cfg.nVar).foldl (fun s j => moveStep cfg rng i j s) s
  if cfg.a = 0 then Except.error PSOError.divisionByZero
  else
    let s2 :=
      if Int.tmod (i : ℤ) cfg.a = 0 then
        (List.range cfg.nVar).foldl (fun s j => redraw cfg rng i j s) s1
      else s1
    if toUnsigned cfg.b = 0 then Except.error PSOError.divisionByZero
    else
      let s3 :=
        if s2.iteration % toUnsigned cfg.b = 0 then
          (List.range cfg.nVar).foldl (fun s j => reseedStep cfg rng i j s) s2
        else s2
      Except.ok (updateCosts cfg i s3)

/-- What follows the loop over the candidates in one pass of the search loop: damping of
the inertia weight and recording of the best cost. -/
def afterCandidates (cfg : PSOConfig) (s : PSOState) : PSOState :=
  let s1 : PSOState := { s with w := s.w * cfg.wDamp }
  if cfg.showErrorPlot ≠ 0 ∧ s1.iteration < toUnsigned cfg.iterLimit then
    { s1 with arrayBestCosts :=
        Function.update s1.arrayBestCosts s1.iteration s1.globalBestCost }
  else s1

/-- The termination test at the end of one pass of the search loop: `true` when `doSearch`
is set to 0. -/
def stopSearch (cfg : PSOConfig) (s : PSOState) : Prop :=
  (cfg.useIterLimit ≠ 0 ∧ s.iteration ≥ toUnsigned cfg.iterLimit)
    ∨ (cfg.usePrecisionLimit ≠ 0 ∧ (cfg.precisionLimit : WithTop ℝ) ≥ s.globalBestCost)

instance stopSearch_decidable (cfg : PSOConfig) (s : PSOState) : Decidable (stopSearch cfg s) := by
  unfold stopSearch; exact inferInstance

/-- Part 2 of `PSOAlg_run_search`: the loop `while (doSearch)`, run for at most `fuel`
passes. -/
def searchLoop (cfg : PSOConfig) (rng : ℕ → ℕ) : ℕ → PSOState → Except PSOError PSOState
  | 0, _ => Except.error PSOError.outOfFuel
  | fuel + 1, s =>
    match (List.range cfg.nPop).foldlM (candidatePass cfg rng) s with
    | Except.error e => Except.error e
    | Except.ok s1 =>
      let s2 := afterCandidates cfg s1
      if stopSearch cfg s2 then Except.ok s2
      else searchLoop cfg rng fuel { s2 with iteration := (s2.iteration + 1) % 2 ^ 32 }

/-- Source `PSOAlg_run_search`, run for at most `fuel` passes of the search loop. The
outputs `*iteration`, `*globalBestCost`, `globalBestPosition` and `arrayBestCosts` are the
fields of these names in the final memory. -/
def PSOAlg_run_search (cfg : PSOConfig) (rng : ℕ → ℕ) (mem : PSOState) (fuel : ℕ) :
    Except PSOError PSOState :=
  searchLoop cfg rng fuel (psoInit cfg rng mem)

end RealPart

open Real

/-! ## Names for the intermediate values of `get_particle_parameters` -/

noncomputable section Intermediate

open Real

/-- The array `dimsCoordMidX` of `get_particle_parameters`. -/
def vertX (dimsValues : ℕ → ℝ) (nDim : ℕ) : ℕ → ℝ :=
  fun i => cos ((i : ℝ) * (2 * π / (nDim : ℝ))) * (dimsValues i * (180.0 - 5.0) + 5.0)
    + 180.0 - 180.0

/-- The array `dimsCoordMidY` of `get_particle_parameters`. -/
def vertY (dimsValues : ℕ → ℝ) (nDim : ℕ) : ℕ → ℝ :=
  fun i => sin ((i : ℝ) * (2 * π / (nDim : ℝ))) * (dimsValues i * (180.0 - 5.0) + 5.0)
    + 180.0 - 180.0

/-- The sums `a`, `b` of the centroid loop of `get_particle_parameters`. -/
def centroidSums (nDim : ℕ) (X Y : ℕ → ℝ) : ℝ × ℝ :=
  (List.range nDim).foldl
    (fun (ab : ℝ × ℝ) i =>
      let x1 := X (nextIdx nDim i)
      let y1 := Y (nextIdx nDim i)
      (ab.1 + (X i + x1) * (X i * y1 - x1 * Y i),
       ab.2 + (Y i + y1) * (X i * y1 - x1 * Y i)))
    (0, 0)

/-- The value `centreXPos` of `get_particle_parameters`. -/
def centreX (nDim : ℕ) (X Y : ℕ → ℝ) : ℝ :=
  (centroidSums nDim X Y).1 / (6.0 * calc_area_pix nDim X Y)

/-- The value `centreYPos` of `get_particle_parameters`. -/
def centreY (nDim : ℕ) (X Y : ℕ → ℝ) : ℝ :=
  (centroidSums nDim X Y).2 / (6.0 * calc_area_pix nDim X Y)

/-- The value `CEDiameter` of `get_particle_parameters`. -/
def ceDiameter (imgScale : ℝ) (nDim : ℕ) (X Y : ℕ → ℝ) : ℝ :=
  √(imgScale ^ 2 * calc_area_pix nDim X Y * 4 / π)

/-- The value `perimeter` of `get_particle_parameters`. -/
def perimeterUm (imgScale : ℝ) (nDim : ℕ) (X Y : ℕ → ℝ) : ℝ :=
  calc_perimeter_pix nDim X Y * imgScale

/-- The arrays `hullCoordMidX`, `hullCoordMidY` as `get_particle_parameters` passes them on. -/
def hullX (hull : List (ℝ × ℝ)) : ℕ → ℝ := fun i => (hull.getD i (0, 0)).1

/-- The array `hullCoordMidY` as `get_particle_parameters` passes it on. -/
def hullY (hull : List (ℝ × ℝ)) : ℕ → ℝ := fun i => (hull.getD i (0, 0)).2

/-- The value `orientation` of `get_particle_parameters`. -/
def orientationOf (nDim : ℕ) (X Y : ℕ → ℝ) : ℝ :=
  π / 2 - calc_theta nDim X Y (calc_area_pix nDim X Y) (centreX nDim X Y) (centreY nDim X Y)

/-- The value `length` of `get_particle_parameters` before the axis test. -/
def preLength (imgScale : ℝ) (nDim : ℕ) (X Y : ℕ → ℝ) : ℝ :=
  calc_projection_length
    (centreX nDim X Y + cos (orientationOf nDim X Y) * ceDiameter imgScale nDim X Y / (2 * imgScale))
    (centreY nDim X Y - sin (orientationOf nDim X Y) * ceDiameter imgScale nDim X Y / (2 * imgScale))
    (centreX nDim X Y - cos (orientationOf nDim X Y) * ceDiameter imgScale nDim X Y / (2 * imgScale))
    (centreY nDim X Y + sin (orientationOf nDim X Y) * ceDiameter imgScale nDim X Y / (2 * imgScale))
    nDim X Y imgScale

/-- The value `width` of `get_particle_parameters` before the axis test. -/
def preWidth (imgScale : ℝ) (nDim : ℕ) (X Y : ℕ → ℝ) : ℝ :=
  calc_projection_length
    (centreX nDim X Y - sin (orientationOf nDim X Y) * ceDiameter imgScale nDim X Y / (2 * imgScale))
    (centreY nDim X Y - cos (orientationOf nDim X Y) * ceDiameter imgScale nDim X Y / (2 * imgScale))
    (centreX nDim X Y + sin (orientationOf nDim X Y) * ceDiameter imgScale nDim X Y / (2 * imgScale))
    (centreY nDim X Y + cos (orientationOf nDim X Y) * ceDiameter imgScale nDim X Y / (2 * imgScale))
    nDim X Y imgScale

end Intermediate

/-- The cost `PSOAlg_run_search` assigns to a position: `calculate_cost` at scale 1.0
against the configured target. -/
noncomputable def costOf (cfg : PSOConfig) (p : ℕ → ℝ) : ℝ :=
  calculate_cost 1.0 cfg.init_circularity cfg.init_convexity cfg.init_elongation cfg.nVar p

/-- Two memories with the same history and the same global best. -/
def SameBest (s t : PSOState) : Prop :=
  t.evaluated = s.evaluated ∧ t.globalBestCost = s.globalBestCost
    ∧ t.globalBestPosition = s.globalBestPosition

/-- A configuration with one candidate of dimension 0 that stops after one pass. -/
noncomputable def witnessCfg : PSOConfig :=
  { init_circularity := 0, init_convexity := 0, init_elongation := 0, nVar := 0,
    varMin := 0, varMax := 1, useIterLimit := 1, iterLimit := 1, usePrecisionLimit := 0,
    precisionLimit := 0, showErrorPlot := 0, nPop := 1, w := 1, wDamp := 1, c1 := 2, c2 := 2,
    a := 1, b := 1 }

/-- A memory holding zeros everywhere. -/
noncomputable def witnessMem : PSOState :=
  { PSOPart_position := fun _ _ => 0, PSOPart_bestPosition := fun _ _ => 0,
    PSOPart_velocity := fun _ _ => 0, PSOPart_cost := fun _ => 0,
    PSOPart_bestCost := fun _ => 0, globalBestCost := 0, globalBestPosition := fun _ => 0,
    arrayBestCosts := fun _ => 0, w := 0, iteration := 0, randCalls := 0, evaluated := [] }

/-- The offset vector `(1, 0, 0, 0, 1, 0, 0, 0)`. -/
def flatOffsets : ℕ → ℝ := fun i => if i = 0 ∨ i = 4 then 1 else 0

/-- The offset vector with every entry 0.5. -/
def halfOffsets : ℕ → ℝ := fun _ => 0.5

section SweepDefs

variable {K : Type} [LinearOrderedField K]

/-- The turn of three points: `cross` of the source on pairs. -/
def turn (a b c : K × K) : K := cross a.1 a.2 b.1 b.2 c.1 c.2

/-- A vector that points to the right, or straight up: the difference of two points in
increasing order of x, ties by y. -/
def RightUp (d : K × K) : Prop := 0 < d.1 ∨ (d.1 = 0 ∧ 0 < d.2)

/-- The order of the points in a sweep: increasing in x, ties by y, for `σ = 1` (lower
sweep); decreasing for `σ = -1` (upper sweep over the reversed array). -/
def Ahead (σ : K) (a b : K × K) : Prop := RightUp (σ * (b.1 - a.1), σ * (b.2 - a.2))

/-- A stack (top first) whose consecutive triples turn strictly left. -/
def LeftTurning : List (K × K) → Prop
  | c :: b :: a :: rest => 0 < turn a b c ∧ LeftTurning (b :: a :: rest)
  | _ => True

/-- Every point of `pts` is on the left of, or on, every edge of the stack (top first). -/
def AllLeft (pts : List (K × K)) : List (K × K) → Prop
  | b :: a :: rest => (∀ q ∈ pts, 0 ≤ turn a b q) ∧ AllLeft pts (a :: rest)
  | _ => True

end SweepDefs

/-- The state of a sweep: the points seen so far and the stack (top first). -/
def SweepInv {K : Type} [LinearOrderedField K] (σ : K) (seen st : List (K × K)) : Prop :=
  (st = [] → seen = [])
  ∧ (∀ x ∈ st, x ∈ seen)
  ∧ List.Pairwise (fun x y => Ahead σ y x) st
  ∧ (∀ t, st.head? = some t → ∀ q ∈ seen, q = t ∨ Ahead σ q t)
  ∧ (∀ t, st.getLast? = some t → ∀ q ∈ seen, q = t ∨ Ahead σ t q)
  ∧ LeftTurning st
  ∧ AllLeft seen st

instance lexLE_total {K : Type} [LinearOrderedField K] : IsTotal (K × K) lexLE :=
  ⟨fun a b => by
    unfold lexLE
    rcases lt_trichotomy a.1 b.1 with h | h | h
    · exact Or.inl (Or.inl h)
    · rcases le_total a.2 b.2 with h2 | h2
      · exact Or.inl (Or.inr ⟨h, h2⟩)
      · exact Or.inr (Or.inr ⟨h.symm, h2⟩)
    · exact Or.inr (Or.inl h)⟩

instance lexLE_trans {K : Type} [LinearOrderedField K] : IsTrans (K × K) lexLE :=
  ⟨fun a b c h1 h2 => by
    unfold lexLE at *
    rcases h1 with h1 | ⟨h1, h1'⟩ <;> rcases h2 with h2 | ⟨h2, h2'⟩
    · exact Or.inl (lt_trans h1 h2)
    · exact Or.inl (by rw [← h2]; exact h1)
    · exact Or.inl (by rw [h1]; exact h2)
    · exact Or.inr ⟨h1.trans h2, le_trans h1' h2'⟩⟩

/-- An edge of the hull of `pts`: two distinct points of `pts` with every point of `pts` on
the left of, or on, the line from the first to the second. -/
def HullEdge {K : Type} [LinearOrderedField K] (pts : List (K × K)) (a b : K × K) : Prop :=
  a ≠ b ∧ a ∈ pts ∧ b ∈ pts ∧ ∀ q ∈ pts, 0 ≤ turn a b q

/-- Vertex `i` of the polygon as a point. -/
noncomputable def polyPt (o : ℕ → ℝ) (n i : ℕ) : ℝ × ℝ := (vertX o n i, vertY o n i)

/-- The ring of the polygon unrolled from vertex `κ`: vertex `(κ + s) mod n`. -/
noncomputable def ringPt (o : ℕ → ℝ) (n κ s : ℕ) : ℝ × ℝ := polyPt o n ((κ + s) % n)

/-- The radius of the vertex at position `s` of the unrolled ring. -/
noncomputable def ringRad (o : ℕ → ℝ) (n κ s : ℕ) : ℝ := 175 * o ((κ + s) % n) + 5

/-- The points handed to the hull construction by `get_particle_parameters`. -/
noncomputable def polyList (o : ℕ → ℝ) (n : ℕ) : List (ℝ × ℝ) := (List.range n).map (polyPt o n)

/-- The cross product of two points as vectors from the origin. -/
def crossO (a b : ℝ × ℝ) : ℝ := a.1 * b.2 - b.1 * a.2

/-- The length of the segment between two points, as `calc_perimeter_pix` computes it. -/
noncomputable def segLen (a b : ℝ × ℝ) : ℝ := √((b.1 - a.1) ^ 2 + (b.2 - a.2) ^ 2)

/-- The sum of `f` over the consecutive pairs of a list of points. -/
def pathSum (f : ℝ × ℝ → ℝ × ℝ → ℝ) : List (ℝ × ℝ) → ℝ
  | a :: b :: rest => f a b + pathSum f (b :: rest)
  | _ => 0

/-- Two memories that differ at most in the positions, the velocities, the inertia weight
and the count of `rand ()` calls. -/
def SameFrame (s t : PSOState) : Prop :=
  t.PSOPart_bestPosition = s.PSOPart_bestPosition ∧ t.PSOPart_cost = s.PSOPart_cost
    ∧ t.PSOPart_bestCost = s.PSOPart_bestCost ∧ t.globalBestCost = s.globalBestCost
    ∧ t.globalBestPosition = s.globalBestPosition ∧ t.arrayBestCosts = s.arrayBestCosts
    ∧ t.iteration = s.iteration ∧ t.evaluated = s.evaluated

/-- The configuration `witnessCfg` with the iteration limit set to 0. -/
noncomputable def zeroLimitCfg : PSOConfig := { witnessCfg with iterLimit := 0 }

/-- The configuration `witnessCfg` with the period `a` set to 0. -/
noncomputable def zeroPeriodCfg : PSOConfig := { witnessCfg with a := 0 }

/-- The configuration `witnessCfg` with both limits disabled. -/
noncomputable def noLimitCfg : PSOConfig := { witnessCfg with useIterLimit := 0 }

/-- The memory of `PSOAlg_run_search` in INIT after the positions were randomized and
before the first cost is evaluated. -/
noncomputable def psoInitDrawn (cfg : PSOConfig) (rng : ℕ → ℕ) (mem : PSOState) : PSOState :=
  (List.range cfg.nPop).foldl
    (fun s i => (List.range cfg.nVar).foldl (fun s j => redraw cfg rng i j s) s)
    { mem with iteration := 1, globalBestCost := ⊤,
               PSOPart_bestCost :=
                 fun i => if i < cfg.nPop then (⊤ : WithTop ℝ) else mem.PSOPart_bestCost i,
               w := cfg.w, randCalls := 0, evaluated := [] }

/-- The recording of the best cost at the end of INIT. -/
def initRecord (cfg : PSOConfig) (s : PSOState) : PSOState :=
  if cfg.showErrorPlot ≠ 0 then
    { s with arrayBestCosts := Function.update s.arrayBestCosts 0 s.globalBestCost }
  else s

/-- The program points of a run of `PSOAlg_run_search` from the memory `mem`, each with the
list of the costs assigned so far to every candidate: INIT after the randomization, after
the evaluation of a candidate in INIT, the end of INIT, after the evaluation of a candidate
in a pass of the search loop, the end of a pass, and the start of the next pass. -/
inductive SwarmPoint (cfg : PSOConfig) (rng : ℕ → ℕ) (mem : PSOState) :
    PSOState → (ℕ → List ℝ) → Prop
  | drawn : SwarmPoint cfg rng mem (psoInitDrawn cfg rng mem) (fun _ => [])
  | initEvaluated (s : PSOState) (hist : ℕ → List ℝ) (i : ℕ) :
      SwarmPoint cfg rng mem s hist → i < cfg.nPop →
      SwarmPoint cfg rng mem (updateCosts cfg i s)
        (Function.update hist i (hist i ++ [(updateCosts cfg i s).PSOPart_cost i]))
  | initDone (s : PSOState) (hist : ℕ → List ℝ) :
      SwarmPoint cfg rng mem s hist → SwarmPoint cfg rng mem (initRecord cfg s) hist
  | candidate (s : PSOState) (hist : ℕ → List ℝ) (i : ℕ) (t : PSOState) :
      SwarmPoint cfg rng mem s hist → i < cfg.nPop →
      candidatePass cfg rng s i = Except.ok t →
      SwarmPoint cfg rng mem t (Function.update hist i (hist i ++ [t.PSOPart_cost i]))
  | passDone (s : PSOState) (hist : ℕ → List ℝ) :
      SwarmPoint cfg rng mem s hist → SwarmPoint cfg rng mem (afterCandidates cfg s) hist
  | counted (s : PSOState) (hist : ℕ → List ℝ) :
      SwarmPoint cfg rng mem s hist →
      SwarmPoint cfg rng mem { s with iteration := (s.iteration + 1) % 2 ^ 32 } hist

/-- The swarm-state relation between the best costs and the costs assigned so far. -/
def SwarmInv (cfg : PSOConfig) (s : PSOState) (hist : ℕ → List ℝ) : Prop :=
  ∀ i < cfg.nPop, s.globalBestCost ≤ s.PSOPart_bestCost i
    ∧ (∀ c ∈ hist i, s.PSOPart_bestCost i ≤ (c : WithTop ℝ))
    ∧ (hist i = [] → s.PSOPart_bestCost i = ⊤)

/-- The memory in `moveStep` after the velocity and the position of component `j` of
candidate `i` were updated and before the boundary tests. -/
noncomputable def moved (cfg : PSOConfig) (rng : ℕ → ℕ) (i j : ℕ) (s : PSOState) : PSOState :=
  let r1 := random_double rng s
  let r2 := random_double rng r1.2
  let s2 := r2.2
  let v := s2.w * s2.PSOPart_velocity i j
    + r1.1 * cfg.c1 * (s2.PSOPart_bestPosition i j - s2.PSOPart_position i j)
    + r2.1 * cfg.c2 * (s2.globalBestPosition j - s2.PSOPart_position i j)
  let velRow := Function.update (s2.PSOPart_velocity i) j v
  let posRow := Function.update (s2.PSOPart_position i) j (s2.PSOPart_position i j + v)
  { s2 with PSOPart_velocity := Function.update s2.PSOPart_velocity i velRow,
            PSOPart_position := Function.update s2.PSOPart_position i posRow }

/-- The configuration `witnessCfg` with trajectory recording enabled. -/
noncomputable def plotCfg : PSOConfig := { witnessCfg with showErrorPlot := 1 }

/-- The configuration `witnessCfg` with three dimensions. -/
noncomputable def triangleCfg : PSOConfig := { witnessCfg with nVar := 3 }

/-- The memory `witnessMem` with the value 1 in every entry of `PSOPart_velocity`. -/
noncomputable def garbageMem : PSOState := { witnessMem with PSOPart_velocity := fun _ _ => 1 }

/-- The state of a sweep over an array that may hold a point more than once: `known` lists
the distinct points seen so far in sweep order; either only one point was seen and the
stack holds it once or twice, or the stack holds at least two points and `SweepInv` holds. -/
def WeakInv {K : Type} [LinearOrderedField K] (σ : K) (seen st : List (K × K)) : Prop :=
  ∃ known : List (K × K), (∀ x, x ∈ known ↔ x ∈ seen) ∧ List.Pairwise (Ahead σ) known
    ∧ ((∃ a, known = [a] ∧ (st = [a] ∨ st = [a, a]))
        ∨ (2 ≤ st.length ∧ SweepInv σ known st))

/-- The two stacks of `calc_convex_hull_coords` on an array with at least two different
points: `SweepInv` holds for the lower stack `L` (increasing sweep) and the upper stack `U`
(decreasing sweep), over lists `known1`, `known2` of the distinct points of the array. -/
def HullStacks {K : Type} [LinearOrderedField K] (pts L U : List (K × K)) : Prop :=
  ∃ known1 known2 : List (K × K), (∀ x, x ∈ known1 ↔ x ∈ pts) ∧ (∀ x, x ∈ known2 ↔ x ∈ pts)
    ∧ 2 ≤ L.length ∧ 2 ≤ U.length ∧ SweepInv 1 known1 L ∧ SweepInv (-1) known2 U

/-- Every three consecutive entries of a list are related by `T`. -/
def Triples {α : Type} (T : α → α → α → Prop) : List α → Prop
  | a :: b :: c :: rest => T a b c ∧ Triples T (b :: c :: rest)
  | _ => True

/-- Vertex `i` of a hull output (`hullCoordMidX[i]`, `hullCoordMidY[i]`). -/
def hullVertex {K : Type} [LinearOrderedField K] (H : List (K × K)) (i : ℕ) : K × K :=
  H.getD i (0, 0)

/-- Abscissae of the three corners `(0, 0)`, `(1, 0)`, `(0, 1)` of a right triangle. -/
def cornerX : ℕ → ℚ := fun i => if i = 1 then 1 else 0

/-- Ordinates of the three corners `(0, 0)`, `(1, 0)`, `(0, 1)` of a right triangle. -/
def cornerY : ℕ → ℚ := fun i => if i = 2 then 1 else 0

/-- The value `(n % 32767) / (double) 32767` computed from the value `n` that the `k`-th
call of `rand ()` returns. -/
noncomputable def drawAt (rng : ℕ → ℕ) (k : ℕ) : ℝ := ((rng k % 32767 : ℕ) : ℝ) / 32767

/-- The offset vector `(1, 0, 0, 1)`. -/
def kiteOffsets : ℕ → ℝ := fun i => if i = 0 ∨ i = 3 then 1 else 0

/-- The value `majorAxisDeg` of `get_particle_parameters` before the axis test. -/
noncomputable def preMajorAxisDeg (nDim : ℕ) (X Y : ℕ → ℝ) : ℝ :=
  180.0 - orientationOf nDim X Y * 180.0 / Real.pi

/-- Source `calc_boundaries` of `distribution_treatment.c`: the first and the last channel
with a positive entry, `(leftBndChannel, rightBndChannel)`. The second component of the
loop state says that the `break` was taken. -/
def calc_boundaries {K : Type} [LinearOrderedField K] (normDiff : ℕ → K) : ℕ × ℕ :=
  let leftBndChannel := ((List.range 100).foldl
    (fun (st : ℕ × Bool) i =>
      if st.2 then st else if normDiff i > 0 then (i, true) else st)
    (0, false)).1
  let rightBndChannel := ((List.range 100).foldl
    (fun (st : ℕ × Bool) i =>
      if st.2 then st else if normDiff (99 - i) > 0 then (99 - i, true) else st)
    (99, false)).1
  (leftBndChannel, rightBndChannel)

/-- Source `random_double` of `distribution_treatment.c`, on the value `n` returned by
`rand ()`. -/
def DistributionTreatment.random_double {K : Type} [LinearOrderedField K] (n : ℕ) : K :=
  ((n % 32767 : ℕ) : K) / 32767

/-- The channel search of `get_value_from_distribution`: `prob` is 1 unless a channel
holds `xTry`, and then the entry of `normDiff` of the first such channel. The second
component of the loop state says that the `break` was taken. -/
def channelProb {K : Type} [LinearOrderedField K] (normDiff chLower chUpper : ℕ → K)
    (xTry : K) : K :=
  ((List.range 100).foldl
    (fun (st : K × Bool) i =>
      if st.2 then st
      else if xTry ≥ chLower i ∧ xTry ≤ chUpper i then (normDiff i, true) else st)
    (1, false)).1

/-- Source `get_value_from_distribution` of `distribution_treatment.c`, run for at most
`fuel` passes of the loop `while (doSearch)`; `calls` is the number of calls of `rand ()`
made before on the stream `rng`. The result is `none` when the fuel runs out. -/
noncomputable def get_value_from_distribution (rng : ℕ → ℕ) (normDiff chLower chUpper : ℕ → ℝ)
    (logScale : ℤ) (leftBndChannel rightBndChannel : ℕ) : ℕ → ℕ → Option ℝ
  | 0, _ => none
  | fuel + 1, calls =>
    let leftBndValue :=
      if logScale ≠ 0 then Real.logb 10 (chLower leftBndChannel) else chLower leftBndChannel
    let rightBndValue :=
      if logScale ≠ 0 then Real.logb 10 (chUpper rightBndChannel) else chUpper rightBndChannel
    let xTry0 := leftBndValue
      + (rightBndValue - leftBndValue) * DistributionTreatment.random_double (rng calls)
    let xTry := if logScale ≠ 0 then (10 : ℝ) ^ xTry0 else xTry0
    let prob := channelProb normDiff chLower chUpper xTry
    let rndNumber : ℝ := DistributionTreatment.random_double (rng (calls + 1))
    if rndNumber < prob then some xTry
    else get_value_from_distribution rng normDiff chLower chUpper logScale leftBndChannel
      rightBndChannel fuel (calls + 2)

/-- A configuration whose target is the descriptor triple of the offsets
`(1, 0, 0, 0, 1, 0, 0, 0)`: one candidate of dimension 8, `c1 = c2 = 0`, `a = b = 1`, no
iteration limit, precision limit 0, recording enabled. -/
noncomputable def wrapCfg : PSOConfig :=
  { init_circularity := (get_particle_parameters 1 flatOffsets 8).circularity,
    init_convexity := (get_particle_parameters 1 flatOffsets 8).convexity,
    init_elongation := (get_particle_parameters 1 flatOffsets 8).elongation,
    nVar := 8, varMin := 0, varMax := 32767 / 32766, useIterLimit := 0, iterLimit := 2,
    usePrecisionLimit := 1, precisionLimit := 0, showErrorPlot := 1, nPop := 1, w := 1,
    wDamp := 1, c1 := 0, c2 := 0, a := 1, b := 1 }

/-- A stream of `rand ()` values: 16383 for the draws of INIT and of `2 ^ 32 - 1` passes
of `wrapCfg` (40 draws each), then 32766 at the two draws that set the components 0 and 4
in the next pass, and 0 elsewhere. -/
def wrapStream : ℕ → ℕ := fun n =>
  if n < 8 + 40 * (2 ^ 32 - 1) then 16383
  else if n = 8 + 40 * (2 ^ 32 - 1) + 24 ∨ n = 8 + 40 * (2 ^ 32 - 1) + 32 then 32766
  else 0

/-- The memory of the run of `wrapCfg` on `wrapStream` at the start of the pass after `k`
passes, for `k ≤ 2 ^ 32 - 1`. -/
def HalfState (s : PSOState) (k : ℕ) : Prop :=
  s.iteration = (k + 1) % 2 ^ 32 ∧ s.randCalls = 8 + 40 * k
    ∧ (∀ j < 8, s.PSOPart_position 0 j = 1 / 2)
    ∧ (∀ j < 8, s.PSOPart_velocity 0 j = 0)
    ∧ s.globalBestCost = ((costOf wrapCfg halfOffsets : ℝ) : WithTop ℝ)
    ∧ (1 ≤ k → s.arrayBestCosts 1 = ((costOf wrapCfg halfOffsets : ℝ) : WithTop ℝ))

/-! # Theorems -/

/-! ## The descriptor record in terms of the intermediate values -/

section Fields

open Real

variable (s : ℝ) (o : ℕ → ℝ) (n : ℕ)

theorem gpp_areaPixels :
    (get_particle_parameters s o n).areaPixels = calc_area_pix n (vertX o n) (vertY o n) := rfl

theorem gpp_CEDiameter :
    (get_particle_parameters s o n).CEDiameter = ceDiameter s n (vertX o n) (vertY o n) := rfl

theorem gpp_circularity :
    (get_particle_parameters s o n).circularity
      = 2 * √(π * (s ^ 2 * calc_area_pix n (vertX o n) (vertY o n)))
          / perimeterUm s n (vertX o n) (vertY o n) := rfl

theorem gpp_HSCircularity :
    (get_particle_parameters s o n).HSCircularity
      = (4 * π * (s ^ 2 * calc_area_pix n (vertX o n) (vertY o n)))
          / perimeterUm s n (vertX o n) (vertY o n) ^ 2 := rfl

theorem gpp_convexity :
    (get_particle_parameters s o n).convexity
      = perimeterUm s (calc_convex_hull_coords n (vertX o n) (vertY o n)).length
          (hullX (calc_convex_hull_coords n (vertX o n) (vertY o n)))
          (hullY (calc_convex_hull_coords n (vertX o n) (vertY o n)))
          / perimeterUm s n (vertX o n) (vertY o n) := rfl

theorem gpp_solidity :
    (get_particle_parameters s o n).solidity
      = calc_area_pix n (vertX o n) (vertY o n)
          / calc_area_pix (calc_convex_hull_coords n (vertX o n) (vertY o n)).length
              (hullX (calc_convex_hull_coords n (vertX o n) (vertY o n)))
              (hullY (calc_convex_hull_coords n (vertX o n) (vertY o n))) := rfl

theorem gpp_length :
    (get_particle_parameters s o n).length
      = if preWidth s n (vertX o n) (vertY o n) / preLength s n (vertX o n) (vertY o n) > 1
        then preWidth s n (vertX o n) (vertY o n) else preLength s n (vertX o n) (vertY o n) :=
  rfl

theorem gpp_width :
    (get_particle_parameters s o n).width
      = if preWidth s n (vertX o n) (vertY o n) / preLength s n (vertX o n) (vertY o n) > 1
        then preLength s n (vertX o n) (vertY o n) else preWidth s n (vertX o n) (vertY o n) :=
  rfl

theorem gpp_aspectRatio :
    (get_particle_parameters s o n).aspectRatio
      = if preWidth s n (vertX o n) (vertY o n) / preLength s n (vertX o n) (vertY o n) > 1
        then preLength s n (vertX o n) (vertY o n) / preWidth s n (vertX o n) (vertY o n)
        else preWidth s n (vertX o n) (vertY o n) / preLength s n (vertX o n) (vertY o n) :=
  rfl

theorem gpp_elongation :
    (get_particle_parameters s o n).elongation
      = 1.0 - (if preWidth s n (vertX o n) (vertY o n) / preLength s n (vertX o n) (vertY o n) > 1
        then preLength s n (vertX o n) (vertY o n) / preWidth s n (vertX o n) (vertY o n)
        else preWidth s n (vertX o n) (vertY o n) / preLength s n (vertX o n) (vertY o n)) :=
  rfl

end Fields

/-! ## Loops as sums, and the vertices in polar form -/

section Polar

open Real

theorem foldl_add_eq_sum {K : Type} [AddCommMonoid K] (f : ℕ → K) (n : ℕ) (a : K) :
    (List.range n).foldl (fun acc i => acc + f i) a = a + ∑ i in Finset.range n, f i := by
  induction n with
  | zero => simp
  | succ k ih => rw [List.range_succ, List.foldl_append, ih, Finset.sum_range_succ]; simp [add_assoc]

theorem calc_area_pix_eq_sum {K : Type} [LinearOrderedField K] (n : ℕ) (X Y : ℕ → K) :
    calc_area_pix n X Y
      = (∑ i in Finset.range n, (X i * Y (nextIdx n i) - X (nextIdx n i) * Y i)) / 2 := by
  unfold calc_area_pix
  simp only []
  rw [foldl_add_eq_sum (fun i => X i * Y (nextIdx n i) - X (nextIdx n i) * Y i) n 0, zero_add]

theorem calc_perimeter_pix_eq_sum (n : ℕ) (X Y : ℕ → ℝ) :
    calc_perimeter_pix n X Y
      = ∑ i in Finset.range n,
          √((X (nextIdx n i) - X i) ^ 2 + (Y (nextIdx n i) - Y i) ^ 2) := by
  unfold calc_perimeter_pix
  simp only []
  rw [foldl_add_eq_sum
    (fun i => √((X (nextIdx n i) - X i) ^ 2 + (Y (nextIdx n i) - Y i) ^ 2)) n 0, zero_add]

theorem nextIdx_lt {n i : ℕ} (h : i < n) : nextIdx n i < n := by
  unfold nextIdx; split_ifs <;> omega

/-- Vertex `i` in polar form: radius `175 * dimsValues[i] + 5` at angle `i * (2π / nDim)`. -/
theorem vertX_eq (o : ℕ → ℝ) (n i : ℕ) :
    vertX o n i = cos ((i : ℝ) * (2 * π / (n : ℝ))) * (175 * o i + 5) := by
  unfold vertX; norm_num; left; ring

theorem vertY_eq (o : ℕ → ℝ) (n i : ℕ) :
    vertY o n i = sin ((i : ℝ) * (2 * π / (n : ℝ))) * (175 * o i + 5) := by
  unfold vertY; norm_num; left; ring

theorem radius_bounds {o : ℕ → ℝ} {i : ℕ} (h0 : 0 ≤ o i) (h1 : o i ≤ 1) :
    5 ≤ 175 * o i + 5 ∧ 175 * o i + 5 ≤ 180 := by
  constructor <;> linarith

/-- The angle from a vertex to its ring successor has the sine and cosine of `2π / n`. -/
theorem angle_step (n i : ℕ) (hi : i < n) :
    sin ((nextIdx n i : ℝ) * (2 * π / n) - (i : ℝ) * (2 * π / n)) = sin (2 * π / n)
      ∧ cos ((nextIdx n i : ℝ) * (2 * π / n) - (i : ℝ) * (2 * π / n)) = cos (2 * π / n) := by
  have hn : (n : ℝ) ≠ 0 := by
    have : 0 < n := by omega
    exact_mod_cast this.ne'
  unfold nextIdx
  split_ifs with h
  · have hin : (i : ℝ) = n - 1 := by
      have : i + 1 = n := by omega
      rw [← this]; push_cast; ring
    have e : ((0 : ℕ) : ℝ) * (2 * π / n) - (i : ℝ) * (2 * π / n) = 2 * π / n - 2 * π := by
      rw [hin]; field_simp; ring
    rw [e, Real.sin_sub_two_pi, Real.cos_sub_two_pi]
    exact ⟨rfl, rfl⟩
  · have e : ((i + 1 : ℕ) : ℝ) * (2 * π / n) - (i : ℝ) * (2 * π / n) = 2 * π / n := by
      push_cast; ring
    rw [e]
    exact ⟨rfl, rfl⟩

theorem shoelace_term (o : ℕ → ℝ) (n i : ℕ) (hi : i < n) :
    vertX o n i * vertY o n (nextIdx n i) - vertX o n (nextIdx n i) * vertY o n i
      = sin (2 * π / n) * ((175 * o i + 5) * (175 * o (nextIdx n i) + 5)) := by
  rw [vertX_eq, vertY_eq, vertX_eq, vertY_eq, ← (angle_step n i hi).1, Real.sin_sub]
  ring

/-- The signed area of the polygon is `sin (2π / n) / 2` times the sum of the products of
consecutive radii. -/
theorem area_polar (o : ℕ → ℝ) (n : ℕ) :
    calc_area_pix n (vertX o n) (vertY o n)
      = sin (2 * π / n) / 2
          * ∑ i in Finset.range n, (175 * o i + 5) * (175 * o (nextIdx n i) + 5) := by
  rw [calc_area_pix_eq_sum, Finset.sum_congr rfl
    (fun i hi => shoelace_term o n i (Finset.mem_range.mp hi)), ← Finset.mul_sum]
  ring

theorem sin_step_pos (n : ℕ) (hn : 3 ≤ n) : 0 < sin (2 * π / n) := by
  have hn3 : (3 : ℝ) ≤ n := by exact_mod_cast hn
  have hpi := Real.pi_pos
  apply Real.sin_pos_of_pos_of_lt_pi
  · positivity
  · rw [div_lt_iff₀ (by linarith)]; nlinarith

end Polar

/-! ## The kernel reads only the first `nDim` entries of its arrays -/

section Congruence

open Real

variable {n : ℕ} {X Y X' Y' : ℕ → ℝ}

theorem foldl_range_congr {α : Type} (f g : α → ℕ → α) (a : α) (n : ℕ)
    (h : ∀ acc, ∀ i < n, f acc i = g acc i) :
    (List.range n).foldl f a = (List.range n).foldl g a :=
  List.foldl_ext f g a (fun acc i hi => h acc i (List.mem_range.mp hi))

theorem calc_area_pix_congr (hX : ∀ i < n, X i = X' i) (hY : ∀ i < n, Y i = Y' i) :
    calc_area_pix n X Y = calc_area_pix n X' Y' := by
  unfold calc_area_pix
  congr 1
  apply foldl_range_congr
  intro acc i hi
  simp only [hX i hi, hY i hi, hX _ (nextIdx_lt hi), hY _ (nextIdx_lt hi)]

theorem calc_perimeter_pix_congr (hX : ∀ i < n, X i = X' i) (hY : ∀ i < n, Y i = Y' i) :
    calc_perimeter_pix n X Y = calc_perimeter_pix n X' Y' := by
  unfold calc_perimeter_pix
  apply foldl_range_congr
  intro acc i hi
  simp only [hX i hi, hY i hi, hX _ (nextIdx_lt hi), hY _ (nextIdx_lt hi)]

theorem calc_convex_hull_coords_congr (hX : ∀ i < n, X i = X' i) (hY : ∀ i < n, Y i = Y' i) :
    calc_convex_hull_coords n X Y = calc_convex_hull_coords n X' Y' := by
  unfold calc_convex_hull_coords
  congr 1
  apply List.map_congr_left
  intro i hi
  rw [hX i (List.mem_range.mp hi), hY i (List.mem_range.mp hi)]

theorem centroidSums_congr (hX : ∀ i < n, X i = X' i) (hY : ∀ i < n, Y i = Y' i) :
    centroidSums n X Y = centroidSums n X' Y' := by
  unfold centroidSums
  apply foldl_range_congr
  intro acc i hi
  simp only [hX i hi, hY i hi, hX _ (nextIdx_lt hi), hY _ (nextIdx_lt hi)]

theorem calc_inertia_congr (hX : ∀ i < n, X i = X' i) (hY : ∀ i < n, Y i = Y' i)
    (A cx cy : ℝ) : calc_inertia n X Y A cx cy = calc_inertia n X' Y' A cx cy := by
  have e := foldl_range_congr
    (fun (s : ℝ × ℝ × ℝ) i =>
      (s.1 + (Y i ^ 2 + Y i * Y (nextIdx n i) + Y (nextIdx n i) ^ 2)
              * (X i * Y (nextIdx n i) - X (nextIdx n i) * Y i),
       s.2.1 + (X i ^ 2 + X i * X (nextIdx n i) + X (nextIdx n i) ^ 2)
              * (X i * Y (nextIdx n i) - X (nextIdx n i) * Y i),
       s.2.2 + (X i * Y (nextIdx n i) + 2 * X i * Y i + 2 * X (nextIdx n i) * Y (nextIdx n i)
                + X (nextIdx n i) * Y i) * (X i * Y (nextIdx n i) - X (nextIdx n i) * Y i)))
    (fun (s : ℝ × ℝ × ℝ) i =>
      (s.1 + (Y' i ^ 2 + Y' i * Y' (nextIdx n i) + Y' (nextIdx n i) ^ 2)
              * (X' i * Y' (nextIdx n i) - X' (nextIdx n i) * Y' i),
       s.2.1 + (X' i ^ 2 + X' i * X' (nextIdx n i) + X' (nextIdx n i) ^ 2)
              * (X' i * Y' (nextIdx n i) - X' (nextIdx n i) * Y' i),
       s.2.2 + (X' i * Y' (nextIdx n i) + 2 * X' i * Y' i
                + 2 * X' (nextIdx n i) * Y' (nextIdx n i)
                + X' (nextIdx n i) * Y' i) * (X' i * Y' (nextIdx n i) - X' (nextIdx n i) * Y' i)))
    (0, 0, 0) n (fun acc i hi => by
      simp only [hX i hi, hY i hi, hX _ (nextIdx_lt hi), hY _ (nextIdx_lt hi)])
  unfold calc_inertia
  simp only []
  rw [e]

theorem calc_theta_congr (hX : ∀ i < n, X i = X' i) (hY : ∀ i < n, Y i = Y' i)
    (A cx cy : ℝ) : calc_theta n X Y A cx cy = calc_theta n X' Y' A cx cy := by
  unfold calc_theta
  rw [calc_inertia_congr hX hY]

theorem extremes_congr (key other key' other' : ℕ → ℝ) (hk : ∀ i < n, key i = key' i)
    (ho : ∀ i < n, other i = other' i) : extremes n key other = extremes n key' other' := by
  unfold extremes
  apply foldl_range_congr
  intro acc i hi
  unfold extremeStep
  rw [hk i hi, ho i hi]

theorem calc_projection_length_congr (hX : ∀ i < n, X i = X' i) (hY : ∀ i < n, Y i = Y' i)
    (x1 y1 x2 y2 s : ℝ) :
    calc_projection_length x1 y1 x2 y2 n X Y s = calc_projection_length x1 y1 x2 y2 n X' Y' s := by
  unfold calc_projection_length projectionExtremes
  simp only []
  rw [extremes_congr
      (fun i => (projectPoint x1 y1 x2 y2 (X i) (Y i)).1)
      (fun i => (projectPoint x1 y1 x2 y2 (X i) (Y i)).2)
      (fun i => (projectPoint x1 y1 x2 y2 (X' i) (Y' i)).1)
      (fun i => (projectPoint x1 y1 x2 y2 (X' i) (Y' i)).2)
      (fun i hi => by simp only [hX i hi, hY i hi]) (fun i hi => by simp only [hX i hi, hY i hi]),
    extremes_congr
      (fun i => (projectPoint x1 y1 x2 y2 (X i) (Y i)).2)
      (fun i => (projectPoint x1 y1 x2 y2 (X i) (Y i)).1)
      (fun i => (projectPoint x1 y1 x2 y2 (X' i) (Y' i)).2)
      (fun i => (projectPoint x1 y1 x2 y2 (X' i) (Y' i)).1)
      (fun i hi => by simp only [hX i hi, hY i hi]) (fun i hi => by simp only [hX i hi, hY i hi])]

theorem preLength_congr (hX : ∀ i < n, X i = X' i) (hY : ∀ i < n, Y i = Y' i) (s : ℝ) :
    preLength s n X Y = preLength s n X' Y' := by
  unfold preLength orientationOf centreX centreY ceDiameter
  rw [calc_area_pix_congr hX hY, centroidSums_congr hX hY, calc_theta_congr hX hY,
    calc_projection_length_congr hX hY]

theorem preWidth_congr (hX : ∀ i < n, X i = X' i) (hY : ∀ i < n, Y i = Y' i) (s : ℝ) :
    preWidth s n X Y = preWidth s n X' Y' := by
  unfold preWidth orientationOf centreX centreY ceDiameter
  rw [calc_area_pix_congr hX hY, centroidSums_congr hX hY, calc_theta_congr hX hY,
    calc_projection_length_congr hX hY]

theorem vert_congr {o o' : ℕ → ℝ} (h : ∀ i < n, o i = o' i) :
    (∀ i < n, vertX o n i = vertX o' n i) ∧ (∀ i < n, vertY o n i = vertY o' n i) := by
  constructor <;> intro i hi <;> simp only [vertX, vertY, h i hi]

/-- The cost of a position depends on its first `nVar` entries only. -/
theorem calculate_cost_congr {o o' : ℕ → ℝ} (h : ∀ i < n, o i = o' i) (s tc tv te : ℝ) :
    calculate_cost s tc tv te n o = calculate_cost s tc tv te n o' := by
  obtain ⟨hX, hY⟩ := vert_congr h
  unfold calculate_cost
  simp only [gpp_circularity, gpp_convexity, gpp_elongation, perimeterUm]
  rw [calc_area_pix_congr hX hY, calc_perimeter_pix_congr hX hY,
    calc_convex_hull_coords_congr hX hY, preLength_congr hX hY, preWidth_congr hX hY]

end Congruence

/-! ## The swarm optimizer keeps the best evaluated candidate -/

section SameBestLemmas

open Real

theorem SameBest.trans {s t u : PSOState} (h1 : SameBest s t) (h2 : SameBest t u) :
    SameBest s u :=
  ⟨h2.1.trans h1.1, h2.2.1.trans h1.2.1, h2.2.2.trans h1.2.2⟩

theorem afterCandidates_sameBest (cfg : PSOConfig) (s : PSOState) :
    SameBest s (afterCandidates cfg s) := by
  unfold afterCandidates
  simp only []
  split_ifs <;> exact ⟨rfl, rfl, rfl⟩

end SameBestLemmas
section UpdateCosts

open Real

theorem updateCosts_evaluated (cfg : PSOConfig) (i : ℕ) (s : PSOState) :
    (updateCosts cfg i s).evaluated
      = s.evaluated ++ [((List.range cfg.nVar).map (fun j => s.PSOPart_position i j),
          costOf cfg (fun j => s.PSOPart_position i j))] := by
  unfold updateCosts costOf
  simp only []
  split_ifs <;> rfl

theorem updateCosts_globalBestCost (cfg : PSOConfig) (i : ℕ) (s : PSOState) :
    (updateCosts cfg i s).globalBestCost
      = if ((costOf cfg (fun j => s.PSOPart_position i j) : ℝ) : WithTop ℝ) < s.globalBestCost
        then ((costOf cfg (fun j => s.PSOPart_position i j) : ℝ) : WithTop ℝ)
        else s.globalBestCost := by
  unfold updateCosts costOf
  simp only []
  split_ifs <;> rfl

theorem updateCosts_globalBestPosition (cfg : PSOConfig) (i : ℕ) (s : PSOState) :
    (updateCosts cfg i s).globalBestPosition
      = if ((costOf cfg (fun j => s.PSOPart_position i j) : ℝ) : WithTop ℝ) < s.globalBestCost
        then (fun j => if j < cfg.nVar then s.PSOPart_position i j else s.globalBestPosition j)
        else s.globalBestPosition := by
  unfold updateCosts costOf
  simp only []
  split_ifs <;> rfl

end UpdateCosts
section RunInvariant

open Real

theorem foldlM_except_inv {β ε σ : Type} (P : σ → Prop) (f : σ → β → Except ε σ)
    (hf : ∀ s b t, f s b = Except.ok t → P s → P t) (l : List β) (s t : σ)
    (h : l.foldlM f s = Except.ok t) (hs : P s) : P t := by
  induction l generalizing s with
  | nil =>
    simp only [List.foldlM_nil] at h
    cases h
    exact hs
  | cons b l ih =>
    rw [List.foldlM_cons] at h
    cases hb : f s b with
    | error e => rw [hb] at h; cases h
    | ok u =>
      rw [hb] at h
      exact ih u h (hf s b u hb hs)

theorem foldl_updateCosts_length (cfg : PSOConfig) (l : List ℕ) (s : PSOState) :
    (l.foldl (fun s i => updateCosts cfg i s) s).evaluated.length
      = s.evaluated.length + l.length := by
  induction l generalizing s with
  | nil => simp
  | cons i l ih =>
    rw [List.foldl_cons, ih, updateCosts_evaluated, List.length_append]
    simp; omega

end RunInvariant
section SearchLoop

open Real

theorem updateCosts_iteration (cfg : PSOConfig) (i : ℕ) (s : PSOState) :
    (updateCosts cfg i s).iteration = s.iteration := by
  unfold updateCosts
  simp only []
  split_ifs <;> rfl

theorem afterCandidates_iteration (cfg : PSOConfig) (s : PSOState) :
    (afterCandidates cfg s).iteration = s.iteration := by
  unfold afterCandidates
  simp only []
  split_ifs <;> rfl

end SearchLoop

section SearchResult

open Real

end SearchResult

/-! ## Scale correction and cost function -/

section ScaleAndCost

/-- C8. Two-pass scale correction: when the raw area reported at scale 1.0 is positive and
the target diameter `D` is positive, the record computed at the corrected scale
`D * sqrt (π / (areaPixels * 4))` has `CEDiameter = D`. -/
theorem scale_correction_round_trip (dimsValues : ℕ → ℝ) (nDim : ℕ) (D : ℝ)
    (hA : 0 < (get_particle_parameters 1.0 dimsValues nDim).areaPixels) (hD : 0 < D) :
    (get_particle_parameters
        (D * √(π / ((get_particle_parameters 1.0 dimsValues nDim).areaPixels * 4)))
        dimsValues nDim).CEDiameter = D := by
  rw [gpp_CEDiameter, gpp_areaPixels] at *
  unfold ceDiameter
  set A := calc_area_pix nDim (vertX dimsValues nDim) (vertY dimsValues nDim) with hAdef
  have hpi := Real.pi_pos
  have h1 : 0 ≤ π / (A * 4) := by positivity
  have h2 : (D * √(π / (A * 4))) ^ 2 * A * 4 / π = D ^ 2 := by
    rw [mul_pow, Real.sq_sqrt h1]
    field_simp
    ring
  rw [h2, Real.sqrt_sq hD.le]

/-- C9. `calculate_cost` at scale 1.0 is the Euclidean norm of the difference between the
target triple and the circularity, convexity and elongation that
`get_particle_parameters` reports; it is nonnegative, and zero exactly when the three
descriptors equal their targets. -/
theorem calculate_cost_euclidean (tc tv te : ℝ) (nVar : ℕ) (position : ℕ → ℝ) :
    calculate_cost 1.0 tc tv te nVar position
        = √((tc - (get_particle_parameters 1.0 position nVar).circularity) ^ 2
            + (tv - (get_particle_parameters 1.0 position nVar).convexity) ^ 2
            + (te - (get_particle_parameters 1.0 position nVar).elongation) ^ 2)
      ∧ 0 ≤ calculate_cost 1.0 tc tv te nVar position
      ∧ (calculate_cost 1.0 tc tv te nVar position = 0 ↔
          ((get_particle_parameters 1.0 position nVar).circularity = tc
            ∧ (get_particle_parameters 1.0 position nVar).convexity = tv
            ∧ (get_particle_parameters 1.0 position nVar).elongation = te)) := by
  refine ⟨rfl, Real.sqrt_nonneg _, ?_⟩
  unfold calculate_cost
  simp only []
  rw [Real.sqrt_eq_zero']
  set c := (get_particle_parameters 1.0 position nVar).circularity
  set v := (get_particle_parameters 1.0 position nVar).convexity
  set e := (get_particle_parameters 1.0 position nVar).elongation
  constructor
  · intro h
    have a1 := sq_nonneg (tc - c)
    have a2 := sq_nonneg (tv - v)
    have a3 := sq_nonneg (te - e)
    have b1 : (tc - c) ^ 2 = 0 := by linarith
    have b2 : (tv - v) ^ 2 = 0 := by linarith
    have b3 : (te - e) ^ 2 = 0 := by linarith
    have d1 := pow_eq_zero_iff (two_ne_zero) |>.mp b1
    have d2 := pow_eq_zero_iff (two_ne_zero) |>.mp b2
    have d3 := pow_eq_zero_iff (two_ne_zero) |>.mp b3
    exact ⟨by linarith, by linarith, by linarith⟩
  · rintro ⟨h1, h2, h3⟩
    rw [h1, h2, h3]; simp

end ScaleAndCost

/-! ## The polygon is not degenerate -/

section NonDegenerate

theorem sum_cos_sin_roots (n : ℕ) (hn : 2 ≤ n) :
    ∑ i in Finset.range n, cos ((i : ℝ) * (2 * π / n)) = 0
      ∧ ∑ i in Finset.range n, sin ((i : ℝ) * (2 * π / n)) = 0 := by
  have hn0 : n ≠ 0 := by omega
  have h := (Complex.isPrimitiveRoot_exp n hn0).geom_sum_eq_zero (by omega)
  have e : ∀ i : ℕ, Complex.exp (2 * π * Complex.I / n) ^ i
      = Complex.exp ((((i : ℝ) * (2 * π / n) : ℝ) : ℂ) * Complex.I) := by
    intro i
    rw [← Complex.exp_nat_mul]
    congr 1
    push_cast
    ring
  simp only [e] at h
  have hre := congrArg Complex.re h
  have him := congrArg Complex.im h
  simp only [Complex.re_sum, Complex.im_sum, Complex.exp_ofReal_mul_I_re,
    Complex.exp_ofReal_mul_I_im, Complex.zero_re, Complex.zero_im] at hre him
  exact ⟨hre, him⟩

theorem n_sin_ge (n : ℕ) (hn : 3 ≤ n) : 2 ≤ (n : ℝ) * sin (2 * π / n) := by
  have hpi := Real.pi_pos
  rcases Nat.lt_or_ge n 4 with h | h
  · have h3 : n = 3 := by omega
    subst h3
    have e : (2 * π / (3 : ℕ) : ℝ) = π - π / 3 := by push_cast; ring
    rw [e, Real.sin_pi_sub, Real.sin_pi_div_three]
    have hs : (4 / 3 : ℝ) ≤ √3 := by
      apply Real.le_sqrt_of_sq_le
      norm_num
    push_cast
    linarith
  · have hn4 : (4 : ℝ) ≤ n := by exact_mod_cast h
    have hx0 : 0 ≤ 2 * π / (n : ℝ) := by positivity
    have hx1 : 2 * π / (n : ℝ) ≤ π / 2 := by
      rw [div_le_iff₀ (by linarith)]
      nlinarith
    have := Real.mul_le_sin hx0 hx1
    have hnpos : (0 : ℝ) < n := by linarith
    have e : (n : ℝ) * (2 / π * (2 * π / n)) = 4 := by field_simp; ring
    nlinarith [mul_le_mul_of_nonneg_left this hnpos.le]

variable {o : ℕ → ℝ} {n : ℕ}

theorem sum_radii_ge (ho : ∀ i < n, 0 ≤ o i ∧ o i ≤ 1) :
    25 * (n : ℝ) ≤ ∑ i in Finset.range n, (175 * o i + 5) * (175 * o (nextIdx n i) + 5) := by
  have : ∀ i ∈ Finset.range n, (25 : ℝ) ≤ (175 * o i + 5) * (175 * o (nextIdx n i) + 5) := by
    intro i hi
    have hi' := Finset.mem_range.mp hi
    have h1 := (ho i hi').1
    have h2 := (ho _ (nextIdx_lt hi')).1
    nlinarith [mul_nonneg h1 h2]
  calc 25 * (n : ℝ) = ∑ _i in Finset.range n, (25 : ℝ) := by simp [mul_comm]
    _ ≤ _ := Finset.sum_le_sum this

/-- The signed area of the polygon of a well-formed offset vector is at least 25. -/
theorem area_ge (hn : 3 ≤ n) (ho : ∀ i < n, 0 ≤ o i ∧ o i ≤ 1) :
    25 ≤ calc_area_pix n (vertX o n) (vertY o n) := by
  rw [area_polar]
  have h1 := sum_radii_ge ho
  have h2 := n_sin_ge n hn
  have h3 := sin_step_pos n hn
  have h4 : sin (2 * π / n) / 2 * (25 * (n : ℝ))
      ≤ sin (2 * π / n) / 2
          * ∑ i in Finset.range n, (175 * o i + 5) * (175 * o (nextIdx n i) + 5) :=
    mul_le_mul_of_nonneg_left h1 (by positivity)
  nlinarith

theorem area_pos (hn : 3 ≤ n) (ho : ∀ i < n, 0 ≤ o i ∧ o i ≤ 1) :
    0 < calc_area_pix n (vertX o n) (vertY o n) := by
  linarith [area_ge hn ho]

/-- No line direction sees all vertices at the same place: for every nonzero `(u, w)` two
vertices differ in `u * x + w * y`. -/
theorem vertices_spread (hn : 3 ≤ n) (ho : ∀ i < n, 0 ≤ o i ∧ o i ≤ 1) (u w : ℝ)
    (huw : u ≠ 0 ∨ w ≠ 0) :
    ∃ i < n, ∃ j < n, u * vertX o n i + w * vertY o n i ≠ u * vertX o n j + w * vertY o n j := by
  by_contra hcon
  push_neg at hcon
  set g : ℕ → ℝ := fun i => u * cos ((i : ℝ) * (2 * π / n)) + w * sin ((i : ℝ) * (2 * π / n))
    with hg
  have hval : ∀ i < n, u * vertX o n i + w * vertY o n i = g i * (175 * o i + 5) := by
    intro i _
    rw [vertX_eq, vertY_eq]; simp only [hg]; ring
  have hrpos : ∀ i < n, 0 < 175 * o i + 5 := fun i hi => by linarith [(ho i hi).1]
  have h0n : 0 < n := by omega
  have h1n : 1 < n := by omega
  set t := g 0 * (175 * o 0 + 5) with ht
  have hall : ∀ i < n, g i * (175 * o i + 5) = t := by
    intro i hi
    rw [← hval i hi, hcon i hi 0 h0n, hval 0 h0n]
  have hsum : ∑ i in Finset.range n, g i = 0 := by
    simp only [hg, Finset.sum_add_distrib, ← Finset.mul_sum]
    rw [(sum_cos_sin_roots n (by omega)).1, (sum_cos_sin_roots n (by omega)).2]
    ring
  have hne : (Finset.range n).Nonempty := ⟨0, Finset.mem_range.mpr h0n⟩
  rcases lt_trichotomy t 0 with htneg | htz | htpos
  · have : ∑ i in Finset.range n, g i < 0 := by
      apply Finset.sum_neg _ hne
      intro i hi
      have hi' := Finset.mem_range.mp hi
      have := hall i hi'
      by_contra hge
      push_neg at hge
      have := mul_nonneg hge (hrpos i hi').le
      linarith
    linarith
  · have hg0 : ∀ i < n, g i = 0 := by
      intro i hi
      have := hall i hi
      rw [htz] at this
      rcases mul_eq_zero.mp this with h | h
      · exact h
      · exact absurd h (hrpos i hi).ne'
    have hu : u = 0 := by
      have := hg0 0 h0n
      simpa [hg] using this
    have hw : w = 0 := by
      have := hg0 1 h1n
      simp only [hg, hu, zero_mul, zero_add, Nat.cast_one, one_mul] at this
      rcases mul_eq_zero.mp this with h | h
      · exact h
      · exact absurd h (sin_step_pos n hn).ne'
    rcases huw with h | h
    · exact h hu
    · exact h hw
  · have : 0 < ∑ i in Finset.range n, g i := by
      apply Finset.sum_pos _ hne
      intro i hi
      have hi' := Finset.mem_range.mp hi
      have := hall i hi'
      by_contra hle
      push_neg at hle
      have := mul_nonpos_of_nonpos_of_nonneg hle (hrpos i hi').le
      linarith
    linarith

end NonDegenerate

/-! ## The extreme search and the projection length -/

section Projection

variable {K : Type} [LinearOrderedField K]

/-- The extreme search over `n ≥ 1` entries returns an entry with the greatest key and an
entry with the least key. -/
theorem extremes_spec (n : ℕ) (hn : 1 ≤ n) (key other : ℕ → K) :
    ∃ i < n, ∃ j < n, extremes n key other = (some (key i, other i), some (key j, other j))
      ∧ (∀ k < n, key k ≤ key i) ∧ (∀ k < n, key j ≤ key k) := by
  induction n with
  | zero => omega
  | succ m ih =>
    rcases Nat.eq_zero_or_pos m with hm | hm
    · subst hm
      refine ⟨0, by omega, 0, by omega, ?_, ?_, ?_⟩
      · simp [extremes, extremeStep, List.range_succ]
      · intro k hk; have : k = 0 := by omega
        subst this; exact le_refl _
      · intro k hk; have : k = 0 := by omega
        subst this; exact le_refl _
    · obtain ⟨i, hi, j, hj, he, hmax, hmin⟩ := ih hm
      have hstep : extremes (m + 1) key other
          = extremeStep key other (extremes m key other) m := by
        unfold extremes
        rw [List.range_succ, List.foldl_append]
        rfl
      rw [hstep, he]
      unfold extremeStep
      simp only []
      by_cases h1 : key m > key i <;> by_cases h2 : key m < key j
      · refine ⟨m, by omega, m, by omega, by simp [h1, h2], ?_, ?_⟩
        · intro k hk
          rcases Nat.lt_succ_iff_lt_or_eq.mp hk with hk | hk
          · exact le_trans (hmax k hk) h1.le
          · rw [hk]
        · intro k hk
          rcases Nat.lt_succ_iff_lt_or_eq.mp hk with hk | hk
          · exact le_trans h2.le (hmin k hk)
          · rw [hk]
      · refine ⟨m, by omega, j, by omega, by simp [h1, h2], ?_, ?_⟩
        · intro k hk
          rcases Nat.lt_succ_iff_lt_or_eq.mp hk with hk | hk
          · exact le_trans (hmax k hk) h1.le
          · rw [hk]
        · intro k hk
          rcases Nat.lt_succ_iff_lt_or_eq.mp hk with hk | hk
          · exact hmin k hk
          · rw [hk]; exact not_lt.mp h2
      · refine ⟨i, by omega, m, by omega, by simp [h1, h2], ?_, ?_⟩
        · intro k hk
          rcases Nat.lt_succ_iff_lt_or_eq.mp hk with hk | hk
          · exact hmax k hk
          · rw [hk]; exact not_lt.mp h1
        · intro k hk
          rcases Nat.lt_succ_iff_lt_or_eq.mp hk with hk | hk
          · exact le_trans h2.le (hmin k hk)
          · rw [hk]
      · refine ⟨i, by omega, j, by omega, by simp [h1, h2], ?_, ?_⟩
        · intro k hk
          rcases Nat.lt_succ_iff_lt_or_eq.mp hk with hk | hk
          · exact hmax k hk
          · rw [hk]; exact not_lt.mp h1
        · intro k hk
          rcases Nat.lt_succ_iff_lt_or_eq.mp hk with hk | hk
          · exact hmin k hk
          · rw [hk]; exact not_lt.mp h2

/-- The projection length in terms of the two extreme vertices: with `n ≥ 1` vertices it is
the distance between the projections of a vertex `i` with the greatest key and a vertex `j`
with the least key, times the scale; the key is the x coordinate of the projection when
`|x2 - x1| > |y2 - y1|` and its y coordinate otherwise. -/
theorem calc_projection_length_spec (x1 y1 x2 y2 : ℝ) (n : ℕ) (hn : 1 ≤ n) (X Y : ℕ → ℝ)
    (s : ℝ) :
    ∃ i < n, ∃ j < n,
      calc_projection_length x1 y1 x2 y2 n X Y s
        = √(((projectPoint x1 y1 x2 y2 (X i) (Y i)).1
              - (projectPoint x1 y1 x2 y2 (X j) (Y j)).1) ^ 2
            + ((projectPoint x1 y1 x2 y2 (X i) (Y i)).2
              - (projectPoint x1 y1 x2 y2 (X j) (Y j)).2) ^ 2) * s
      ∧ (|x2 - x1| > |y2 - y1| →
          (∀ k < n, (projectPoint x1 y1 x2 y2 (X k) (Y k)).1
              ≤ (projectPoint x1 y1 x2 y2 (X i) (Y i)).1)
          ∧ (∀ k < n, (projectPoint x1 y1 x2 y2 (X j) (Y j)).1
              ≤ (projectPoint x1 y1 x2 y2 (X k) (Y k)).1))
      ∧ (¬ |x2 - x1| > |y2 - y1| →
          (∀ k < n, (projectPoint x1 y1 x2 y2 (X k) (Y k)).2
              ≤ (projectPoint x1 y1 x2 y2 (X i) (Y i)).2)
          ∧ (∀ k < n, (projectPoint x1 y1 x2 y2 (X j) (Y j)).2
              ≤ (projectPoint x1 y1 x2 y2 (X k) (Y k)).2)) := by
  by_cases hb : |x2 - x1| > |y2 - y1|
  · obtain ⟨i, hi, j, hj, he, hmax, hmin⟩ := extremes_spec n hn
      (fun i => (projectPoint x1 y1 x2 y2 (X i) (Y i)).1)
      (fun i => (projectPoint x1 y1 x2 y2 (X i) (Y i)).2)
    refine ⟨i, hi, j, hj, ?_, fun _ => ⟨hmax, hmin⟩, fun h => absurd hb h⟩
    unfold calc_projection_length projectionExtremes
    simp only [hb, if_true, he]
  · obtain ⟨i, hi, j, hj, he, hmax, hmin⟩ := extremes_spec n hn
      (fun i => (projectPoint x1 y1 x2 y2 (X i) (Y i)).2)
      (fun i => (projectPoint x1 y1 x2 y2 (X i) (Y i)).1)
    refine ⟨i, hi, j, hj, ?_, fun h => absurd h hb, fun _ => ⟨hmax, hmin⟩⟩
    unfold calc_projection_length projectionExtremes
    simp only [hb, if_false, he]

end Projection
section ProjectionLength

theorem projectPoint_flat {x1 y1 x2 y2 : ℝ} (h : |y2 - y1| ≤ 0.5) (px py : ℝ) :
    projectPoint x1 y1 x2 y2 px py = (px, y1) := by
  unfold projectPoint; simp only [h, if_true]

theorem projectPoint_steep {x1 y1 x2 y2 : ℝ} (h : ¬ |y2 - y1| ≤ 0.5) (h2 : |x2 - x1| ≤ 0.5)
    (px py : ℝ) : projectPoint x1 y1 x2 y2 px py = (x1, py) := by
  unfold projectPoint; simp only [h, h2, if_true, if_false]

theorem projectPoint_oblique {x1 y1 x2 y2 : ℝ} (h : ¬ |y2 - y1| ≤ 0.5)
    (h2 : ¬ |x2 - x1| ≤ 0.5) (px py : ℝ) :
    (projectPoint x1 y1 x2 y2 px py).1
        = ((x2 - x1) * ((x2 - x1) * px + (y2 - y1) * py)
            + (y2 - y1) * ((y2 - y1) * x1 - (x2 - x1) * y1))
          / ((y2 - y1) ^ 2 + (x2 - x1) ^ 2)
      ∧ (projectPoint x1 y1 x2 y2 px py).2
        = (y2 - y1) / (x2 - x1) * ((projectPoint x1 y1 x2 y2 px py).1 - x1) + y1 := by
  have ha : y2 - y1 ≠ 0 := by
    intro h0; apply h; rw [h0]; norm_num
  have hb : x2 - x1 ≠ 0 := by
    intro h0; apply h2; rw [h0]; norm_num
  have hab : (y2 - y1) ^ 2 + (x2 - x1) ^ 2 ≠ 0 := by positivity
  unfold projectPoint
  simp only [h, h2, if_false]
  constructor
  · field_simp
    ring
  · field_simp
    ring

/-- The projection length is positive when the scale is positive, the axis is longer than
`sqrt (1/2)` and the vertices do not all project to one point. -/
theorem calc_projection_length_pos (x1 y1 x2 y2 : ℝ) (n : ℕ) (hn : 1 ≤ n) (X Y : ℕ → ℝ)
    (s : ℝ) (hs : 0 < s) (hlong : 1 / 2 < (y2 - y1) ^ 2 + (x2 - x1) ^ 2)
    (hspread : ∀ u w : ℝ, (u ≠ 0 ∨ w ≠ 0) →
      ∃ i < n, ∃ j < n, u * X i + w * Y i ≠ u * X j + w * Y j) :
    0 < calc_projection_length x1 y1 x2 y2 n X Y s := by
  obtain ⟨i, hi, j, hj, hval, hx, hy⟩ := calc_projection_length_spec x1 y1 x2 y2 n hn X Y s
  rw [hval]
  apply mul_pos _ hs
  apply Real.sqrt_pos.mpr
  set P := fun k => projectPoint x1 y1 x2 y2 (X k) (Y k) with hP
  -- it suffices that the extreme keys differ
  have key1 : (|x2 - x1| > |y2 - y1| → ∃ p < n, ∃ q < n, (P p).1 ≠ (P q).1) →
      (¬ |x2 - x1| > |y2 - y1| → ∃ p < n, ∃ q < n, (P p).2 ≠ (P q).2) →
      0 < ((P i).1 - (P j).1) ^ 2 + ((P i).2 - (P j).2) ^ 2 := by
    intro h1 h2
    by_cases hb : |x2 - x1| > |y2 - y1|
    · obtain ⟨p, hp, q, hq, hne⟩ := h1 hb
      obtain ⟨hmax, hmin⟩ := hx hb
      have : (P j).1 < (P i).1 := by
        rcases lt_or_gt_of_ne hne with h | h
        · exact lt_of_le_of_lt (hmin p hp) (lt_of_lt_of_le h (hmax q hq))
        · exact lt_of_le_of_lt (hmin q hq) (lt_of_lt_of_le h (hmax p hp))
      have : 0 < ((P i).1 - (P j).1) ^ 2 := by
        apply pow_pos; linarith
      nlinarith [sq_nonneg ((P i).2 - (P j).2)]
    · obtain ⟨p, hp, q, hq, hne⟩ := h2 hb
      obtain ⟨hmax, hmin⟩ := hy hb
      have : (P j).2 < (P i).2 := by
        rcases lt_or_gt_of_ne hne with h | h
        · exact lt_of_le_of_lt (hmin p hp) (lt_of_lt_of_le h (hmax q hq))
        · exact lt_of_le_of_lt (hmin q hq) (lt_of_lt_of_le h (hmax p hp))
      have : 0 < ((P i).2 - (P j).2) ^ 2 := by
        apply pow_pos; linarith
      nlinarith [sq_nonneg ((P i).1 - (P j).1)]
  apply key1
  · intro hb
    by_cases ha : |y2 - y1| ≤ 0.5
    · obtain ⟨p, hp, q, hq, hne⟩ := hspread 1 0 (Or.inl one_ne_zero)
      refine ⟨p, hp, q, hq, ?_⟩
      simp only [hP, projectPoint_flat ha]
      simpa using hne
    · by_cases hb2 : |x2 - x1| ≤ 0.5
      · exfalso
        push_neg at ha
        linarith
      · have hb0 : x2 - x1 ≠ 0 := by
          intro h0; apply hb2; rw [h0]; norm_num
        have hab : 0 < (y2 - y1) ^ 2 + (x2 - x1) ^ 2 := by positivity
        obtain ⟨p, hp, q, hq, hne⟩ := hspread (x2 - x1) (y2 - y1) (Or.inl hb0)
        refine ⟨p, hp, q, hq, ?_⟩
        simp only [hP]
        rw [(projectPoint_oblique ha hb2 _ _).1, (projectPoint_oblique ha hb2 _ _).1]
        intro heq
        rw [div_left_inj' hab.ne'] at heq
        apply hne
        have := mul_left_cancel₀ hb0 (add_right_cancel heq)
        exact this
  · intro hb
    by_cases ha : |y2 - y1| ≤ 0.5
    · exfalso
      push_neg at hb
      -- both deltas are at most 1/2 in absolute value
      have h1 : (y2 - y1) ^ 2 ≤ 1 / 4 := by
        have := sq_abs (y2 - y1)
        have h0 := abs_nonneg (y2 - y1)
        norm_num at ha
        nlinarith
      have h2 : (x2 - x1) ^ 2 ≤ 1 / 4 := by
        have := sq_abs (x2 - x1)
        have h0 := abs_nonneg (x2 - x1)
        norm_num at ha
        nlinarith
      linarith
    · by_cases hb2 : |x2 - x1| ≤ 0.5
      · obtain ⟨p, hp, q, hq, hne⟩ := hspread 0 1 (Or.inr one_ne_zero)
        refine ⟨p, hp, q, hq, ?_⟩
        simp only [hP, projectPoint_steep ha hb2]
        simpa using hne
      · have hb0 : x2 - x1 ≠ 0 := by
          intro h0; apply hb2; rw [h0]; norm_num
        have ha0 : y2 - y1 ≠ 0 := by
          intro h0; apply ha; rw [h0]; norm_num
        have hab : 0 < (y2 - y1) ^ 2 + (x2 - x1) ^ 2 := by positivity
        obtain ⟨p, hp, q, hq, hne⟩ := hspread (x2 - x1) (y2 - y1) (Or.inl hb0)
        refine ⟨p, hp, q, hq, ?_⟩
        simp only [hP]
        rw [(projectPoint_oblique ha hb2 _ _).2, (projectPoint_oblique ha hb2 (X q) _).2,
          (projectPoint_oblique ha hb2 _ _).1, (projectPoint_oblique ha hb2 _ _).1]
        intro heq
        have h3 := add_right_cancel heq
        have h4 := mul_left_cancel₀ (div_ne_zero ha0 hb0) h3
        have h5 := sub_left_injective h4
        rw [div_left_inj' hab.ne'] at h5
        apply hne
        exact mul_left_cancel₀ hb0 (add_right_cancel h5)

end ProjectionLength

/-! ## Length and width -/

section LengthWidth

variable {o : ℕ → ℝ} {n : ℕ} {s : ℝ}

theorem ceDiameter_sq (hs : 0 < s) (hA : 0 ≤ calc_area_pix n (vertX o n) (vertY o n)) :
    (ceDiameter s n (vertX o n) (vertY o n) / (2 * s)) ^ 2
      = calc_area_pix n (vertX o n) (vertY o n) / π := by
  unfold ceDiameter
  have hpi := Real.pi_pos
  rw [div_pow, Real.sq_sqrt (by positivity)]
  field_simp
  ring

theorem axis_long (hn : 3 ≤ n) (ho : ∀ i < n, 0 ≤ o i ∧ o i ≤ 1) (hs : 0 < s) :
    1 / 2 < 4 * (ceDiameter s n (vertX o n) (vertY o n) / (2 * s)) ^ 2 := by
  have hA := area_ge hn ho
  rw [ceDiameter_sq hs (by linarith)]
  have hpi := Real.pi_pos
  have hpi4 := Real.pi_lt_four
  rw [← mul_div_assoc, lt_div_iff₀ hpi]
  nlinarith

/-- The projection length on the major axis is positive before the axis test. -/
theorem preLength_pos (hn : 3 ≤ n) (ho : ∀ i < n, 0 ≤ o i ∧ o i ≤ 1) (hs : 0 < s) :
    0 < preLength s n (vertX o n) (vertY o n) := by
  unfold preLength
  apply calc_projection_length_pos _ _ _ _ n (by omega) _ _ s hs
  · have h := axis_long hn ho hs
    have e := Real.cos_sq_add_sin_sq (orientationOf n (vertX o n) (vertY o n))
    set R := ceDiameter s n (vertX o n) (vertY o n) / (2 * s) with hR
    set φ := orientationOf n (vertX o n) (vertY o n)
    have e1 : ∀ c : ℝ, c * ceDiameter s n (vertX o n) (vertY o n) / (2 * s) = c * R := by
      intro c; rw [hR]; ring
    simp only [e1]
    nlinarith
  · exact vertices_spread hn ho

/-- The projection length on the minor axis is positive before the axis test. -/
theorem preWidth_pos (hn : 3 ≤ n) (ho : ∀ i < n, 0 ≤ o i ∧ o i ≤ 1) (hs : 0 < s) :
    0 < preWidth s n (vertX o n) (vertY o n) := by
  unfold preWidth
  apply calc_projection_length_pos _ _ _ _ n (by omega) _ _ s hs
  · have h := axis_long hn ho hs
    have e := Real.cos_sq_add_sin_sq (orientationOf n (vertX o n) (vertY o n))
    set R := ceDiameter s n (vertX o n) (vertY o n) / (2 * s) with hR
    set φ := orientationOf n (vertX o n) (vertY o n)
    have e1 : ∀ c : ℝ, c * ceDiameter s n (vertX o n) (vertY o n) / (2 * s) = c * R := by
      intro c; rw [hR]; ring
    simp only [e1]
    nlinarith
  · exact vertices_spread hn ho

/-- C1. For every offset vector with `nDim ≥ 3` and entries in `[0, 1]`, and every scale
`imgScale > 0`, the record written by `get_particle_parameters` has `length ≥ width` and
`aspectRatio ≤ 1`, whether or not the axes were swapped. -/
theorem length_ge_width (imgScale : ℝ) (dimsValues : ℕ → ℝ) (nDim : ℕ) (hn : 3 ≤ nDim)
    (ho : ∀ i < nDim, 0 ≤ dimsValues i ∧ dimsValues i ≤ 1) (hs : 0 < imgScale) :
    (get_particle_parameters imgScale dimsValues nDim).width
        ≤ (get_particle_parameters imgScale dimsValues nDim).length
      ∧ (get_particle_parameters imgScale dimsValues nDim).aspectRatio ≤ 1 := by
  rw [gpp_width, gpp_length, gpp_aspectRatio]
  have hL := preLength_pos hn ho hs
  have hW := preWidth_pos hn ho hs
  set L := preLength imgScale nDim (vertX dimsValues nDim) (vertY dimsValues nDim)
  set W := preWidth imgScale nDim (vertX dimsValues nDim) (vertY dimsValues nDim)
  by_cases h : W / L > 1
  · simp only [h, if_true]
    have hlt : L < W := by
      have := (lt_div_iff₀ hL).mp h
      linarith
    exact ⟨hlt.le, by rw [div_le_one hW]; exact hlt.le⟩
  · simp only [h, if_false]
    push_neg at h
    exact ⟨by have := (div_le_one hL).mp h; exact this, h⟩

theorem length_ge_width_witness :
    (3 ≤ 3) ∧ (∀ i < 3, 0 ≤ (fun _ : ℕ => (0 : ℝ)) i ∧ (fun _ : ℕ => (0 : ℝ)) i ≤ 1)
      ∧ (0 : ℝ) < 1
      ∧ (get_particle_parameters 1 (fun _ => 0) 3).width
          ≤ (get_particle_parameters 1 (fun _ => 0) 3).length
      ∧ (get_particle_parameters 1 (fun _ => 0) 3).aspectRatio ≤ 1 :=
  ⟨le_refl 3, fun _ _ => ⟨le_refl 0, zero_le_one⟩, one_pos,
    length_ge_width 1 (fun _ => 0) 3 (le_refl 3) (fun _ _ => ⟨le_refl 0, zero_le_one⟩) one_pos⟩

theorem scale_correction_round_trip_witness :
    0 < (get_particle_parameters 1.0 (fun _ => 0) 3).areaPixels ∧ (0 : ℝ) < 1
      ∧ (get_particle_parameters
          (1 * √(π / ((get_particle_parameters 1.0 (fun _ => 0) 3).areaPixels * 4)))
          (fun _ => 0) 3).CEDiameter = 1 :=
  have hA : 0 < (get_particle_parameters 1.0 (fun _ => 0) 3).areaPixels := by
    rw [gpp_areaPixels]
    exact area_pos (le_refl 3) (fun _ _ => ⟨le_refl 0, zero_le_one⟩)
  ⟨hA, one_pos, scale_correction_round_trip (fun _ => 0) 3 1 hA one_pos⟩

end LengthWidth

/-! ## The octagon: eight vertices -/

section Octagon

theorem octant_cos :
    cos (((0 : ℕ) : ℝ) * (2 * π / ((8 : ℕ) : ℝ))) = 1
    ∧ cos (((1 : ℕ) : ℝ) * (2 * π / ((8 : ℕ) : ℝ))) = √2 / 2
    ∧ cos (((2 : ℕ) : ℝ) * (2 * π / ((8 : ℕ) : ℝ))) = 0
    ∧ cos (((3 : ℕ) : ℝ) * (2 * π / ((8 : ℕ) : ℝ))) = -(√2 / 2)
    ∧ cos (((4 : ℕ) : ℝ) * (2 * π / ((8 : ℕ) : ℝ))) = -1
    ∧ cos (((5 : ℕ) : ℝ) * (2 * π / ((8 : ℕ) : ℝ))) = -(√2 / 2)
    ∧ cos (((6 : ℕ) : ℝ) * (2 * π / ((8 : ℕ) : ℝ))) = 0
    ∧ cos (((7 : ℕ) : ℝ) * (2 * π / ((8 : ℕ) : ℝ))) = √2 / 2 := by
  refine ⟨?_, ?_, ?_, ?_, ?_, ?_, ?_, ?_⟩
  · simp
  · rw [show (((1 : ℕ) : ℝ) * (2 * π / ((8 : ℕ) : ℝ))) = π / 4 by push_cast; ring]
    exact Real.cos_pi_div_four
  · rw [show (((2 : ℕ) : ℝ) * (2 * π / ((8 : ℕ) : ℝ))) = π / 2 by push_cast; ring]
    exact Real.cos_pi_div_two
  · rw [show (((3 : ℕ) : ℝ) * (2 * π / ((8 : ℕ) : ℝ))) = π - π / 4 by push_cast; ring,
      Real.cos_pi_sub, Real.cos_pi_div_four]
  · rw [show (((4 : ℕ) : ℝ) * (2 * π / ((8 : ℕ) : ℝ))) = π by push_cast; ring]
    exact Real.cos_pi
  · rw [show (((5 : ℕ) : ℝ) * (2 * π / ((8 : ℕ) : ℝ))) = π / 4 + π by push_cast; ring,
      Real.cos_add_pi, Real.cos_pi_div_four]
  · rw [show (((6 : ℕ) : ℝ) * (2 * π / ((8 : ℕ) : ℝ))) = π / 2 + π by push_cast; ring,
      Real.cos_add_pi, Real.cos_pi_div_two, neg_zero]
  · rw [show (((7 : ℕ) : ℝ) * (2 * π / ((8 : ℕ) : ℝ))) = 2 * π - π / 4 by push_cast; ring,
      Real.cos_two_pi_sub, Real.cos_pi_div_four]

theorem octant_sin :
    sin (((0 : ℕ) : ℝ) * (2 * π / ((8 : ℕ) : ℝ))) = 0
    ∧ sin (((1 : ℕ) : ℝ) * (2 * π / ((8 : ℕ) : ℝ))) = √2 / 2
    ∧ sin (((2 : ℕ) : ℝ) * (2 * π / ((8 : ℕ) : ℝ))) = 1
    ∧ sin (((3 : ℕ) : ℝ) * (2 * π / ((8 : ℕ) : ℝ))) = √2 / 2
    ∧ sin (((4 : ℕ) : ℝ) * (2 * π / ((8 : ℕ) : ℝ))) = 0
    ∧ sin (((5 : ℕ) : ℝ) * (2 * π / ((8 : ℕ) : ℝ))) = -(√2 / 2)
    ∧ sin (((6 : ℕ) : ℝ) * (2 * π / ((8 : ℕ) : ℝ))) = -1
    ∧ sin (((7 : ℕ) : ℝ) * (2 * π / ((8 : ℕ) : ℝ))) = -(√2 / 2) := by
  refine ⟨?_, ?_, ?_, ?_, ?_, ?_, ?_, ?_⟩
  · simp
  · rw [show (((1 : ℕ) : ℝ) * (2 * π / ((8 : ℕ) : ℝ))) = π / 4 by push_cast; ring]
    exact Real.sin_pi_div_four
  · rw [show (((2 : ℕ) : ℝ) * (2 * π / ((8 : ℕ) : ℝ))) = π / 2 by push_cast; ring]
    exact Real.sin_pi_div_two
  · rw [show (((3 : ℕ) : ℝ) * (2 * π / ((8 : ℕ) : ℝ))) = π - π / 4 by push_cast; ring,
      Real.sin_pi_sub, Real.sin_pi_div_four]
  · rw [show (((4 : ℕ) : ℝ) * (2 * π / ((8 : ℕ) : ℝ))) = π by push_cast; ring]
    exact Real.sin_pi
  · rw [show (((5 : ℕ) : ℝ) * (2 * π / ((8 : ℕ) : ℝ))) = π / 4 + π by push_cast; ring,
      Real.sin_add_pi, Real.sin_pi_div_four]
  · rw [show (((6 : ℕ) : ℝ) * (2 * π / ((8 : ℕ) : ℝ))) = π / 2 + π by push_cast; ring,
      Real.sin_add_pi, Real.sin_pi_div_two]
  · rw [show (((7 : ℕ) : ℝ) * (2 * π / ((8 : ℕ) : ℝ))) = 2 * π - π / 4 by push_cast; ring,
      Real.sin_two_pi_sub, Real.sin_pi_div_four]

/-- The eight vertices of the polygon with radii `r i = 175 * o i + 5`. -/
theorem octagon_vertices (o : ℕ → ℝ) :
    (vertX o 8 0 = 175 * o 0 + 5 ∧ vertY o 8 0 = 0)
    ∧ (vertX o 8 1 = √2 / 2 * (175 * o 1 + 5) ∧ vertY o 8 1 = √2 / 2 * (175 * o 1 + 5))
    ∧ (vertX o 8 2 = 0 ∧ vertY o 8 2 = 175 * o 2 + 5)
    ∧ (vertX o 8 3 = -(√2 / 2) * (175 * o 3 + 5) ∧ vertY o 8 3 = √2 / 2 * (175 * o 3 + 5))
    ∧ (vertX o 8 4 = -(175 * o 4 + 5) ∧ vertY o 8 4 = 0)
    ∧ (vertX o 8 5 = -(√2 / 2) * (175 * o 5 + 5) ∧ vertY o 8 5 = -(√2 / 2) * (175 * o 5 + 5))
    ∧ (vertX o 8 6 = 0 ∧ vertY o 8 6 = -(175 * o 6 + 5))
    ∧ (vertX o 8 7 = √2 / 2 * (175 * o 7 + 5) ∧ vertY o 8 7 = -(√2 / 2) * (175 * o 7 + 5)) := by
  obtain ⟨c0, c1, c2, c3, c4, c5, c6, c7⟩ := octant_cos
  obtain ⟨s0, s1, s2, s3, s4, s5, s6, s7⟩ := octant_sin
  simp only [vertX_eq, vertY_eq, c0, c1, c2, c3, c4, c5, c6, c7, s0, s1, s2, s3, s4, s5, s6, s7]
  refine ⟨⟨?_, ?_⟩, ⟨?_, ?_⟩, ⟨?_, ?_⟩, ⟨?_, ?_⟩, ⟨?_, ?_⟩, ⟨?_, ?_⟩, ⟨?_, ?_⟩, ⟨?_, ?_⟩⟩ <;> ring_nf

end Octagon

section LoopSums

theorem foldl_pair_eq_sum (f g : ℕ → ℝ) (n : ℕ) :
    (List.range n).foldl (fun (ab : ℝ × ℝ) i => (ab.1 + f i, ab.2 + g i)) (0, 0)
      = (∑ i in Finset.range n, f i, ∑ i in Finset.range n, g i) := by
  induction n with
  | zero => simp
  | succ k ih =>
    rw [List.range_succ, List.foldl_append, ih, Finset.sum_range_succ, Finset.sum_range_succ]
    rfl

theorem foldl_triple_eq_sum (f g h : ℕ → ℝ) (n : ℕ) :
    (List.range n).foldl
        (fun (s : ℝ × ℝ × ℝ) i => (s.1 + f i, s.2.1 + g i, s.2.2 + h i)) (0, 0, 0)
      = (∑ i in Finset.range n, f i, ∑ i in Finset.range n, g i,
          ∑ i in Finset.range n, h i) := by
  induction n with
  | zero => simp
  | succ k ih =>
    rw [List.range_succ, List.foldl_append, ih, Finset.sum_range_succ, Finset.sum_range_succ,
      Finset.sum_range_succ]
    rfl

theorem centroidSums_eq_sum (n : ℕ) (X Y : ℕ → ℝ) :
    centroidSums n X Y
      = (∑ i in Finset.range n,
            (X i + X (nextIdx n i)) * (X i * Y (nextIdx n i) - X (nextIdx n i) * Y i),
         ∑ i in Finset.range n,
            (Y i + Y (nextIdx n i)) * (X i * Y (nextIdx n i) - X (nextIdx n i) * Y i)) := by
  unfold centroidSums
  exact foldl_pair_eq_sum _ _ n

theorem calc_inertia_eq_sum (n : ℕ) (X Y : ℕ → ℝ) (A cx cy : ℝ) :
    calc_inertia n X Y A cx cy
      = ((∑ i in Finset.range n,
            (Y i ^ 2 + Y i * Y (nextIdx n i) + Y (nextIdx n i) ^ 2)
              * (X i * Y (nextIdx n i) - X (nextIdx n i) * Y i)) / 12 - A * cy ^ 2,
         (∑ i in Finset.range n,
            (X i ^ 2 + X i * X (nextIdx n i) + X (nextIdx n i) ^ 2)
              * (X i * Y (nextIdx n i) - X (nextIdx n i) * Y i)) / 12 - A * cx ^ 2,
         (∑ i in Finset.range n,
            (X i * Y (nextIdx n i) + 2 * X i * Y i + 2 * X (nextIdx n i) * Y (nextIdx n i)
              + X (nextIdx n i) * Y i)
              * (X i * Y (nextIdx n i) - X (nextIdx n i) * Y i)) / 24 - A * cx * cy) := by
  unfold calc_inertia
  simp only []
  rw [foldl_triple_eq_sum]

theorem nextIdx_eight :
    nextIdx 8 0 = 1 ∧ nextIdx 8 1 = 2 ∧ nextIdx 8 2 = 3 ∧ nextIdx 8 3 = 4 ∧ nextIdx 8 4 = 5
      ∧ nextIdx 8 5 = 6 ∧ nextIdx 8 6 = 7 ∧ nextIdx 8 7 = 0 := by
  decide

theorem sqrt_two_powers : √2 ^ 2 = 2 ∧ √2 ^ 3 = 2 * √2 ∧ √2 ^ 4 = 4 := by
  have h : √2 ^ 2 = 2 := Real.sq_sqrt (by norm_num)
  refine ⟨h, ?_, ?_⟩
  · calc √2 ^ 3 = √2 ^ 2 * √2 := by ring
      _ = 2 * √2 := by rw [h]
  · calc √2 ^ 4 = (√2 ^ 2) ^ 2 := by ring
      _ = 4 := by rw [h]; norm_num

end LoopSums

section FlatOctagon

theorem flat_vertices :
    (vertX flatOffsets 8 0 = 180 ∧ vertY flatOffsets 8 0 = 0)
    ∧ (vertX flatOffsets 8 1 = √2 / 2 * 5 ∧ vertY flatOffsets 8 1 = √2 / 2 * 5)
    ∧ (vertX flatOffsets 8 2 = 0 ∧ vertY flatOffsets 8 2 = 5)
    ∧ (vertX flatOffsets 8 3 = -(√2 / 2) * 5 ∧ vertY flatOffsets 8 3 = √2 / 2 * 5)
    ∧ (vertX flatOffsets 8 4 = -180 ∧ vertY flatOffsets 8 4 = 0)
    ∧ (vertX flatOffsets 8 5 = -(√2 / 2) * 5 ∧ vertY flatOffsets 8 5 = -(√2 / 2) * 5)
    ∧ (vertX flatOffsets 8 6 = 0 ∧ vertY flatOffsets 8 6 = -5)
    ∧ (vertX flatOffsets 8 7 = √2 / 2 * 5 ∧ vertY flatOffsets 8 7 = -(√2 / 2) * 5) := by
  have h := octagon_vertices flatOffsets
  simp only [flatOffsets] at h ⊢
  norm_num at h ⊢
  exact h

theorem flat_area : calc_area_pix 8 (vertX flatOffsets 8) (vertY flatOffsets 8) = 925 * √2 := by
  obtain ⟨⟨x0, y0⟩, ⟨x1, y1⟩, ⟨x2, y2⟩, ⟨x3, y3⟩, ⟨x4, y4⟩, ⟨x5, y5⟩, ⟨x6, y6⟩, ⟨x7, y7⟩⟩ :=
    flat_vertices
  obtain ⟨n0, n1, n2, n3, n4, n5, n6, n7⟩ := nextIdx_eight
  rw [calc_area_pix_eq_sum]
  simp only [Finset.sum_range_succ, Finset.sum_range_zero, n0, n1, n2, n3, n4, n5, n6, n7,
    x0, y0, x1, y1, x2, y2, x3, y3, x4, y4, x5, y5, x6, y6, x7, y7]
  ring

theorem flat_centroidSums :
    centroidSums 8 (vertX flatOffsets 8) (vertY flatOffsets 8) = (0, 0) := by
  obtain ⟨⟨x0, y0⟩, ⟨x1, y1⟩, ⟨x2, y2⟩, ⟨x3, y3⟩, ⟨x4, y4⟩, ⟨x5, y5⟩, ⟨x6, y6⟩, ⟨x7, y7⟩⟩ :=
    flat_vertices
  obtain ⟨n0, n1, n2, n3, n4, n5, n6, n7⟩ := nextIdx_eight
  rw [centroidSums_eq_sum]
  simp only [Finset.sum_range_succ, Finset.sum_range_zero, n0, n1, n2, n3, n4, n5, n6, n7,
    x0, y0, x1, y1, x2, y2, x3, y3, x4, y4, x5, y5, x6, y6, x7, y7]
  congr 1 <;> ring

theorem flat_inertia (A : ℝ) :
    calc_inertia 8 (vertX flatOffsets 8) (vertY flatOffsets 8) A 0 0
      = (625 / 6 + 8125 / 4 * √2, 135000 + 58343125 / 12 * √2, 0) := by
  obtain ⟨⟨x0, y0⟩, ⟨x1, y1⟩, ⟨x2, y2⟩, ⟨x3, y3⟩, ⟨x4, y4⟩, ⟨x5, y5⟩, ⟨x6, y6⟩, ⟨x7, y7⟩⟩ :=
    flat_vertices
  obtain ⟨n0, n1, n2, n3, n4, n5, n6, n7⟩ := nextIdx_eight
  obtain ⟨q2, q3, q4⟩ := sqrt_two_powers
  rw [calc_inertia_eq_sum]
  simp only [Finset.sum_range_succ, Finset.sum_range_zero, n0, n1, n2, n3, n4, n5, n6, n7,
    x0, y0, x1, y1, x2, y2, x3, y3, x4, y4, x5, y5, x6, y6, x7, y7]
  refine Prod.ext ?_ (Prod.ext ?_ ?_)
  · simp only []
    ring_nf
    simp only [q2, q3, q4]
    ring
  · simp only []
    ring_nf
    simp only [q2, q3, q4]
    ring
  · simp only []
    ring_nf

end FlatOctagon

section AxisAligned

/-- The projection length on a nearly horizontal axis is the x extent of the vertices times
the scale. -/
theorem calc_projection_length_horizontal (x1 y1 x2 y2 : ℝ) (n : ℕ) (X Y : ℕ → ℝ) (s : ℝ)
    (ha : |y2 - y1| ≤ 0.5) (hb : |x2 - x1| > |y2 - y1|) (M m : ℝ)
    (hM : ∃ p < n, X p = M) (hMax : ∀ k < n, X k ≤ M)
    (hm : ∃ q < n, X q = m) (hMin : ∀ k < n, m ≤ X k) :
    calc_projection_length x1 y1 x2 y2 n X Y s = (M - m) * s := by
  obtain ⟨p, hp, hpM⟩ := hM
  obtain ⟨q, hq, hqm⟩ := hm
  obtain ⟨i, hi, j, hj, hval, hx, _⟩ :=
    calc_projection_length_spec x1 y1 x2 y2 n (by omega) X Y s
  obtain ⟨hmax, hmin⟩ := hx hb
  simp only [projectPoint_flat ha] at hval hmax hmin
  have hi' : X i = M := le_antisymm (hMax i hi) (by rw [← hpM]; exact hmax p hp)
  have hj' : X j = m := le_antisymm (by rw [← hqm]; exact hmin q hq) (hMin j hj)
  rw [hval, hi', hj']
  have hle : m ≤ M := by rw [← hpM]; exact hMin p hp
  have : (M - m) ^ 2 + (y1 - y1) ^ 2 = (M - m) ^ 2 := by ring
  rw [this, Real.sqrt_sq (by linarith)]

/-- The projection length on a nearly vertical axis is the y extent of the vertices times
the scale. -/
theorem calc_projection_length_vertical (x1 y1 x2 y2 : ℝ) (n : ℕ) (X Y : ℕ → ℝ) (s : ℝ)
    (ha : ¬ |y2 - y1| ≤ 0.5) (hb : |x2 - x1| ≤ 0.5) (M m : ℝ)
    (hM : ∃ p < n, Y p = M) (hMax : ∀ k < n, Y k ≤ M)
    (hm : ∃ q < n, Y q = m) (hMin : ∀ k < n, m ≤ Y k) :
    calc_projection_length x1 y1 x2 y2 n X Y s = (M - m) * s := by
  obtain ⟨p, hp, hpM⟩ := hM
  obtain ⟨q, hq, hqm⟩ := hm
  obtain ⟨i, hi, j, hj, hval, _, hy⟩ :=
    calc_projection_length_spec x1 y1 x2 y2 n (by omega) X Y s
  have hnb : ¬ |x2 - x1| > |y2 - y1| := by
    push_neg at ha ⊢
    linarith
  obtain ⟨hmax, hmin⟩ := hy hnb
  simp only [projectPoint_steep ha hb] at hval hmax hmin
  have hi' : Y i = M := le_antisymm (hMax i hi) (by rw [← hpM]; exact hmax p hp)
  have hj' : Y j = m := le_antisymm (by rw [← hqm]; exact hmin q hq) (hMin j hj)
  rw [hval, hi', hj']
  have hle : m ≤ M := by rw [← hpM]; exact hMin p hp
  have : (x1 - x1) ^ 2 + (M - m) ^ 2 = (M - m) ^ 2 := by ring
  rw [this, Real.sqrt_sq (by linarith)]

theorem atan2_zero_neg {d : ℝ} (hd : d < 0) : atan2 0 d = π := by
  unfold atan2
  exact Complex.arg_ofReal_of_neg hd

theorem atan2_zero_zero : atan2 0 0 = 0 := by
  unfold atan2
  exact Complex.arg_zero

theorem forall_lt_eight {P : ℕ → Prop} (h0 : P 0) (h1 : P 1) (h2 : P 2) (h3 : P 3) (h4 : P 4)
    (h5 : P 5) (h6 : P 6) (h7 : P 7) : ∀ k < 8, P k := by
  intro k hk
  interval_cases k <;> assumption

end AxisAligned

section FlatDescriptors

theorem sqrt_two_bounds : 1 < √2 ∧ √2 < 2 :=
  ⟨(Real.lt_sqrt (by norm_num)).mpr (by norm_num),
    (Real.sqrt_lt' (by norm_num)).mpr (by norm_num)⟩

theorem clampDiff_of_le_neg_one {d : ℝ} (hd : d ≤ -1) : clampDiff d = d := by
  unfold clampDiff
  simp only []
  have h1 : ¬ (d < 1 ∧ d > 0) := fun h => by linarith [h.2]
  rw [if_neg h1, if_neg (fun h => by linarith [h.1])]

theorem clampDiff_zero : clampDiff (0 : ℝ) = 0 := by
  unfold clampDiff
  simp

theorem flat_orientation :
    orientationOf 8 (vertX flatOffsets 8) (vertY flatOffsets 8) = 0 := by
  obtain ⟨hq1, hq2⟩ := sqrt_two_bounds
  unfold orientationOf calc_theta centreX centreY
  rw [flat_centroidSums]
  simp only [zero_div]
  rw [flat_inertia]
  unfold calc_principal
  simp only []
  have hd : (625 / 6 + 8125 / 4 * √2 - (135000 + 58343125 / 12 * √2)) / 2 < -1 := by
    nlinarith
  rw [clampDiff_of_le_neg_one hd.le, neg_zero, atan2_zero_neg (by linarith)]
  ring

theorem flat_ceDiameter_big : 1 < ceDiameter 1 8 (vertX flatOffsets 8) (vertY flatOffsets 8) := by
  unfold ceDiameter
  rw [flat_area]
  obtain ⟨hq1, hq2⟩ := sqrt_two_bounds
  have hpi := Real.pi_pos
  have hpi4 := Real.pi_lt_four
  rw [show (1 : ℝ) = √1 by simp]
  apply Real.sqrt_lt_sqrt (by norm_num)
  rw [Real.sqrt_one, lt_div_iff₀ hpi]
  nlinarith

theorem flat_preLength : preLength 1 8 (vertX flatOffsets 8) (vertY flatOffsets 8) = 360 := by
  obtain ⟨⟨x0, y0⟩, ⟨x1, y1⟩, ⟨x2, y2⟩, ⟨x3, y3⟩, ⟨x4, y4⟩, ⟨x5, y5⟩, ⟨x6, y6⟩, ⟨x7, y7⟩⟩ :=
    flat_vertices
  obtain ⟨hq1, hq2⟩ := sqrt_two_bounds
  have hD := flat_ceDiameter_big
  unfold preLength
  rw [flat_orientation]
  simp only [Real.cos_zero, Real.sin_zero, zero_mul, zero_div, sub_zero, add_zero, one_mul]
  rw [calc_projection_length_horizontal _ _ _ _ 8 _ _ 1 (by norm_num) (by
      simp only [sub_self, abs_zero]
      apply abs_pos.mpr
      unfold centreX
      rw [flat_centroidSums]
      simp only [zero_div, zero_sub, zero_add]
      intro h
      linarith) 180 (-180) ⟨0, by norm_num, x0⟩
    (forall_lt_eight (by rw [x0]) (by rw [x1]; linarith) (by rw [x2]; norm_num)
      (by rw [x3]; linarith) (by rw [x4]; norm_num) (by rw [x5]; linarith)
      (by rw [x6]; norm_num) (by rw [x7]; linarith))
    ⟨4, by norm_num, x4⟩
    (forall_lt_eight (by rw [x0]; norm_num) (by rw [x1]; linarith) (by rw [x2]; norm_num)
      (by rw [x3]; linarith) (by rw [x4]) (by rw [x5]; linarith)
      (by rw [x6]; norm_num) (by rw [x7]; linarith))]
  norm_num

theorem flat_preWidth : preWidth 1 8 (vertX flatOffsets 8) (vertY flatOffsets 8) = 10 := by
  obtain ⟨⟨x0, y0⟩, ⟨x1, y1⟩, ⟨x2, y2⟩, ⟨x3, y3⟩, ⟨x4, y4⟩, ⟨x5, y5⟩, ⟨x6, y6⟩, ⟨x7, y7⟩⟩ :=
    flat_vertices
  obtain ⟨hq1, hq2⟩ := sqrt_two_bounds
  have hD := flat_ceDiameter_big
  unfold preWidth
  rw [flat_orientation]
  simp only [Real.cos_zero, Real.sin_zero, zero_mul, zero_div, sub_zero, add_zero, one_mul]
  rw [calc_projection_length_vertical _ _ _ _ 8 _ _ 1 (by
      unfold centreY
      rw [flat_centroidSums]
      simp only [zero_div, zero_sub, zero_add]
      intro h
      have e : (ceDiameter 1 8 (vertX flatOffsets 8) (vertY flatOffsets 8) / (2 * 1)
          - -(ceDiameter 1 8 (vertX flatOffsets 8) (vertY flatOffsets 8) / (2 * 1)))
          = ceDiameter 1 8 (vertX flatOffsets 8) (vertY flatOffsets 8) := by ring
      rw [e, abs_of_pos (by linarith)] at h
      norm_num at h
      linarith) (by simp only [sub_self, abs_zero]; norm_num) 5 (-5) ⟨2, by norm_num, y2⟩
    (forall_lt_eight (by rw [y0]; norm_num) (by rw [y1]; linarith) (by rw [y2])
      (by rw [y3]; linarith) (by rw [y4]; norm_num) (by rw [y5]; linarith)
      (by rw [y6]; norm_num) (by rw [y7]; linarith))
    ⟨6, by norm_num, y6⟩
    (forall_lt_eight (by rw [y0]; norm_num) (by rw [y1]; linarith) (by rw [y2]; norm_num)
      (by rw [y3]; linarith) (by rw [y4]; norm_num) (by rw [y5]; linarith)
      (by rw [y6]) (by rw [y7]; linarith))]
  norm_num

/-- C7. For `nDim = 8` and the offsets `(1, 0, 0, 0, 1, 0, 0, 0)` at scale 1 the record has
`length = 360`, `width = 10`, `aspectRatio = 1/36` and `elongation = 35/36`. -/
theorem flat_octagon_descriptors :
    (get_particle_parameters 1 flatOffsets 8).length = 360
      ∧ (get_particle_parameters 1 flatOffsets 8).width = 10
      ∧ (get_particle_parameters 1 flatOffsets 8).aspectRatio = 1 / 36
      ∧ (get_particle_parameters 1 flatOffsets 8).elongation = 35 / 36 := by
  rw [gpp_length, gpp_width, gpp_aspectRatio, gpp_elongation, flat_preLength, flat_preWidth]
  have h : ¬ ((10 : ℝ) / 360 > 1) := by norm_num
  simp only [h, if_false]
  norm_num

end FlatDescriptors

section HalfOctagon

theorem half_vertices :
    (vertX halfOffsets 8 0 = 185 / 2 ∧ vertY halfOffsets 8 0 = 0)
    ∧ (vertX halfOffsets 8 1 = √2 / 2 * (185 / 2) ∧ vertY halfOffsets 8 1 = √2 / 2 * (185 / 2))
    ∧ (vertX halfOffsets 8 2 = 0 ∧ vertY halfOffsets 8 2 = 185 / 2)
    ∧ (vertX halfOffsets 8 3 = -(√2 / 2) * (185 / 2)
        ∧ vertY halfOffsets 8 3 = √2 / 2 * (185 / 2))
    ∧ (vertX halfOffsets 8 4 = -(185 / 2) ∧ vertY halfOffsets 8 4 = 0)
    ∧ (vertX halfOffsets 8 5 = -(√2 / 2) * (185 / 2)
        ∧ vertY halfOffsets 8 5 = -(√2 / 2) * (185 / 2))
    ∧ (vertX halfOffsets 8 6 = 0 ∧ vertY halfOffsets 8 6 = -(185 / 2))
    ∧ (vertX halfOffsets 8 7 = √2 / 2 * (185 / 2)
        ∧ vertY halfOffsets 8 7 = -(√2 / 2) * (185 / 2)) := by
  have h := octagon_vertices halfOffsets
  simp only [halfOffsets] at h ⊢
  norm_num at h ⊢
  exact h

theorem half_area :
    calc_area_pix 8 (vertX halfOffsets 8) (vertY halfOffsets 8) = 34225 / 2 * √2 := by
  obtain ⟨⟨x0, y0⟩, ⟨x1, y1⟩, ⟨x2, y2⟩, ⟨x3, y3⟩, ⟨x4, y4⟩, ⟨x5, y5⟩, ⟨x6, y6⟩, ⟨x7, y7⟩⟩ :=
    half_vertices
  obtain ⟨n0, n1, n2, n3, n4, n5, n6, n7⟩ := nextIdx_eight
  rw [calc_area_pix_eq_sum]
  simp only [Finset.sum_range_succ, Finset.sum_range_zero, n0, n1, n2, n3, n4, n5, n6, n7,
    x0, y0, x1, y1, x2, y2, x3, y3, x4, y4, x5, y5, x6, y6, x7, y7]
  ring

theorem half_centroidSums :
    centroidSums 8 (vertX halfOffsets 8) (vertY halfOffsets 8) = (0, 0) := by
  obtain ⟨⟨x0, y0⟩, ⟨x1, y1⟩, ⟨x2, y2⟩, ⟨x3, y3⟩, ⟨x4, y4⟩, ⟨x5, y5⟩, ⟨x6, y6⟩, ⟨x7, y7⟩⟩ :=
    half_vertices
  obtain ⟨n0, n1, n2, n3, n4, n5, n6, n7⟩ := nextIdx_eight
  rw [centroidSums_eq_sum]
  simp only [Finset.sum_range_succ, Finset.sum_range_zero, n0, n1, n2, n3, n4, n5, n6, n7,
    x0, y0, x1, y1, x2, y2, x3, y3, x4, y4, x5, y5, x6, y6, x7, y7]
  congr 1 <;> ring

theorem half_inertia (A : ℝ) :
    calc_inertia 8 (vertX halfOffsets 8) (vertY halfOffsets 8) A 0 0
      = (1171350625 / 96 + 1171350625 / 48 * √2, 1171350625 / 96 + 1171350625 / 48 * √2, 0) := by
  obtain ⟨⟨x0, y0⟩, ⟨x1, y1⟩, ⟨x2, y2⟩, ⟨x3, y3⟩, ⟨x4, y4⟩, ⟨x5, y5⟩, ⟨x6, y6⟩, ⟨x7, y7⟩⟩ :=
    half_vertices
  obtain ⟨n0, n1, n2, n3, n4, n5, n6, n7⟩ := nextIdx_eight
  obtain ⟨q2, q3, q4⟩ := sqrt_two_powers
  rw [calc_inertia_eq_sum]
  simp only [Finset.sum_range_succ, Finset.sum_range_zero, n0, n1, n2, n3, n4, n5, n6, n7,
    x0, y0, x1, y1, x2, y2, x3, y3, x4, y4, x5, y5, x6, y6, x7, y7]
  refine Prod.ext ?_ (Prod.ext ?_ ?_)
  · simp only []
    ring_nf
    simp only [q2, q3, q4]
    ring
  · simp only []
    ring_nf
    simp only [q2, q3, q4]
    ring
  · simp only []
    ring_nf

end HalfOctagon

section HalfDescriptors

variable {s : ℝ}

theorem half_offsets_ok : ∀ i < 8, 0 ≤ halfOffsets i ∧ halfOffsets i ≤ 1 := by
  intro i _
  unfold halfOffsets
  constructor <;> norm_num

theorem half_orientation :
    orientationOf 8 (vertX halfOffsets 8) (vertY halfOffsets 8) = π / 2 := by
  unfold orientationOf calc_theta centreX centreY
  rw [half_centroidSums]
  simp only [zero_div]
  rw [half_inertia]
  unfold calc_principal
  simp only [sub_self, zero_div, clampDiff_zero, neg_zero, atan2_zero_zero, sub_zero]

theorem half_axis_big (hs : 0 < s) :
    1 / 2 < |2 * (ceDiameter s 8 (vertX halfOffsets 8) (vertY halfOffsets 8) / (2 * s))| := by
  have h := axis_long (le_of_lt (by norm_num : 3 < 8)) half_offsets_ok hs
  set R := ceDiameter s 8 (vertX halfOffsets 8) (vertY halfOffsets 8) / (2 * s)
  have h2 : (1 / 2 : ℝ) ^ 2 < |2 * R| ^ 2 := by
    rw [sq_abs]; nlinarith
  exact lt_of_pow_lt_pow_left₀ 2 (abs_nonneg _) h2

theorem half_preLength (hs : 0 < s) :
    preLength s 8 (vertX halfOffsets 8) (vertY halfOffsets 8) = 2 * 92.5 * s := by
  obtain ⟨⟨x0, y0⟩, ⟨x1, y1⟩, ⟨x2, y2⟩, ⟨x3, y3⟩, ⟨x4, y4⟩, ⟨x5, y5⟩, ⟨x6, y6⟩, ⟨x7, y7⟩⟩ :=
    half_vertices
  obtain ⟨hq1, hq2⟩ := sqrt_two_bounds
  have hR := half_axis_big hs
  unfold preLength
  rw [half_orientation]
  simp only [Real.cos_pi_div_two, Real.sin_pi_div_two, zero_mul, zero_div, sub_zero, add_zero,
    one_mul]
  unfold centreY
  rw [half_centroidSums]
  simp only [zero_div, zero_sub, zero_add]
  rw [calc_projection_length_vertical _ _ _ _ 8 _ _ s (by
      intro h
      have e : (ceDiameter s 8 (vertX halfOffsets 8) (vertY halfOffsets 8) / (2 * s)
          - -(ceDiameter s 8 (vertX halfOffsets 8) (vertY halfOffsets 8) / (2 * s)))
          = 2 * (ceDiameter s 8 (vertX halfOffsets 8) (vertY halfOffsets 8) / (2 * s)) := by
        ring
      rw [e] at h
      norm_num at h
      linarith) (by simp only [sub_self, abs_zero]; norm_num) (185 / 2) (-(185 / 2))
    ⟨2, by norm_num, y2⟩
    (forall_lt_eight (by rw [y0]; norm_num) (by rw [y1]; linarith) (by rw [y2])
      (by rw [y3]; linarith) (by rw [y4]; norm_num) (by rw [y5]; linarith)
      (by rw [y6]; norm_num) (by rw [y7]; linarith))
    ⟨6, by norm_num, y6⟩
    (forall_lt_eight (by rw [y0]; norm_num) (by rw [y1]; linarith) (by rw [y2]; norm_num)
      (by rw [y3]; linarith) (by rw [y4]; norm_num) (by rw [y5]; linarith)
      (by rw [y6]) (by rw [y7]; linarith))]
  norm_num

theorem half_preWidth (hs : 0 < s) :
    preWidth s 8 (vertX halfOffsets 8) (vertY halfOffsets 8) = 2 * 92.5 * s := by
  obtain ⟨⟨x0, y0⟩, ⟨x1, y1⟩, ⟨x2, y2⟩, ⟨x3, y3⟩, ⟨x4, y4⟩, ⟨x5, y5⟩, ⟨x6, y6⟩, ⟨x7, y7⟩⟩ :=
    half_vertices
  obtain ⟨hq1, hq2⟩ := sqrt_two_bounds
  have hR := half_axis_big hs
  unfold preWidth
  rw [half_orientation]
  simp only [Real.cos_pi_div_two, Real.sin_pi_div_two, zero_mul, zero_div, sub_zero, add_zero,
    one_mul]
  unfold centreX
  rw [half_centroidSums]
  simp only [zero_div, zero_sub, zero_add]
  have e : (ceDiameter s 8 (vertX halfOffsets 8) (vertY halfOffsets 8) / (2 * s)
      - -(ceDiameter s 8 (vertX halfOffsets 8) (vertY halfOffsets 8) / (2 * s)))
      = 2 * (ceDiameter s 8 (vertX halfOffsets 8) (vertY halfOffsets 8) / (2 * s)) := by
    ring
  rw [calc_projection_length_horizontal _ _ _ _ 8 _ _ s
    (by simp only [sub_self, abs_zero]; norm_num)
    (by simp only [sub_self, abs_zero]; rw [e]; linarith) (185 / 2) (-(185 / 2))
    ⟨0, by norm_num, x0⟩
    (forall_lt_eight (by rw [x0]) (by rw [x1]; linarith) (by rw [x2]; norm_num)
      (by rw [x3]; linarith) (by rw [x4]; norm_num) (by rw [x5]; linarith)
      (by rw [x6]; norm_num) (by rw [x7]; linarith))
    ⟨4, by norm_num, x4⟩
    (forall_lt_eight (by rw [x0]; norm_num) (by rw [x1]; linarith) (by rw [x2]; norm_num)
      (by rw [x3]; linarith) (by rw [x4]) (by rw [x5]; linarith)
      (by rw [x6]; norm_num) (by rw [x7]; linarith))]
  norm_num

end HalfDescriptors

section HalfAxes

theorem gpp_centre (s : ℝ) (o : ℕ → ℝ) (n : ℕ) :
    (get_particle_parameters s o n).centreXPos = centreX n (vertX o n) (vertY o n)
      ∧ (get_particle_parameters s o n).centreYPos = centreY n (vertX o n) (vertY o n) :=
  ⟨rfl, rfl⟩

/-- C6. For `nDim = 8` with every offset 0.5 and any scale `imgScale > 0`: the second
moments satisfy `Ixx = Iyy` and `Ixy = 0`, the clamp leaves `(Ixx - Iyy) / 2` unchanged, both
projection lengths are `2 * 92.5 * imgScale`, the axis test `width / length > 1` fails (no
swap), `aspectRatio = 1` and `elongation = 0`. -/
theorem regular_octagon_elongation (imgScale : ℝ) (hs : 0 < imgScale) :
    (calc_inertia 8 (vertX halfOffsets 8) (vertY halfOffsets 8)
        (get_particle_parameters imgScale halfOffsets 8).areaPixels
        (get_particle_parameters imgScale halfOffsets 8).centreXPos
        (get_particle_parameters imgScale halfOffsets 8).centreYPos).1
      = (calc_inertia 8 (vertX halfOffsets 8) (vertY halfOffsets 8)
        (get_particle_parameters imgScale halfOffsets 8).areaPixels
        (get_particle_parameters imgScale halfOffsets 8).centreXPos
        (get_particle_parameters imgScale halfOffsets 8).centreYPos).2.1
    ∧ (calc_inertia 8 (vertX halfOffsets 8) (vertY halfOffsets 8)
        (get_particle_parameters imgScale halfOffsets 8).areaPixels
        (get_particle_parameters imgScale halfOffsets 8).centreXPos
        (get_particle_parameters imgScale halfOffsets 8).centreYPos).2.2 = 0
    ∧ clampDiff (((calc_inertia 8 (vertX halfOffsets 8) (vertY halfOffsets 8)
        (get_particle_parameters imgScale halfOffsets 8).areaPixels
        (get_particle_parameters imgScale halfOffsets 8).centreXPos
        (get_particle_parameters imgScale halfOffsets 8).centreYPos).1
      - (calc_inertia 8 (vertX halfOffsets 8) (vertY halfOffsets 8)
        (get_particle_parameters imgScale halfOffsets 8).areaPixels
        (get_particle_parameters imgScale halfOffsets 8).centreXPos
        (get_particle_parameters imgScale halfOffsets 8).centreYPos).2.1) / 2) = 0
    ∧ preLength imgScale 8 (vertX halfOffsets 8) (vertY halfOffsets 8) = 2 * 92.5 * imgScale
    ∧ preWidth imgScale 8 (vertX halfOffsets 8) (vertY halfOffsets 8) = 2 * 92.5 * imgScale
    ∧ ¬ (preWidth imgScale 8 (vertX halfOffsets 8) (vertY halfOffsets 8)
          / preLength imgScale 8 (vertX halfOffsets 8) (vertY halfOffsets 8) > 1)
    ∧ (get_particle_parameters imgScale halfOffsets 8).length = 2 * 92.5 * imgScale
    ∧ (get_particle_parameters imgScale halfOffsets 8).width = 2 * 92.5 * imgScale
    ∧ (get_particle_parameters imgScale halfOffsets 8).aspectRatio = 1
    ∧ (get_particle_parameters imgScale halfOffsets 8).elongation = 0 := by
  have hI : calc_inertia 8 (vertX halfOffsets 8) (vertY halfOffsets 8)
        (get_particle_parameters imgScale halfOffsets 8).areaPixels
        (get_particle_parameters imgScale halfOffsets 8).centreXPos
        (get_particle_parameters imgScale halfOffsets 8).centreYPos
      = (1171350625 / 96 + 1171350625 / 48 * √2, 1171350625 / 96 + 1171350625 / 48 * √2, 0) := by
    rw [(gpp_centre _ _ _).1, (gpp_centre _ _ _).2]
    unfold centreX centreY
    rw [half_centroidSums]
    simp only [zero_div]
    exact half_inertia _
  have hL := half_preLength hs
  have hW := half_preWidth hs
  have hpos : (0 : ℝ) < 2 * 92.5 * imgScale := by positivity
  have hratio : (2 * 92.5 * imgScale) / (2 * 92.5 * imgScale) = 1 := div_self hpos.ne'
  have hno : ¬ (preWidth imgScale 8 (vertX halfOffsets 8) (vertY halfOffsets 8)
      / preLength imgScale 8 (vertX halfOffsets 8) (vertY halfOffsets 8) > 1) := by
    rw [hL, hW, hratio]; exact lt_irrefl 1
  refine ⟨by rw [hI], by rw [hI], by rw [hI]; simp only [sub_self, zero_div, clampDiff_zero],
    hL, hW, hno, ?_, ?_, ?_, ?_⟩
  · rw [gpp_length, if_neg hno, hL]
  · rw [gpp_width, if_neg hno, hW]
  · rw [gpp_aspectRatio, if_neg hno, hL, hW, hratio]
  · rw [gpp_elongation, if_neg hno, hL, hW, hratio]; norm_num

theorem regular_octagon_elongation_witness :
    (0 : ℝ) < 1
      ∧ (get_particle_parameters 1 halfOffsets 8).length = 2 * 92.5 * 1
      ∧ (get_particle_parameters 1 halfOffsets 8).width = 2 * 92.5 * 1
      ∧ (get_particle_parameters 1 halfOffsets 8).aspectRatio = 1
      ∧ (get_particle_parameters 1 halfOffsets 8).elongation = 0 :=
  ⟨one_pos, (regular_octagon_elongation 1 one_pos).2.2.2.2.2.2⟩

end HalfAxes

section Edges

/-- The squared length of the edge from vertex `i` to its ring successor, by the law of
cosines. -/
theorem edge_sq (o : ℕ → ℝ) (n i : ℕ) (hi : i < n) :
    (vertX o n (nextIdx n i) - vertX o n i) ^ 2 + (vertY o n (nextIdx n i) - vertY o n i) ^ 2
      = (175 * o (nextIdx n i) + 5) ^ 2 + (175 * o i + 5) ^ 2
          - 2 * (175 * o i + 5) * (175 * o (nextIdx n i) + 5) * cos (2 * π / n) := by
  rw [vertX_eq, vertY_eq, vertX_eq, vertY_eq, ← (angle_step n i hi).2, Real.cos_sub]
  have h1 := Real.cos_sq_add_sin_sq ((nextIdx n i : ℝ) * (2 * π / n))
  have h2 := Real.cos_sq_add_sin_sq ((i : ℝ) * (2 * π / n))
  linear_combination (175 * o (nextIdx n i) + 5) ^ 2 * h1 + (175 * o i + 5) ^ 2 * h2

theorem sqrt_two_sub_bounds :
    √(2 - √2) ^ 2 = 2 - √2 ∧ √(2 + √2) ^ 2 = 2 + √2 ∧ √(2 - √2) * √(2 + √2) = √2
      ∧ 0 < √(2 - √2) ∧ 0 < √(2 + √2) := by
  obtain ⟨hq1, hq2⟩ := sqrt_two_bounds
  obtain ⟨q2, _, _⟩ := sqrt_two_powers
  refine ⟨Real.sq_sqrt (by linarith), Real.sq_sqrt (by linarith), ?_,
    Real.sqrt_pos.mpr (by linarith), Real.sqrt_pos.mpr (by linarith)⟩
  rw [← Real.sqrt_mul (by linarith)]
  congr 1
  nlinarith

theorem half_perimeter :
    calc_perimeter_pix 8 (vertX halfOffsets 8) (vertY halfOffsets 8) = 740 * √(2 - √2) := by
  obtain ⟨hq1, hq2⟩ := sqrt_two_bounds
  have hc : cos (2 * π / ((8 : ℕ) : ℝ)) = √2 / 2 := by
    have := octant_cos.2.1
    simpa using this
  have hedge : ∀ i ∈ Finset.range 8,
      √((vertX halfOffsets 8 (nextIdx 8 i) - vertX halfOffsets 8 i) ^ 2
          + (vertY halfOffsets 8 (nextIdx 8 i) - vertY halfOffsets 8 i) ^ 2)
        = 185 / 2 * √(2 - √2) := by
    intro i hi
    rw [edge_sq halfOffsets 8 i (Finset.mem_range.mp hi), hc]
    simp only [halfOffsets]
    have e : ((175 * 0.5 + 5) ^ 2 + (175 * 0.5 + 5) ^ 2
        - 2 * (175 * 0.5 + 5) * (175 * 0.5 + 5) * (√2 / 2) : ℝ)
        = (185 / 2) ^ 2 * (2 - √2) := by ring
    rw [e, Real.sqrt_mul (by positivity), Real.sqrt_sq (by norm_num)]
  rw [calc_perimeter_pix_eq_sum, Finset.sum_congr rfl hedge]
  simp only [Finset.sum_const, Finset.card_range, nsmul_eq_mul]
  push_cast
  ring

/-- The tangent of `π / 8` is the ratio of `sqrt (2 - sqrt 2)` to `sqrt (2 + sqrt 2)`. -/
theorem tan_pi_div_eight : tan (π / 8) = √(2 - √2) / √(2 + √2) := by
  rw [Real.tan_eq_sin_div_cos, Real.sin_pi_div_eight, Real.cos_pi_div_eight]
  obtain ⟨_, _, _, hu, hv⟩ := sqrt_two_sub_bounds
  field_simp

end Edges

section HalfCircularity

variable {s : ℝ}

theorem half_HSCircularity (hs : 0 < s) :
    (get_particle_parameters s halfOffsets 8).HSCircularity = π / 8 / tan (π / 8) := by
  obtain ⟨hu2, hv2, huv, hu, hv⟩ := sqrt_two_sub_bounds
  have hpi := Real.pi_pos
  rw [gpp_HSCircularity, tan_pi_div_eight]
  unfold perimeterUm
  rw [half_area, half_perimeter]
  generalize √(2 - √2) = u at *
  generalize √(2 + √2) = v at *
  generalize √2 = q at *
  field_simp
  linear_combination (-(1095200 : ℝ) * π * s ^ 2 * u) * huv

end HalfCircularity

section CircularityValue

variable {s : ℝ}

theorem hs_value : π / 8 / tan (π / 8) = π * √2 / (8 * (2 - √2)) := by
  obtain ⟨hu2, hv2, huv, hu, hv⟩ := sqrt_two_sub_bounds
  obtain ⟨hq1, hq2⟩ := sqrt_two_bounds
  have hpi := Real.pi_pos
  rw [tan_pi_div_eight]
  have hden : (2 : ℝ) - √2 ≠ 0 := by linarith
  generalize √(2 - √2) = u at *
  generalize √(2 + √2) = v at *
  generalize √2 = q at *
  field_simp
  linear_combination (-(8 : ℝ) * π * v) * hu2 + (8 * π * u) * huv

theorem hs_bounds : 0.94 < π / 8 / tan (π / 8) ∧ π / 8 / tan (π / 8) < 1 := by
  rw [hs_value]
  have hq1 : (1.414 : ℝ) < √2 := (Real.lt_sqrt (by norm_num)).mpr (by norm_num)
  have hq2 : √2 < 1.415 := (Real.sqrt_lt' (by norm_num)).mpr (by norm_num)
  have hp1 := Real.pi_gt_d2
  have hp2 := Real.pi_lt_d2
  have hden : (0 : ℝ) < 8 * (2 - √2) := by linarith
  constructor
  · rw [lt_div_iff₀ hden]
    nlinarith
  · rw [div_lt_one hden]
    nlinarith

theorem half_circularity (hs : 0 < s) :
    (get_particle_parameters s halfOffsets 8).circularity = √(π / 8 / tan (π / 8)) := by
  rw [← half_HSCircularity hs, gpp_circularity, gpp_HSCircularity]
  obtain ⟨hu2, hv2, huv, hu, hv⟩ := sqrt_two_sub_bounds
  have hpi := Real.pi_pos
  have hP : 0 < perimeterUm s 8 (vertX halfOffsets 8) (vertY halfOffsets 8) := by
    unfold perimeterUm
    rw [half_perimeter]
    positivity
  have hA : 0 ≤ π * (s ^ 2 * calc_area_pix 8 (vertX halfOffsets 8) (vertY halfOffsets 8)) := by
    rw [half_area]
    positivity
  set P := perimeterUm s 8 (vertX halfOffsets 8) (vertY halfOffsets 8)
  set B := s ^ 2 * calc_area_pix 8 (vertX halfOffsets 8) (vertY halfOffsets 8)
  have hnn : 0 ≤ 2 * √(π * B) / P := by positivity
  rw [← Real.sqrt_sq hnn]
  congr 1
  rw [div_pow, mul_pow, Real.sq_sqrt hA]
  ring

/-- C5. For `nDim = 8` with every offset 0.5 and any scale `imgScale > 0`,
`HSCircularity = (π / 8) / tan (π / 8)` and `circularity = sqrt ((π / 8) / tan (π / 8))`,
each within 0.06 of 1. -/
theorem regular_octagon_circularity (imgScale : ℝ) (hs : 0 < imgScale) :
    (get_particle_parameters imgScale halfOffsets 8).HSCircularity = π / 8 / tan (π / 8)
      ∧ (get_particle_parameters imgScale halfOffsets 8).circularity = √(π / 8 / tan (π / 8))
      ∧ |(get_particle_parameters imgScale halfOffsets 8).HSCircularity - 1| < 0.06
      ∧ |(get_particle_parameters imgScale halfOffsets 8).circularity - 1| < 0.06 := by
  obtain ⟨h1, h2⟩ := hs_bounds
  refine ⟨half_HSCircularity hs, half_circularity hs, ?_, ?_⟩
  · rw [half_HSCircularity hs, abs_lt]
    constructor <;> linarith
  · rw [half_circularity hs, abs_lt]
    have hlow : (0.94 : ℝ) < √(π / 8 / tan (π / 8)) := by
      apply (Real.lt_sqrt (by norm_num)).mpr
      nlinarith
    have hup : √(π / 8 / tan (π / 8)) < 1 := by
      apply (Real.sqrt_lt' (by norm_num)).mpr
      linarith
    constructor <;> linarith

theorem regular_octagon_circularity_witness :
    (0 : ℝ) < 1
      ∧ (get_particle_parameters 1 halfOffsets 8).HSCircularity = π / 8 / tan (π / 8)
      ∧ (get_particle_parameters 1 halfOffsets 8).circularity = √(π / 8 / tan (π / 8))
      ∧ |(get_particle_parameters 1 halfOffsets 8).HSCircularity - 1| < 0.06
      ∧ |(get_particle_parameters 1 halfOffsets 8).circularity - 1| < 0.06 :=
  ⟨one_pos, regular_octagon_circularity 1 one_pos⟩

end CircularityValue

/-! ## The hull sweep -/

section CrossProducts

variable {K : Type} [LinearOrderedField K]

theorem turn_eq (a b c : K × K) :
    turn a b c = (b.1 - a.1) * (c.2 - a.2) - (b.2 - a.2) * (c.1 - a.1) := rfl

/-- Transitivity of "turns left of" among vectors pointing right or straight up. -/
theorem cross_trans_weak (u v w : K × K) (hu : RightUp u ∨ u = (0, 0)) (hv : RightUp v)
    (hw : RightUp w ∨ w = (0, 0)) (huv : 0 ≤ u.1 * v.2 - u.2 * v.1)
    (hvw : 0 ≤ v.1 * w.2 - v.2 * w.1) : 0 ≤ u.1 * w.2 - u.2 * w.1 := by
  have hu1 : 0 ≤ u.1 := by
    rcases hu with (h | h) | h
    · exact h.le
    · exact h.1.ge
    · rw [h]
  have hw1 : 0 ≤ w.1 := by
    rcases hw with (h | h) | h
    · exact h.le
    · exact h.1.ge
    · rw [h]
  rcases hv with hv | ⟨hv1, hv2⟩
  · have key : (u.1 * w.2 - u.2 * w.1) * v.1
        = (u.1 * v.2 - u.2 * v.1) * w.1 + (v.1 * w.2 - v.2 * w.1) * u.1 := by ring
    have : 0 ≤ (u.1 * w.2 - u.2 * w.1) * v.1 := by
      rw [key]; exact add_nonneg (mul_nonneg huv hw1) (mul_nonneg hvw hu1)
    exact nonneg_of_mul_nonneg_left this hv
  · rw [hv1] at huv hvw
    have hw0 : w.1 = 0 := by
      have : v.2 * w.1 ≤ 0 := by linarith
      have := nonpos_of_mul_nonpos_right this hv2
      exact le_antisymm this hw1
    have hw2 : 0 ≤ w.2 := by
      rcases hw with (h | h) | h
      · rw [hw0] at h; exact absurd h (lt_irrefl 0)
      · exact h.2.le
      · rw [h]
    rw [hw0]
    have := mul_nonneg hu1 hw2
    linarith

theorem cross_trans_strict (u v w : K × K) (hu : RightUp u) (hv : RightUp v)
    (hw : RightUp w) (huv : 0 < u.1 * v.2 - u.2 * v.1)
    (hvw : 0 < v.1 * w.2 - v.2 * w.1) : 0 < u.1 * w.2 - u.2 * w.1 := by
  have hu1 : 0 ≤ u.1 := by
    rcases hu with h | h
    · exact h.le
    · exact h.1.ge
  have hw1 : 0 ≤ w.1 := by
    rcases hw with h | h
    · exact h.le
    · exact h.1.ge
  rcases hv with hv | ⟨hv1, hv2⟩
  · have key : (u.1 * w.2 - u.2 * w.1) * v.1
        = (u.1 * v.2 - u.2 * v.1) * w.1 + (v.1 * w.2 - v.2 * w.1) * u.1 := by ring
    have hpos : 0 < (u.1 * w.2 - u.2 * w.1) * v.1 := by
      rw [key]
      rcases hu1.lt_or_eq with h | h
      · exact add_pos_of_nonneg_of_pos (mul_nonneg huv.le hw1) (mul_pos hvw h)
      · exfalso
        rw [← h] at huv
        rcases hu with h' | h'
        · rw [← h] at h'; exact lt_irrefl 0 h'
        · have := mul_pos h'.2 hv
          linarith
    exact pos_of_mul_pos_left hpos hv.le
  · exfalso
    rw [hv1] at hvw
    have : 0 ≤ v.2 * w.1 := mul_nonneg hv2.le hw1
    linarith

end CrossProducts
section SweepOrder

variable {K : Type} [LinearOrderedField K]

theorem RightUp.add {u v : K × K} (hu : RightUp u) (hv : RightUp v) :
    RightUp (u.1 + v.1, u.2 + v.2) := by
  unfold RightUp at *
  rcases hu with hu | ⟨hu1, hu2⟩ <;> rcases hv with hv | ⟨hv1, hv2⟩
  · left; simp only []; linarith
  · left; simp only []; linarith
  · left; simp only []; linarith
  · right; simp only []; exact ⟨by linarith, by linarith⟩

theorem Ahead.trans_ahead {σ : K} {a b c : K × K} (h1 : Ahead σ a b) (h2 : Ahead σ b c) :
    Ahead σ a c := by
  have := RightUp.add h1 h2
  unfold Ahead
  simp only [] at this
  have e1 : σ * (c.1 - a.1) = σ * (b.1 - a.1) + σ * (c.1 - b.1) := by ring
  have e2 : σ * (c.2 - a.2) = σ * (b.2 - a.2) + σ * (c.2 - b.2) := by ring
  rw [e1, e2]
  exact this

theorem Ahead.ne {σ : K} {a b : K × K} (h : Ahead σ a b) : a ≠ b := by
  intro hab
  subst hab
  unfold Ahead RightUp at h
  simp at h

/-- A point `q` at or before `b`, on the left of the edge `a b`, is on the left of the edge
`b p` when `a b p` turns left. -/
theorem turn_before {σ : K} (hσ : σ * σ = 1) (a b p q : K × K) (hab : Ahead σ a b) (hbp : Ahead σ b p)
    (hq : Ahead σ q b ∨ q = b) (h1 : 0 ≤ turn a b q) (h2 : 0 < turn a b p) :
    0 ≤ turn b p q := by
  have hu : RightUp (σ * (b.1 - q.1), σ * (b.2 - q.2))
      ∨ (σ * (b.1 - q.1), σ * (b.2 - q.2)) = (0, 0) := by
    rcases hq with h | h
    · exact Or.inl h
    · right; rw [h]; simp
  have := cross_trans_weak (σ * (b.1 - q.1), σ * (b.2 - q.2))
    (σ * (b.1 - a.1), σ * (b.2 - a.2)) (σ * (p.1 - b.1), σ * (p.2 - b.2)) hu hab (Or.inl hbp)
    (by
      have e : (σ * (b.1 - q.1)) * (σ * (b.2 - a.2)) - (σ * (b.2 - q.2)) * (σ * (b.1 - a.1))
          = turn a b q := by
        rw [turn_eq]
        linear_combination ((b.1 - q.1) * (b.2 - a.2) - (b.2 - q.2) * (b.1 - a.1)) * hσ
      simp only []
      rw [e]; exact h1)
    (by
      have e : (σ * (b.1 - a.1)) * (σ * (p.2 - b.2)) - (σ * (b.2 - a.2)) * (σ * (p.1 - b.1))
          = turn a b p := by
        rw [turn_eq]
        linear_combination ((b.1 - a.1) * (p.2 - b.2) - (b.2 - a.2) * (p.1 - b.1)) * hσ
      simp only []
      rw [e]; exact h2.le)
  have e : (σ * (b.1 - q.1)) * (σ * (p.2 - b.2)) - (σ * (b.2 - q.2)) * (σ * (p.1 - b.1))
      = turn b p q := by
    rw [turn_eq]
    linear_combination ((b.1 - q.1) * (p.2 - b.2) - (b.2 - q.2) * (p.1 - b.1)) * hσ
  simp only [] at this
  rw [e] at this
  exact this

/-- A point `q` at or after `b`, on the left of the edge `b c`, is on the left of the edge
`b p` when `p` is on the right of the edge `b c`. -/
theorem turn_after {σ : K} (hσ : σ * σ = 1) (b c p q : K × K) (hbc : Ahead σ b c) (hbp : Ahead σ b p)
    (hq : Ahead σ b q ∨ q = b) (h1 : turn b c p ≤ 0) (h2 : 0 ≤ turn b c q) :
    0 ≤ turn b p q := by
  have hw : RightUp (σ * (q.1 - b.1), σ * (q.2 - b.2))
      ∨ (σ * (q.1 - b.1), σ * (q.2 - b.2)) = (0, 0) := by
    rcases hq with h | h
    · exact Or.inl h
    · right; rw [h]; simp
  have := cross_trans_weak (σ * (p.1 - b.1), σ * (p.2 - b.2))
    (σ * (c.1 - b.1), σ * (c.2 - b.2)) (σ * (q.1 - b.1), σ * (q.2 - b.2)) (Or.inl hbp) hbc hw
    (by
      have e : (σ * (p.1 - b.1)) * (σ * (c.2 - b.2)) - (σ * (p.2 - b.2)) * (σ * (c.1 - b.1))
          = -turn b c p := by
        rw [turn_eq]
        linear_combination ((p.1 - b.1) * (c.2 - b.2) - (p.2 - b.2) * (c.1 - b.1)) * hσ
      simp only []
      rw [e]; linarith)
    (by
      have e : (σ * (c.1 - b.1)) * (σ * (q.2 - b.2)) - (σ * (c.2 - b.2)) * (σ * (q.1 - b.1))
          = turn b c q := by
        rw [turn_eq]
        linear_combination ((c.1 - b.1) * (q.2 - b.2) - (c.2 - b.2) * (q.1 - b.1)) * hσ
      simp only []
      rw [e]; exact h2)
  have e : (σ * (p.1 - b.1)) * (σ * (q.2 - b.2)) - (σ * (p.2 - b.2)) * (σ * (q.1 - b.1))
      = turn b p q := by
    rw [turn_eq]
    linear_combination ((p.1 - b.1) * (q.2 - b.2) - (p.2 - b.2) * (q.1 - b.1)) * hσ
  simp only [] at this
  rw [e] at this
  exact this

/-- Along a left-turning chain in sweep order, a later point is strictly on the left of
every earlier edge. -/
theorem turn_chain {σ : K} (hσ : σ * σ = 1) (a2 a b p : K × K) (h0 : Ahead σ a2 a) (hab : Ahead σ a b)
    (hap : Ahead σ a p) (h1 : 0 < turn a2 a b) (h2 : 0 < turn a b p) : 0 < turn a2 a p := by
  have := cross_trans_strict (σ * (a.1 - a2.1), σ * (a.2 - a2.2))
    (σ * (b.1 - a.1), σ * (b.2 - a.2)) (σ * (p.1 - a.1), σ * (p.2 - a.2)) h0 hab hap
    (by
      have e : (σ * (a.1 - a2.1)) * (σ * (b.2 - a.2)) - (σ * (a.2 - a2.2)) * (σ * (b.1 - a.1))
          = turn a2 a b := by
        rw [turn_eq]
        linear_combination ((a.1 - a2.1) * (b.2 - a.2) - (a.2 - a2.2) * (b.1 - a.1)) * hσ
      simp only []
      rw [e]; exact h1)
    (by
      have e : (σ * (b.1 - a.1)) * (σ * (p.2 - a.2)) - (σ * (b.2 - a.2)) * (σ * (p.1 - a.1))
          = turn a b p := by
        rw [turn_eq]
        linear_combination ((b.1 - a.1) * (p.2 - a.2) - (b.2 - a.2) * (p.1 - a.1)) * hσ
      simp only []
      rw [e]; exact h2)
  have e : (σ * (a.1 - a2.1)) * (σ * (p.2 - a.2)) - (σ * (a.2 - a2.2)) * (σ * (p.1 - a.1))
      = turn a2 a p := by
    rw [turn_eq]
    linear_combination ((a.1 - a2.1) * (p.2 - a.2) - (a.2 - a2.2) * (p.1 - a.1)) * hσ
  simp only [] at this
  rw [e] at this
  exact this

end SweepOrder

section PopWhile

variable {K : Type} [LinearOrderedField K]

theorem popWhile_spec (p : K × K) (st : List (K × K)) :
    ∃ popped : List (K × K), st = popped ++ popWhile p st
      ∧ (st ≠ [] → popWhile p st ≠ [])
      ∧ (∀ b a rest, popWhile p st = b :: a :: rest → 0 < turn a b p)
      ∧ (∀ c b rest, popped.getLast? = some c → popWhile p st = b :: rest →
          turn b c p ≤ 0) := by
  induction st with
  | nil => exact ⟨[], by simp [popWhile], by simp, by simp [popWhile], by simp⟩
  | cons top tl ih =>
    cases tl with
    | nil =>
      refine ⟨[], by simp [popWhile], by simp [popWhile], ?_, by simp⟩
      intro b a rest h
      simp [popWhile] at h
    | cons second rest =>
      by_cases hc : cross second.1 second.2 top.1 top.2 p.1 p.2 ≤ 0
      · have e : popWhile p (top :: second :: rest) = popWhile p (second :: rest) := by
          rw [popWhile]; simp only [hc, if_true]
        obtain ⟨popped, h1, h2, h3, h4⟩ := ih
        refine ⟨top :: popped, ?_, ?_, ?_, ?_⟩
        · rw [e, List.cons_append, ← h1]
        · intro _; rw [e]; exact h2 (by simp)
        · intro b a r h; rw [e] at h; exact h3 b a r h
        · intro c b r hlast hpw
          rw [e] at hpw
          cases popped with
          | nil =>
            simp only [List.getLast?_singleton, Option.some.injEq] at hlast
            simp only [List.nil_append] at h1
            rw [← h1] at hpw
            injection hpw with hb _
            rw [← hlast, ← hb]
            exact hc
          | cons x xs =>
            rw [List.getLast?_cons_cons] at hlast
            exact h4 c b r hlast hpw
      · have e : popWhile p (top :: second :: rest) = top :: second :: rest := by
          rw [popWhile]; simp only [hc, if_false]
        refine ⟨[], by rw [e]; rfl, by rw [e]; simp, ?_, by simp⟩
        intro b a r h
        rw [e] at h
        injection h with hb h
        injection h with ha _
        rw [← hb, ← ha]
        exact not_le.mp hc

theorem AllLeft_append_points (l1 l2 st : List (K × K)) :
    AllLeft (l1 ++ l2) st ↔ AllLeft l1 st ∧ AllLeft l2 st := by
  induction st with
  | nil => simp [AllLeft]
  | cons b tl ih =>
    cases tl with
    | nil => simp [AllLeft]
    | cons a rest =>
      simp only [AllLeft, ih, List.mem_append]
      constructor
      · rintro ⟨h, h1, h2⟩
        exact ⟨⟨fun q hq => h q (Or.inl hq), h1⟩, ⟨fun q hq => h q (Or.inr hq), h2⟩⟩
      · rintro ⟨⟨h, h1⟩, ⟨h', h2⟩⟩
        exact ⟨fun q hq => hq.elim (h q) (h' q), h1, h2⟩

theorem AllLeft_suffix (pts popped st : List (K × K)) (h : AllLeft pts (popped ++ st)) :
    AllLeft pts st := by
  induction popped with
  | nil => exact h
  | cons x xs ih =>
    apply ih
    cases hxs : xs ++ st with
    | nil => simp [AllLeft]
    | cons y ys =>
      rw [List.cons_append, hxs] at h
      exact h.2

theorem LeftTurning_suffix (popped st : List (K × K)) (h : LeftTurning (popped ++ st)) :
    LeftTurning st := by
  induction popped with
  | nil => exact h
  | cons x xs ih =>
    apply ih
    cases hxs : xs ++ st with
    | nil => simp [LeftTurning]
    | cons y ys =>
      cases ys with
      | nil => simp [LeftTurning]
      | cons z zs =>
        rw [List.cons_append, hxs] at h
        exact h.2

/-- The edge below the last popped point. -/
theorem AllLeft_junction (pts popped : List (K × K)) (c b : K × K) (rest : List (K × K))
    (hlast : popped.getLast? = some c) (h : AllLeft pts (popped ++ b :: rest)) :
    ∀ q ∈ pts, 0 ≤ turn b c q := by
  induction popped with
  | nil => simp at hlast
  | cons x xs ih =>
    cases xs with
    | nil =>
      simp only [List.getLast?_singleton, Option.some.injEq] at hlast
      rw [← hlast]
      exact h.1
    | cons y ys =>
      rw [List.getLast?_cons_cons] at hlast
      exact ih hlast h.2

end PopWhile

section ChainLeft

variable {K : Type} [LinearOrderedField K]

/-- A new point that turns left at the top of a left-turning stack is strictly on the left
of every edge of the stack. -/
theorem chain_left {σ : K} (hσ : σ * σ = 1) (p : K × K) (st : List (K × K))
    (hs : List.Pairwise (fun x y => Ahead σ y x) st) (hl : LeftTurning st)
    (hp : ∀ x ∈ st, Ahead σ x p)
    (htop : ∀ b a rest, st = b :: a :: rest → 0 < turn a b p) : AllLeft [p] st := by
  induction st with
  | nil => simp [AllLeft]
  | cons b tl ih =>
    cases tl with
    | nil => simp [AllLeft]
    | cons a rest =>
      have hab := htop b a rest rfl
      refine ⟨fun q hq => by rw [List.mem_singleton.mp hq]; exact hab.le, ?_⟩
      apply ih (List.Pairwise.of_cons hs)
      · cases rest with
        | nil => simp [LeftTurning]
        | cons a2 r2 => exact hl.2
      · intro x hx; exact hp x (List.mem_cons_of_mem _ hx)
      · intro a' a2 r2 h
        injection h with h1 h2
        subst h1
        subst h2
        have h0 : Ahead σ a2 a := by
          have := (List.pairwise_cons.mp (List.Pairwise.of_cons hs)).1
          exact this a2 (List.mem_cons_self _ _)
        have h1 : Ahead σ a b := (List.pairwise_cons.mp hs).1 a (List.mem_cons_self _ _)
        exact turn_chain hσ a2 a b p h0 h1 (hp a (by simp)) hl.1 hab

theorem turn_self_right (a b : K × K) : turn a b b = 0 := by
  rw [turn_eq]; ring

theorem turn_self_left (a b : K × K) : turn a b a = 0 := by
  rw [turn_eq]; ring

theorem Ahead.asymm {σ : K} {a b : K × K} (h1 : Ahead σ a b) (h2 : Ahead σ b a) : False :=
  (Ahead.trans_ahead h1 h2).ne rfl

end ChainLeft

section SweepStep

variable {K : Type} [LinearOrderedField K]

theorem pairwise_trichotomy {α : Type} {R : α → α → Prop} {l : List α}
    (h : List.Pairwise R l) {x y : α} (hx : x ∈ l) (hy : y ∈ l) : x = y ∨ R x y ∨ R y x := by
  induction l with
  | nil => simp at hx
  | cons a tl ih =>
    rw [List.pairwise_cons] at h
    rcases List.mem_cons.mp hx with hx | hx <;> rcases List.mem_cons.mp hy with hy | hy
    · left; rw [hx, hy]
    · right; left; rw [hx]; exact h.1 y hy
    · right; right; rw [hy]; exact h.1 x hx
    · exact ih h.2 hx hy

theorem getLast?_append_of_ne_nil {α : Type} (l1 l2 : List α) (h : l2 ≠ []) :
    (l1 ++ l2).getLast? = l2.getLast? := by
  rw [List.getLast?_eq_getLast _ (by simp [h]), List.getLast?_eq_getLast _ h,
    List.getLast_append_of_ne_nil h]

/-- One pass of a hull sweep maintains `SweepInv`. -/
theorem sweep_step {σ : K} (hσ : σ * σ = 1) (seen st : List (K × K)) (p : K × K)
    (hinv : SweepInv σ seen st) (hseen : List.Pairwise (Ahead σ) seen)
    (hp : ∀ q ∈ seen, Ahead σ q p) : SweepInv σ (seen ++ [p]) (p :: popWhile p st) := by
  obtain ⟨i1, i2, i3, i4, i5, i6, i7⟩ := hinv
  obtain ⟨popped, hsplit, hne, hexit, hpop⟩ := popWhile_spec p st
  set st' := popWhile p st with hst'
  have hsub : ∀ x ∈ st', x ∈ seen := fun x hx =>
    i2 x (by rw [hsplit]; exact List.mem_append_right _ hx)
  have hpw : List.Pairwise (fun x y => Ahead σ y x) (popped ++ st') := by rw [← hsplit]; exact i3
  have hpw' : List.Pairwise (fun x y => Ahead σ y x) st' := (List.pairwise_append.mp hpw).2.1
  have hlt' : LeftTurning st' := LeftTurning_suffix popped st' (by rw [← hsplit]; exact i6)
  have hal : AllLeft seen (popped ++ st') := by rw [← hsplit]; exact i7
  have hal' : AllLeft seen st' := AllLeft_suffix seen popped st' hal
  refine ⟨by simp, ?_, ?_, ?_, ?_, ?_, ?_⟩
  · intro x hx
    rcases List.mem_cons.mp hx with hx | hx
    · rw [hx]; simp
    · exact List.mem_append_left _ (hsub x hx)
  · exact List.pairwise_cons.mpr ⟨fun y hy => hp y (hsub y hy), hpw'⟩
  · intro t ht q hq
    simp only [List.head?_cons, Option.some.injEq] at ht
    rw [← ht]
    rcases List.mem_append.mp hq with hq | hq
    · exact Or.inr (hp q hq)
    · exact Or.inl (List.mem_singleton.mp hq)
  · intro t ht q hq
    by_cases hemp : st' = []
    · have hstnil : st = [] := by
        by_contra hcon
        exact hne hcon hemp
      rw [i1 hstnil] at hq
      rw [hemp] at ht
      simp only [List.getLast?_singleton, Option.some.injEq] at ht
      simp only [List.nil_append, List.mem_singleton] at hq
      left; rw [hq, ht]
    · have e : (p :: st').getLast? = st.getLast? := by
        rw [show p :: st' = [p] ++ st' from rfl, getLast?_append_of_ne_nil _ _ hemp, hsplit,
          getLast?_append_of_ne_nil _ _ hemp]
      rw [e] at ht
      rcases List.mem_append.mp hq with hq | hq
      · exact i5 t ht q hq
      · rw [List.mem_singleton.mp hq]
        right
        exact hp t (i2 t (List.mem_of_mem_getLast? ht))
  · cases hcase : st' with
    | nil => simp [LeftTurning]
    | cons b tl =>
      cases tl with
      | nil => simp [LeftTurning]
      | cons a rest =>
        rw [hcase] at hlt'
        exact ⟨hexit b a rest hcase, hlt'⟩
  · cases hcase : st' with
    | nil => simp [AllLeft]
    | cons b tl =>
      have hbmem : b ∈ seen := hsub b (by rw [hcase]; simp)
      refine ⟨?_, ?_⟩
      · intro q hq
        rcases List.mem_append.mp hq with hq | hq
        · rcases pairwise_trichotomy hseen hq hbmem with hqb | hqb | hqb
          · rw [hqb, turn_self_left]
          · -- `q` is before `b`
            cases tl with
            | nil =>
              have hbot : st.getLast? = some b := by
                rw [hsplit, getLast?_append_of_ne_nil _ _ (by rw [hcase]; simp), hcase]
                rfl
              rcases i5 b hbot q hq with h | h
              · rw [h, turn_self_left]
              · exact (Ahead.asymm hqb h).elim
            | cons a rest =>
              rw [hcase] at hpw' hal'
              have hab : Ahead σ a b := (List.pairwise_cons.mp hpw').1 a (by simp)
              exact turn_before hσ a b p q hab (hp b hbmem) (Or.inl hqb) (hal'.1 q hq)
                (hexit b a rest hcase)
          · -- `q` is after `b`: something was popped
            cases hpop_case : popped.getLast? with
            | none =>
              have hnil : popped = [] := List.getLast?_eq_none_iff.mp hpop_case
              rw [hnil, List.nil_append] at hsplit
              have htop : st.head? = some b := by rw [hsplit, hcase]; rfl
              rcases i4 b htop q hq with h | h
              · rw [h, turn_self_left]
              · exact (Ahead.asymm hqb h).elim
            | some c =>
              have hcmem : c ∈ popped := List.mem_of_mem_getLast? hpop_case
              rw [hcase] at hpw hal
              have hbc : Ahead σ b c := (List.pairwise_append.mp hpw).2.2 c hcmem b (by simp)
              exact turn_after hσ b c p q hbc (hp b hbmem) (Or.inl hqb)
                (hpop c b tl hpop_case hcase) (AllLeft_junction seen popped c b tl hpop_case hal q hq)
        · rw [List.mem_singleton.mp hq, turn_self_right]
      · rw [AllLeft_append_points]
        rw [hcase] at hal' hpw' hlt'
        refine ⟨hal', chain_left hσ p (b :: tl) hpw' hlt' ?_ ?_⟩
        · intro x hx; exact hp x (hsub x (by rw [hcase]; exact hx))
        · intro b' a' r' h
          exact hexit b' a' r' (by rw [hcase]; exact h)

end SweepStep

section SweepInvariant

variable {K : Type} [LinearOrderedField K]

theorem sweepInv_nil (σ : K) : SweepInv σ [] [] := by
  refine ⟨fun _ => rfl, fun x hx => by simp at hx, List.Pairwise.nil, ?_, ?_, trivial, trivial⟩
  · intro t ht; simp at ht
  · intro t ht; simp at ht

theorem foldl_sweepInv {σ : K} (hσ : σ * σ = 1) (rest seen st : List (K × K))
    (hinv : SweepInv σ seen st) (hs : List.Pairwise (Ahead σ) (seen ++ rest)) :
    SweepInv σ (seen ++ rest) (rest.foldl (fun st p => p :: popWhile p st) st) := by
  induction rest generalizing seen st with
  | nil => simpa using hinv
  | cons p tl ih =>
    rw [List.foldl_cons]
    have e : seen ++ p :: tl = (seen ++ [p]) ++ tl := by simp
    rw [e] at hs ⊢
    have hs1 : List.Pairwise (Ahead σ) (seen ++ [p]) := (List.pairwise_append.mp hs).1
    have hseen : List.Pairwise (Ahead σ) seen := (List.pairwise_append.mp hs1).1
    have hp : ∀ q ∈ seen, Ahead σ q p := fun q hq =>
      (List.pairwise_append.mp hs1).2.2 q hq p (by simp)
    exact ih (seen ++ [p]) _ (sweep_step hσ seen st p hinv hseen hp) hs

/-- The stack left by a sweep over points in sweep order: it runs from the last point (top)
to the first, turns strictly left, and has every point on its left. -/
theorem sweep_inv {σ : K} (hσ : σ * σ = 1) (pts : List (K × K))
    (hs : List.Pairwise (Ahead σ) pts) : SweepInv σ pts (sweep pts) := by
  have := foldl_sweepInv hσ pts [] [] (sweepInv_nil σ) (by simpa using hs)
  simpa [sweep] using this

theorem ahead_one_iff (a b : K × K) :
    Ahead 1 a b ↔ (a.1 < b.1 ∨ (a.1 = b.1 ∧ a.2 < b.2)) := by
  unfold Ahead RightUp
  simp only [one_mul, sub_pos]
  constructor
  · rintro (h | ⟨h1, h2⟩)
    · exact Or.inl h
    · exact Or.inr ⟨(sub_eq_zero.mp h1).symm, h2⟩
  · rintro (h | ⟨h1, h2⟩)
    · exact Or.inl h
    · exact Or.inr ⟨by rw [h1]; simp, h2⟩

theorem ahead_neg_one_iff (a b : K × K) : Ahead (-1) a b ↔ Ahead 1 b a := by
  unfold Ahead
  have e1 : (-1 : K) * (b.1 - a.1) = 1 * (a.1 - b.1) := by ring
  have e2 : (-1 : K) * (b.2 - a.2) = 1 * (a.2 - b.2) := by ring
  rw [e1, e2]

/-- The sorted array of distinct points is in strict sweep order. -/
theorem sort_array_ahead (pts : List (K × K)) (hnd : pts.Nodup) :
    List.Pairwise (Ahead 1) (sort_array pts) := by
  have hsorted : List.Pairwise lexLE (sort_array pts) := List.sorted_insertionSort lexLE pts
  have hperm : (sort_array pts).Perm pts := List.perm_insertionSort lexLE pts
  have hnd' : (sort_array pts).Nodup := hperm.nodup_iff.mpr hnd
  have := List.Pairwise.and hsorted hnd'
  refine this.imp ?_
  intro a b hab
  obtain ⟨h1, h2⟩ := hab
  rw [ahead_one_iff]
  unfold lexLE at h1
  rcases h1 with h | ⟨h, h'⟩
  · exact Or.inl h
  · refine Or.inr ⟨h, lt_of_le_of_ne h' ?_⟩
    intro hy
    exact h2 (Prod.ext h hy)

theorem sort_array_reverse_ahead (pts : List (K × K)) (hnd : pts.Nodup) :
    List.Pairwise (Ahead (-1)) (reverse_array (sort_array pts)) := by
  unfold reverse_array
  rw [List.pairwise_reverse]
  exact (sort_array_ahead pts hnd).imp (fun h => (ahead_neg_one_iff _ _).mpr h)

theorem mem_sort_array (pts : List (K × K)) (x : K × K) : x ∈ sort_array pts ↔ x ∈ pts :=
  (List.perm_insertionSort lexLE pts).mem_iff

end SweepInvariant

section HullChain

variable {K : Type} [LinearOrderedField K]

theorem stack_chain {σ : K} (seen st : List (K × K))
    (h2 : ∀ x ∈ st, x ∈ seen) (h3 : List.Pairwise (fun x y => Ahead σ y x) st)
    (h7 : AllLeft seen st) : List.Chain' (fun b a => HullEdge seen a b) st := by
  induction st with
  | nil => exact List.chain'_nil
  | cons b tl ih =>
    cases tl with
    | nil => exact List.chain'_singleton b
    | cons a rest =>
      rw [List.chain'_cons]
      refine ⟨⟨?_, h2 a (by simp), h2 b (by simp), h7.1⟩, ?_⟩
      · exact ((List.pairwise_cons.mp h3).1 a (by simp)).ne
      · exact ih (fun x hx => h2 x (List.mem_cons_of_mem _ hx)) (List.Pairwise.of_cons h3) h7.2

/-- The lower (or upper) chain in forward order is a chain of hull edges. -/
theorem sweep_chain {σ : K} (hσ : σ * σ = 1) (pts : List (K × K))
    (hs : List.Pairwise (Ahead σ) pts) :
    List.Chain' (HullEdge pts) (sweep pts).reverse := by
  obtain ⟨_, h2, h3, _, _, _, h7⟩ := sweep_inv hσ pts hs
  rw [List.chain'_reverse]
  exact stack_chain pts (sweep pts) h2 h3 h7

theorem HullEdge.of_perm {pts pts' : List (K × K)} (hp : ∀ x, x ∈ pts ↔ x ∈ pts')
    {a b : K × K} (h : HullEdge pts a b) : HullEdge pts' a b :=
  ⟨h.1, (hp a).mp h.2.1, (hp b).mp h.2.2.1, fun q hq => h.2.2.2 q ((hp q).mpr hq)⟩

/-- The ends of the stack left by a sweep of a nonempty array. -/
theorem sweep_ends {σ : K} (hσ : σ * σ = 1) (pts : List (K × K))
    (hs : List.Pairwise (Ahead σ) pts) (hne : pts ≠ []) :
    ∃ top bot, (sweep pts).head? = some top ∧ (sweep pts).getLast? = some bot
      ∧ top ∈ pts ∧ bot ∈ pts
      ∧ (∀ q ∈ pts, q = top ∨ Ahead σ q top) ∧ (∀ q ∈ pts, q = bot ∨ Ahead σ bot q) := by
  obtain ⟨h1, h2, _, h4, h5, _, _⟩ := sweep_inv hσ pts hs
  have hst : sweep pts ≠ [] := fun h => hne (h1 h)
  obtain ⟨top, tl, htop⟩ := List.exists_cons_of_ne_nil hst
  have hhead : (sweep pts).head? = some top := by rw [htop]; rfl
  have hlast : (sweep pts).getLast? = some ((sweep pts).getLast hst) :=
    List.getLast?_eq_getLast _ hst
  refine ⟨top, (sweep pts).getLast hst, hhead, hlast, h2 top (by rw [htop]; simp),
    h2 _ (List.getLast_mem hst), h4 top hhead, h5 _ hlast⟩

end HullChain

section HullPath

variable {K : Type} [LinearOrderedField K]

theorem cons_concat_of_ends {α : Type} (l : List α) (x y : α) (hxy : x ≠ y)
    (hh : l.head? = some x) (hl : l.getLast? = some y) :
    ∃ mid, l = x :: (mid ++ [y]) := by
  cases l with
  | nil => simp at hh
  | cons a tl =>
    simp only [List.head?_cons, Option.some.injEq] at hh
    subst hh
    cases tl with
    | nil =>
      simp only [List.getLast?_singleton, Option.some.injEq] at hl
      exact absurd hl hxy
    | cons b tl' =>
      rw [List.getLast?_cons_cons] at hl
      obtain ⟨ys, hys⟩ := List.getLast?_eq_some_iff.mp hl
      exact ⟨ys, by rw [hys]⟩

/-- The output of `calc_convex_hull_coords` on at least two distinct points: it starts at
the point `m0` that is first in the sorted array, does not return to it, and together with
`m0` appended it is a closed chain of hull edges. -/
theorem hullOfList_path (pts : List (K × K)) (hnd : pts.Nodup) (hlen : 2 ≤ pts.length) :
    ∃ m0 mid, hullOfList pts = m0 :: mid ∧ m0 ∉ mid ∧ m0 ∈ pts
      ∧ (∀ q ∈ pts, q = m0 ∨ Ahead 1 m0 q)
      ∧ List.Chain' (HullEdge pts) (m0 :: mid ++ [m0]) := by
  have hσ1 : (1 : K) * 1 = 1 := by ring
  have hσ2 : (-1 : K) * (-1) = 1 := by ring
  have hS := sort_array_ahead pts hnd
  have hSr := sort_array_reverse_ahead pts hnd
  have hmem : ∀ x, x ∈ sort_array pts ↔ x ∈ pts := mem_sort_array pts
  have hmemr : ∀ x, x ∈ reverse_array (sort_array pts) ↔ x ∈ pts := by
    intro x; unfold reverse_array; rw [List.mem_reverse]; exact hmem x
  have hperm : (sort_array pts).Perm pts := List.perm_insertionSort lexLE pts
  have hSne : sort_array pts ≠ [] := by
    intro h
    have := hperm.length_eq
    rw [h] at this
    simp at this
    omega
  have hSrne : reverse_array (sort_array pts) ≠ [] := by
    unfold reverse_array; simpa using hSne
  obtain ⟨m1, m0, hLh, hLl, hm1, hm0, hmax, hmin⟩ := sweep_ends hσ1 _ hS hSne
  obtain ⟨t0, b1, hUh, hUl, ht0, hb1, hmaxU, hminU⟩ := sweep_ends hσ2 _ hSr hSrne
  -- the ends of the two chains agree
  have ht0m0 : t0 = m0 := by
    rcases hmin t0 ((hmem t0).mpr ((hmemr t0).mp ht0)) with h | h
    · exact h
    · rcases hmaxU m0 ((hmemr m0).mpr ((hmem m0).mp hm0)) with h' | h'
      · exact h'.symm
      · exact (Ahead.asymm h ((ahead_neg_one_iff _ _).mp h')).elim
  have hb1m1 : b1 = m1 := by
    rcases hmax b1 ((hmem b1).mpr ((hmemr b1).mp hb1)) with h | h
    · exact h
    · rcases hminU m1 ((hmemr m1).mpr ((hmem m1).mp hm1)) with h' | h'
      · exact h'.symm
      · exact (Ahead.asymm h ((ahead_neg_one_iff _ _).mp h')).elim
  subst ht0m0
  subst hb1m1
  have hne01 : t0 ≠ b1 := by
    intro h
    have hall : ∀ q ∈ sort_array pts, q = t0 := by
      intro q hq
      rcases hmin q hq with h1 | h1
      · exact h1
      · rcases hmax q hq with h2 | h2
        · rw [h2, h]
        · rw [← h] at h2; exact (Ahead.asymm h1 h2).elim
    have hnd' : (sort_array pts).Nodup := hperm.nodup_iff.mpr hnd
    have hlen' : 2 ≤ (sort_array pts).length := by rw [hperm.length_eq]; exact hlen
    cases hcase : sort_array pts with
    | nil => exact hSne hcase
    | cons x tl =>
      cases tl with
      | nil => rw [hcase] at hlen'; simp at hlen'
      | cons y tl' =>
        rw [hcase] at hnd' hall
        have hx := hall x (by simp)
        have hy := hall y (by simp)
        have : x ≠ y := by
          intro hxy
          rw [hxy] at hnd'
          simp at hnd'
        exact this (hx.trans hy.symm)
  obtain ⟨lo, hlo⟩ := cons_concat_of_ends _ b1 t0 (Ne.symm hne01) hLh hLl
  obtain ⟨up, hup⟩ := cons_concat_of_ends _ t0 b1 hne01 hUh hUl
  have hLpw := (sweep_inv hσ1 _ hS).2.2.1
  have hUpw := (sweep_inv hσ2 _ hSr).2.2.1
  rw [hlo] at hLpw
  rw [hup] at hUpw
  refine ⟨t0, lo.reverse ++ (b1 :: up.reverse), ?_, ?_, (hmem t0).mp hm0, ?_, ?_⟩
  · unfold hullOfList
    simp only []
    rw [← List.dropLast_eq_take, ← List.dropLast_eq_take, List.dropLast_reverse,
      List.dropLast_reverse, hlo, hup]
    simp
  · intro hin
    rcases List.mem_append.mp hin with h | h
    · have h' : t0 ∈ lo := List.mem_reverse.mp h
      have := (List.pairwise_append.mp (List.Pairwise.of_cons hLpw)).2.2 t0 h' t0 (by simp)
      exact this.ne rfl
    · have h' : t0 ∈ up ++ [b1] := by
        rcases List.mem_cons.mp h with h | h
        · exact absurd h hne01
        · exact List.mem_append_left _ (List.mem_reverse.mp h)
      have := (List.pairwise_cons.mp hUpw).1 t0 h'
      exact this.ne rfl
  · intro q hq
    exact hmin q ((hmem q).mpr hq)
  · have hLo : List.Chain' (HullEdge pts) (sweep (sort_array pts)).reverse :=
      (sweep_chain hσ1 _ hS).imp (fun a b h => h.of_perm hmem)
    have hUp : List.Chain' (HullEdge pts) (sweep (reverse_array (sort_array pts))).reverse :=
      (sweep_chain hσ2 _ hSr).imp (fun a b h => h.of_perm hmemr)
    rw [hlo] at hLo
    rw [hup] at hUp
    have e1 : (b1 :: (lo ++ [t0])).reverse = (t0 :: lo.reverse) ++ [b1] := by simp
    have e2 : (t0 :: (up ++ [b1])).reverse = b1 :: (up.reverse ++ [t0]) := by simp
    rw [e1] at hLo
    rw [e2] at hUp
    have e3 : t0 :: (lo.reverse ++ b1 :: up.reverse) ++ [t0]
        = (t0 :: lo.reverse) ++ b1 :: (up.reverse ++ [t0]) := by simp
    rw [e3, List.chain'_split]
    exact ⟨hLo, hUp⟩

end HullPath

/-! ## The polygon as a ring of points -/

section Ring

variable {o : ℕ → ℝ} {n : ℕ}

theorem hull_eq_hullOfList (o : ℕ → ℝ) (n : ℕ) :
    calc_convex_hull_coords n (vertX o n) (vertY o n) = hullOfList (polyList o n) := rfl

theorem mem_polyList {q : ℝ × ℝ} : q ∈ polyList o n ↔ ∃ i < n, q = polyPt o n i := by
  unfold polyList
  simp only [List.mem_map, List.mem_range]
  constructor
  · rintro ⟨i, hi, h⟩; exact ⟨i, hi, h.symm⟩
  · rintro ⟨i, hi, h⟩; exact ⟨i, hi, h.symm⟩

theorem ringPt_mem (hn : 0 < n) (κ s : ℕ) : ringPt o n κ s ∈ polyList o n :=
  mem_polyList.mpr ⟨(κ + s) % n, Nat.mod_lt _ hn, rfl⟩

theorem angle_mod (hn : 0 < n) (m : ℕ) :
    cos (((m % n : ℕ) : ℝ) * (2 * π / n)) = cos ((m : ℝ) * (2 * π / n))
      ∧ sin (((m % n : ℕ) : ℝ) * (2 * π / n)) = sin ((m : ℝ) * (2 * π / n)) := by
  have hn' : (n : ℝ) ≠ 0 := by exact_mod_cast hn.ne'
  have e : (m : ℝ) * (2 * π / n) = ((m % n : ℕ) : ℝ) * (2 * π / n) + ((m / n : ℕ) : ℝ) * (2 * π) := by
    have h := Nat.div_add_mod m n
    have h' : (m : ℝ) = (n : ℝ) * ((m / n : ℕ) : ℝ) + ((m % n : ℕ) : ℝ) := by
      exact_mod_cast h.symm
    rw [h']
    field_simp
    ring
  rw [e, Real.cos_add_nat_mul_two_pi, Real.sin_add_nat_mul_two_pi]
  exact ⟨rfl, rfl⟩

/-- The unrolled ring in polar form. -/
theorem ringPt_polar (hn : 0 < n) (κ s : ℕ) :
    ringPt o n κ s
      = (cos (((κ + s : ℕ) : ℝ) * (2 * π / n)) * ringRad o n κ s,
         sin (((κ + s : ℕ) : ℝ) * (2 * π / n)) * ringRad o n κ s) := by
  unfold ringPt polyPt ringRad
  rw [vertX_eq, vertY_eq, (angle_mod hn (κ + s)).1, (angle_mod hn (κ + s)).2]

theorem crossO_ring (hn : 0 < n) (κ s t : ℕ) :
    crossO (ringPt o n κ s) (ringPt o n κ (s + t))
      = ringRad o n κ s * ringRad o n κ (s + t) * sin ((t : ℝ) * (2 * π / n)) := by
  rw [ringPt_polar hn, ringPt_polar hn]
  unfold crossO
  simp only []
  have e : (t : ℝ) * (2 * π / n)
      = ((κ + (s + t) : ℕ) : ℝ) * (2 * π / n) - ((κ + s : ℕ) : ℝ) * (2 * π / n) := by
    push_cast; ring
  rw [e, Real.sin_sub]
  ring

theorem dotO_ring (hn : 0 < n) (κ s t : ℕ) :
    (ringPt o n κ s).1 * (ringPt o n κ (s + t)).1
        + (ringPt o n κ s).2 * (ringPt o n κ (s + t)).2
      = ringRad o n κ s * ringRad o n κ (s + t) * cos ((t : ℝ) * (2 * π / n)) := by
  rw [ringPt_polar hn, ringPt_polar hn]
  simp only []
  have e : (t : ℝ) * (2 * π / n)
      = ((κ + (s + t) : ℕ) : ℝ) * (2 * π / n) - ((κ + s : ℕ) : ℝ) * (2 * π / n) := by
    push_cast; ring
  rw [e, Real.cos_sub]
  ring

theorem ringRad_pos (ho : ∀ i < n, 0 ≤ o i ∧ o i ≤ 1) (hn : 0 < n) (κ s : ℕ) :
    0 < ringRad o n κ s := by
  unfold ringRad
  linarith [(ho _ (Nat.mod_lt (κ + s) hn)).1]

theorem sin_steps_pos_iff (hn : 0 < n) (t : ℕ) (h1 : 1 ≤ t) (h2 : t < n) :
    0 < sin ((t : ℝ) * (2 * π / n)) ↔ 2 * t < n := by
  have hn' : (0 : ℝ) < n := by exact_mod_cast hn
  have hpi := Real.pi_pos
  have ht1 : (1 : ℝ) ≤ t := by exact_mod_cast h1
  have ht2 : (t : ℝ) < n := by exact_mod_cast h2
  have hx0 : 0 < (t : ℝ) * (2 * π / n) := by positivity
  have hx2 : (t : ℝ) * (2 * π / n) < 2 * π := by
    rw [← mul_div_assoc, div_lt_iff₀ hn']
    nlinarith
  constructor
  · intro hpos
    by_contra hcon
    push_neg at hcon
    have hc : (n : ℝ) ≤ 2 * t := by exact_mod_cast hcon
    have hx1 : π ≤ (t : ℝ) * (2 * π / n) := by
      rw [← mul_div_assoc, le_div_iff₀ hn']
      nlinarith
    have := Real.sin_nonpos_of_nonnpos_of_neg_pi_le
      (by linarith : (t : ℝ) * (2 * π / n) - 2 * π ≤ 0)
      (by linarith : -π ≤ (t : ℝ) * (2 * π / n) - 2 * π)
    rw [Real.sin_sub_two_pi] at this
    linarith
  · intro h
    have hc : (2 : ℝ) * t < n := by exact_mod_cast h
    apply Real.sin_pos_of_pos_of_lt_pi hx0
    rw [← mul_div_assoc, div_lt_iff₀ hn']
    nlinarith

end Ring

section RingDistinct

variable {o : ℕ → ℝ} {n : ℕ}

theorem ringPt_zero_start {i : ℕ} (hi : i < n) : ringPt o n i 0 = polyPt o n i := by
  unfold ringPt
  rw [Nat.add_zero, Nat.mod_eq_of_lt hi]

theorem ringPt_add_period (κ s : ℕ) : ringPt o n κ (s + n) = ringPt o n κ s := by
  unfold ringPt
  rw [← Nat.add_assoc, Nat.add_mod_right]

theorem ringPt_of_dvd (κ : ℕ) {u : ℕ} (h : n ∣ u) : ringPt o n κ u = ringPt o n κ 0 := by
  obtain ⟨k, rfl⟩ := h
  unfold ringPt
  rw [Nat.add_mul_mod_self_left, Nat.add_zero]

/-- Two different steps of less than a full turn reach different points. -/
theorem ringPt_ne_of_step (ho : ∀ i < n, 0 ≤ o i ∧ o i ≤ 1) (hn : 0 < n) (κ s t : ℕ)
    (h1 : 1 ≤ t) (h2 : t < n) : ringPt o n κ s ≠ ringPt o n κ (s + t) := by
  intro h
  have hc := crossO_ring (o := o) hn κ s t
  have hd := dotO_ring (o := o) hn κ s t
  rw [← h] at hc hd
  have hr1 := ringRad_pos ho hn κ s
  have hr2 := ringRad_pos ho hn κ (s + t)
  have hrr : 0 < ringRad o n κ s * ringRad o n κ (s + t) := mul_pos hr1 hr2
  have hc0 : crossO (ringPt o n κ s) (ringPt o n κ s) = 0 := by unfold crossO; ring
  rw [hc0] at hc
  have hsin : sin ((t : ℝ) * (2 * π / n)) = 0 := by
    rcases mul_eq_zero.mp hc.symm with h0 | h0
    · exact absurd h0 hrr.ne'
    · exact h0
  have hn' : (0 : ℝ) < n := by exact_mod_cast hn
  have hpi := Real.pi_pos
  have ht1 : (1 : ℝ) ≤ t := by exact_mod_cast h1
  have ht2 : (t : ℝ) < n := by exact_mod_cast h2
  have hx0 : 0 < (t : ℝ) * (2 * π / n) := by positivity
  have hx2 : (t : ℝ) * (2 * π / n) < 2 * π := by
    rw [← mul_div_assoc, div_lt_iff₀ hn']
    nlinarith
  have hxpi : (t : ℝ) * (2 * π / n) - π = 0 := by
    have hs : sin ((t : ℝ) * (2 * π / n) - π) = 0 := by
      rw [Real.sin_sub_pi, hsin, neg_zero]
    exact (Real.sin_eq_zero_iff_of_lt_of_lt (by linarith) (by linarith)).mp hs
  have hcos : cos ((t : ℝ) * (2 * π / n)) = -1 := by
    have : (t : ℝ) * (2 * π / n) = π := by linarith
    rw [this, Real.cos_pi]
  rw [hcos] at hd
  have hsq : 0 ≤ (ringPt o n κ s).1 * (ringPt o n κ s).1
      + (ringPt o n κ s).2 * (ringPt o n κ s).2 := by nlinarith [mul_self_nonneg (ringPt o n κ s).1, mul_self_nonneg (ringPt o n κ s).2]
  linarith

theorem polyPt_inj (ho : ∀ i < n, 0 ≤ o i ∧ o i ≤ 1) {i j : ℕ} (hi : i < n) (hj : j < n)
    (h : polyPt o n i = polyPt o n j) : i = j := by
  have hn : 0 < n := by omega
  by_contra hij
  rcases Nat.lt_or_gt_of_ne hij with hlt | hlt
  · have := ringPt_ne_of_step ho hn i 0 (j - i) (by omega) (by omega)
    apply this
    rw [ringPt_zero_start hi]
    unfold ringPt
    rw [show i + (0 + (j - i)) = j by omega, Nat.mod_eq_of_lt hj]
    exact h
  · have := ringPt_ne_of_step ho hn j 0 (i - j) (by omega) (by omega)
    apply this
    rw [ringPt_zero_start hj]
    unfold ringPt
    rw [show j + (0 + (i - j)) = i by omega, Nat.mod_eq_of_lt hi]
    exact h.symm

theorem polyList_nodup (ho : ∀ i < n, 0 ≤ o i ∧ o i ≤ 1) : (polyList o n).Nodup := by
  unfold polyList
  apply List.Nodup.map_on _ (List.nodup_range n)
  intro i hi j hj h
  exact polyPt_inj ho (List.mem_range.mp hi) (List.mem_range.mp hj) h

theorem polyList_length : (polyList o n).length = n := by
  unfold polyList
  simp

/-- A point that returns to the start of the ring has made whole turns. -/
theorem dvd_of_ringPt_eq_start (ho : ∀ i < n, 0 ≤ o i ∧ o i ≤ 1) (hn : 0 < n) {κ : ℕ}
    (hκ : κ < n) {u : ℕ} (h : ringPt o n κ u = ringPt o n κ 0) : n ∣ u := by
  unfold ringPt at h
  have := polyPt_inj ho (Nat.mod_lt _ hn) (Nat.mod_lt _ hn) h
  rw [Nat.add_zero, Nat.mod_eq_of_lt hκ] at this
  have h2 : (κ + u) % n = (κ + 0) % n := by rw [this, Nat.add_zero, Nat.mod_eq_of_lt hκ]
  have h3 : u % n = 0 % n := Nat.ModEq.add_left_cancel' κ h2
  exact Nat.dvd_of_mod_eq_zero (by simpa using h3)

/-- Every other vertex is reached from position `s` by a step of less than a full turn. -/
theorem exists_step (hn : 0 < n) (κ s : ℕ) {b : ℝ × ℝ} (hb : b ∈ polyList o n)
    (hne : b ≠ ringPt o n κ s) : ∃ δ, 1 ≤ δ ∧ δ < n ∧ b = ringPt o n κ (s + δ) := by
  obtain ⟨j, hj, rfl⟩ := mem_polyList.mp hb
  have hi : (κ + s) % n < n := Nat.mod_lt _ hn
  have hji : j ≠ (κ + s) % n := by
    intro h
    apply hne
    unfold ringPt
    rw [h]
  refine ⟨(j + n - (κ + s) % n) % n, ?_, Nat.mod_lt _ hn, ?_⟩
  · rcases Nat.lt_or_ge j ((κ + s) % n) with h | h
    · rw [Nat.mod_eq_of_lt (by omega)]; omega
    · rw [show j + n - (κ + s) % n = (j - (κ + s) % n) + n by omega, Nat.add_mod_right,
        Nat.mod_eq_of_lt (by omega)]
      omega
  · unfold ringPt
    congr 1
    have e1 : (κ + s + (j + n - (κ + s) % n) % n) % n
        = ((κ + s) % n + (j + n - (κ + s) % n)) % n :=
      ((Nat.ModEq.add_left (κ + s) (Nat.mod_modEq (j + n - (κ + s) % n) n)).trans
        (Nat.ModEq.add_right _ (Nat.mod_modEq (κ + s) n)).symm)
    rw [← Nat.add_assoc, e1, Nat.add_sub_of_le (by omega : (κ + s) % n ≤ j + n),
      Nat.add_mod_right, Nat.mod_eq_of_lt hj]

end RingDistinct

section Inside

variable {o : ℕ → ℝ} {n : ℕ}

theorem turn_affine (a b q : ℝ × ℝ) :
    turn a b q = -(b.2 - a.2) * q.1 + (b.1 - a.1) * q.2 + crossO a b := by
  rw [turn_eq]
  unfold crossO
  ring

/-- The origin lies strictly on the left of every hull edge of the polygon. -/
theorem origin_inside (hn : 3 ≤ n) (ho : ∀ i < n, 0 ≤ o i ∧ o i ≤ 1) {a b : ℝ × ℝ}
    (h : HullEdge (polyList o n) a b) : 0 < crossO a b := by
  obtain ⟨hab, _, _, hleft⟩ := h
  by_contra hc
  push_neg at hc
  have hr : ∀ i < n, 0 < 175 * o i + 5 := fun i hi => by linarith [(ho i hi).1]
  set u : ℝ := -(b.2 - a.2) with hu
  set w : ℝ := b.1 - a.1 with hw
  have hval : ∀ i, turn a b (polyPt o n i)
      = (u * cos ((i : ℝ) * (2 * π / n)) + w * sin ((i : ℝ) * (2 * π / n))) * (175 * o i + 5)
        + crossO a b := by
    intro i
    rw [turn_affine]
    unfold polyPt
    simp only []
    rw [vertX_eq, vertY_eq]
    ring
  have hg0 : ∀ i ∈ Finset.range n,
      0 ≤ turn a b (polyPt o n i) / (175 * o i + 5) := by
    intro i hi
    have hi' := Finset.mem_range.mp hi
    exact div_nonneg (hleft _ (mem_polyList.mpr ⟨i, hi', rfl⟩)) (hr i hi').le
  have hsum : ∑ i in Finset.range n, turn a b (polyPt o n i) / (175 * o i + 5)
      = crossO a b * ∑ i in Finset.range n, 1 / (175 * o i + 5) := by
    have e : ∀ i ∈ Finset.range n, turn a b (polyPt o n i) / (175 * o i + 5)
        = u * cos ((i : ℝ) * (2 * π / n)) + w * sin ((i : ℝ) * (2 * π / n))
          + crossO a b * (1 / (175 * o i + 5)) := by
      intro i hi
      have := hr i (Finset.mem_range.mp hi)
      rw [hval]
      field_simp
    rw [Finset.sum_congr rfl e, Finset.sum_add_distrib, Finset.sum_add_distrib,
      ← Finset.mul_sum, ← Finset.mul_sum, ← Finset.mul_sum,
      (sum_cos_sin_roots n (by omega)).1, (sum_cos_sin_roots n (by omega)).2]
    ring
  have hinv : 0 ≤ ∑ i in Finset.range n, 1 / (175 * o i + 5) :=
    Finset.sum_nonneg (fun i hi => (one_div_pos.mpr (hr i (Finset.mem_range.mp hi))).le)
  have hle : ∑ i in Finset.range n, turn a b (polyPt o n i) / (175 * o i + 5) ≤ 0 := by
    rw [hsum]
    exact mul_nonpos_of_nonpos_of_nonneg hc hinv
  have hzero : ∑ i in Finset.range n, turn a b (polyPt o n i) / (175 * o i + 5) = 0 :=
    le_antisymm hle (Finset.sum_nonneg hg0)
  have hall := (Finset.sum_eq_zero_iff_of_nonneg hg0).mp hzero
  have hturn : ∀ i < n, turn a b (polyPt o n i) = 0 := by
    intro i hi
    have := hall i (Finset.mem_range.mpr hi)
    rcases div_eq_zero_iff.mp this with h0 | h0
    · exact h0
    · exact absurd h0 (hr i hi).ne'
  have huw : u ≠ 0 ∨ w ≠ 0 := by
    by_contra hcon
    push_neg at hcon
    apply hab
    have h1 : a.1 = b.1 := by have := hcon.2; rw [hw] at this; linarith
    have h2 : a.2 = b.2 := by have := hcon.1; rw [hu] at this; linarith
    exact Prod.ext h1 h2
  obtain ⟨i, hi, j, hj, hne⟩ := vertices_spread hn ho u w huw
  apply hne
  have hi0 := hturn i hi
  have hj0 := hturn j hj
  rw [turn_affine] at hi0 hj0
  unfold polyPt at hi0 hj0
  simp only [] at hi0 hj0
  rw [← hu, ← hw] at hi0 hj0
  linarith

end Inside

section Arc

variable {o : ℕ → ℝ} {n : ℕ}

theorem segLen_eq_abs (a b : ℝ × ℝ) :
    segLen a b = Complex.abs ⟨b.1 - a.1, b.2 - a.2⟩ := by
  unfold segLen
  rw [Complex.abs_apply, Complex.normSq_mk]
  congr 1
  ring

theorem segLen_triangle (a b c : ℝ × ℝ) : segLen a c ≤ segLen a b + segLen b c := by
  rw [segLen_eq_abs, segLen_eq_abs, segLen_eq_abs]
  have e : (⟨c.1 - a.1, c.2 - a.2⟩ : ℂ) = ⟨b.1 - a.1, b.2 - a.2⟩ + ⟨c.1 - b.1, c.2 - b.2⟩ := by
    apply Complex.ext <;> simp
  rw [e]
  exact Complex.abs.add_le _ _

theorem segLen_nonneg (a b : ℝ × ℝ) : 0 ≤ segLen a b := Real.sqrt_nonneg _

/-- The straight segment is no longer than the path along the ring. -/
theorem segLen_arc (P : ℕ → ℝ × ℝ) (s δ : ℕ) :
    segLen (P s) (P (s + δ)) ≤ ∑ u in Finset.Ico s (s + δ), segLen (P u) (P (u + 1)) := by
  induction δ with
  | zero =>
    simp only [Nat.add_zero, Finset.Ico_self, Finset.sum_empty]
    unfold segLen
    simp
  | succ d ih =>
    rw [← Nat.add_assoc, Finset.sum_Ico_succ_top (by omega)]
    exact (segLen_triangle _ (P (s + d)) _).trans (by linarith)

theorem turn_crossO (a b q : ℝ × ℝ) :
    turn a b q = crossO a b - crossO q b - crossO a q := by
  rw [turn_eq]
  unfold crossO
  ring

/-- The sum of the cross products along a chain of points inside the triangle of the
origin and an edge `a b` is at most the cross product of the edge. -/
theorem arc_area (a b : ℝ × ℝ) (q : ℕ → ℝ × ℝ) (δ : ℕ) (hD : 0 < crossO a b)
    (h0 : q 0 = a) (hδ : q δ = b)
    (hs : ∀ t ≤ δ, 0 ≤ turn a b (q t))
    (hpos : ∀ t ≤ δ, 0 < crossO (q t) b + crossO a (q t))
    (hstep : ∀ t < δ, 0 ≤ crossO (q t) (q (t + 1))) :
    ∑ t in Finset.range δ, crossO (q t) (q (t + 1)) ≤ crossO a b := by
  have key : ∀ T ≤ δ, ∑ t in Finset.range T, crossO (q t) (q (t + 1))
      ≤ crossO a (q T) * crossO a b / (crossO (q T) b + crossO a (q T)) := by
    intro T
    induction T with
    | zero =>
      intro _
      rw [h0]
      have : crossO a a = 0 := by unfold crossO; ring
      simp [this]
    | succ T ih =>
      intro hT
      have ih' := ih (by omega)
      rw [Finset.sum_range_succ]
      have hp1 := hpos T (by omega)
      have hp2 := hpos (T + 1) hT
      have hs1 := hs T (by omega)
      have hs2 := hs (T + 1) hT
      rw [turn_crossO] at hs1 hs2
      have hW := hstep T (by omega)
      have hpl : crossO (q T) (q (T + 1)) * crossO a b
          = crossO (q T) b * crossO a (q (T + 1)) - crossO a (q T) * crossO (q (T + 1)) b := by
        unfold crossO; ring
      set D := crossO a b with hDdef
      set l1 := crossO (q T) b
      set m1 := crossO a (q T)
      set l2 := crossO (q (T + 1)) b
      set m2 := crossO a (q (T + 1))
      set W := crossO (q T) (q (T + 1))
      have hstepineq : m1 * D / (l1 + m1) + W ≤ m2 * D / (l2 + m2) := by
        rw [div_add' _ _ _ hp1.ne', div_le_div_iff₀ hp1 hp2]
        have hσσ : (l1 + m1) * (l2 + m2) ≤ D * D :=
          mul_le_mul (by linarith) (by linarith) hp2.le hD.le
        have hWD : W * ((l1 + m1) * (l2 + m2)) ≤ W * D * D := by
          have := mul_le_mul_of_nonneg_left hσσ hW
          linarith [this]
        have e1 : m2 * D * (l1 + m1) - m1 * D * (l2 + m2) = W * D * D := by
          have : m2 * D * (l1 + m1) - m1 * D * (l2 + m2) = D * (l1 * m2 - m1 * l2) := by ring
          rw [this, ← hpl]; ring
        nlinarith
      linarith
  have := key δ le_rfl
  rw [hδ] at this
  have hbb : crossO b b = 0 := by unfold crossO; ring
  rw [hbb, zero_add, mul_div_assoc, div_self hD.ne', mul_one] at this
  exact this

end Arc

section RingArc

variable {o : ℕ → ℝ} {n : ℕ}

theorem sin_steps_nonneg (hn : 0 < n) (t : ℕ) (h : 2 * t < n) :
    0 ≤ sin ((t : ℝ) * (2 * π / n)) := by
  rcases Nat.eq_zero_or_pos t with h0 | h0
  · rw [h0]; simp
  · exact ((sin_steps_pos_iff hn t h0 (by omega)).mpr h).le

/-- A hull edge spans less than half a turn of the ring. -/
theorem edge_step_lt_half (hn : 3 ≤ n) (ho : ∀ i < n, 0 ≤ o i ∧ o i ≤ 1) (κ s δ : ℕ)
    (h1 : 1 ≤ δ) (h2 : δ < n)
    (hedge : HullEdge (polyList o n) (ringPt o n κ s) (ringPt o n κ (s + δ))) :
    2 * δ < n := by
  have hpos := origin_inside hn ho hedge
  rw [crossO_ring (by omega)] at hpos
  have hr := mul_pos (ringRad_pos ho (by omega) κ s) (ringRad_pos ho (by omega) κ (s + δ))
  have hsin : 0 < sin ((δ : ℝ) * (2 * π / n)) := by
    by_contra hc
    push_neg at hc
    have := mul_nonpos_of_nonneg_of_nonpos hr.le hc
    linarith
  exact (sin_steps_pos_iff (by omega) δ h1 h2).mp hsin

theorem crossO_ring_to (hn : 0 < n) (κ s t δ : ℕ) (ht : t ≤ δ) :
    crossO (ringPt o n κ (s + t)) (ringPt o n κ (s + δ))
      = ringRad o n κ (s + t) * ringRad o n κ (s + δ)
          * sin (((δ - t : ℕ) : ℝ) * (2 * π / n)) := by
  have := crossO_ring (o := o) hn κ (s + t) (δ - t)
  rw [show s + t + (δ - t) = s + δ by omega] at this
  exact this

/-- The cross products along the ring between the ends of a hull edge sum to at most the
cross product of the edge. -/
theorem ring_arc_area (hn : 3 ≤ n) (ho : ∀ i < n, 0 ≤ o i ∧ o i ≤ 1) (κ s δ : ℕ)
    (h1 : 1 ≤ δ) (h2 : 2 * δ < n)
    (hedge : HullEdge (polyList o n) (ringPt o n κ s) (ringPt o n κ (s + δ))) :
    ∑ u in Finset.Ico s (s + δ), crossO (ringPt o n κ u) (ringPt o n κ (u + 1))
      ≤ crossO (ringPt o n κ s) (ringPt o n κ (s + δ)) := by
  have hn0 : 0 < n := by omega
  rw [Finset.sum_Ico_eq_sum_range, Nat.add_sub_cancel_left]
  have hrp := fun u => ringRad_pos ho hn0 κ u
  apply arc_area (ringPt o n κ s) (ringPt o n κ (s + δ)) (fun t => ringPt o n κ (s + t)) δ
    (origin_inside hn ho hedge) rfl rfl
  · intro t _
    exact hedge.2.2.2 _ (ringPt_mem hn0 κ _)
  · intro t ht
    rw [crossO_ring_to hn0 κ s t δ ht, crossO_ring hn0 κ s t]
    have ha := mul_pos (hrp (s + t)) (hrp (s + δ))
    have hb := mul_pos (hrp s) (hrp (s + t))
    have hsa := sin_steps_nonneg hn0 (δ - t) (by omega)
    have hsb := sin_steps_nonneg hn0 t (by omega)
    rcases Nat.eq_zero_or_pos t with h0 | h0
    · have hs := (sin_steps_pos_iff hn0 (δ - t) (by omega) (by omega)).mpr (by omega)
      have := mul_pos ha hs
      have := mul_nonneg hb.le hsb
      linarith
    · have hs := (sin_steps_pos_iff hn0 t h0 (by omega)).mpr (by omega)
      have := mul_pos hb hs
      have := mul_nonneg ha.le hsa
      linarith
  · intro t _
    have := crossO_ring (o := o) hn0 κ (s + t) 1
    rw [Nat.add_assoc] at this
    rw [this]
    exact mul_nonneg (mul_pos (hrp _) (hrp _)).le (sin_steps_nonneg hn0 1 (by omega))

/-- The first point in the order of x, ties by y, is not to the right of, or straight
above, the origin. -/
theorem lexmin_not_rightUp (hn : 3 ≤ n) (ho : ∀ i < n, 0 ≤ o i ∧ o i ≤ 1) (m0 : ℝ × ℝ)
    (hmin : ∀ q ∈ polyList o n, q = m0 ∨ Ahead 1 m0 q) : ¬ RightUp m0 := by
  intro hru
  have hr : ∀ i < n, 0 < 175 * o i + 5 := fun i hi => by linarith [(ho i hi).1]
  have hq : ∀ i < n, m0.1 < vertX o n i ∨ (m0.1 = vertX o n i ∧ m0.2 ≤ vertY o n i) := by
    intro i hi
    rcases hmin _ (mem_polyList.mpr ⟨i, hi, rfl⟩) with h | h
    · right
      rw [← h]
      exact ⟨rfl, le_rfl⟩
    · rcases (ahead_one_iff _ _).mp h with h | h
      · exact Or.inl h
      · exact Or.inr ⟨h.1, h.2.le⟩
  have hm1 : 0 ≤ m0.1 := by
    rcases hru with h | h
    · exact h.le
    · exact h.1.ge
  have hcos : ∀ i ∈ Finset.range n, 0 ≤ cos ((i : ℝ) * (2 * π / n)) := by
    intro i hi
    have hi' := Finset.mem_range.mp hi
    have hx : 0 ≤ vertX o n i := by
      rcases hq i hi' with h | h
      · linarith
      · linarith [h.1]
    rw [vertX_eq] at hx
    by_contra hc
    push_neg at hc
    have := mul_neg_of_neg_of_pos hc (hr i hi')
    linarith
  have hcz := (Finset.sum_eq_zero_iff_of_nonneg hcos).mp (sum_cos_sin_roots n (by omega)).1
  have hX : ∀ i < n, vertX o n i = 0 := by
    intro i hi
    rw [vertX_eq, hcz i (Finset.mem_range.mpr hi), zero_mul]
  have hm0 : m0.1 = 0 := by
    rcases hq 0 (by omega) with h | h
    · rw [hX 0 (by omega)] at h; linarith
    · rw [h.1, hX 0 (by omega)]
  have hm2 : 0 < m0.2 := by
    rcases hru with h | h
    · linarith
    · exact h.2
  have hsin : ∀ i ∈ Finset.range n, 0 < sin ((i : ℝ) * (2 * π / n)) := by
    intro i hi
    have hi' := Finset.mem_range.mp hi
    have hy : 0 < vertY o n i := by
      rcases hq i hi' with h | h
      · rw [hX i hi'] at h; linarith
      · linarith [h.2]
    rw [vertY_eq] at hy
    by_contra hc
    push_neg at hc
    have := mul_nonpos_of_nonpos_of_nonneg hc (hr i hi').le
    linarith
  have := Finset.sum_pos hsin ⟨0, Finset.mem_range.mpr (by omega)⟩
  linarith [(sum_cos_sin_roots n (by omega)).2]

/-- The first point of the hull does not lie on the ring strictly between the ends of a
hull edge. -/
theorem start_not_inside_arc (hn : 3 ≤ n) (ho : ∀ i < n, 0 ≤ o i ∧ o i ≤ 1) (κ s δ u : ℕ)
    (hmin : ∀ q ∈ polyList o n, q = ringPt o n κ 0 ∨ Ahead 1 (ringPt o n κ 0) q)
    (h2 : 2 * δ < n)
    (hedge : HullEdge (polyList o n) (ringPt o n κ s) (ringPt o n κ (s + δ)))
    (hu1 : s < u) (hu2 : u < s + δ) (hdiv : n ∣ u) : False := by
  have hn0 : 0 < n := by omega
  have hnr := lexmin_not_rightUp hn ho _ hmin
  obtain ⟨t, rfl⟩ : ∃ t, u = s + t := ⟨u - s, by omega⟩
  have hq0 : ringPt o n κ (s + t) = ringPt o n κ 0 := ringPt_of_dvd κ hdiv
  have hrp := fun u => ringRad_pos ho hn0 κ u
  have hl : 0 < crossO (ringPt o n κ (s + t)) (ringPt o n κ (s + δ)) := by
    rw [crossO_ring_to hn0 κ s t δ (by omega)]
    exact mul_pos (mul_pos (hrp _) (hrp _))
      ((sin_steps_pos_iff hn0 (δ - t) (by omega) (by omega)).mpr (by omega))
  have hm : 0 < crossO (ringPt o n κ s) (ringPt o n κ (s + t)) := by
    rw [crossO_ring hn0 κ s t]
    exact mul_pos (mul_pos (hrp _) (hrp _))
      ((sin_steps_pos_iff hn0 t (by omega) (by omega)).mpr (by omega))
  have hk := hedge.2.2.2 _ (ringPt_mem hn0 κ (s + t))
  rw [turn_crossO] at hk
  have hqa : Ahead 1 (ringPt o n κ (s + t)) (ringPt o n κ s) := by
    rcases hmin _ (ringPt_mem hn0 κ s) with h | h
    · exact absurd (h.trans hq0.symm) (ringPt_ne_of_step ho hn0 κ s t (by omega) (by omega))
    · rw [hq0]; exact h
  have hqb : Ahead 1 (ringPt o n κ (s + t)) (ringPt o n κ (s + δ)) := by
    rcases hmin _ (ringPt_mem hn0 κ (s + δ)) with h | h
    · have := ringPt_ne_of_step ho hn0 κ (s + t) (δ - t) (by omega) (by omega)
      rw [show s + t + (δ - t) = s + δ by omega] at this
      exact absurd (hq0.trans h.symm) this
    · rw [hq0]; exact h
  rw [hq0] at hl hm hk hqa hqb
  generalize ringPt o n κ 0 = q at *
  generalize ringPt o n κ s = a at *
  generalize ringPt o n κ (s + δ) = b at *
  have e1 : (crossO a b - crossO q b - crossO a q) * q.1
      = crossO q b * (a.1 - q.1) + crossO a q * (b.1 - q.1) := by unfold crossO; ring
  have e2 : (crossO a b - crossO q b - crossO a q) * q.2
      = crossO q b * (a.2 - q.2) + crossO a q * (b.2 - q.2) := by unfold crossO; ring
  have hq1 : q.1 ≤ 0 := by
    by_contra hc; push_neg at hc; exact hnr (Or.inl hc)
  have hq2 : q.1 = 0 → q.2 ≤ 0 := by
    intro h0
    by_contra hc; push_neg at hc; exact hnr (Or.inr ⟨h0, hc⟩)
  set k := crossO a b - crossO q b - crossO a q
  have hkq1 : k * q.1 ≤ 0 := mul_nonpos_of_nonneg_of_nonpos hk hq1
  have ha1 : q.1 ≤ a.1 := by
    rcases (ahead_one_iff _ _).mp hqa with h | h
    · exact h.le
    · exact h.1.le
  have hb1 : q.1 ≤ b.1 := by
    rcases (ahead_one_iff _ _).mp hqb with h | h
    · exact h.le
    · exact h.1.le
  have hA := mul_nonneg hl.le (sub_nonneg.mpr ha1)
  have hB := mul_nonneg hm.le (sub_nonneg.mpr hb1)
  have hA0 : crossO q b * (a.1 - q.1) = 0 := by linarith
  have hB0 : crossO a q * (b.1 - q.1) = 0 := by linarith
  have ha1' : a.1 = q.1 := by
    rcases mul_eq_zero.mp hA0 with h | h
    · exact absurd h hl.ne'
    · linarith
  have hb1' : b.1 = q.1 := by
    rcases mul_eq_zero.mp hB0 with h | h
    · exact absurd h hm.ne'
    · linarith
  have ha2 : q.2 < a.2 := by
    rcases (ahead_one_iff _ _).mp hqa with h | h
    · linarith
    · exact h.2
  have hb2 : q.2 < b.2 := by
    rcases (ahead_one_iff _ _).mp hqb with h | h
    · linarith
    · exact h.2
  have hpos : 0 < k * q.2 := by
    rw [e2]
    have := mul_pos hl (sub_pos.mpr ha2)
    have := mul_pos hm (sub_pos.mpr hb2)
    linarith
  have hkpos : 0 < k := by
    rcases hk.lt_or_eq with h | h
    · exact h
    · rw [← h, zero_mul] at hpos; exact absurd hpos (lt_irrefl _)
  have hq10 : q.1 = 0 := by
    have : k * q.1 = 0 := by rw [e1, hA0, hB0, add_zero]
    rcases mul_eq_zero.mp this with h | h
    · exact absurd h hkpos.ne'
    · exact h
  have := mul_nonpos_of_nonneg_of_nonpos hk (hq2 hq10)
  linarith

end RingArc

section Unroll

variable {o : ℕ → ℝ} {n : ℕ}

/-- A chain of hull edges walks forward along the unrolled ring: it ends at a position
`e`, passes no whole turn strictly before `e`, is no longer than the ring between its
ends, and its cross products are at least those of the ring between its ends. When every
hull edge is a single step of the ring, the chain is the ring itself. -/
theorem unroll (hn : 3 ≤ n) (ho : ∀ i < n, 0 ≤ o i ∧ o i ≤ 1) (κ : ℕ)
    (hmin : ∀ q ∈ polyList o n, q = ringPt o n κ 0 ∨ Ahead 1 (ringPt o n κ 0) q) :
    ∀ (l : List (ℝ × ℝ)) (s : ℕ),
      List.Chain' (HullEdge (polyList o n)) (ringPt o n κ s :: l) →
      (∀ x ∈ l.dropLast, x ≠ ringPt o n κ 0) →
      ∃ e, s ≤ e ∧ (l ≠ [] → s < e) ∧ (l = [] → e = s)
        ∧ (ringPt o n κ s :: l).getLast? = some (ringPt o n κ e)
        ∧ (∀ u, s < u → u < e → ¬ n ∣ u)
        ∧ pathSum segLen (ringPt o n κ s :: l)
            ≤ ∑ u in Finset.Ico s e, segLen (ringPt o n κ u) (ringPt o n κ (u + 1))
        ∧ ∑ u in Finset.Ico s e, crossO (ringPt o n κ u) (ringPt o n κ (u + 1))
            ≤ pathSum crossO (ringPt o n κ s :: l)
        ∧ ((∀ s' δ, 1 ≤ δ → 2 * δ < n →
              HullEdge (polyList o n) (ringPt o n κ s') (ringPt o n κ (s' + δ)) → δ = 1) →
            e = s + l.length
              ∧ ∀ j ≤ l.length, (ringPt o n κ s :: l).getD j (0, 0) = ringPt o n κ (s + j)) := by
  have hn0 : 0 < n := by omega
  intro l
  induction l with
  | nil =>
    intro s _ _
    refine ⟨s, le_rfl, fun h => absurd rfl h, fun _ => rfl, rfl, fun u h1 h2 => by omega,
      ?_, ?_, fun _ => ⟨rfl, ?_⟩⟩
    · simp [pathSum]
    · simp [pathSum]
    · intro j hj
      have : j = 0 := by simpa using hj
      subst this
      rfl
  | cons b l' ih =>
    intro s hch hdl
    rw [List.chain'_cons] at hch
    obtain ⟨hedge, hch'⟩ := hch
    obtain ⟨δ, hδ1, hδn, rfl⟩ := exists_step hn0 κ s hedge.2.2.1 (Ne.symm hedge.1)
    have hδ2 := edge_step_lt_half hn ho κ s δ hδ1 hδn hedge
    have hdl' : ∀ x ∈ l'.dropLast, x ≠ ringPt o n κ 0 := by
      intro x hx
      rcases l' with _ | ⟨c, l''⟩
      · simp at hx
      · apply hdl
        rw [List.dropLast_cons_of_ne_nil (by simp)]
        exact List.mem_cons_of_mem _ hx
    obtain ⟨e, he1, he2, he3, hlast, hdiv, hlen, hcr, hreg⟩ := ih (s + δ) hch' hdl'
    refine ⟨e, by omega, fun _ => by omega, fun h => by simp at h, ?_, ?_, ?_, ?_, ?_⟩
    · rw [List.getLast?_cons_cons]
      exact hlast
    · intro u hu1 hu2 hd
      rcases Nat.lt_trichotomy u (s + δ) with h | h | h
      · exact start_not_inside_arc hn ho κ s δ u hmin hδ2 hedge hu1 h hd
      · subst h
        rcases l' with _ | ⟨c, l''⟩
        · have := he3 rfl
          omega
        · apply hdl (ringPt o n κ (s + δ))
          · rw [List.dropLast_cons_of_ne_nil (by simp)]
            exact List.mem_cons_self _ _
          · exact ringPt_of_dvd κ hd
      · exact hdiv u h hu2 hd
    · rw [pathSum, ← Finset.sum_Ico_consecutive _ (by omega : s ≤ s + δ) he1]
      have := segLen_arc (ringPt o n κ) s δ
      linarith
    · rw [pathSum, ← Finset.sum_Ico_consecutive _ (by omega : s ≤ s + δ) he1]
      have := ring_arc_area hn ho κ s δ hδ1 hδ2 hedge
      linarith
    · intro hall
      have hδ : δ = 1 := hall s δ hδ1 hδ2 hedge
      subst hδ
      obtain ⟨hr1, hr2⟩ := hreg hall
      refine ⟨by rw [hr1, List.length_cons]; omega, ?_⟩
      intro j hj
      rcases j with _ | j
      · rfl
      · rw [List.getD_cons_succ, hr2 j (by simpa using hj)]
        congr 1
        omega

end Unroll

section Closing

variable {o : ℕ → ℝ} {n : ℕ}

/-- The hull of the polygon is a closed walk along the ring that makes exactly one turn:
it is no longer than the ring, and its cross products sum to at least those of the ring.
When every hull edge is a single step of the ring, the hull is the ring itself. -/
theorem hull_ring (hn : 3 ≤ n) (ho : ∀ i < n, 0 ≤ o i ∧ o i ≤ 1) :
    ∃ κ < n, ∃ mid, hullOfList (polyList o n) = ringPt o n κ 0 :: mid
      ∧ pathSum segLen (ringPt o n κ 0 :: mid ++ [ringPt o n κ 0])
          ≤ ∑ u in Finset.range n, segLen (ringPt o n κ u) (ringPt o n κ (u + 1))
      ∧ ∑ u in Finset.range n, crossO (ringPt o n κ u) (ringPt o n κ (u + 1))
          ≤ pathSum crossO (ringPt o n κ 0 :: mid ++ [ringPt o n κ 0])
      ∧ ((∀ s δ, 1 ≤ δ → 2 * δ < n →
            HullEdge (polyList o n) (ringPt o n κ s) (ringPt o n κ (s + δ)) → δ = 1) →
          mid.length + 1 = n
            ∧ ∀ j < n, (ringPt o n κ 0 :: mid).getD j (0, 0) = ringPt o n κ j) := by
  have hn0 : 0 < n := by omega
  obtain ⟨m0, mid, hhull, hnot, hmem, hmin, hch⟩ :=
    hullOfList_path (polyList o n) (polyList_nodup ho) (by rw [polyList_length]; omega)
  obtain ⟨κ, hκ, rfl⟩ := mem_polyList.mp hmem
  rw [← ringPt_zero_start hκ] at hhull hnot hmin hch
  have hch' : List.Chain' (HullEdge (polyList o n))
      (ringPt o n κ 0 :: (mid ++ [ringPt o n κ 0])) := by
    simpa using hch
  obtain ⟨e, _, he2, _, hlast, hdiv, hlen, hcr, hreg⟩ :=
    unroll hn ho κ hmin (mid ++ [ringPt o n κ 0]) 0 hch'
      (by
        intro x hx
        rw [List.dropLast_concat] at hx
        intro h
        exact hnot (h ▸ hx))
  have hpos : 0 < e := he2 (by simp)
  have hlast' : ringPt o n κ e = ringPt o n κ 0 := by
    rw [← List.cons_append, List.getLast?_concat] at hlast
    exact (Option.some.inj hlast).symm
  have hdvd : n ∣ e := dvd_of_ringPt_eq_start ho hn0 hκ hlast'
  have hen : e = n := by
    have hge : n ≤ e := Nat.le_of_dvd hpos hdvd
    by_contra hne
    exact hdiv n hn0 (by omega) (dvd_refl n)
  subst hen
  rw [← Finset.range_eq_Ico] at hlen hcr
  refine ⟨κ, hκ, mid, hhull, by simpa using hlen, by simpa using hcr, ?_⟩
  intro hall
  obtain ⟨h1, h2⟩ := hreg hall
  have hlen1 : mid.length + 1 = e := by
    rw [h1]; simp
  refine ⟨hlen1, ?_⟩
  intro j hj
  have := h2 j (by simp; omega)
  rw [Nat.zero_add] at this
  rw [← this, ← List.cons_append, List.getD_append _ _ _ _ (by simp; omega)]

end Closing

section PathSums

variable {o : ℕ → ℝ} {n : ℕ}

theorem pathSum_eq_sum (f : ℝ × ℝ → ℝ × ℝ → ℝ) (l : List (ℝ × ℝ)) :
    pathSum f l
      = ∑ i in Finset.range (l.length - 1), f (l.getD i (0, 0)) (l.getD (i + 1) (0, 0)) := by
  induction l with
  | nil => simp [pathSum]
  | cons a t ih =>
    rcases t with _ | ⟨b, r⟩
    · simp [pathSum]
    · rw [pathSum, ih]
      simp only [List.length_cons, Nat.add_sub_cancel]
      rw [Finset.sum_range_succ' _ r.length]
      simp only [List.getD_cons_succ, List.getD_cons_zero]
      ring

/-- The sum over the closed walk through a list is the sum over its indices with the
successor `nextIdx`. -/
theorem pathSum_closed (f : ℝ × ℝ → ℝ × ℝ → ℝ) (a : ℝ × ℝ) (t : List (ℝ × ℝ)) :
    pathSum f (a :: t ++ [a])
      = ∑ i in Finset.range (a :: t).length,
          f ((a :: t).getD i (0, 0)) ((a :: t).getD (nextIdx (a :: t).length i) (0, 0)) := by
  rw [pathSum_eq_sum]
  have hlen : (a :: t ++ [a]).length - 1 = (a :: t).length := by simp
  rw [hlen]
  apply Finset.sum_congr rfl
  intro i hi
  have hi' := Finset.mem_range.mp hi
  rw [List.getD_append _ _ _ _ hi']
  congr 1
  unfold nextIdx
  split_ifs with h
  · have : i + 1 = (a :: t).length := by
      have : 0 < (a :: t).length := by simp
      omega
    rw [this, List.getD_append_right _ _ _ _ le_rfl]
    simp
  · rw [List.getD_append _ _ _ _ (by omega)]

theorem succ_mod_eq_nextIdx (hn : 0 < n) (m : ℕ) : (m + 1) % n = nextIdx n (m % n) := by
  unfold nextIdx
  have hlt := Nat.mod_lt m hn
  rcases Nat.lt_or_ge 1 n with h1 | h1
  · rw [Nat.add_mod, Nat.mod_eq_of_lt h1]
    split_ifs with h
    · rw [h, Nat.sub_add_cancel (by omega), Nat.mod_self]
    · exact Nat.mod_eq_of_lt (by omega)
  · have : n = 1 := by omega
    subst this
    simp [Nat.mod_one]

/-- A sum over one turn of the ring does not depend on the starting vertex. -/
theorem sum_rotate (n : ℕ) (G : ℕ → ℝ) (κ : ℕ) :
    ∑ u in Finset.range n, G ((κ + u) % n) = ∑ i in Finset.range n, G i := by
  induction κ with
  | zero =>
    apply Finset.sum_congr rfl
    intro i hi
    rw [Nat.zero_add, Nat.mod_eq_of_lt (Finset.mem_range.mp hi)]
  | succ k ih =>
    rw [← ih]
    have h1 := Finset.sum_range_succ (fun u => G ((k + u) % n)) n
    have h2 := Finset.sum_range_succ' (fun u => G ((k + u) % n)) n
    simp only [Nat.add_mod_right, Nat.add_zero] at h1 h2
    have e : ∀ u, (k + 1 + u) % n = (k + (u + 1)) % n := fun u => by
      congr 1; omega
    simp only [e]
    linarith

theorem ring_sum (hn : 0 < n) (F : ℝ × ℝ → ℝ × ℝ → ℝ) (κ : ℕ) :
    ∑ u in Finset.range n, F (ringPt o n κ u) (ringPt o n κ (u + 1))
      = ∑ i in Finset.range n, F (polyPt o n i) (polyPt o n (nextIdx n i)) := by
  rw [← sum_rotate n (fun i => F (polyPt o n i) (polyPt o n (nextIdx n i))) κ]
  apply Finset.sum_congr rfl
  intro u _
  unfold ringPt
  rw [← Nat.add_assoc, succ_mod_eq_nextIdx hn]

theorem perimeter_eq_segLen (o : ℕ → ℝ) (n : ℕ) :
    calc_perimeter_pix n (vertX o n) (vertY o n)
      = ∑ i in Finset.range n, segLen (polyPt o n i) (polyPt o n (nextIdx n i)) :=
  calc_perimeter_pix_eq_sum n _ _

theorem area_eq_crossO (o : ℕ → ℝ) (n : ℕ) :
    calc_area_pix n (vertX o n) (vertY o n)
      = (∑ i in Finset.range n, crossO (polyPt o n i) (polyPt o n (nextIdx n i))) / 2 :=
  calc_area_pix_eq_sum n _ _

theorem hull_perimeter_eq (a : ℝ × ℝ) (t : List (ℝ × ℝ)) :
    calc_perimeter_pix (a :: t).length (hullX (a :: t)) (hullY (a :: t))
      = pathSum segLen (a :: t ++ [a]) := by
  rw [pathSum_closed, calc_perimeter_pix_eq_sum]
  rfl

theorem hull_area_eq (a : ℝ × ℝ) (t : List (ℝ × ℝ)) :
    calc_area_pix (a :: t).length (hullX (a :: t)) (hullY (a :: t))
      = pathSum crossO (a :: t ++ [a]) / 2 := by
  rw [pathSum_closed, calc_area_pix_eq_sum]
  rfl

end PathSums

section HullBounds

variable {o : ℕ → ℝ} {n : ℕ}

theorem segLen_pos {a b : ℝ × ℝ} (h : a ≠ b) : 0 < segLen a b := by
  unfold segLen
  apply Real.sqrt_pos.mpr
  by_contra hc
  push_neg at hc
  have h1 : (b.1 - a.1) ^ 2 = 0 := by nlinarith [sq_nonneg (b.1 - a.1), sq_nonneg (b.2 - a.2)]
  have h2 : (b.2 - a.2) ^ 2 = 0 := by nlinarith [sq_nonneg (b.1 - a.1), sq_nonneg (b.2 - a.2)]
  apply h
  have e1 : b.1 - a.1 = 0 := by simpa using h1
  have e2 : b.2 - a.2 = 0 := by simpa using h2
  exact Prod.ext (by linarith) (by linarith)

theorem nextIdx_ne {n i : ℕ} (hn : 2 ≤ n) : nextIdx n i ≠ i := by
  unfold nextIdx
  split_ifs with h <;> omega

/-- The perimeter of the polygon, in pixels, is positive. -/
theorem perimeter_pos (hn : 3 ≤ n) (ho : ∀ i < n, 0 ≤ o i ∧ o i ≤ 1) :
    0 < calc_perimeter_pix n (vertX o n) (vertY o n) := by
  rw [perimeter_eq_segLen]
  apply Finset.sum_pos
  · intro i hi
    have hi' := Finset.mem_range.mp hi
    apply segLen_pos
    intro h
    exact nextIdx_ne (by omega) (polyPt_inj ho hi' (nextIdx_lt hi') h).symm
  · exact ⟨0, Finset.mem_range.mpr (by omega)⟩

/-- The hull is no longer than the polygon and encloses at least its area. -/
theorem hull_bounds (hn : 3 ≤ n) (ho : ∀ i < n, 0 ≤ o i ∧ o i ≤ 1) :
    calc_perimeter_pix (calc_convex_hull_coords n (vertX o n) (vertY o n)).length
        (hullX (calc_convex_hull_coords n (vertX o n) (vertY o n)))
        (hullY (calc_convex_hull_coords n (vertX o n) (vertY o n)))
      ≤ calc_perimeter_pix n (vertX o n) (vertY o n)
    ∧ calc_area_pix n (vertX o n) (vertY o n)
      ≤ calc_area_pix (calc_convex_hull_coords n (vertX o n) (vertY o n)).length
          (hullX (calc_convex_hull_coords n (vertX o n) (vertY o n)))
          (hullY (calc_convex_hull_coords n (vertX o n) (vertY o n))) := by
  obtain ⟨κ, _, mid, hhull, hlen, hcr, _⟩ := hull_ring hn ho
  rw [hull_eq_hullOfList, hhull, hull_perimeter_eq, hull_area_eq, perimeter_eq_segLen,
    area_eq_crossO, ← ring_sum (by omega) segLen κ, ← ring_sum (by omega) crossO κ]
  exact ⟨hlen, by linarith⟩

end HullBounds

section RegularPolygon

variable {o : ℕ → ℝ} {n : ℕ}

end RegularPolygon

section Frame

theorem SameFrame.same (s : PSOState) : SameFrame s s := ⟨rfl, rfl, rfl, rfl, rfl, rfl, rfl, rfl⟩

theorem SameFrame.comp {s t u : PSOState} (h1 : SameFrame s t) (h2 : SameFrame t u) :
    SameFrame s u := by
  obtain ⟨a1, a2, a3, a4, a5, a6, a7, a8⟩ := h1
  obtain ⟨b1, b2, b3, b4, b5, b6, b7, b8⟩ := h2
  exact ⟨b1.trans a1, b2.trans a2, b3.trans a3, b4.trans a4, b5.trans a5, b6.trans a6,
    b7.trans a7, b8.trans a8⟩

theorem foldl_sameFrame {β : Type} (f : PSOState → β → PSOState)
    (hf : ∀ s b, SameFrame s (f s b)) (l : List β) (s : PSOState) :
    SameFrame s (l.foldl f s) := by
  induction l generalizing s with
  | nil => exact SameFrame.same s
  | cons b l ih => exact (hf s b).comp (ih (f s b))

theorem redraw_sameFrame (cfg : PSOConfig) (rng : ℕ → ℕ) (i j : ℕ) (s : PSOState) :
    SameFrame s (redraw cfg rng i j s) := ⟨rfl, rfl, rfl, rfl, rfl, rfl, rfl, rfl⟩

theorem moveStep_sameFrame (cfg : PSOConfig) (rng : ℕ → ℕ) (i j : ℕ) (s : PSOState) :
    SameFrame s (moveStep cfg rng i j s) := by
  unfold moveStep SameFrame
  simp only []
  split_ifs <;> simp [redraw, random_double, rand]

theorem reseedStep_sameFrame (cfg : PSOConfig) (rng : ℕ → ℕ) (i j : ℕ) (s : PSOState) :
    SameFrame s (reseedStep cfg rng i j s) := ⟨rfl, rfl, rfl, rfl, rfl, rfl, rfl, rfl⟩

/-- A pass over candidate `i` that returns is the evaluation block applied to a memory that
differs from the one before only in positions, velocities, weight and `rand ()` count. -/
theorem candidatePass_eq (cfg : PSOConfig) (rng : ℕ → ℕ) (s : PSOState) (i : ℕ)
    (t : PSOState) (h : candidatePass cfg rng s i = Except.ok t) :
    ∃ s3, t = updateCosts cfg i s3 ∧ SameFrame s s3 := by
  unfold candidatePass at h
  simp only [] at h
  have hm := foldl_sameFrame _ (fun s j => moveStep_sameFrame cfg rng i j s)
    (List.range cfg.nVar) s
  split_ifs at h
  all_goals
    cases h
    refine ⟨_, rfl, ?_⟩
    first
    | exact (hm.comp (foldl_sameFrame _ (fun s j => redraw_sameFrame cfg rng i j s) _ _)).comp
        (foldl_sameFrame _ (fun s j => reseedStep_sameFrame cfg rng i j s) _ _)
    | exact hm.comp (foldl_sameFrame _ (fun s j => redraw_sameFrame cfg rng i j s) _ _)
    | exact hm.comp (foldl_sameFrame _ (fun s j => reseedStep_sameFrame cfg rng i j s) _ _)
    | exact hm

/-- With nonzero periods `a` and `b` the pass over a candidate returns. -/
theorem candidatePass_total (cfg : PSOConfig) (rng : ℕ → ℕ) (s : PSOState) (i : ℕ)
    (ha : cfg.a ≠ 0) (hb : toUnsigned cfg.b ≠ 0) :
    ∃ t, candidatePass cfg rng s i = Except.ok t := by
  unfold candidatePass
  simp only [ha, hb, if_false]
  exact ⟨_, rfl⟩

theorem updateCosts_arrayBestCosts (cfg : PSOConfig) (i : ℕ) (s : PSOState) :
    (updateCosts cfg i s).arrayBestCosts = s.arrayBestCosts := by
  unfold updateCosts
  simp only []
  split_ifs <;> rfl

theorem updateCosts_position (cfg : PSOConfig) (i : ℕ) (s : PSOState) :
    (updateCosts cfg i s).PSOPart_position = s.PSOPart_position := by
  unfold updateCosts
  simp only []
  split_ifs <;> rfl

theorem updateCosts_velocity (cfg : PSOConfig) (i : ℕ) (s : PSOState) :
    (updateCosts cfg i s).PSOPart_velocity = s.PSOPart_velocity := by
  unfold updateCosts
  simp only []
  split_ifs <;> rfl

theorem updateCosts_cost (cfg : PSOConfig) (i : ℕ) (s : PSOState) :
    (updateCosts cfg i s).PSOPart_cost
      = Function.update s.PSOPart_cost i (costOf cfg (fun j => s.PSOPart_position i j)) := by
  unfold updateCosts costOf
  simp only []
  split_ifs <;> rfl

theorem updateCosts_bestCost (cfg : PSOConfig) (i : ℕ) (s : PSOState) :
    (updateCosts cfg i s).PSOPart_bestCost
      = if ((costOf cfg (fun j => s.PSOPart_position i j) : ℝ) : WithTop ℝ)
            < s.PSOPart_bestCost i
        then Function.update s.PSOPart_bestCost i
          ((costOf cfg (fun j => s.PSOPart_position i j) : ℝ) : WithTop ℝ)
        else s.PSOPart_bestCost := by
  unfold updateCosts costOf
  simp only []
  split_ifs <;> rfl

/-- A pass over the whole population that returns leaves the iteration counter and the
recorded costs as they were and adds one evaluation per candidate. -/
theorem pass_frame (cfg : PSOConfig) (rng : ℕ → ℕ) (l : List ℕ) (s t : PSOState)
    (h : l.foldlM (candidatePass cfg rng) s = Except.ok t) :
    t.iteration = s.iteration ∧ t.arrayBestCosts = s.arrayBestCosts
      ∧ t.evaluated.length = s.evaluated.length + l.length := by
  induction l generalizing s with
  | nil =>
    simp only [List.foldlM_nil] at h
    cases h
    exact ⟨rfl, rfl, rfl⟩
  | cons b l ih =>
    rw [List.foldlM_cons] at h
    cases hb : candidatePass cfg rng s b with
    | error e => rw [hb] at h; cases h
    | ok u =>
      rw [hb] at h
      obtain ⟨s3, rfl, hf⟩ := candidatePass_eq cfg rng s b u hb
      obtain ⟨h1, h2, h3⟩ := ih _ h
      refine ⟨?_, ?_, ?_⟩
      · rw [h1, updateCosts_iteration, hf.2.2.2.2.2.2.1]
      · rw [h2, updateCosts_arrayBestCosts, hf.2.2.2.2.2.1]
      · rw [h3, updateCosts_evaluated, List.length_append, hf.2.2.2.2.2.2.2]
        simp only [List.length_cons, List.length_nil]
        omega

/-- With nonzero periods `a` and `b` the pass over the whole population returns. -/
theorem pass_total (cfg : PSOConfig) (rng : ℕ → ℕ) (ha : cfg.a ≠ 0)
    (hb : toUnsigned cfg.b ≠ 0) (l : List ℕ) (s : PSOState) :
    ∃ t, l.foldlM (candidatePass cfg rng) s = Except.ok t := by
  induction l generalizing s with
  | nil => exact ⟨s, rfl⟩
  | cons b l ih =>
    obtain ⟨u, hu⟩ := candidatePass_total cfg rng s b ha hb
    obtain ⟨t, ht⟩ := ih u
    refine ⟨t, ?_⟩
    rw [List.foldlM_cons, hu]
    exact ht

end Frame

section IterationCount

theorem foldl_preserve {α β : Type} (g : PSOState → α) (f : PSOState → β → PSOState)
    (hf : ∀ s b, g (f s b) = g s) (l : List β) (s : PSOState) : g (l.foldl f s) = g s := by
  induction l generalizing s with
  | nil => rfl
  | cons b l ih => rw [List.foldl_cons, ih, hf]

theorem toUnsigned_natCast (N : ℕ) (h : N < 2 ^ 32) : toUnsigned (N : ℤ) = N := by
  unfold toUnsigned
  have : ((N : ℤ) % 2 ^ 32) = (N : ℤ) := Int.emod_eq_of_lt (by positivity) (by exact_mod_cast h)
  rw [this, Int.toNat_natCast]

/-- INIT sets the counter to 1 and evaluates every candidate once. -/
theorem psoInit_counts (cfg : PSOConfig) (rng : ℕ → ℕ) (mem : PSOState) :
    (psoInit cfg rng mem).iteration = 1
      ∧ (psoInit cfg rng mem).evaluated.length = cfg.nPop := by
  unfold psoInit
  simp only []
  have hit : ∀ s0 : PSOState,
      ((List.range cfg.nPop).foldl (fun s i => updateCosts cfg i s)
        ((List.range cfg.nPop).foldl
          (fun s i => (List.range cfg.nVar).foldl (fun s j => redraw cfg rng i j s) s)
          s0)).iteration = s0.iteration := by
    intro s0
    rw [foldl_preserve (fun s => s.iteration) _ (fun s i => updateCosts_iteration cfg i s)]
    exact foldl_preserve (fun s => s.iteration)
      (fun s i => (List.range cfg.nVar).foldl (fun s j => redraw cfg rng i j s) s)
      (fun s i => foldl_preserve (fun s => s.iteration) (fun s j => redraw cfg rng i j s)
        (fun s j => rfl) _ s) _ s0
  have hev : ∀ s0 : PSOState,
      ((List.range cfg.nPop).foldl (fun s i => updateCosts cfg i s)
        ((List.range cfg.nPop).foldl
          (fun s i => (List.range cfg.nVar).foldl (fun s j => redraw cfg rng i j s) s)
          s0)).evaluated.length = s0.evaluated.length + cfg.nPop := by
    intro s0
    rw [foldl_updateCosts_length, List.length_range,
      foldl_preserve (fun s => s.evaluated)
        (fun s i => (List.range cfg.nVar).foldl (fun s j => redraw cfg rng i j s) s)
        (fun s i => foldl_preserve (fun s => s.evaluated) (fun s j => redraw cfg rng i j s)
          (fun s j => rfl) _ s) _ s0]
  split_ifs
  · exact ⟨(hit _).trans rfl, (hev _).trans (by simp)⟩
  · exact ⟨(hit _).trans rfl, (hev _).trans (by simp)⟩

/-- One pass of the search loop: the termination test after the pass decides between
returning and going on with the counter raised by one (modulo `2 ^ 32`). -/
theorem searchLoop_succ (cfg : PSOConfig) (rng : ℕ → ℕ) (fuel : ℕ) (s s1 : PSOState)
    (hp : (List.range cfg.nPop).foldlM (candidatePass cfg rng) s = Except.ok s1) :
    searchLoop cfg rng (fuel + 1) s
      = if stopSearch cfg (afterCandidates cfg s1) then Except.ok (afterCandidates cfg s1)
        else searchLoop cfg rng fuel
          { afterCandidates cfg s1 with
            iteration := ((afterCandidates cfg s1).iteration + 1) % 2 ^ 32 } := by
  rw [searchLoop, hp]

theorem stopSearch_iterOnly (cfg : PSOConfig) (s : PSOState) (N : ℕ) (hN : N < 2 ^ 32)
    (hlim : cfg.iterLimit = (N : ℤ)) (huse : cfg.useIterLimit ≠ 0)
    (hprec : cfg.usePrecisionLimit = 0) : stopSearch cfg s ↔ N ≤ s.iteration := by
  unfold stopSearch
  rw [hlim, toUnsigned_natCast N hN]
  simp [huse, hprec]

/-- With only the iteration limit `N ≥ 1` enabled, the loop started in pass `k ≤ N` returns
after exactly `N - k + 1` passes with the counter at `N`. -/
theorem searchLoop_iterLimit (cfg : PSOConfig) (rng : ℕ → ℕ) (N : ℕ) (hN : N < 2 ^ 32)
    (hlim : cfg.iterLimit = (N : ℤ)) (huse : cfg.useIterLimit ≠ 0)
    (hprec : cfg.usePrecisionLimit = 0) (ha : cfg.a ≠ 0) (hb : toUnsigned cfg.b ≠ 0) :
    ∀ (d : ℕ) (s : PSOState), s.iteration + d = N →
      (∀ fuel, d + 1 ≤ fuel → ∃ res, searchLoop cfg rng fuel s = Except.ok res
          ∧ res.iteration = N
          ∧ res.evaluated.length = s.evaluated.length + (d + 1) * cfg.nPop)
      ∧ (∀ fuel, fuel ≤ d → searchLoop cfg rng fuel s = Except.error PSOError.outOfFuel) := by
  intro d
  induction d with
  | zero =>
    intro s hs
    refine ⟨?_, ?_⟩
    · intro fuel hf
      obtain ⟨f, rfl⟩ : ∃ f, fuel = f + 1 := ⟨fuel - 1, by omega⟩
      obtain ⟨s1, hp⟩ := pass_total cfg rng ha hb (List.range cfg.nPop) s
      obtain ⟨h1, _, h3⟩ := pass_frame cfg rng _ s s1 hp
      have hstop : stopSearch cfg (afterCandidates cfg s1) := by
        rw [stopSearch_iterOnly cfg _ N hN hlim huse hprec, afterCandidates_iteration, h1]
        omega
      refine ⟨afterCandidates cfg s1, ?_, ?_, ?_⟩
      · rw [searchLoop_succ cfg rng f s s1 hp, if_pos hstop]
      · rw [afterCandidates_iteration, h1]; omega
      · rw [(afterCandidates_sameBest cfg s1).1, h3, List.length_range]; omega
    · intro fuel hf
      have : fuel = 0 := by omega
      subst this
      rfl
  | succ d ih =>
    intro s hs
    obtain ⟨s1, hp⟩ := pass_total cfg rng ha hb (List.range cfg.nPop) s
    obtain ⟨h1, _, h3⟩ := pass_frame cfg rng _ s s1 hp
    have hnstop : ¬ stopSearch cfg (afterCandidates cfg s1) := by
      rw [stopSearch_iterOnly cfg _ N hN hlim huse hprec, afterCandidates_iteration, h1]
      omega
    have hnext : ((afterCandidates cfg s1).iteration + 1) % 2 ^ 32 = s.iteration + 1 := by
      rw [afterCandidates_iteration, h1]
      exact Nat.mod_eq_of_lt (by omega)
    obtain ⟨ihA, ihB⟩ := ih
      { afterCandidates cfg s1 with
        iteration := ((afterCandidates cfg s1).iteration + 1) % 2 ^ 32 }
      (by
        show ((afterCandidates cfg s1).iteration + 1) % 2 ^ 32 + d = N
        rw [hnext]; omega)
    have hlen : (afterCandidates cfg s1).evaluated.length
        = s.evaluated.length + cfg.nPop := by
      rw [(afterCandidates_sameBest cfg s1).1, h3, List.length_range]
    refine ⟨?_, ?_⟩
    · intro fuel hf
      obtain ⟨f, rfl⟩ : ∃ f, fuel = f + 1 := ⟨fuel - 1, by omega⟩
      obtain ⟨res, hr1, hr2, hr3⟩ := ihA f (by omega)
      refine ⟨res, ?_, hr2, ?_⟩
      · rw [searchLoop_succ cfg rng f s s1 hp, if_neg hnstop]
        exact hr1
      · rw [hr3]
        show (afterCandidates cfg s1).evaluated.length + (d + 1) * cfg.nPop = _
        rw [hlen]
        ring
    · intro fuel hf
      rcases fuel with _ | f
      · rfl
      · rw [searchLoop_succ cfg rng f s s1 hp, if_neg hnstop]
        exact ihB f (by omega)

end IterationCount

/-- C11, as amended. With the precision limit disabled, the iteration limit enabled with a
value `N ≥ 1`, and nonzero periods `a` and `b`, every run of `PSOAlg_run_search` returns,
the count written to `*iteration` is `N`, and the run makes exactly `N` passes over the
population: `N` passes of fuel suffice, fewer do not, and `(N + 1) * nPop` costs are
evaluated (INIT and `N` passes). -/
theorem iteration_limit_count (cfg : PSOConfig) (rng : ℕ → ℕ) (mem : PSOState) (N : ℕ)
    (hN1 : 1 ≤ N) (hN2 : N < 2 ^ 31) (hlim : cfg.iterLimit = (N : ℤ))
    (huse : cfg.useIterLimit ≠ 0) (hprec : cfg.usePrecisionLimit = 0) (ha : cfg.a ≠ 0)
    (hb : toUnsigned cfg.b ≠ 0) :
    (∀ fuel, N ≤ fuel → ∃ res, PSOAlg_run_search cfg rng mem fuel = Except.ok res
        ∧ res.iteration = N ∧ res.evaluated.length = (N + 1) * cfg.nPop)
      ∧ (∀ fuel, fuel < N →
          PSOAlg_run_search cfg rng mem fuel = Except.error PSOError.outOfFuel) := by
  obtain ⟨hit, hev⟩ := psoInit_counts cfg rng mem
  obtain ⟨hA, hB⟩ := searchLoop_iterLimit cfg rng N (by omega) hlim huse hprec ha hb (N - 1)
    (psoInit cfg rng mem) (by rw [hit]; omega)
  unfold PSOAlg_run_search
  refine ⟨?_, ?_⟩
  · intro fuel hf
    obtain ⟨res, h1, h2, h3⟩ := hA fuel (by omega)
    refine ⟨res, h1, h2, ?_⟩
    rw [h3, hev, Nat.sub_add_cancel hN1]
    ring
  · intro fuel hf
    exact hB fuel (by omega)

theorem iteration_limit_count_witness :
    1 ≤ 1 ∧ 1 < 2 ^ 31 ∧ witnessCfg.iterLimit = ((1 : ℕ) : ℤ) ∧ witnessCfg.useIterLimit ≠ 0
      ∧ witnessCfg.usePrecisionLimit = 0 ∧ witnessCfg.a ≠ 0 ∧ toUnsigned witnessCfg.b ≠ 0
      ∧ (∀ fuel, 1 ≤ fuel → ∃ res,
          PSOAlg_run_search witnessCfg (fun _ => 0) witnessMem fuel = Except.ok res
            ∧ res.iteration = 1 ∧ res.evaluated.length = (1 + 1) * witnessCfg.nPop)
      ∧ (∀ fuel, fuel < 1 → PSOAlg_run_search witnessCfg (fun _ => 0) witnessMem fuel
          = Except.error PSOError.outOfFuel) :=
  have hb : toUnsigned witnessCfg.b ≠ 0 := by
    unfold toUnsigned; simp [witnessCfg]
  ⟨le_refl 1, by norm_num, rfl, by decide, rfl, by decide, hb,
    iteration_limit_count witnessCfg (fun _ => 0) witnessMem 1 (le_refl 1) (by norm_num) rfl
      (by decide) rfl (by decide) hb⟩

/-- C11 as stated fails for the limit `N = 0`: the run makes one pass and returns the count
1; and with the period `a = 0` the remainder `i % a` has no value and the run does not
return. -/
theorem iteration_limit_zero :
    (zeroLimitCfg.usePrecisionLimit = 0 ∧ zeroLimitCfg.useIterLimit ≠ 0
        ∧ zeroLimitCfg.iterLimit = 0
        ∧ ∃ res, PSOAlg_run_search zeroLimitCfg (fun _ => 0) witnessMem 1 = Except.ok res
            ∧ res.iteration = 1)
      ∧ (zeroPeriodCfg.usePrecisionLimit = 0 ∧ zeroPeriodCfg.useIterLimit ≠ 0
        ∧ zeroPeriodCfg.iterLimit = 1
        ∧ PSOAlg_run_search zeroPeriodCfg (fun _ => 0) witnessMem 1
            = Except.error PSOError.divisionByZero) := by
  refine ⟨⟨rfl, by decide, rfl, ?_⟩, rfl, by decide, rfl, ?_⟩
  · have ha : zeroLimitCfg.a ≠ 0 := by decide
    have hb : toUnsigned zeroLimitCfg.b ≠ 0 := by
      unfold toUnsigned; simp [zeroLimitCfg, witnessCfg]
    obtain ⟨s1, hp⟩ := pass_total zeroLimitCfg (fun _ => 0) ha hb
      (List.range zeroLimitCfg.nPop) (psoInit zeroLimitCfg (fun _ => 0) witnessMem)
    obtain ⟨h1, _, _⟩ := pass_frame zeroLimitCfg (fun _ => 0) _ _ s1 hp
    have hit := (psoInit_counts zeroLimitCfg (fun _ => 0) witnessMem).1
    have hstop : stopSearch zeroLimitCfg (afterCandidates zeroLimitCfg s1) := by
      left
      refine ⟨by decide, ?_⟩
      have : toUnsigned zeroLimitCfg.iterLimit = 0 := by
        unfold toUnsigned; simp [zeroLimitCfg]
      rw [this]
      exact Nat.zero_le _
    refine ⟨afterCandidates zeroLimitCfg s1, ?_, ?_⟩
    · unfold PSOAlg_run_search
      rw [searchLoop_succ zeroLimitCfg (fun _ => 0) 0 _ s1 hp, if_pos hstop]
    · rw [afterCandidates_iteration, h1, hit]
  · unfold PSOAlg_run_search searchLoop
    have hp : zeroPeriodCfg.nPop = 1 := rfl
    have ha : zeroPeriodCfg.a = 0 := rfl
    simp only [hp, List.range_succ, List.range_zero, List.nil_append, List.foldlM_cons,
      List.foldlM_nil]
    unfold candidatePass
    simp [ha, bind, Except.bind]

section Termination

theorem toUnsigned_of_nonneg (n : ℤ) (h0 : 0 ≤ n) (h1 : n < 2 ^ 32) :
    ((toUnsigned n : ℕ) : ℤ) = n := by
  unfold toUnsigned
  rw [Int.emod_eq_of_lt h0 h1, Int.toNat_of_nonneg h0]

/-- A run of the loop that returns has just passed the termination test. -/
theorem searchLoop_stops (cfg : PSOConfig) (rng : ℕ → ℕ) (fuel : ℕ) (s res : PSOState)
    (h : searchLoop cfg rng fuel s = Except.ok res) : stopSearch cfg res := by
  induction fuel generalizing s with
  | zero => unfold searchLoop at h; cases h
  | succ fuel ih =>
    cases hp : (List.range cfg.nPop).foldlM (candidatePass cfg rng) s with
    | error e =>
      unfold searchLoop at h
      rw [hp] at h
      cases h
    | ok s1 =>
      rw [searchLoop_succ cfg rng fuel s s1 hp] at h
      split_ifs at h with hstop
      · cases h
        exact hstop
      · exact ih _ h

end Termination

section Swarm

theorem psoInit_eq (cfg : PSOConfig) (rng : ℕ → ℕ) (mem : PSOState) :
    psoInit cfg rng mem
      = initRecord cfg
          ((List.range cfg.nPop).foldl (fun s i => updateCosts cfg i s)
            (psoInitDrawn cfg rng mem)) := rfl

theorem psoInitDrawn_frame (cfg : PSOConfig) (rng : ℕ → ℕ) (mem : PSOState) :
    SameFrame
      { mem with iteration := 1, globalBestCost := ⊤,
                 PSOPart_bestCost :=
                   fun i => if i < cfg.nPop then (⊤ : WithTop ℝ) else mem.PSOPart_bestCost i,
                 w := cfg.w, randCalls := 0, evaluated := [] }
      (psoInitDrawn cfg rng mem) :=
  foldl_sameFrame _
    (fun s i => foldl_sameFrame _ (fun s j => redraw_sameFrame cfg rng i j s) _ s) _ _

theorem SwarmInv.of_eq {cfg : PSOConfig} {s t : PSOState} {hist : ℕ → List ℝ}
    (hg : t.globalBestCost = s.globalBestCost) (hb : t.PSOPart_bestCost = s.PSOPart_bestCost)
    (h : SwarmInv cfg s hist) : SwarmInv cfg t hist := by
  unfold SwarmInv
  rw [hg, hb]
  exact h

theorem swarmInv_update (cfg : PSOConfig) (s : PSOState) (hist : ℕ → List ℝ) (i : ℕ)
    (h : SwarmInv cfg s hist) :
    SwarmInv cfg (updateCosts cfg i s)
      (Function.update hist i (hist i ++ [(updateCosts cfg i s).PSOPart_cost i])) := by
  intro k hk
  obtain ⟨hg, hh, _⟩ := h k hk
  rw [updateCosts_globalBestCost, updateCosts_bestCost, updateCosts_cost]
  set c := costOf cfg (fun j => s.PSOPart_position i j) with hc
  have hgmin : (if (c : WithTop ℝ) < s.globalBestCost then (c : WithTop ℝ)
      else s.globalBestCost) ≤ s.globalBestCost := by
    split_ifs with h1
    · exact h1.le
    · exact le_rfl
  have hgc : (if (c : WithTop ℝ) < s.globalBestCost then (c : WithTop ℝ)
      else s.globalBestCost) ≤ (c : WithTop ℝ) := by
    split_ifs with h1
    · exact le_rfl
    · exact not_lt.mp h1
  by_cases hki : k = i
  · subst hki
    simp only [Function.update_same]
    by_cases hlt : (c : WithTop ℝ) < s.PSOPart_bestCost k
    · simp only [hlt, if_true, Function.update_same]
      refine ⟨hgc, ?_, ?_⟩
      · intro x hx
        rw [List.mem_append, List.mem_singleton] at hx
        rcases hx with hx | hx
        · exact hlt.le.trans (hh x hx)
        · rw [hx]
      · intro hnil
        simp at hnil
    · simp only [hlt, if_false]
      refine ⟨hgmin.trans hg, ?_, ?_⟩
      · intro x hx
        rw [List.mem_append, List.mem_singleton] at hx
        rcases hx with hx | hx
        · exact hh x hx
        · rw [hx]; exact not_lt.mp hlt
      · intro hnil
        simp at hnil
  · rw [Function.update_noteq hki]
    have hbk : (if (c : WithTop ℝ) < s.PSOPart_bestCost i
        then Function.update s.PSOPart_bestCost i (c : WithTop ℝ)
        else s.PSOPart_bestCost) k = s.PSOPart_bestCost k := by
      split_ifs
      · exact Function.update_noteq hki _ _
      · rfl
    rw [hbk]
    exact ⟨hgmin.trans hg, hh, (h k hk).2.2⟩

theorem afterCandidates_bests (cfg : PSOConfig) (s : PSOState) :
    (afterCandidates cfg s).globalBestCost = s.globalBestCost
      ∧ (afterCandidates cfg s).PSOPart_bestCost = s.PSOPart_bestCost := by
  unfold afterCandidates
  simp only []
  split_ifs <;> exact ⟨rfl, rfl⟩

theorem initRecord_bests (cfg : PSOConfig) (s : PSOState) :
    (initRecord cfg s).globalBestCost = s.globalBestCost
      ∧ (initRecord cfg s).PSOPart_bestCost = s.PSOPart_bestCost := by
  unfold initRecord
  split_ifs <;> exact ⟨rfl, rfl⟩

/-- The swarm-state relation holds at every program point. -/
theorem swarmPoint_inv (cfg : PSOConfig) (rng : ℕ → ℕ) (mem : PSOState) (s : PSOState)
    (hist : ℕ → List ℝ) (h : SwarmPoint cfg rng mem s hist) : SwarmInv cfg s hist := by
  induction h with
  | drawn =>
    obtain ⟨_, _, hb, hg, _⟩ := psoInitDrawn_frame cfg rng mem
    intro i hi
    rw [hg, hb]
    simp [hi]
  | initEvaluated s hist i _ _ ih => exact swarmInv_update cfg s hist i ih
  | initDone s hist _ ih =>
    exact SwarmInv.of_eq (initRecord_bests cfg s).1 (initRecord_bests cfg s).2 ih
  | candidate s hist i t _ _ hp ih =>
    obtain ⟨s3, rfl, hf⟩ := candidatePass_eq cfg rng s i t hp
    exact swarmInv_update cfg s3 hist i (SwarmInv.of_eq hf.2.2.2.1 hf.2.2.1 ih)
  | passDone s hist _ ih =>
    exact SwarmInv.of_eq (afterCandidates_bests cfg s).1 (afterCandidates_bests cfg s).2 ih
  | counted s hist _ ih => exact SwarmInv.of_eq rfl rfl ih

theorem initEvaluated_reach (cfg : PSOConfig) (rng : ℕ → ℕ) (mem : PSOState) (l : List ℕ)
    (hl : ∀ i ∈ l, i < cfg.nPop) (s : PSOState) (hist : ℕ → List ℝ)
    (h : SwarmPoint cfg rng mem s hist) :
    ∃ hist2, SwarmPoint cfg rng mem (l.foldl (fun s i => updateCosts cfg i s) s) hist2 := by
  induction l generalizing s hist with
  | nil => exact ⟨hist, h⟩
  | cons i l ih =>
    exact ih (fun k hk => hl k (List.mem_cons_of_mem _ hk)) _ _
      (SwarmPoint.initEvaluated s hist i h (hl i (List.mem_cons_self _ _)))

theorem psoInit_reach (cfg : PSOConfig) (rng : ℕ → ℕ) (mem : PSOState) :
    ∃ hist, SwarmPoint cfg rng mem (psoInit cfg rng mem) hist := by
  obtain ⟨hist, h⟩ := initEvaluated_reach cfg rng mem (List.range cfg.nPop)
    (fun i hi => List.mem_range.mp hi) _ _ SwarmPoint.drawn
  exact ⟨hist, SwarmPoint.initDone _ _ h⟩

theorem pass_reach (cfg : PSOConfig) (rng : ℕ → ℕ) (mem : PSOState) (l : List ℕ)
    (hl : ∀ i ∈ l, i < cfg.nPop) (s t : PSOState) (hist : ℕ → List ℝ)
    (h : SwarmPoint cfg rng mem s hist)
    (hp : l.foldlM (candidatePass cfg rng) s = Except.ok t) :
    ∃ hist2, SwarmPoint cfg rng mem t hist2 := by
  induction l generalizing s hist with
  | nil =>
    simp only [List.foldlM_nil] at hp
    cases hp
    exact ⟨hist, h⟩
  | cons i l ih =>
    rw [List.foldlM_cons] at hp
    cases hb : candidatePass cfg rng s i with
    | error e => rw [hb] at hp; cases hp
    | ok u =>
      rw [hb] at hp
      exact ih (fun k hk => hl k (List.mem_cons_of_mem _ hk)) u _
        (SwarmPoint.candidate s hist i u h (hl i (List.mem_cons_self _ _)) hb) hp

theorem searchLoop_reach (cfg : PSOConfig) (rng : ℕ → ℕ) (mem : PSOState) (fuel : ℕ)
    (s res : PSOState) (hist : ℕ → List ℝ) (h : SwarmPoint cfg rng mem s hist)
    (hrun : searchLoop cfg rng fuel s = Except.ok res) :
    ∃ hist2, SwarmPoint cfg rng mem res hist2 := by
  induction fuel generalizing s hist with
  | zero => unfold searchLoop at hrun; cases hrun
  | succ fuel ih =>
    cases hp : (List.range cfg.nPop).foldlM (candidatePass cfg rng) s with
    | error e =>
      unfold searchLoop at hrun
      rw [hp] at hrun
      cases hrun
    | ok s1 =>
      obtain ⟨hist1, h1⟩ := pass_reach cfg rng mem _ (fun i hi => List.mem_range.mp hi)
        s s1 hist h hp
      rw [searchLoop_succ cfg rng fuel s s1 hp] at hrun
      split_ifs at hrun with hstop
      · cases hrun
        exact ⟨hist1, SwarmPoint.passDone _ _ h1⟩
      · exact ih _ _ (SwarmPoint.counted _ _ (SwarmPoint.passDone _ _ h1)) hrun

end Swarm

/-- C13. Swarm-state invariant of `PSOAlg_run_search`: at every program point of a run (in
INIT after each evaluation and at its end, and in every pass after each candidate's
evaluation), `globalBestCost ≤ PSOPart_bestCost[i]` for every candidate `i`,
`PSOPart_bestCost[i]` is at most every cost assigned to candidate `i` so far, and a
candidate not yet evaluated holds `INFINITY`. The end of INIT and the memory a run returns
are such program points. -/
theorem swarm_invariant (cfg : PSOConfig) (rng : ℕ → ℕ) (mem : PSOState) :
    (∀ (s : PSOState) (hist : ℕ → List ℝ), SwarmPoint cfg rng mem s hist →
        ∀ i < cfg.nPop, s.globalBestCost ≤ s.PSOPart_bestCost i
          ∧ (∀ c ∈ hist i, s.PSOPart_bestCost i ≤ (c : WithTop ℝ))
          ∧ (hist i = [] → s.PSOPart_bestCost i = ⊤))
      ∧ (∃ hist, SwarmPoint cfg rng mem (psoInit cfg rng mem) hist)
      ∧ (∀ (fuel : ℕ) (res : PSOState),
          PSOAlg_run_search cfg rng mem fuel = Except.ok res →
          ∃ hist, SwarmPoint cfg rng mem res hist) := by
  refine ⟨fun s hist h => swarmPoint_inv cfg rng mem s hist h, psoInit_reach cfg rng mem, ?_⟩
  intro fuel res hrun
  obtain ⟨hist, h⟩ := psoInit_reach cfg rng mem
  exact searchLoop_reach cfg rng mem fuel _ res hist h hrun

/-! ## The positions stay in the unit interval -/

section Positions

theorem random_double_range (rng : ℕ → ℕ) (s : PSOState) :
    0 ≤ (random_double rng s).1 ∧ (random_double rng s).1 ≤ 1 := by
  unfold random_double
  simp only []
  constructor
  · positivity
  · rw [div_le_one (by norm_num)]
    have : (rand rng s).1 % 32767 < 32767 := Nat.mod_lt _ (by norm_num)
    exact_mod_cast this.le

theorem redraw_position (cfg : PSOConfig) (rng : ℕ → ℕ) (i j : ℕ) (s : PSOState)
    (i2 j2 : ℕ) :
    (redraw cfg rng i j s).PSOPart_position i2 j2
      = if i2 = i ∧ j2 = j then cfg.varMin + (cfg.varMax - cfg.varMin) * (random_double rng s).1
        else s.PSOPart_position i2 j2 := by
  unfold redraw
  simp only []
  by_cases hi : i2 = i
  · subst hi
    rw [Function.update_same]
    by_cases hj : j2 = j
    · subst hj
      simp [random_double, rand]
    · rw [Function.update_noteq hj]
      simp [hj, random_double, rand]
  · rw [Function.update_noteq hi]
    simp [hi, random_double, rand]

theorem moveStep_eq (cfg : PSOConfig) (rng : ℕ → ℕ) (i j : ℕ) (s : PSOState) :
    moveStep cfg rng i j s
      = if (if (moved cfg rng i j s).PSOPart_position i j > 1.0
              then redraw cfg rng i j (moved cfg rng i j s)
              else moved cfg rng i j s).PSOPart_position i j < 0.0
        then redraw cfg rng i j
          (if (moved cfg rng i j s).PSOPart_position i j > 1.0
            then redraw cfg rng i j (moved cfg rng i j s)
            else moved cfg rng i j s)
        else
          (if (moved cfg rng i j s).PSOPart_position i j > 1.0
            then redraw cfg rng i j (moved cfg rng i j s)
            else moved cfg rng i j s) := rfl

theorem moved_position_other (cfg : PSOConfig) (rng : ℕ → ℕ) (i j : ℕ) (s : PSOState)
    (i2 j2 : ℕ) (hc : ¬ (i2 = i ∧ j2 = j)) :
    (moved cfg rng i j s).PSOPart_position i2 j2 = s.PSOPart_position i2 j2 := by
  unfold moved
  simp only []
  by_cases hi : i2 = i
  · subst hi
    rw [Function.update_same, Function.update_noteq (fun hj => hc ⟨rfl, hj⟩)]
    rfl
  · rw [Function.update_noteq hi]
    rfl

end Positions

section PositionsRun

variable (cfg : PSOConfig) (rng : ℕ → ℕ)

end PositionsRun

section Trajectory

theorem psoInit_fields (cfg : PSOConfig) (rng : ℕ → ℕ) (mem : PSOState) :
    (psoInit cfg rng mem).arrayBestCosts
        = (if cfg.showErrorPlot ≠ 0
            then Function.update mem.arrayBestCosts 0 (psoInit cfg rng mem).globalBestCost
            else mem.arrayBestCosts)
      ∧ (psoInit cfg rng mem).PSOPart_velocity = mem.PSOPart_velocity
      ∧ (psoInit cfg rng mem).w = cfg.w := by
  have ha : ((List.range cfg.nPop).foldl (fun s i => updateCosts cfg i s)
      (psoInitDrawn cfg rng mem)).arrayBestCosts = mem.arrayBestCosts := by
    rw [foldl_preserve (fun s => s.arrayBestCosts) _
      (fun s i => updateCosts_arrayBestCosts cfg i s)]
    exact (psoInitDrawn_frame cfg rng mem).2.2.2.2.2.1
  have hv : ((List.range cfg.nPop).foldl (fun s i => updateCosts cfg i s)
      (psoInitDrawn cfg rng mem)).PSOPart_velocity = mem.PSOPart_velocity := by
    rw [foldl_preserve (fun s => s.PSOPart_velocity) _
      (fun s i => updateCosts_velocity cfg i s)]
    unfold psoInitDrawn
    exact foldl_preserve (fun s => s.PSOPart_velocity)
      (fun s i => (List.range cfg.nVar).foldl (fun s j => redraw cfg rng i j s) s)
      (fun s i => foldl_preserve (fun s => s.PSOPart_velocity)
        (fun s j => redraw cfg rng i j s) (fun s j => rfl) _ s) _ _
  have hw : ((List.range cfg.nPop).foldl (fun s i => updateCosts cfg i s)
      (psoInitDrawn cfg rng mem)).w = cfg.w := by
    rw [foldl_preserve (fun s => s.w) (fun s i => updateCosts cfg i s)
      (fun s i => by unfold updateCosts; simp only []; split_ifs <;> rfl)]
    unfold psoInitDrawn
    exact foldl_preserve (fun s => s.w)
      (fun s i => (List.range cfg.nVar).foldl (fun s j => redraw cfg rng i j s) s)
      (fun s i => foldl_preserve (fun s => s.w)
        (fun s j => redraw cfg rng i j s) (fun s j => rfl) _ s) _ _
  rw [psoInit_eq]
  unfold initRecord
  split_ifs with h
  · exact ⟨by rw [← ha], hv, hw⟩
  · exact ⟨ha, hv, hw⟩

theorem candidatePass_arrayBestCosts (cfg : PSOConfig) (rng : ℕ → ℕ) (s : PSOState) (i : ℕ)
    (t : PSOState) (h : candidatePass cfg rng s i = Except.ok t) :
    t.arrayBestCosts = s.arrayBestCosts := by
  obtain ⟨s3, rfl, hf⟩ := candidatePass_eq cfg rng s i t h
  rw [updateCosts_arrayBestCosts, hf.2.2.2.2.2.1]

theorem afterCandidates_record (cfg : PSOConfig) (s : PSOState) :
    (afterCandidates cfg s).arrayBestCosts
      = if cfg.showErrorPlot ≠ 0 ∧ s.iteration < toUnsigned cfg.iterLimit
        then Function.update s.arrayBestCosts s.iteration s.globalBestCost
        else s.arrayBestCosts := by
  unfold afterCandidates
  simp only []
  split_ifs <;> rfl

/-- A run that returns leaves every entry of `arrayBestCosts` from index `iterLimit` on as
it found it. -/
theorem searchLoop_array_frame (cfg : PSOConfig) (rng : ℕ → ℕ) (hlim0 : 0 ≤ cfg.iterLimit)
    (hlim2 : cfg.iterLimit < 2 ^ 32) (base : ℕ → WithTop ℝ) (fuel : ℕ) (s res : PSOState)
    (hs : ∀ k : ℕ, cfg.iterLimit ≤ (k : ℤ) → s.arrayBestCosts k = base k)
    (h : searchLoop cfg rng fuel s = Except.ok res) :
    ∀ k : ℕ, cfg.iterLimit ≤ (k : ℤ) → res.arrayBestCosts k = base k := by
  induction fuel generalizing s with
  | zero => unfold searchLoop at h; cases h
  | succ fuel ih =>
    cases hp : (List.range cfg.nPop).foldlM (candidatePass cfg rng) s with
    | error e =>
      unfold searchLoop at h
      rw [hp] at h
      cases h
    | ok s1 =>
      obtain ⟨_, ha, _⟩ := pass_frame cfg rng _ s s1 hp
      have h2 : ∀ k : ℕ, cfg.iterLimit ≤ (k : ℤ) →
          (afterCandidates cfg s1).arrayBestCosts k = base k := by
        intro k hk
        rw [afterCandidates_record]
        split_ifs with hc
        · have hu := toUnsigned_of_nonneg cfg.iterLimit hlim0 hlim2
          have hne : k ≠ s1.iteration := by
            intro hkk
            have : ((s1.iteration : ℕ) : ℤ) < (toUnsigned cfg.iterLimit : ℕ) := by
              exact_mod_cast hc.2
            rw [hu, ← hkk] at this
            omega
          rw [Function.update_noteq hne, ha]
          exact hs k hk
        · rw [ha]
          exact hs k hk
      rw [searchLoop_succ cfg rng fuel s s1 hp] at h
      split_ifs at h with hstop
      · cases h
        exact h2
      · refine ih _ ?_ h
        exact h2

end Trajectory

/-- C15. With trajectory recording enabled (`showErrorPlot ≠ 0`) and `iterLimit ≥ 1`,
`PSOAlg_run_search` writes `arrayBestCosts` only at indices in `[0, iterLimit)`: INIT
writes the global-best cost to index 0 and nothing else; the evaluation of a candidate
writes nothing; the end of the pass with counter `k` writes the global-best cost to index
`k` and nothing else when `k < iterLimit`, and writes nothing when `k ≥ iterLimit`; a run
that returns leaves every entry from index `iterLimit` on as it found it. -/
theorem trajectory_recording (cfg : PSOConfig) (hplot : cfg.showErrorPlot ≠ 0)
    (hlim1 : 1 ≤ cfg.iterLimit) (hlim2 : cfg.iterLimit < 2 ^ 31) :
    (∀ (rng : ℕ → ℕ) (mem : PSOState),
        (psoInit cfg rng mem).arrayBestCosts 0 = (psoInit cfg rng mem).globalBestCost
          ∧ ∀ k, k ≠ 0 → (psoInit cfg rng mem).arrayBestCosts k = mem.arrayBestCosts k)
      ∧ (∀ (rng : ℕ → ℕ) (s : PSOState) (i : ℕ) (t : PSOState),
          candidatePass cfg rng s i = Except.ok t → t.arrayBestCosts = s.arrayBestCosts)
      ∧ (∀ s : PSOState,
          (afterCandidates cfg s).globalBestCost = s.globalBestCost
          ∧ ((s.iteration : ℤ) < cfg.iterLimit →
              (afterCandidates cfg s).arrayBestCosts s.iteration = s.globalBestCost
                ∧ ∀ k, k ≠ s.iteration →
                    (afterCandidates cfg s).arrayBestCosts k = s.arrayBestCosts k)
          ∧ (cfg.iterLimit ≤ (s.iteration : ℤ) →
              (afterCandidates cfg s).arrayBestCosts = s.arrayBestCosts))
      ∧ (∀ (rng : ℕ → ℕ) (mem : PSOState) (fuel : ℕ) (res : PSOState),
          PSOAlg_run_search cfg rng mem fuel = Except.ok res →
          ∀ k : ℕ, cfg.iterLimit ≤ (k : ℤ) → res.arrayBestCosts k = mem.arrayBestCosts k) := by
  have hu := toUnsigned_of_nonneg cfg.iterLimit (by omega) (by omega)
  refine ⟨?_, ?_, ?_, ?_⟩
  · intro rng mem
    rw [(psoInit_fields cfg rng mem).1, if_pos hplot]
    exact ⟨Function.update_same _ _ _, fun k hk => Function.update_noteq hk _ _⟩
  · exact fun rng s i t h => candidatePass_arrayBestCosts cfg rng s i t h
  · intro s
    refine ⟨(afterCandidates_bests cfg s).1, ?_, ?_⟩
    · intro hk
      have hlt : s.iteration < toUnsigned cfg.iterLimit := by
        have : ((s.iteration : ℕ) : ℤ) < (toUnsigned cfg.iterLimit : ℕ) := by rw [hu]; exact hk
        exact_mod_cast this
      rw [afterCandidates_record, if_pos ⟨hplot, hlt⟩]
      exact ⟨Function.update_same _ _ _, fun k hk => Function.update_noteq hk _ _⟩
    · intro hk
      have hge : ¬ s.iteration < toUnsigned cfg.iterLimit := by
        intro hlt
        have : ((s.iteration : ℕ) : ℤ) < (toUnsigned cfg.iterLimit : ℕ) := by
          exact_mod_cast hlt
        rw [hu] at this
        omega
      rw [afterCandidates_record, if_neg (fun hc => hge hc.2)]
  · intro rng mem fuel res hrun
    apply searchLoop_array_frame cfg rng (by omega) (by omega) mem.arrayBestCosts fuel _ res _
      hrun
    intro k hk
    rw [(psoInit_fields cfg rng mem).1, if_pos hplot]
    exact Function.update_noteq (by omega) _ _

theorem trajectory_recording_witness :
    plotCfg.showErrorPlot ≠ 0 ∧ 1 ≤ plotCfg.iterLimit ∧ plotCfg.iterLimit < 2 ^ 31
      ∧ (psoInit plotCfg (fun _ => 0) witnessMem).arrayBestCosts 0
          = (psoInit plotCfg (fun _ => 0) witnessMem).globalBestCost
      ∧ ∀ k, k ≠ 0 →
          (psoInit plotCfg (fun _ => 0) witnessMem).arrayBestCosts k
            = witnessMem.arrayBestCosts k :=
  ⟨by decide, by decide, by decide,
    (trajectory_recording plotCfg (by decide) (by decide) (by decide)).1 (fun _ => 0)
      witnessMem⟩

section Velocity

theorem redraw_velocity (cfg : PSOConfig) (rng : ℕ → ℕ) (i j : ℕ) (s : PSOState) :
    (redraw cfg rng i j s).PSOPart_velocity = s.PSOPart_velocity := rfl

theorem moveStep_velocity (cfg : PSOConfig) (rng : ℕ → ℕ) (i j : ℕ) (s : PSOState) :
    (moveStep cfg rng i j s).PSOPart_velocity i j
      = s.w * s.PSOPart_velocity i j
        + (random_double rng s).1 * cfg.c1
            * (s.PSOPart_bestPosition i j - s.PSOPart_position i j)
        + (random_double rng (random_double rng s).2).1 * cfg.c2
            * (s.globalBestPosition j - s.PSOPart_position i j) := by
  have hm : (moved cfg rng i j s).PSOPart_velocity i j
      = s.w * s.PSOPart_velocity i j
        + (random_double rng s).1 * cfg.c1
            * (s.PSOPart_bestPosition i j - s.PSOPart_position i j)
        + (random_double rng (random_double rng s).2).1 * cfg.c2
            * (s.globalBestPosition j - s.PSOPart_position i j) := by
    unfold moved
    simp only [Function.update_same]
    rfl
  rw [moveStep_eq]
  split_ifs <;> exact hm

end Velocity

/-- C16 fails on the code. INIT never writes `PSOPart_velocity`: after INIT the array
holds what the memory from `malloc` held, and the first velocity update adds `w` times
that value. With the value 1 found in memory, weight `w = 1` and a random stream of zeros,
the first updated velocity is 1, not 0. -/
theorem init_velocity_unset :
    (∀ (cfg : PSOConfig) (rng : ℕ → ℕ) (mem : PSOState),
        (psoInit cfg rng mem).PSOPart_velocity = mem.PSOPart_velocity)
      ∧ (∀ (cfg : PSOConfig) (rng : ℕ → ℕ) (i j : ℕ) (s : PSOState),
          (moveStep cfg rng i j s).PSOPart_velocity i j
            = s.w * s.PSOPart_velocity i j
              + (random_double rng s).1 * cfg.c1
                  * (s.PSOPart_bestPosition i j - s.PSOPart_position i j)
              + (random_double rng (random_double rng s).2).1 * cfg.c2
                  * (s.globalBestPosition j - s.PSOPart_position i j))
      ∧ (psoInit triangleCfg (fun _ => 0) garbageMem).PSOPart_velocity 0 0 = 1
      ∧ (moveStep triangleCfg (fun _ => 0) 0 0
          (psoInit triangleCfg (fun _ => 0) garbageMem)).PSOPart_velocity 0 0 = 1 := by
  refine ⟨fun cfg rng mem => (psoInit_fields cfg rng mem).2.1,
    fun cfg rng i j s => moveStep_velocity cfg rng i j s, ?_, ?_⟩
  · rw [(psoInit_fields triangleCfg (fun _ => 0) garbageMem).2.1]
    rfl
  · rw [moveStep_velocity, (psoInit_fields triangleCfg (fun _ => 0) garbageMem).2.1,
      (psoInit_fields triangleCfg (fun _ => 0) garbageMem).2.2]
    have hr : ∀ s : PSOState, (random_double (fun _ => 0) s).1 = 0 := by
      intro s
      unfold random_double rand
      simp
    rw [hr, hr]
    have hw : triangleCfg.w = 1 := rfl
    have hv : garbageMem.PSOPart_velocity 0 0 = 1 := rfl
    rw [hw, hv]
    ring

/-! ## Divisors and winding of the geometry kernel -/

section Divisors

theorem gpp_perimeter (s : ℝ) (o : ℕ → ℝ) (n : ℕ) :
    (get_particle_parameters s o n).perimeter = perimeterUm s n (vertX o n) (vertY o n) := rfl

theorem nextIdx_eq_mod {n i : ℕ} (hi : i < n) : nextIdx n i = (i + 1) % n := by
  unfold nextIdx
  split_ifs with h
  · rw [h, Nat.sub_add_cancel (by omega), Nat.mod_self]
  · rw [Nat.mod_eq_of_lt (by omega)]

theorem hull_area_pos {o : ℕ → ℝ} {n : ℕ} (hn : 3 ≤ n) (ho : ∀ i < n, 0 ≤ o i ∧ o i ≤ 1) :
    0 < calc_area_pix (calc_convex_hull_coords n (vertX o n) (vertY o n)).length
          (hullX (calc_convex_hull_coords n (vertX o n) (vertY o n)))
          (hullY (calc_convex_hull_coords n (vertX o n) (vertY o n))) :=
  lt_of_lt_of_le (area_pos hn ho) (hull_bounds hn ho).2

end Divisors

/-- C17. For `nDim ≥ 3`, every offset in `[0, 1]` and `imgScale > 0`, no division of
`get_particle_parameters` has a zero divisor: `nDim` (angle step), `6.0 * areaPixels`
(centroid), `perimeter` and its square (circularity, HS circularity, convexity), the hull
area (solidity), `2 * imgScale` (axis endpoints), the major-axis projection length
(`aspectRatio`), the minor-axis projection length when the axes are swapped, and, in the
general branch of `calc_projection_length`, the deltas `a`, `b` and `a² + b²`. -/
theorem kernel_divisors_nonzero (imgScale : ℝ) (dimsValues : ℕ → ℝ) (nDim : ℕ)
    (hn : 3 ≤ nDim) (ho : ∀ i < nDim, 0 ≤ dimsValues i ∧ dimsValues i ≤ 1)
    (hs : 0 < imgScale) :
    (nDim : ℝ) ≠ 0
      ∧ 6.0 * (get_particle_parameters imgScale dimsValues nDim).areaPixels ≠ 0
      ∧ (get_particle_parameters imgScale dimsValues nDim).perimeter ≠ 0
      ∧ (get_particle_parameters imgScale dimsValues nDim).perimeter ^ 2 ≠ 0
      ∧ calc_area_pix
          (calc_convex_hull_coords nDim (vertX dimsValues nDim) (vertY dimsValues nDim)).length
          (hullX (calc_convex_hull_coords nDim (vertX dimsValues nDim) (vertY dimsValues nDim)))
          (hullY (calc_convex_hull_coords nDim (vertX dimsValues nDim) (vertY dimsValues nDim)))
          ≠ 0
      ∧ 2 * imgScale ≠ 0
      ∧ preLength imgScale nDim (vertX dimsValues nDim) (vertY dimsValues nDim) ≠ 0
      ∧ preWidth imgScale nDim (vertX dimsValues nDim) (vertY dimsValues nDim) ≠ 0
      ∧ ∀ x1 y1 x2 y2 : ℝ, ¬ |y2 - y1| ≤ 0.5 → ¬ |x2 - x1| ≤ 0.5 →
          y2 - y1 ≠ 0 ∧ x2 - x1 ≠ 0 ∧ (y2 - y1) ^ 2 + (x2 - x1) ^ 2 ≠ 0 := by
  have hA := area_pos hn ho
  have hP := perimeter_pos hn ho
  have hPs : 0 < perimeterUm imgScale nDim (vertX dimsValues nDim) (vertY dimsValues nDim) :=
    mul_pos hP hs
  refine ⟨?_, ?_, ?_, ?_, (hull_area_pos hn ho).ne', by positivity,
    (preLength_pos hn ho hs).ne', (preWidth_pos hn ho hs).ne', ?_⟩
  · have : (0 : ℝ) < nDim := by exact_mod_cast (by omega : 0 < nDim)
    exact this.ne'
  · rw [gpp_areaPixels]
    have : (0 : ℝ) < 6.0 * calc_area_pix nDim (vertX dimsValues nDim) (vertY dimsValues nDim) := by
      norm_num
      exact hA
    exact this.ne'
  · rw [gpp_perimeter]
    exact hPs.ne'
  · rw [gpp_perimeter]
    exact (pow_pos hPs 2).ne'
  · intro x1 y1 x2 y2 ha hb
    have ha' : y2 - y1 ≠ 0 := by
      intro h
      apply ha
      rw [h, abs_zero]
      norm_num
    have hb' : x2 - x1 ≠ 0 := by
      intro h
      apply hb
      rw [h, abs_zero]
      norm_num
    refine ⟨ha', hb', ?_⟩
    have := sq_pos_of_ne_zero ha'
    have := sq_nonneg (x2 - x1)
    linarith

theorem kernel_divisors_nonzero_witness :
    (3 ≤ 3) ∧ (∀ i < 3, 0 ≤ (fun _ : ℕ => (0 : ℝ)) i ∧ (fun _ : ℕ => (0 : ℝ)) i ≤ 1)
      ∧ (0 : ℝ) < 1
      ∧ (get_particle_parameters 1 (fun _ => 0) 3).perimeter ≠ 0
      ∧ preLength 1 3 (vertX (fun _ => 0) 3) (vertY (fun _ => 0) 3) ≠ 0 :=
  ⟨le_refl 3, fun _ _ => ⟨le_refl 0, zero_le_one⟩, one_pos,
    (kernel_divisors_nonzero 1 (fun _ => 0) 3 (le_refl 3)
      (fun _ _ => ⟨le_refl 0, zero_le_one⟩) one_pos).2.2.1,
    (kernel_divisors_nonzero 1 (fun _ => 0) 3 (le_refl 3)
      (fun _ _ => ⟨le_refl 0, zero_le_one⟩) one_pos).2.2.2.2.2.2.1⟩

/-- C20. Fixed winding: for every `nDim ≥ 3` and every offset vector with entries in
`[0, 1]`, the signed shoelace area computed by `get_particle_parameters` equals
`(1/2) * sin (2π / nDim) * Σ_i r_i * r_((i+1) mod nDim)` with `r_i = 175 * o_i + 5`, and
is strictly positive. -/
theorem fixed_winding (imgScale : ℝ) (dimsValues : ℕ → ℝ) (nDim : ℕ) (hn : 3 ≤ nDim)
    (ho : ∀ i < nDim, 0 ≤ dimsValues i ∧ dimsValues i ≤ 1) :
    (get_particle_parameters imgScale dimsValues nDim).areaPixels
        = 1 / 2 * sin (2 * π / nDim)
            * ∑ i in Finset.range nDim,
                (175 * dimsValues i + 5) * (175 * dimsValues ((i + 1) % nDim) + 5)
      ∧ 0 < (get_particle_parameters imgScale dimsValues nDim).areaPixels := by
  rw [gpp_areaPixels]
  refine ⟨?_, area_pos hn ho⟩
  rw [area_polar]
  have e : ∀ i ∈ Finset.range nDim,
      (175 * dimsValues i + 5) * (175 * dimsValues (nextIdx nDim i) + 5)
        = (175 * dimsValues i + 5) * (175 * dimsValues ((i + 1) % nDim) + 5) := by
    intro i hi
    rw [nextIdx_eq_mod (Finset.mem_range.mp hi)]
  rw [Finset.sum_congr rfl e]
  ring

theorem fixed_winding_witness :
    (3 ≤ 3) ∧ (∀ i < 3, 0 ≤ (fun _ : ℕ => (0 : ℝ)) i ∧ (fun _ : ℕ => (0 : ℝ)) i ≤ 1)
      ∧ 0 < (get_particle_parameters 1 (fun _ => 0) 3).areaPixels :=
  ⟨le_refl 3, fun _ _ => ⟨le_refl 0, zero_le_one⟩,
    (fixed_winding 1 (fun _ => 0) 3 (le_refl 3) (fun _ _ => ⟨le_refl 0, zero_le_one⟩)).2⟩

/-! ## The hull sweep on arrays with repeated points -/

section WeakSweep

variable {K : Type} [LinearOrderedField K]

theorem AllLeft_congr {pts pts2 : List (K × K)} (hm : ∀ x, x ∈ pts ↔ x ∈ pts2)
    (st : List (K × K)) (h : AllLeft pts st) : AllLeft pts2 st := by
  induction st with
  | nil => trivial
  | cons b tl ih =>
    cases tl with
    | nil => trivial
    | cons a rest => exact ⟨fun q hq => h.1 q ((hm q).mpr hq), ih h.2⟩

theorem popWhile_single (p a : K × K) : popWhile p [a] = [a] := by
  rw [popWhile]
  · intro top second rest h
    simp at h

theorem popWhile_nil (p : K × K) : popWhile p ([] : List (K × K)) = [] := by
  rw [popWhile]
  · intro top second rest h
    simp at h

theorem popWhile_pair_same (p a : K × K) : popWhile p [a, a] = [a] := by
  rw [popWhile]
  have : cross a.1 a.2 a.1 a.2 p.1 p.2 ≤ 0 := by unfold cross; simp
  simp only [this, if_true]
  exact popWhile_single p a

/-- Pushing the point on top of the stack again leaves a stack of at least two points as it
is. -/
theorem popWhile_repeat (t x : K × K) (r : List (K × K)) (hl : LeftTurning (t :: x :: r)) :
    t :: popWhile t (t :: x :: r) = t :: x :: r := by
  have h0 : cross x.1 x.2 t.1 t.2 t.1 t.2 ≤ 0 := by
    have := turn_self_right x t
    unfold turn at this
    rw [this]
  have e : popWhile t (t :: x :: r) = popWhile t (x :: r) := by
    rw [popWhile]; simp only [h0, if_true]
  rw [e]
  congr 1
  cases r with
  | nil => exact popWhile_single t x
  | cons y r2 =>
    have hpos : ¬ cross y.1 y.2 x.1 x.2 t.1 t.2 ≤ 0 := not_le.mpr hl.1
    rw [popWhile]; simp only [hpos, if_false]

theorem sweepInv_single (σ : K) (a : K × K) : SweepInv σ [a] [a] := by
  refine ⟨fun h => by simp at h, fun x hx => hx, List.pairwise_singleton _ _, ?_, ?_,
    trivial, trivial⟩
  · intro t ht q hq
    simp only [List.head?_cons, Option.some.injEq] at ht
    left; rw [List.mem_singleton.mp hq, ht]
  · intro t ht q hq
    simp only [List.getLast?_singleton, Option.some.injEq] at ht
    left; rw [List.mem_singleton.mp hq, ht]

/-- One pass of a hull sweep over an array that may repeat points maintains `WeakInv`. -/
theorem weak_step {σ : K} (hσ : σ * σ = 1) (seen st : List (K × K)) (p : K × K)
    (hinv : WeakInv σ seen st) (hp : ∀ q ∈ seen, q = p ∨ Ahead σ q p) :
    WeakInv σ (seen ++ [p]) (p :: popWhile p st) := by
  obtain ⟨known, hm, hpw, hcase⟩ := hinv
  by_cases hpk : p ∈ known
  · -- a point seen before: it is the last one seen
    have hmem : ∀ x, x ∈ known ↔ x ∈ seen ++ [p] := by
      intro x
      rw [List.mem_append, List.mem_singleton, ← hm x]
      constructor
      · exact Or.inl
      · rintro (h | h)
        · exact h
        · rw [h]; exact hpk
    have hmax : ∀ q ∈ known, q = p ∨ Ahead σ q p := fun q hq => hp q ((hm q).mp hq)
    rcases hcase with ⟨a, hka, hst⟩ | ⟨hlen, hs⟩
    · have hpa : p = a := by rw [hka] at hpk; simpa using hpk
      subst hpa
      refine ⟨known, hmem, hpw, Or.inl ⟨p, hka, Or.inr ?_⟩⟩
      rcases hst with h | h
      · rw [h, popWhile_single]
      · rw [h, popWhile_pair_same]
    · obtain ⟨i1, i2, i3, i4, i5, i6, i7⟩ := hs
      obtain ⟨t, x, r, hst⟩ : ∃ t x r, st = t :: x :: r := by
        match st, hlen with
        | t :: x :: r, _ => exact ⟨t, x, r, rfl⟩
      have htp : t = p := by
        have htk : t ∈ known := i2 t (by rw [hst]; simp)
        rcases hmax t htk with h | h
        · exact h
        · rcases i4 t (by rw [hst]; rfl) p hpk with h2 | h2
          · exact h2.symm
          · exact (Ahead.asymm h h2).elim
      subst htp
      refine ⟨known, hmem, hpw, Or.inr ?_⟩
      rw [hst] at i6 ⊢
      rw [popWhile_repeat t x r i6]
      rw [← hst]
      exact ⟨hlen, i1, i2, i3, i4, i5, by rw [hst]; exact i6, i7⟩
  · -- a new point: strictly ahead of every point seen
    have hnew : ∀ q ∈ known, Ahead σ q p := by
      intro q hq
      rcases hp q ((hm q).mp hq) with h | h
      · rw [h] at hq; exact absurd hq hpk
      · exact h
    have hmem : ∀ x, x ∈ known ++ [p] ↔ x ∈ seen ++ [p] := by
      intro x
      simp only [List.mem_append, List.mem_singleton, hm x]
    have hpw2 : List.Pairwise (Ahead σ) (known ++ [p]) := by
      rw [List.pairwise_append]
      exact ⟨hpw, List.pairwise_singleton _ _,
        fun q hq y hy => by rw [List.mem_singleton.mp hy]; exact hnew q hq⟩
    refine ⟨known ++ [p], hmem, hpw2, Or.inr ?_⟩
    rcases hcase with ⟨a, hka, hst⟩ | ⟨hlen, hs⟩
    · have hstep := sweep_step hσ [a] [a] p (sweepInv_single σ a) (List.pairwise_singleton _ _)
        (fun q hq => hnew q (by rw [hka]; exact hq))
      rw [popWhile_single] at hstep
      have hpop : popWhile p st = [a] := by
        rcases hst with h | h
        · rw [h, popWhile_single]
        · rw [h, popWhile_pair_same]
      rw [hpop, hka]
      exact ⟨by simp, hstep⟩
    · have hstep := sweep_step hσ known st p hs hpw hnew
      refine ⟨?_, hstep⟩
      obtain ⟨_, _, hne, _, _⟩ := popWhile_spec p st
      have : popWhile p st ≠ [] := hne (by intro h; rw [h] at hlen; simp at hlen)
      obtain ⟨y, ys, hy⟩ := List.exists_cons_of_ne_nil this
      rw [hy]
      simp

theorem foldl_weakInv {σ : K} (hσ : σ * σ = 1) (rest seen st : List (K × K))
    (hinv : WeakInv σ seen st)
    (hs : List.Pairwise (fun q p => q = p ∨ Ahead σ q p) (seen ++ rest)) :
    WeakInv σ (seen ++ rest) (rest.foldl (fun st p => p :: popWhile p st) st) := by
  induction rest generalizing seen st with
  | nil => simpa using hinv
  | cons p tl ih =>
    rw [List.foldl_cons]
    have e : seen ++ p :: tl = (seen ++ [p]) ++ tl := by simp
    rw [e] at hs ⊢
    have hs1 := (List.pairwise_append.mp hs).1
    have hp : ∀ q ∈ seen, q = p ∨ Ahead σ q p := fun q hq =>
      (List.pairwise_append.mp hs1).2.2 q hq p (by simp)
    exact ih (seen ++ [p]) _ (weak_step hσ seen st p hinv hp) hs

/-- The stack left by a sweep over a nonempty array in weak sweep order. -/
theorem weak_sweep {σ : K} (hσ : σ * σ = 1) (pts : List (K × K)) (hne : pts ≠ [])
    (hs : List.Pairwise (fun q p => q = p ∨ Ahead σ q p) pts) : WeakInv σ pts (sweep pts) := by
  obtain ⟨a, tl, rfl⟩ := List.exists_cons_of_ne_nil hne
  have h0 : WeakInv σ [a] [a] :=
    ⟨[a], fun x => Iff.rfl, List.pairwise_singleton _ _, Or.inl ⟨a, rfl, Or.inl rfl⟩⟩
  have := foldl_weakInv hσ tl [a] [a] h0 (by simpa using hs)
  unfold sweep
  rw [List.foldl_cons, popWhile_nil]
  simpa using this

end WeakSweep

section HullStacksFacts

variable {K : Type} [LinearOrderedField K]

theorem lexLE_iff_ahead (q p : K × K) : lexLE q p ↔ q = p ∨ Ahead 1 q p := by
  rw [ahead_one_iff]
  unfold lexLE
  constructor
  · rintro (h | ⟨h1, h2⟩)
    · exact Or.inr (Or.inl h)
    · rcases h2.lt_or_eq with h | h
      · exact Or.inr (Or.inr ⟨h1, h⟩)
      · exact Or.inl (Prod.ext h1 h)
  · rintro (h | h | ⟨h1, h2⟩)
    · rw [h]; exact Or.inr ⟨rfl, le_rfl⟩
    · exact Or.inl h
    · exact Or.inr ⟨h1, h2.le⟩

theorem sort_array_weak (pts : List (K × K)) :
    List.Pairwise (fun q p => q = p ∨ Ahead 1 q p) (sort_array pts) :=
  (List.sorted_insertionSort lexLE pts).imp (fun h => (lexLE_iff_ahead _ _).mp h)

theorem sort_array_reverse_weak (pts : List (K × K)) :
    List.Pairwise (fun q p => q = p ∨ Ahead (-1) q p) (reverse_array (sort_array pts)) := by
  unfold reverse_array
  rw [List.pairwise_reverse]
  refine (sort_array_weak pts).imp ?_
  rintro a b (h | h)
  · exact Or.inl h.symm
  · exact Or.inr ((ahead_neg_one_iff _ _).mpr h)

theorem sort_array_ne_nil (pts : List (K × K)) (h : pts ≠ []) : sort_array pts ≠ [] := by
  intro hs
  have := (List.perm_insertionSort lexLE pts).length_eq
  unfold sort_array at hs
  rw [hs] at this
  exact h (List.length_eq_zero.mp this.symm)

theorem weakInv_mem {σ : K} {seen st : List (K × K)} (h : WeakInv σ seen st) :
    ∀ x ∈ st, x ∈ seen := by
  obtain ⟨known, hm, _, hcase⟩ := h
  intro x hx
  rcases hcase with ⟨a, hka, hst⟩ | ⟨_, hs⟩
  · have hxa : x = a := by
      rcases hst with h | h <;> rw [h] at hx <;> simpa using hx
    rw [hxa, ← hm a, hka]
    simp
  · exact (hm x).mp (hs.2.1 x hx)

/-- On an array with two different points both sweeps end with `SweepInv`. -/
theorem hull_stacks (pts : List (K × K)) (a b : K × K) (ha : a ∈ pts) (hb : b ∈ pts)
    (hab : a ≠ b) :
    HullStacks pts (sweep (sort_array pts)) (sweep (reverse_array (sort_array pts))) := by
  have hσ1 : (1 : K) * 1 = 1 := by ring
  have hσ2 : (-1 : K) * (-1) = 1 := by ring
  have hne : pts ≠ [] := List.ne_nil_of_mem ha
  have hSne := sort_array_ne_nil pts hne
  have hSrne : reverse_array (sort_array pts) ≠ [] := by
    unfold reverse_array; simpa using hSne
  have hmem : ∀ x, x ∈ sort_array pts ↔ x ∈ pts := mem_sort_array pts
  have hmemr : ∀ x, x ∈ reverse_array (sort_array pts) ↔ x ∈ pts := by
    intro x; unfold reverse_array; rw [List.mem_reverse]; exact hmem x
  obtain ⟨k1, hm1, _, hc1⟩ := weak_sweep hσ1 _ hSne (sort_array_weak pts)
  obtain ⟨k2, hm2, _, hc2⟩ := weak_sweep hσ2 _ hSrne (sort_array_reverse_weak pts)
  have hk1 : ∀ x, x ∈ k1 ↔ x ∈ pts := fun x => (hm1 x).trans (hmem x)
  have hk2 : ∀ x, x ∈ k2 ↔ x ∈ pts := fun x => (hm2 x).trans (hmemr x)
  have hnot : ∀ (k : List (K × K)), (∀ x, x ∈ k ↔ x ∈ pts) → ¬ ∃ c, k = [c] := by
    rintro k hk ⟨c, hc⟩
    have h1 := (hk a).mpr ha
    have h2 := (hk b).mpr hb
    rw [hc, List.mem_singleton] at h1 h2
    exact hab (h1.trans h2.symm)
  rcases hc1 with ⟨c, hc, _⟩ | ⟨hl1, hs1⟩
  · exact absurd ⟨c, hc⟩ (hnot k1 hk1)
  rcases hc2 with ⟨c, hc, _⟩ | ⟨hl2, hs2⟩
  · exact absurd ⟨c, hc⟩ (hnot k2 hk2)
  exact ⟨k1, k2, hk1, hk2, hl1, hl2, hs1, hs2⟩

/-- The shape of the two stacks and of the output: the lower stack runs from the last
point `m1` of the sorted array down to the first point `m0`, the upper stack from `m0` down
to `m1`, and the output is the lower chain without `m1` followed by the upper chain
without `m0`. -/
theorem hull_form (pts L U : List (K × K)) (h : HullStacks pts L U) :
    ∃ m0 m1 lo up, m0 ≠ m1 ∧ L = m1 :: (lo ++ [m0]) ∧ U = m0 :: (up ++ [m1])
      ∧ L.reverse.take (L.reverse.length - 1) ++ U.reverse.take (U.reverse.length - 1)
          = m0 :: (lo.reverse ++ m1 :: up.reverse)
      ∧ m0 ∈ pts ∧ m1 ∈ pts
      ∧ (∀ q ∈ pts, q = m0 ∨ Ahead 1 m0 q) ∧ (∀ q ∈ pts, q = m1 ∨ Ahead 1 q m1) := by
  obtain ⟨k1, k2, hk1, hk2, hl1, hl2, hs1, hs2⟩ := h
  obtain ⟨_, a2, a3, a4, a5, _, _⟩ := hs1
  obtain ⟨_, b2, b3, b4, b5, _, _⟩ := hs2
  have hLne : L ≠ [] := by intro h; rw [h] at hl1; simp at hl1
  have hUne : U ≠ [] := by intro h; rw [h] at hl2; simp at hl2
  obtain ⟨m1, tl1, hL⟩ := List.exists_cons_of_ne_nil hLne
  obtain ⟨t0, tl2, hU⟩ := List.exists_cons_of_ne_nil hUne
  have hLh : L.head? = some m1 := by rw [hL]; rfl
  have hUh : U.head? = some t0 := by rw [hU]; rfl
  have hLl : L.getLast? = some (L.getLast hLne) := List.getLast?_eq_getLast _ hLne
  have hUl : U.getLast? = some (U.getLast hUne) := List.getLast?_eq_getLast _ hUne
  set m0 := L.getLast hLne with hm0
  set b1 := U.getLast hUne with hb1
  have hm1k : m1 ∈ k1 := a2 m1 (by rw [hL]; simp)
  have hm0k : m0 ∈ k1 := a2 m0 (List.getLast_mem hLne)
  have ht0k : t0 ∈ k2 := b2 t0 (by rw [hU]; simp)
  have hb1k : b1 ∈ k2 := b2 b1 (List.getLast_mem hUne)
  have hmax := a4 m1 hLh
  have hmin := a5 m0 hLl
  have hmaxU := b4 t0 hUh
  have hminU := b5 b1 hUl
  have ht0m0 : t0 = m0 := by
    rcases hmin t0 ((hk1 t0).mpr ((hk2 t0).mp ht0k)) with h | h
    · exact h
    · rcases hmaxU m0 ((hk2 m0).mpr ((hk1 m0).mp hm0k)) with h2 | h2
      · exact h2.symm
      · exact (Ahead.asymm h ((ahead_neg_one_iff _ _).mp h2)).elim
  have hb1m1 : b1 = m1 := by
    rcases hmax b1 ((hk1 b1).mpr ((hk2 b1).mp hb1k)) with h | h
    · exact h
    · rcases hminU m1 ((hk2 m1).mpr ((hk1 m1).mp hm1k)) with h2 | h2
      · exact h2.symm
      · exact (Ahead.asymm h ((ahead_neg_one_iff _ _).mp h2)).elim
  have hne01 : m0 ≠ m1 := by
    intro h
    match L, hl1, a3, hL, hLl with
    | t :: x :: r, _, a3, hL, hLl =>
      injection hL with ht _
      have hx : x ∈ k1 := a2 x (by simp)
      have h1 : Ahead 1 x t := (List.pairwise_cons.mp a3).1 x (by simp)
      rcases hmin x hx with h2 | h2
      · rw [h2, h, ← ht] at h1; exact h1.ne rfl
      · rw [h, ← ht] at h2; exact Ahead.asymm h1 h2
  obtain ⟨lo, hlo⟩ := cons_concat_of_ends L m1 m0 (Ne.symm hne01) hLh hLl
  obtain ⟨up, hup⟩ := cons_concat_of_ends U m0 m1 hne01 (by rw [hUh, ht0m0])
    (by rw [hUl, hb1m1])
  refine ⟨m0, m1, lo, up, hne01, hlo, hup, ?_, (hk1 m0).mp hm0k, (hk1 m1).mp hm1k,
    fun q hq => hmin q ((hk1 q).mpr hq), fun q hq => hmax q ((hk1 q).mpr hq)⟩
  rw [← List.dropLast_eq_take, ← List.dropLast_eq_take, List.dropLast_reverse,
    List.dropLast_reverse, hlo, hup]
  simp

end HullStacksFacts

section HullDistinct

variable {K : Type} [LinearOrderedField K]

/-- Two parallel vectors that both point right or straight up are on the same side of a
third vector. -/
theorem parallel_pos (u w g : K × K) (hu : RightUp u) (hw : RightUp w)
    (hpar : u.1 * w.2 - u.2 * w.1 = 0) (hg : 0 < g.1 * u.2 - g.2 * u.1) :
    0 < g.1 * w.2 - g.2 * w.1 := by
  have e1 : (g.1 * w.2 - g.2 * w.1) * u.1
      = (g.1 * u.2 - g.2 * u.1) * w.1 + (u.1 * w.2 - u.2 * w.1) * g.1 := by ring
  have e2 : (g.1 * w.2 - g.2 * w.1) * u.2
      = (g.1 * u.2 - g.2 * u.1) * w.2 + (u.1 * w.2 - u.2 * w.1) * g.2 := by ring
  rw [hpar, zero_mul, add_zero] at e1 e2
  rcases hu with hu | ⟨hu1, hu2⟩
  · have hw1 : 0 < w.1 := by
      rcases hw with hw | ⟨hw1, hw2⟩
      · exact hw
      · exfalso
        rw [hw1, mul_zero, sub_zero] at hpar
        rcases mul_eq_zero.mp hpar with h | h
        · exact hu.ne' h
        · exact hw2.ne' h
    have : 0 < (g.1 * w.2 - g.2 * w.1) * u.1 := by rw [e1]; exact mul_pos hg hw1
    exact pos_of_mul_pos_left this hu.le
  · have hw1 : w.1 = 0 := by
      rw [hu1, zero_mul, zero_sub, neg_eq_zero] at hpar
      rcases mul_eq_zero.mp hpar with h | h
      · exact absurd h hu2.ne'
      · exact h
    have hw2 : 0 < w.2 := by
      rcases hw with hw | ⟨_, hw2⟩
      · rw [hw1] at hw; exact absurd hw (lt_irrefl 0)
      · exact hw2
    have : 0 < (g.1 * w.2 - g.2 * w.1) * u.2 := by rw [e2]; exact mul_pos hg hw2
    exact pos_of_mul_pos_left this hu2.le

theorem split_before {α : Type} (top : α) (mid tl : List α) (x : α) (hx : x ∈ mid) :
    ∃ k e rest, top :: (mid ++ tl) = k ++ e :: x :: (rest ++ tl) := by
  obtain ⟨l1, l2, rfl⟩ := List.append_of_mem hx
  rcases List.eq_nil_or_concat (top :: l1) with h | ⟨k, e, h⟩
  · simp at h
  · refine ⟨k, e, l2, ?_⟩
    have : top :: (l1 ++ x :: l2 ++ tl) = (top :: l1) ++ x :: (l2 ++ tl) := by simp
    rw [this, h]
    simp

/-- No point lies strictly inside both the lower and the upper chain. -/
theorem chains_disjoint (pts L U : List (K × K)) (h : HullStacks pts L U)
    (m0 m1 : K × K) (lo up : List (K × K)) (hL : L = m1 :: (lo ++ [m0]))
    (hU : U = m0 :: (up ++ [m1])) (x : K × K) (hxl : x ∈ lo) (hxu : x ∈ up) : False := by
  obtain ⟨k1, k2, hk1, hk2, _, _, hs1, hs2⟩ := h
  obtain ⟨_, a2, a3, _, _, a6, a7⟩ := hs1
  obtain ⟨_, b2, b3, _, _, _, b7⟩ := hs2
  obtain ⟨kA, c, rA, hA⟩ := split_before m1 lo [m0] x hxl
  obtain ⟨kB, e, rB, hB⟩ := split_before m0 up [m1] x hxu
  obtain ⟨a, rA2, hrA⟩ : ∃ a r, rA ++ [m0] = a :: r := by
    cases rA with
    | nil => exact ⟨m0, [], rfl⟩
    | cons y ys => exact ⟨y, ys ++ [m0], rfl⟩
  rw [← hL, hrA] at hA
  rw [← hU] at hB
  rw [hA] at a2 a3 a6 a7
  rw [hB] at b2 b3 b7
  have hlt := (LeftTurning_suffix kA _ a6).1
  have hal := AllLeft_suffix k1 kA _ a7
  have hxc := hal.1
  have hax := hal.2.1
  have hxe := (AllLeft_suffix k2 kB _ b7).1
  have hpw := (List.pairwise_append.mp a3).2.1
  have hcx : Ahead 1 x c := (List.pairwise_cons.mp hpw).1 x (by simp)
  have hxa : Ahead 1 a x :=
    (List.pairwise_cons.mp (List.Pairwise.of_cons hpw)).1 a (by simp)
  have hpwU := (List.pairwise_append.mp b3).2.1
  have hex : Ahead 1 e x :=
    (ahead_neg_one_iff _ _).mp ((List.pairwise_cons.mp hpwU).1 x (by simp))
  have hc1 : c ∈ k2 := (hk2 c).mpr ((hk1 c).mp (a2 c (by simp)))
  have he1 : e ∈ k1 := (hk1 e).mpr ((hk2 e).mp (b2 e (by simp)))
  have t1 := hxc e he1
  have t2 := hxe c hc1
  have t3 := hax e he1
  rw [turn_eq] at t1 t2 t3 hlt
  have hu2 : RightUp (c.1 - x.1, c.2 - x.2) := by
    have := hcx; unfold Ahead at this; simpa using this
  have hw : RightUp (x.1 - e.1, x.2 - e.2) := by
    have := hex; unfold Ahead at this; simpa using this
  have hpar : (c.1 - x.1, c.2 - x.2).1 * (x.1 - e.1, x.2 - e.2).2
      - (c.1 - x.1, c.2 - x.2).2 * (x.1 - e.1, x.2 - e.2).1 = 0 := by
    simp only []
    linarith
  have hg : 0 < (x.1 - a.1, x.2 - a.2).1 * (c.1 - x.1, c.2 - x.2).2
      - (x.1 - a.1, x.2 - a.2).2 * (c.1 - x.1, c.2 - x.2).1 := by
    simp only []
    linarith
  have := parallel_pos _ _ (x.1 - a.1, x.2 - a.2) hu2 hw hpar hg
  simp only [] at this
  linarith

/-- The output on an array with two different points holds no point twice. -/
theorem hull_nodup_form (pts L U : List (K × K)) (h : HullStacks pts L U)
    (m0 m1 : K × K) (lo up : List (K × K)) (hne : m0 ≠ m1) (hL : L = m1 :: (lo ++ [m0]))
    (hU : U = m0 :: (up ++ [m1])) : (m0 :: (lo.reverse ++ m1 :: up.reverse)).Nodup := by
  have hdis := chains_disjoint pts L U h m0 m1 lo up hL hU
  obtain ⟨k1, k2, _, _, _, _, hs1, hs2⟩ := h
  have hLn : L.Nodup := hs1.2.2.1.imp (fun hxy => (Ahead.ne hxy).symm)
  have hUn : U.Nodup := hs2.2.2.1.imp (fun hxy => (Ahead.ne hxy).symm)
  rw [hL] at hLn
  rw [hU] at hUn
  rw [List.nodup_cons, List.nodup_append] at hLn hUn
  obtain ⟨hm1, hlo, _, hlo0⟩ := hLn
  obtain ⟨hm0, hup, _, hup1⟩ := hUn
  simp only [List.mem_append, List.mem_singleton, not_or] at hm1 hm0
  rw [List.nodup_cons, List.nodup_append]
  refine ⟨?_, List.nodup_reverse.mpr hlo, ?_, ?_⟩
  · simp only [List.mem_append, List.mem_reverse, List.mem_cons, not_or]
    exact ⟨fun h => hlo0 h (List.mem_singleton_self _), hne, hm0.1⟩
  · rw [List.nodup_cons]
    exact ⟨fun h => hup1 (List.mem_reverse.mp h) (List.mem_singleton_self _),
      List.nodup_reverse.mpr hup⟩
  · intro y hy1 hy2
    rw [List.mem_reverse] at hy1
    rcases List.mem_cons.mp hy2 with h | h
    · rw [h] at hy1; exact hm1.1 hy1
    · exact hdis y hy1 (List.mem_reverse.mp h)

theorem hullOfList_subset (pts : List (K × K)) (hne : pts ≠ []) :
    ∀ v ∈ hullOfList pts, v ∈ pts := by
  have hσ1 : (1 : K) * 1 = 1 := by ring
  have hσ2 : (-1 : K) * (-1) = 1 := by ring
  have hSne := sort_array_ne_nil pts hne
  have hSrne : reverse_array (sort_array pts) ≠ [] := by
    unfold reverse_array; simpa using hSne
  have h1 := weakInv_mem (weak_sweep hσ1 _ hSne (sort_array_weak pts))
  have h2 := weakInv_mem (weak_sweep hσ2 _ hSrne (sort_array_reverse_weak pts))
  intro v hv
  unfold hullOfList at hv
  simp only [] at hv
  rcases List.mem_append.mp hv with hv | hv
  · exact (mem_sort_array pts v).mp (h1 v (List.mem_reverse.mp (List.mem_of_mem_take hv)))
  · have := h2 v (List.mem_reverse.mp (List.mem_of_mem_take hv))
    unfold reverse_array at this
    exact (mem_sort_array pts v).mp (List.mem_reverse.mp this)

end HullDistinct

section TriplesFacts

variable {α : Type}

/-- Two lists that overlap in two entries and have related triples glue to one. -/
theorem triples_overlap (T : α → α → α → Prop) (A : List α) (x y : α) (B : List α)
    (h1 : Triples T (A ++ [x, y])) (h2 : Triples T (x :: y :: B)) :
    Triples T (A ++ x :: y :: B) := by
  induction A with
  | nil => exact h2
  | cons a A2 ih =>
    cases A2 with
    | nil =>
      cases B with
      | nil => exact h1
      | cons b B2 => exact ⟨h1.1, h2⟩
    | cons a2 A3 =>
      cases A3 with
      | nil => exact ⟨h1.1, ih h1.2⟩
      | cons a3 A4 => exact ⟨h1.1, ih h1.2⟩

theorem triples_index (T : α → α → α → Prop) (d : α) (l : List α) (h : Triples T l) :
    ∀ i, i + 2 < l.length → T (l.getD i d) (l.getD (i + 1) d) (l.getD (i + 2) d) := by
  induction l with
  | nil => intro i hi; simp at hi
  | cons a tl ih =>
    intro i hi
    match tl, h, ih, hi with
    | [], _, _, hi => simp at hi
    | [b], _, _, hi => simp at hi
    | b :: c :: rest, h, ih, hi =>
      cases i with
      | zero => exact h.1
      | succ j =>
        have := ih h.2 j (by simp at hi ⊢; omega)
        simpa using this

theorem chain_index (R : α → α → Prop) (d : α) (l : List α) (h : List.Chain' R l) :
    ∀ i, i + 1 < l.length → R (l.getD i d) (l.getD (i + 1) d) := by
  induction l with
  | nil => intro i hi; simp at hi
  | cons a tl ih =>
    intro i hi
    cases tl with
    | nil => simp at hi
    | cons b rest =>
      rw [List.chain'_cons] at h
      cases i with
      | zero => exact h.1
      | succ j =>
        have := ih h.2 j (by simp at hi ⊢; omega)
        simpa using this

/-- The entries of a list read cyclically, through the list with its first two entries
appended. -/
theorem cyclic_index (d : α) (H : List α) (hm : 2 ≤ H.length) (i : ℕ) (hi : i < H.length) :
    (H ++ [H.getD 0 d, H.getD 1 d]).getD i d = H.getD i d
      ∧ (H ++ [H.getD 0 d, H.getD 1 d]).getD (i + 1) d = H.getD (nextIdx H.length i) d
      ∧ (H ++ [H.getD 0 d, H.getD 1 d]).getD (i + 2) d
          = H.getD (nextIdx H.length (nextIdx H.length i)) d := by
  have hin : ∀ j, j < H.length →
      (H ++ [H.getD 0 d, H.getD 1 d]).getD j d = H.getD j d :=
    fun j hj => List.getD_append _ _ _ _ hj
  have h0 : (H ++ [H.getD 0 d, H.getD 1 d]).getD H.length d = H.getD 0 d := by
    rw [List.getD_append_right _ _ _ _ le_rfl]
    simp
  have h1 : (H ++ [H.getD 0 d, H.getD 1 d]).getD (H.length + 1) d = H.getD 1 d := by
    rw [List.getD_append_right _ _ _ _ (by omega)]
    simp
  refine ⟨hin i hi, ?_, ?_⟩
  · unfold nextIdx
    split_ifs with h
    · rw [show i + 1 = H.length by omega, h0]
    · exact hin _ (by omega)
  · unfold nextIdx
    split_ifs with h h2 h3
    · omega
    · rw [show i + 2 = H.length + 1 by omega, h1]
    · rw [show i + 2 = H.length by omega, h0]
    · exact hin _ (by omega)

end TriplesFacts

section Junction

variable {K : Type} [LinearOrderedField K]

theorem triples_of_leftTurning (st : List (K × K)) (h : LeftTurning st) :
    Triples (fun a b c : K × K => 0 < turn a b c) st.reverse := by
  induction st with
  | nil => trivial
  | cons c tl ih =>
    match tl, h, ih with
    | [], _, _ => trivial
    | [b], _, _ => trivial
    | b :: a :: rest, h, ih =>
      have h1 := ih h.2
      have e1 : (b :: a :: rest).reverse = rest.reverse ++ [a, b] := by simp
      have e2 : (c :: b :: a :: rest).reverse = rest.reverse ++ a :: b :: [c] := by simp
      rw [e1] at h1
      rw [e2]
      exact triples_overlap _ _ a b [c] h1 ⟨h.1, trivial⟩

/-- Points that all lie on the line through two different points are collinear. -/
theorem collinear_of_line (a v x y z : K × K) (hav : a ≠ v) (hx : turn a v x = 0)
    (hy : turn a v y = 0) (hz : turn a v z = 0) : turn x y z = 0 := by
  rw [turn_eq] at *
  have k1 : ((y.1 - x.1) * (z.2 - x.2) - (y.2 - x.2) * (z.1 - x.1)) * (v.1 - a.1) = 0 := by
    linear_combination (z.1 - y.1) * hx + (x.1 - z.1) * hy + (y.1 - x.1) * hz
  have k2 : ((y.1 - x.1) * (z.2 - x.2) - (y.2 - x.2) * (z.1 - x.1)) * (v.2 - a.2) = 0 := by
    linear_combination (z.2 - y.2) * hx + (x.2 - z.2) * hy + (y.2 - x.2) * hz
  rcases mul_eq_zero.mp k1 with h | h
  · exact h
  · rcases mul_eq_zero.mp k2 with h2 | h2
    · exact h2
    · exfalso
      apply hav
      exact Prod.ext (by linarith) (by linarith)

/-- At the last point of a sweep direction the hull turns strictly left, unless all points
are collinear. -/
theorem junction_turn {σ : K} (hσ : σ * σ = 1) (pts : List (K × K)) (a v b : K × K)
    (h1 : HullEdge pts a v) (h2 : HullEdge pts v b)
    (hext : ∀ q ∈ pts, q = v ∨ Ahead σ q v)
    (hnc : ∃ x ∈ pts, ∃ y ∈ pts, ∃ z ∈ pts, turn x y z ≠ 0) : 0 < turn a v b := by
  obtain ⟨hav, ha, _, hleft1⟩ := h1
  obtain ⟨hvb, _, hb, hleft2⟩ := h2
  have hae : Ahead σ a v := (hext a ha).resolve_left hav
  have hbe : Ahead σ b v := (hext b hb).resolve_left (Ne.symm hvb)
  rcases (hleft1 b hb).lt_or_eq with h | h
  · exact h
  · exfalso
    have hpar : (σ * (v.1 - a.1), σ * (v.2 - a.2)).1 * (σ * (v.1 - b.1), σ * (v.2 - b.2)).2
        - (σ * (v.1 - a.1), σ * (v.2 - a.2)).2 * (σ * (v.1 - b.1), σ * (v.2 - b.2)).1 = 0 := by
      simp only []
      rw [turn_eq] at h
      linear_combination (1 : K) * h
        + ((v.1 - a.1) * (v.2 - b.2) - (v.2 - a.2) * (v.1 - b.1)) * hσ
    have hline : ∀ q ∈ pts, turn a v q = 0 := by
      intro q hq
      rcases (hleft1 q hq).lt_or_eq with hpos | hzero
      · exfalso
        have hg : 0 < (σ * (v.1 - q.1), σ * (v.2 - q.2)).1 * (σ * (v.1 - a.1), σ * (v.2 - a.2)).2
            - (σ * (v.1 - q.1), σ * (v.2 - q.2)).2 * (σ * (v.1 - a.1), σ * (v.2 - a.2)).1 := by
          simp only []
          rw [turn_eq] at hpos
          have e : σ * (v.1 - q.1) * (σ * (v.2 - a.2)) - σ * (v.2 - q.2) * (σ * (v.1 - a.1))
              = (v.1 - a.1) * (q.2 - a.2) - (v.2 - a.2) * (q.1 - a.1) := by
            linear_combination
              ((v.1 - q.1) * (v.2 - a.2) - (v.2 - q.2) * (v.1 - a.1)) * hσ
          rw [e]
          exact hpos
        have := parallel_pos _ _ (σ * (v.1 - q.1), σ * (v.2 - q.2)) hae hbe hpar hg
        simp only [] at this
        have h2q := hleft2 q hq
        rw [turn_eq] at h2q
        have e : σ * (v.1 - q.1) * (σ * (v.2 - b.2)) - σ * (v.2 - q.2) * (σ * (v.1 - b.1))
            = -((b.1 - v.1) * (q.2 - v.2) - (b.2 - v.2) * (q.1 - v.1)) := by
          linear_combination
            ((v.1 - q.1) * (v.2 - b.2) - (v.2 - q.2) * (v.1 - b.1)) * hσ
        rw [e] at this
        linarith
      · exact hzero.symm
    obtain ⟨x, hx, y, hy, z, hz, hne⟩ := hnc
    exact hne (collinear_of_line a v x y z hav (hline x hx) (hline y hy) (hline z hz))

end Junction

section ClosedHull

theorem closed_triples {α : Type} (T : α → α → α → Prop) (R : α → α → Prop) (d m0 m1 : α)
    (lr ur : List α)
    (tL : Triples T (m0 :: (lr ++ [m1]))) (tU : Triples T (m1 :: (ur ++ [m0])))
    (cL : List.Chain' R (m0 :: (lr ++ [m1]))) (cU : List.Chain' R (m1 :: (ur ++ [m0])))
    (J1 : ∀ a b, R a m1 → R m1 b → T a m1 b) (J0 : ∀ a b, R a m0 → R m0 b → T a m0 b) :
    Triples T ((m0 :: (lr ++ m1 :: ur))
        ++ [(m0 :: (lr ++ m1 :: ur)).getD 0 d, (m0 :: (lr ++ m1 :: ur)).getD 1 d])
      ∧ List.Chain' R ((m0 :: (lr ++ m1 :: ur))
        ++ [(m0 :: (lr ++ m1 :: ur)).getD 0 d, (m0 :: (lr ++ m1 :: ur)).getD 1 d]) := by
  obtain ⟨A1, p1, hA1⟩ : ∃ A p, m0 :: lr = A ++ [p] :=
    ⟨_, _, (List.dropLast_append_getLast (List.cons_ne_nil m0 lr)).symm⟩
  obtain ⟨s1, B1, hB1⟩ : ∃ s B, ur ++ [m0] = s :: B := by
    cases ur with
    | nil => exact ⟨m0, [], rfl⟩
    | cons u r => exact ⟨u, r ++ [m0], rfl⟩
  have eL : m0 :: (lr ++ [m1]) = A1 ++ [p1, m1] := by
    have : m0 :: (lr ++ [m1]) = (m0 :: lr) ++ [m1] := rfl
    rw [this, hA1]; simp
  rw [eL] at tL cL
  rw [hB1] at tU cU
  have r1 : R p1 m1 := List.chain'_pair.mp (List.chain'_append.mp cL).2.1
  have r2 : R m1 s1 := (List.chain'_cons.mp cU).1
  have g1 : Triples T (A1 ++ p1 :: m1 :: s1 :: B1) :=
    triples_overlap T A1 p1 m1 (s1 :: B1) tL ⟨J1 p1 s1 r1 r2, tU⟩
  have c1 : List.Chain' R (A1 ++ p1 :: m1 :: s1 :: B1) := by
    have : A1 ++ p1 :: m1 :: s1 :: B1 = (A1 ++ [p1]) ++ m1 :: s1 :: B1 := by simp
    rw [this]
    refine List.chain'_split.mpr ⟨?_, cU⟩
    simpa using cL
  have eH : A1 ++ p1 :: m1 :: s1 :: B1 = (m0 :: (lr ++ m1 :: ur)) ++ [m0] := by
    have : A1 ++ p1 :: m1 :: s1 :: B1 = (A1 ++ [p1]) ++ m1 :: (s1 :: B1) := by simp
    rw [this, ← hA1, ← hB1]; simp
  rw [eH] at g1 c1
  obtain ⟨A2, p2, hA2⟩ : ∃ A p, m0 :: (lr ++ m1 :: ur) = A ++ [p] :=
    ⟨_, _, (List.dropLast_append_getLast (List.cons_ne_nil m0 (lr ++ m1 :: ur))).symm⟩
  obtain ⟨h1, R1, hR1⟩ : ∃ h r, lr ++ m1 :: ur = h :: r := by
    cases lr with
    | nil => exact ⟨m1, ur, rfl⟩
    | cons u r => exact ⟨u, r ++ m1 :: ur, rfl⟩
  have q2 : R m0 h1 := by
    have := c1
    rw [hR1] at this
    exact (List.chain'_cons.mp this).1
  have q1 : R p2 m0 := by
    have := c1
    rw [hA2] at this
    have e : A2 ++ [p2] ++ [m0] = A2 ++ [p2, m0] := by simp
    rw [e] at this
    exact List.chain'_pair.mp (List.chain'_append.mp this).2.1
  have d0 : (m0 :: (lr ++ m1 :: ur)).getD 0 d = m0 := rfl
  have d1 : (m0 :: (lr ++ m1 :: ur)).getD 1 d = h1 := by rw [hR1]; rfl
  rw [d0, d1]
  have e2 : (m0 :: (lr ++ m1 :: ur)) ++ [m0, h1] = A2 ++ p2 :: m0 :: [h1] := by
    rw [hA2]; simp
  have e3 : (m0 :: (lr ++ m1 :: ur)) ++ [m0] = A2 ++ [p2, m0] := by
    rw [hA2]; simp
  rw [e3] at g1
  refine ⟨?_, ?_⟩
  · rw [e2]
    exact triples_overlap T A2 p2 m0 [h1] g1 ⟨J0 p2 h1 q1 q2, trivial⟩
  · exact List.chain'_split.mpr ⟨c1, List.chain'_pair.mpr q2⟩

variable {K : Type} [LinearOrderedField K]

/-- The output of the hull construction on points that are not all collinear: no vertex is
repeated, every vertex is an input point, the first vertex is the smallest input point by
x, ties by y, there are at least three vertices, every three cyclically consecutive
vertices turn strictly left, and every input point is on the left of, or on, every edge. -/
theorem hull_polygon (pts : List (K × K))
    (hnc : ∃ x ∈ pts, ∃ y ∈ pts, ∃ z ∈ pts, turn x y z ≠ 0) :
    (hullOfList pts).Nodup
      ∧ (∀ v ∈ hullOfList pts, v ∈ pts)
      ∧ (∀ q ∈ pts, lexLE (hullVertex (hullOfList pts) 0) q)
      ∧ 3 ≤ (hullOfList pts).length
      ∧ (∀ i < (hullOfList pts).length,
          0 < turn (hullVertex (hullOfList pts) i)
            (hullVertex (hullOfList pts) (nextIdx (hullOfList pts).length i))
            (hullVertex (hullOfList pts)
              (nextIdx (hullOfList pts).length (nextIdx (hullOfList pts).length i))))
      ∧ (∀ i < (hullOfList pts).length, ∀ q ∈ pts,
          0 ≤ turn (hullVertex (hullOfList pts) i)
            (hullVertex (hullOfList pts) (nextIdx (hullOfList pts).length i)) q) := by
  have hσ1 : (1 : K) * 1 = 1 := by ring
  have hσ2 : (-1 : K) * (-1) = 1 := by ring
  obtain ⟨x, hx, y, hy, z, hz, hxyz⟩ := hnc
  have hxy : x ≠ y := by
    intro h
    apply hxyz
    rw [h, turn_eq]
    ring
  have hne : pts ≠ [] := List.ne_nil_of_mem hx
  have hst := hull_stacks pts x y hx hy hxy
  obtain ⟨m0, m1, lo, up, hne01, hL, hU, hform, hm0, hm1, hmin, hmax⟩ := hull_form pts _ _ hst
  have hnd := hull_nodup_form pts _ _ hst m0 m1 lo up hne01 hL hU
  have heq : hullOfList pts = m0 :: (lo.reverse ++ m1 :: up.reverse) := hform
  obtain ⟨k1, k2, hk1, hk2, _, _, hs1, hs2⟩ := hst
  obtain ⟨_, a2, a3, _, _, a6, a7⟩ := hs1
  obtain ⟨_, b2, b3, _, _, b6, b7⟩ := hs2
  have eLr : (sweep (sort_array pts)).reverse = m0 :: (lo.reverse ++ [m1]) := by
    rw [hL]; simp
  have eUr : (sweep (reverse_array (sort_array pts))).reverse = m1 :: (up.reverse ++ [m0]) := by
    rw [hU]; simp
  have tL := triples_of_leftTurning _ a6
  have tU := triples_of_leftTurning _ b6
  have cL : List.Chain' (HullEdge pts) (sweep (sort_array pts)).reverse := by
    rw [List.chain'_reverse]
    exact (stack_chain k1 _ a2 a3 a7).imp (fun _ _ h => HullEdge.of_perm hk1 h)
  have cU : List.Chain' (HullEdge pts) (sweep (reverse_array (sort_array pts))).reverse := by
    rw [List.chain'_reverse]
    exact (stack_chain k2 _ b2 b3 b7).imp (fun _ _ h => HullEdge.of_perm hk2 h)
  rw [eLr] at tL cL
  rw [eUr] at tU cU
  have hnc2 : ∃ x ∈ pts, ∃ y ∈ pts, ∃ z ∈ pts, turn x y z ≠ 0 :=
    ⟨x, hx, y, hy, z, hz, hxyz⟩
  have J1 : ∀ a b, HullEdge pts a m1 → HullEdge pts m1 b → 0 < turn a m1 b :=
    fun a b h1 h2 => junction_turn hσ1 pts a m1 b h1 h2 hmax hnc2
  have J0 : ∀ a b, HullEdge pts a m0 → HullEdge pts m0 b → 0 < turn a m0 b :=
    fun a b h1 h2 => junction_turn hσ2 pts a m0 b h1 h2
      (fun q hq => (hmin q hq).imp id (fun h => (ahead_neg_one_iff q m0).mpr h)) hnc2
  obtain ⟨gT, gC⟩ := closed_triples (fun a b c : K × K => 0 < turn a b c) (HullEdge pts)
    ((0, 0) : K × K) m0 m1 lo.reverse up.reverse tL tU cL cU J1 J0
  rw [← heq] at gT gC hnd
  have hlen2 : 2 ≤ (hullOfList pts).length := by
    rw [heq]; simp; omega
  have hturn : ∀ i < (hullOfList pts).length,
      0 < turn (hullVertex (hullOfList pts) i)
        (hullVertex (hullOfList pts) (nextIdx (hullOfList pts).length i))
        (hullVertex (hullOfList pts)
          (nextIdx (hullOfList pts).length (nextIdx (hullOfList pts).length i))) := by
    intro i hi
    have := triples_index _ ((0, 0) : K × K) _ gT i (by simp; omega)
    obtain ⟨e0, e1, e2⟩ := cyclic_index ((0, 0) : K × K) (hullOfList pts) hlen2 i hi
    rw [e0, e1, e2] at this
    exact this
  refine ⟨hnd, hullOfList_subset pts hne, ?_, ?_, hturn, ?_⟩
  · intro q hq
    have : hullVertex (hullOfList pts) 0 = m0 := by
      unfold hullVertex; rw [heq]; rfl
    rw [this, lexLE_iff_ahead]
    exact (hmin q hq).imp (fun h => h.symm) id
  · by_contra hlt
    have h2 : (hullOfList pts).length = 2 := by omega
    have := hturn 0 (by omega)
    rw [h2] at this
    have e1 : nextIdx 2 0 = 1 := by decide
    have e2 : nextIdx 2 1 = 0 := by decide
    rw [e1, e2, turn_self_left] at this
    exact lt_irrefl _ this
  · intro i hi q hq
    have := chain_index _ ((0, 0) : K × K) _ gC i (by simp; omega)
    obtain ⟨e0, e1, _⟩ := cyclic_index ((0, 0) : K × K) (hullOfList pts) hlen2 i hi
    rw [e0, e1] at this
    exact this.2.2.2 q hq

end ClosedHull

/-- C19. For every `nDim ≥ 3` points that are not all collinear (with `sort_array` ordering
them by x, ties by y), the output of `calc_convex_hull_coords` holds each of its vertices
once, every vertex is an input point, the first vertex is the smallest input point in the
order by x, ties by y, there are at least three vertices, every three cyclically
consecutive vertices make a strict left turn, and every input point lies on, or to the
left of, every hull edge. -/
theorem hull_extreme_points {K : Type} [LinearOrderedField K] (nDim : ℕ)
    (dimsCoordMidX dimsCoordMidY : ℕ → K) (hn : 3 ≤ nDim)
    (hnc : ∃ i < nDim, ∃ j < nDim, ∃ k < nDim,
      turn (dimsCoordMidX i, dimsCoordMidY i) (dimsCoordMidX j, dimsCoordMidY j)
        (dimsCoordMidX k, dimsCoordMidY k) ≠ 0) :
    (calc_convex_hull_coords nDim dimsCoordMidX dimsCoordMidY).Nodup
      ∧ (∀ v ∈ calc_convex_hull_coords nDim dimsCoordMidX dimsCoordMidY,
          ∃ i < nDim, v = (dimsCoordMidX i, dimsCoordMidY i))
      ∧ (∀ i < nDim, lexLE (hullVertex (calc_convex_hull_coords nDim dimsCoordMidX dimsCoordMidY) 0)
          (dimsCoordMidX i, dimsCoordMidY i))
      ∧ 3 ≤ (calc_convex_hull_coords nDim dimsCoordMidX dimsCoordMidY).length
      ∧ (∀ i < (calc_convex_hull_coords nDim dimsCoordMidX dimsCoordMidY).length,
          0 < turn (hullVertex (calc_convex_hull_coords nDim dimsCoordMidX dimsCoordMidY) i)
            (hullVertex (calc_convex_hull_coords nDim dimsCoordMidX dimsCoordMidY)
              (nextIdx (calc_convex_hull_coords nDim dimsCoordMidX dimsCoordMidY).length i))
            (hullVertex (calc_convex_hull_coords nDim dimsCoordMidX dimsCoordMidY)
              (nextIdx (calc_convex_hull_coords nDim dimsCoordMidX dimsCoordMidY).length
                (nextIdx (calc_convex_hull_coords nDim dimsCoordMidX dimsCoordMidY).length i))))
      ∧ (∀ i < (calc_convex_hull_coords nDim dimsCoordMidX dimsCoordMidY).length,
          ∀ k < nDim,
            0 ≤ turn (hullVertex (calc_convex_hull_coords nDim dimsCoordMidX dimsCoordMidY) i)
              (hullVertex (calc_convex_hull_coords nDim dimsCoordMidX dimsCoordMidY)
                (nextIdx (calc_convex_hull_coords nDim dimsCoordMidX dimsCoordMidY).length i))
              (dimsCoordMidX k, dimsCoordMidY k)) := by
  have _ := hn
  have hmem : ∀ i < nDim, (dimsCoordMidX i, dimsCoordMidY i)
      ∈ (List.range nDim).map (fun i => (dimsCoordMidX i, dimsCoordMidY i)) :=
    fun i hi => List.mem_map.mpr ⟨i, List.mem_range.mpr hi, rfl⟩
  obtain ⟨i, hi, j, hj, k, hk, hne⟩ := hnc
  obtain ⟨p1, p2, p3, p4, p5, p6⟩ := hull_polygon
    ((List.range nDim).map (fun i => (dimsCoordMidX i, dimsCoordMidY i)))
    ⟨_, hmem i hi, _, hmem j hj, _, hmem k hk, hne⟩
  unfold calc_convex_hull_coords
  refine ⟨p1, ?_, fun i hi => p3 _ (hmem i hi), p4, p5, fun i hi k hk => p6 i hi _ (hmem k hk)⟩
  intro v hv
  have := p2 v hv
  simp only [List.mem_map, List.mem_range] at this
  obtain ⟨i, hi, h⟩ := this
  exact ⟨i, hi, h.symm⟩

theorem hull_extreme_points_witness :
    3 ≤ 3
      ∧ (∃ i < 3, ∃ j < 3, ∃ k < 3,
          turn (cornerX i, cornerY i) (cornerX j, cornerY j) (cornerX k, cornerY k) ≠ 0)
      ∧ 3 ≤ (calc_convex_hull_coords 3 cornerX cornerY).length
      ∧ ∀ i < (calc_convex_hull_coords 3 cornerX cornerY).length, ∀ k < 3,
          0 ≤ turn (hullVertex (calc_convex_hull_coords 3 cornerX cornerY) i)
            (hullVertex (calc_convex_hull_coords 3 cornerX cornerY)
              (nextIdx (calc_convex_hull_coords 3 cornerX cornerY).length i))
            (cornerX k, cornerY k) :=
  have hnc : ∃ i < 3, ∃ j < 3, ∃ k < 3,
      turn (cornerX i, cornerY i) (cornerX j, cornerY j) (cornerX k, cornerY k) ≠ 0 :=
    ⟨0, by decide, 1, by decide, 2, by decide, by
      rw [turn_eq]; simp [cornerX, cornerY]⟩
  ⟨le_refl 3, hnc,
    (hull_extreme_points 3 cornerX cornerY (le_refl 3) hnc).2.2.2.1,
    (hull_extreme_points 3 cornerX cornerY (le_refl 3) hnc).2.2.2.2.2⟩

/-! ## Random draws -/

section RandomDraws

theorem random_double_value (rng : ℕ → ℕ) (s : PSOState) :
    (random_double rng s).1 = ((rng s.randCalls % 32767 : ℕ) : ℝ) / 32767
      ∧ (random_double rng s).2 = { s with randCalls := s.randCalls + 1 } := ⟨rfl, rfl⟩

theorem random_double_le (rng : ℕ → ℕ) (s : PSOState) :
    (random_double rng s).1 ≤ 32766 / 32767 := by
  rw [(random_double_value rng s).1]
  have h : rng s.randCalls % 32767 < 32767 := Nat.mod_lt _ (by norm_num)
  have h2 : ((rng s.randCalls % 32767 : ℕ) : ℝ) ≤ 32766 := by
    exact_mod_cast Nat.le_of_lt_succ h
  exact div_le_div_of_nonneg_right h2 (by norm_num)

end RandomDraws

/-- C21. For every value `n` that `rand ()` returns, `random_double` computes
`(n mod 32767) / 32767`, which is at least 0 and at most `32766 / 32767`, hence below 1; the
factors `r1`, `r2` and the factor of every redraw are such values, and with
`varMin ≤ varMax` every redraw `varMin + (varMax - varMin) * r` lies in
`[varMin, varMax]`. -/
theorem random_double_unit (cfg : PSOConfig) (rng : ℕ → ℕ) (s : PSOState)
    (hv : cfg.varMin ≤ cfg.varMax) :
    (random_double rng s).1 = ((rng s.randCalls % 32767 : ℕ) : ℝ) / 32767
      ∧ 0 ≤ (random_double rng s).1
      ∧ (random_double rng s).1 ≤ 32766 / 32767
      ∧ (random_double rng s).1 < 1
      ∧ ∀ i j : ℕ,
          (redraw cfg rng i j s).PSOPart_position i j
              = cfg.varMin + (cfg.varMax - cfg.varMin) * (random_double rng s).1
            ∧ cfg.varMin ≤ (redraw cfg rng i j s).PSOPart_position i j
            ∧ (redraw cfg rng i j s).PSOPart_position i j ≤ cfg.varMax := by
  have h0 := (random_double_range rng s).1
  have h1 := random_double_le rng s
  have hlt : (random_double rng s).1 < 1 := lt_of_le_of_lt h1 (by norm_num)
  refine ⟨rfl, h0, h1, hlt, ?_⟩
  intro i j
  have hp := redraw_position cfg rng i j s i j
  rw [if_pos ⟨rfl, rfl⟩] at hp
  have hd : 0 ≤ cfg.varMax - cfg.varMin := by linarith
  refine ⟨hp, ?_, ?_⟩
  · rw [hp]
    nlinarith [mul_nonneg hd h0]
  · rw [hp]
    nlinarith [mul_le_mul_of_nonneg_left hlt.le hd]

theorem random_double_unit_witness :
    witnessCfg.varMin ≤ witnessCfg.varMax
      ∧ (random_double (fun _ => 40000) witnessMem).1 = ((40000 % 32767 : ℕ) : ℝ) / 32767
      ∧ 0 ≤ (random_double (fun _ => 40000) witnessMem).1
      ∧ (random_double (fun _ => 40000) witnessMem).1 ≤ 32766 / 32767 :=
  have hv : witnessCfg.varMin ≤ witnessCfg.varMax := by
    show (0 : ℝ) ≤ 1
    exact zero_le_one
  ⟨hv, (random_double_unit witnessCfg (fun _ => 40000) witnessMem hv).1,
    (random_double_unit witnessCfg (fun _ => 40000) witnessMem hv).2.1,
    (random_double_unit witnessCfg (fun _ => 40000) witnessMem hv).2.2.1⟩

/-- C26. Strict tie-break of `PSOAlg_run_search`. The evaluation block, the same at INIT
and in the search loop, leaves the personal-best cost and position of every candidate
unchanged when the cost just assigned to candidate `i` is equal to or greater than its
personal-best cost, and leaves `globalBestCost` and `globalBestPosition` unchanged when it
is equal to or greater than the global-best cost; a cost strictly below the respective
best replaces it. Each evaluation of INIT and of a pass of the search loop is this
block. -/
theorem strict_tie_break (cfg : PSOConfig) (i : ℕ) (s : PSOState) :
    (updateCosts cfg i s).PSOPart_cost i = costOf cfg (fun j => s.PSOPart_position i j)
      ∧ (s.PSOPart_bestCost i ≤ (((updateCosts cfg i s).PSOPart_cost i : ℝ) : WithTop ℝ) →
          (updateCosts cfg i s).PSOPart_bestCost = s.PSOPart_bestCost
            ∧ (updateCosts cfg i s).PSOPart_bestPosition = s.PSOPart_bestPosition)
      ∧ (s.globalBestCost ≤ (((updateCosts cfg i s).PSOPart_cost i : ℝ) : WithTop ℝ) →
          (updateCosts cfg i s).globalBestCost = s.globalBestCost
            ∧ (updateCosts cfg i s).globalBestPosition = s.globalBestPosition)
      ∧ ((((updateCosts cfg i s).PSOPart_cost i : ℝ) : WithTop ℝ) < s.PSOPart_bestCost i →
          (updateCosts cfg i s).PSOPart_bestCost i
              = (((updateCosts cfg i s).PSOPart_cost i : ℝ) : WithTop ℝ)
            ∧ ∀ j < cfg.nVar,
                (updateCosts cfg i s).PSOPart_bestPosition i j = s.PSOPart_position i j)
      ∧ ((((updateCosts cfg i s).PSOPart_cost i : ℝ) : WithTop ℝ) < s.globalBestCost →
          (updateCosts cfg i s).globalBestCost
              = (((updateCosts cfg i s).PSOPart_cost i : ℝ) : WithTop ℝ)
            ∧ ∀ j < cfg.nVar,
                (updateCosts cfg i s).globalBestPosition j = s.PSOPart_position i j)
      ∧ (∀ (rng : ℕ → ℕ) (mem : PSOState),
          psoInit cfg rng mem
            = initRecord cfg
                ((List.range cfg.nPop).foldl (fun s i => updateCosts cfg i s)
                  (psoInitDrawn cfg rng mem)))
      ∧ (∀ (rng : ℕ → ℕ) (u t : PSOState), candidatePass cfg rng u i = Except.ok t →
          ∃ s3, t = updateCosts cfg i s3) := by
  have hc : (updateCosts cfg i s).PSOPart_cost i
      = costOf cfg (fun j => s.PSOPart_position i j) := by
    rw [updateCosts_cost, Function.update_same]
  rw [hc]
  refine ⟨rfl, ?_, ?_, ?_, ?_, fun rng mem => rfl, ?_⟩
  · intro h
    have hn := not_lt.mpr h
    unfold updateCosts
    unfold costOf at hn
    simp only []
    rw [if_neg hn]
    split_ifs <;> exact ⟨rfl, rfl⟩
  · intro h
    rw [updateCosts_globalBestCost, updateCosts_globalBestPosition, if_neg (not_lt.mpr h),
      if_neg (not_lt.mpr h)]
    exact ⟨rfl, rfl⟩
  · intro h
    unfold updateCosts
    unfold costOf at h
    simp only []
    rw [if_pos h]
    split_ifs
    all_goals
      refine ⟨by simp [costOf], ?_⟩
      intro j hj
      simp [hj]
  · intro h
    rw [updateCosts_globalBestCost, updateCosts_globalBestPosition, if_pos h, if_pos h]
    refine ⟨rfl, ?_⟩
    intro j hj
    simp [hj]
  · intro rng u t h
    obtain ⟨s3, h3, _⟩ := candidatePass_eq cfg rng u i t h
    exact ⟨s3, h3⟩

/-! ## A run with both limits disabled -/

section NoLimit

theorem stopSearch_disabled (cfg : PSOConfig) (h1 : cfg.useIterLimit = 0)
    (h2 : cfg.usePrecisionLimit = 0) (s : PSOState) : ¬ stopSearch cfg s := by
  unfold stopSearch
  rintro (h | h)
  · exact h.1 h1
  · exact h.1 h2

theorem searchLoop_disabled (cfg : PSOConfig) (rng : ℕ → ℕ) (h1 : cfg.useIterLimit = 0)
    (h2 : cfg.usePrecisionLimit = 0) (ha : cfg.a ≠ 0) (hb : toUnsigned cfg.b ≠ 0)
    (fuel : ℕ) (s : PSOState) :
    searchLoop cfg rng fuel s = Except.error PSOError.outOfFuel := by
  induction fuel generalizing s with
  | zero => rfl
  | succ fuel ih =>
    obtain ⟨s1, hp⟩ := pass_total cfg rng ha hb (List.range cfg.nPop) s
    rw [searchLoop_succ cfg rng fuel s s1 hp, if_neg (stopSearch_disabled cfg h1 h2 _)]
    exact ih _

end NoLimit

/-- C27. With `useIterLimit = 0` and `usePrecisionLimit = 0` the search loop of
`PSOAlg_run_search` never exits: the termination test leaves `doSearch` at 1 in every
memory, no run returns, for every input, every random stream and every number of passes,
and when the two remainders are defined (`a ≠ 0`, `b ≠ 0`) every bound on the number of
passes is exhausted. -/
theorem no_limit_never_exits (cfg : PSOConfig) (h1 : cfg.useIterLimit = 0)
    (h2 : cfg.usePrecisionLimit = 0) :
    (∀ s : PSOState, ¬ stopSearch cfg s)
      ∧ (∀ (rng : ℕ → ℕ) (mem : PSOState) (fuel : ℕ) (res : PSOState),
          PSOAlg_run_search cfg rng mem fuel ≠ Except.ok res)
      ∧ (cfg.a ≠ 0 → toUnsigned cfg.b ≠ 0 →
          ∀ (rng : ℕ → ℕ) (mem : PSOState) (fuel : ℕ),
            PSOAlg_run_search cfg rng mem fuel = Except.error PSOError.outOfFuel) := by
  refine ⟨stopSearch_disabled cfg h1 h2, ?_, ?_⟩
  · intro rng mem fuel res h
    exact stopSearch_disabled cfg h1 h2 res (searchLoop_stops cfg rng fuel _ res h)
  · intro ha hb rng mem fuel
    exact searchLoop_disabled cfg rng h1 h2 ha hb fuel _

theorem no_limit_never_exits_witness :
    noLimitCfg.useIterLimit = 0 ∧ noLimitCfg.usePrecisionLimit = 0
      ∧ (∀ s : PSOState, ¬ stopSearch noLimitCfg s)
      ∧ ∀ (rng : ℕ → ℕ) (mem : PSOState) (fuel : ℕ) (res : PSOState),
          PSOAlg_run_search noLimitCfg rng mem fuel ≠ Except.ok res :=
  ⟨rfl, rfl, (no_limit_never_exits noLimitCfg rfl rfl).1,
    (no_limit_never_exits noLimitCfg rfl rfl).2.1⟩

/-! ## The clamp of `calc_principal` -/

section Clamp

theorem clampDiff_cases (d : ℝ) :
    clampDiff d = if 0 < d ∧ d < 1 then 1 else if -1 < d ∧ d < 0 then -1 else d := by
  unfold clampDiff
  simp only []
  by_cases h1 : 0 < d ∧ d < 1
  · have h1b : d < 1 ∧ d > 0 := ⟨h1.2, h1.1⟩
    rw [if_pos h1, if_pos h1b]
    norm_num
  · have h1b : ¬ (d < 1 ∧ d > 0) := fun h => h1 ⟨h.2, h.1⟩
    rw [if_neg h1, if_neg h1b]

end Clamp

/-- C28. For all `Ixx`, `Iyy`, `Ixy`, `calc_principal` returns
`theta = atan2 (-Ixy, d1) / 2`, where `d = (Ixx - Iyy) / 2` and `d1` is 1 if `0 < d < 1`,
-1 if `-1 < d < 0`, and `d` otherwise; in particular `d = 0` and every `d` with `|d| ≥ 1`
are passed on as they are. -/
theorem calc_principal_theta (Ixx Iyy Ixy : ℝ) :
    (calc_principal Ixx Iyy Ixy).2.2
        = atan2 (-Ixy)
            (if 0 < (Ixx - Iyy) / 2 ∧ (Ixx - Iyy) / 2 < 1 then 1
              else if -1 < (Ixx - Iyy) / 2 ∧ (Ixx - Iyy) / 2 < 0 then -1
              else (Ixx - Iyy) / 2) / 2
      ∧ ((Ixx - Iyy) / 2 = 0 → (calc_principal Ixx Iyy Ixy).2.2 = atan2 (-Ixy) 0 / 2)
      ∧ (1 ≤ |(Ixx - Iyy) / 2| →
          (calc_principal Ixx Iyy Ixy).2.2 = atan2 (-Ixy) ((Ixx - Iyy) / 2) / 2) := by
  have h : (calc_principal Ixx Iyy Ixy).2.2
      = atan2 (-Ixy) (clampDiff ((Ixx - Iyy) / 2)) / 2 := rfl
  rw [h, clampDiff_cases]
  refine ⟨rfl, ?_, ?_⟩
  · intro h0
    rw [h0]
    norm_num
  · intro habs
    have h1 : ¬ (0 < (Ixx - Iyy) / 2 ∧ (Ixx - Iyy) / 2 < 1) := by
      rintro ⟨ha, hb⟩
      rw [abs_of_pos ha] at habs
      linarith
    have h2 : ¬ (-1 < (Ixx - Iyy) / 2 ∧ (Ixx - Iyy) / 2 < 0) := by
      rintro ⟨ha, hb⟩
      rw [abs_of_neg hb] at habs
      linarith
    rw [if_neg h1, if_neg h2]

/-! ## The velocity and position update -/

section Move

theorem moved_velocity (cfg : PSOConfig) (rng : ℕ → ℕ) (i j : ℕ) (s : PSOState) :
    (moved cfg rng i j s).PSOPart_velocity i j
      = s.w * s.PSOPart_velocity i j
        + (random_double rng s).1 * cfg.c1
            * (s.PSOPart_bestPosition i j - s.PSOPart_position i j)
        + (random_double rng (random_double rng s).2).1 * cfg.c2
            * (s.globalBestPosition j - s.PSOPart_position i j) := by
  unfold moved
  simp only [Function.update_same]
  rfl

theorem moved_position (cfg : PSOConfig) (rng : ℕ → ℕ) (i j : ℕ) (s : PSOState) :
    (moved cfg rng i j s).PSOPart_position i j
      = s.PSOPart_position i j + (moved cfg rng i j s).PSOPart_velocity i j := by
  unfold moved
  simp only [Function.update_same]
  rfl

theorem moved_velocity_other (cfg : PSOConfig) (rng : ℕ → ℕ) (i j : ℕ) (s : PSOState)
    (i2 j2 : ℕ) (hc : ¬ (i2 = i ∧ j2 = j)) :
    (moved cfg rng i j s).PSOPart_velocity i2 j2 = s.PSOPart_velocity i2 j2 := by
  unfold moved
  simp only []
  by_cases hi : i2 = i
  · subst hi
    rw [Function.update_same, Function.update_noteq (fun hj => hc ⟨rfl, hj⟩)]
    rfl
  · rw [Function.update_noteq hi]
    rfl

theorem moved_frame (cfg : PSOConfig) (rng : ℕ → ℕ) (i j : ℕ) (s : PSOState) :
    (moved cfg rng i j s).w = s.w ∧ (moved cfg rng i j s).randCalls = s.randCalls + 2
      ∧ SameFrame s (moved cfg rng i j s) :=
  ⟨rfl, rfl, rfl, rfl, rfl, rfl, rfl, rfl, rfl, rfl⟩

theorem redraw_frame (cfg : PSOConfig) (rng : ℕ → ℕ) (i j : ℕ) (s : PSOState) :
    (redraw cfg rng i j s).w = s.w ∧ (redraw cfg rng i j s).randCalls = s.randCalls + 1 :=
  ⟨rfl, rfl⟩

/-- The boundary tests of `moveStep` leave the velocities as the update computed them. -/
theorem moveStep_velocity_eq (cfg : PSOConfig) (rng : ℕ → ℕ) (i j : ℕ) (s : PSOState) :
    (moveStep cfg rng i j s).PSOPart_velocity = (moved cfg rng i j s).PSOPart_velocity := by
  rw [moveStep_eq]
  split_ifs <;> rfl

theorem moveStep_w (cfg : PSOConfig) (rng : ℕ → ℕ) (i j : ℕ) (s : PSOState) :
    (moveStep cfg rng i j s).w = s.w := by
  rw [moveStep_eq]
  split_ifs <;> rfl

theorem moveStep_position_other (cfg : PSOConfig) (rng : ℕ → ℕ) (i j : ℕ) (s : PSOState)
    (i2 j2 : ℕ) (hc : ¬ (i2 = i ∧ j2 = j)) :
    (moveStep cfg rng i j s).PSOPart_position i2 j2 = s.PSOPart_position i2 j2 := by
  have hm := moved_position_other cfg rng i j s i2 j2 hc
  rw [moveStep_eq]
  split_ifs
  all_goals
    first
    | exact hm
    | (simp only [redraw_position, if_neg hc]
       exact hm)

theorem moveStep_velocity_other (cfg : PSOConfig) (rng : ℕ → ℕ) (i j : ℕ) (s : PSOState)
    (i2 j2 : ℕ) (hc : ¬ (i2 = i ∧ j2 = j)) :
    (moveStep cfg rng i j s).PSOPart_velocity i2 j2 = s.PSOPart_velocity i2 j2 := by
  rw [moveStep_velocity_eq]
  exact moved_velocity_other cfg rng i j s i2 j2 hc

/-- A fold leaves a quantity unchanged that every step on an entry of the list leaves
unchanged. -/
theorem foldl_preserve_mem {α β : Type} (g : PSOState → α) (f : PSOState → β → PSOState)
    (l : List β) (hf : ∀ s, ∀ b ∈ l, g (f s b) = g s) (s : PSOState) :
    g (l.foldl f s) = g s := by
  induction l generalizing s with
  | nil => rfl
  | cons b l ih =>
    rw [List.foldl_cons, ih (fun s c hc => hf s c (List.mem_cons_of_mem _ hc)),
      hf s b (List.mem_cons_self _ _)]

/-- The memory in which component `j` of candidate `i` is updated holds the inertia weight,
the bests, and the velocity and position of that component as the pass over the candidate
found them. -/
theorem moveSteps_before (cfg : PSOConfig) (rng : ℕ → ℕ) (i j : ℕ) (u : PSOState) :
    ((List.range j).foldl (fun s k => moveStep cfg rng i k s) u).w = u.w
      ∧ ((List.range j).foldl (fun s k => moveStep cfg rng i k s) u).PSOPart_velocity i j
          = u.PSOPart_velocity i j
      ∧ ((List.range j).foldl (fun s k => moveStep cfg rng i k s) u).PSOPart_position i j
          = u.PSOPart_position i j
      ∧ SameFrame u ((List.range j).foldl (fun s k => moveStep cfg rng i k s) u) := by
  refine ⟨?_, ?_, ?_, ?_⟩
  · exact foldl_preserve (fun s => s.w) _ (fun s k => moveStep_w cfg rng i k s) _ u
  · refine foldl_preserve_mem (fun s => s.PSOPart_velocity i j) _ _ ?_ u
    intro s k hk
    have hkj : k ≠ j := (List.mem_range.mp hk).ne
    exact moveStep_velocity_other cfg rng i k s i j (fun h => hkj h.2.symm)
  · refine foldl_preserve_mem (fun s => s.PSOPart_position i j) _ _ ?_ u
    intro s k hk
    have hkj : k ≠ j := (List.mem_range.mp hk).ne
    exact moveStep_position_other cfg rng i k s i j (fun h => hkj h.2.symm)
  · exact foldl_sameFrame _ (fun s k => moveStep_sameFrame cfg rng i k s) _ u

theorem reseedStep_velocity (cfg : PSOConfig) (rng : ℕ → ℕ) (i j : ℕ) (s : PSOState) :
    (reseedStep cfg rng i j s).PSOPart_velocity = s.PSOPart_velocity := rfl

/-- A pass over candidate `i` that returns leaves the velocities as the loop over the
dimensions computed them. -/
theorem candidatePass_velocity (cfg : PSOConfig) (rng : ℕ → ℕ) (u : PSOState) (i : ℕ)
    (t : PSOState) (h : candidatePass cfg rng u i = Except.ok t) :
    t.PSOPart_velocity
      = ((List.range cfg.nVar).foldl (fun s k => moveStep cfg rng i k s) u).PSOPart_velocity := by
  have hr : ∀ s : PSOState,
      ((List.range cfg.nVar).foldl (fun s k => redraw cfg rng i k s) s).PSOPart_velocity
        = s.PSOPart_velocity :=
    fun s => foldl_preserve (fun s => s.PSOPart_velocity) _
      (fun s k => redraw_velocity cfg rng i k s) _ s
  have hs : ∀ s : PSOState,
      ((List.range cfg.nVar).foldl (fun s k => reseedStep cfg rng i k s) s).PSOPart_velocity
        = s.PSOPart_velocity :=
    fun s => foldl_preserve (fun s => s.PSOPart_velocity) _
      (fun s k => reseedStep_velocity cfg rng i k s) _ s
  unfold candidatePass at h
  simp only [] at h
  split_ifs at h
  all_goals
    first
    | (cases h
       done)
    | (cases h
       rw [updateCosts_velocity]
       done)
    | (cases h
       rw [updateCosts_velocity]
       simp only [hr, hs])

end Move

/-- C22. In every pass of the search loop of `PSOAlg_run_search`, for candidate `i` and
dimension `j` the new velocity is
`w * v_old + r1 * c1 * (personalBest[i][j] - x_old) + r2 * c2 * (globalBest[j] - x_old)`
and the new position, before the boundary tests, is `x_old + v_new`. Here `w`, `v_old`,
`x_old`, `personalBest` and `globalBest` are the values in the memory `u` with which the
pass over candidate `i` starts, `r1` and `r2` are the two draws made for this component,
and the velocity is what the pass leaves in the array. The passes over the candidates run
in order, and the global best with which candidate `i` starts is the one with which the
candidate before started, changed only by the evaluation of that candidate. -/
theorem velocity_update (cfg : PSOConfig) (rng : ℕ → ℕ) (i j : ℕ) (u : PSOState) :
    (List.range (j + 1)).foldl (fun s k => moveStep cfg rng i k s) u
        = moveStep cfg rng i j ((List.range j).foldl (fun s k => moveStep cfg rng i k s) u)
      ∧ (moved cfg rng i j
            ((List.range j).foldl (fun s k => moveStep cfg rng i k s) u)).PSOPart_velocity i j
          = u.w * u.PSOPart_velocity i j
            + (random_double rng
                ((List.range j).foldl (fun s k => moveStep cfg rng i k s) u)).1 * cfg.c1
                * (u.PSOPart_bestPosition i j - u.PSOPart_position i j)
            + (random_double rng (random_double rng
                ((List.range j).foldl (fun s k => moveStep cfg rng i k s) u)).2).1 * cfg.c2
                * (u.globalBestPosition j - u.PSOPart_position i j)
      ∧ (moved cfg rng i j
            ((List.range j).foldl (fun s k => moveStep cfg rng i k s) u)).PSOPart_position i j
          = u.PSOPart_position i j
            + (moved cfg rng i j
                ((List.range j).foldl (fun s k => moveStep cfg rng i k s) u)).PSOPart_velocity i j
      ∧ (j < cfg.nVar → ∀ t : PSOState, candidatePass cfg rng u i = Except.ok t →
          t.PSOPart_velocity i j
            = (moved cfg rng i j
                ((List.range j).foldl (fun s k => moveStep cfg rng i k s) u)).PSOPart_velocity i j)
      ∧ (∀ u0 : PSOState,
          (List.range (i + 1)).foldlM (candidatePass cfg rng) u0
            = (List.range i).foldlM (candidatePass cfg rng) u0
                >>= fun s => candidatePass cfg rng s i)
      ∧ (∀ t : PSOState, candidatePass cfg rng u i = Except.ok t →
          ∃ s3, t = updateCosts cfg i s3 ∧ s3.globalBestPosition = u.globalBestPosition
            ∧ s3.globalBestCost = u.globalBestCost) := by
  obtain ⟨hw, hv, hp, hf⟩ := moveSteps_before cfg rng i j u
  have hstep : (List.range (j + 1)).foldl (fun s k => moveStep cfg rng i k s) u
      = moveStep cfg rng i j ((List.range j).foldl (fun s k => moveStep cfg rng i k s) u) := by
    rw [List.range_succ, List.foldl_append]
    rfl
  refine ⟨hstep, ?_, ?_, ?_, ?_, ?_⟩
  · rw [moved_velocity, hw, hv, hp, hf.1, hf.2.2.2.2.1]
  · rw [moved_position, hp]
  · intro hj t ht
    rw [candidatePass_velocity cfg rng u i t ht, ← moveStep_velocity_eq, ← hstep]
    obtain ⟨m, hm⟩ : ∃ m, cfg.nVar = (j + 1) + m := ⟨cfg.nVar - (j + 1), by omega⟩
    have hsplit : List.range cfg.nVar
        = List.range (j + 1) ++ (List.range m).map (fun k => j + 1 + k) := by
      rw [hm, List.range_add]
    rw [hsplit, List.foldl_append]
    refine foldl_preserve_mem (fun s => s.PSOPart_velocity i j) _ _ ?_ _
    intro s k hk
    obtain ⟨k0, _, hk0⟩ := List.mem_map.mp hk
    exact moveStep_velocity_other cfg rng i k s i j (fun h => by omega)
  · intro u0
    rw [List.range_succ, List.foldlM_append]
    simp only [List.foldlM_cons, List.foldlM_nil]
    congr 1
    funext s
    cases candidatePass cfg rng s i <;> rfl
  · intro t ht
    obtain ⟨s3, h3, hfr⟩ := candidatePass_eq cfg rng u i t ht
    exact ⟨s3, h3, hfr.2.2.2.2.1, hfr.2.2.2.1⟩

/-- C23. Boundary policy of `PSOAlg_run_search`. After the position update of component `j`
of candidate `i`, a position `p` in `[0, 1]` is kept, whatever `varMin` and `varMax` are,
and no draw is made; a position `p < 0` is replaced by `varMin + (varMax - varMin) * r` for
the next draw `r`; a position `p > 1` is replaced in the same way, and when the replacement
is below 0 it is replaced once more with one more draw. No other value is ever written,
and the velocities stay as the update computed them. -/
theorem boundary_policy (cfg : PSOConfig) (rng : ℕ → ℕ) (i j : ℕ) (s : PSOState) :
    (0 ≤ (moved cfg rng i j s).PSOPart_position i j →
        (moved cfg rng i j s).PSOPart_position i j ≤ 1 →
        moveStep cfg rng i j s = moved cfg rng i j s)
      ∧ ((moved cfg rng i j s).PSOPart_position i j < 0 →
          moveStep cfg rng i j s = redraw cfg rng i j (moved cfg rng i j s))
      ∧ (1 < (moved cfg rng i j s).PSOPart_position i j →
          (0 ≤ (redraw cfg rng i j (moved cfg rng i j s)).PSOPart_position i j →
            moveStep cfg rng i j s = redraw cfg rng i j (moved cfg rng i j s))
          ∧ ((redraw cfg rng i j (moved cfg rng i j s)).PSOPart_position i j < 0 →
            moveStep cfg rng i j s
              = redraw cfg rng i j (redraw cfg rng i j (moved cfg rng i j s))))
      ∧ (∀ t : PSOState,
          (redraw cfg rng i j t).PSOPart_position i j
              = cfg.varMin
                + (cfg.varMax - cfg.varMin) * (((rng t.randCalls % 32767 : ℕ) : ℝ) / 32767)
            ∧ (redraw cfg rng i j t).randCalls = t.randCalls + 1
            ∧ (redraw cfg rng i j t).PSOPart_velocity = t.PSOPart_velocity)
      ∧ (moved cfg rng i j s).randCalls = s.randCalls + 2
      ∧ (moveStep cfg rng i j s).PSOPart_velocity = (moved cfg rng i j s).PSOPart_velocity := by
  refine ⟨?_, ?_, ?_, ?_, rfl, moveStep_velocity_eq cfg rng i j s⟩
  · intro h0 h1
    have a1 : ¬ (moved cfg rng i j s).PSOPart_position i j > 1.0 := by
      norm_num
      exact h1
    have a2 : ¬ (moved cfg rng i j s).PSOPart_position i j < 0.0 := by
      norm_num
      exact h0
    rw [moveStep_eq, if_neg a1, if_neg a2]
  · intro h0
    have a1 : ¬ (moved cfg rng i j s).PSOPart_position i j > 1.0 := by
      norm_num
      linarith
    have a2 : (moved cfg rng i j s).PSOPart_position i j < 0.0 := by
      norm_num
      exact h0
    rw [moveStep_eq, if_neg a1, if_pos a2]
  · intro h1
    have a1 : (moved cfg rng i j s).PSOPart_position i j > 1.0 := by
      norm_num
      exact h1
    refine ⟨?_, ?_⟩
    · intro h0
      have a2 : ¬ (redraw cfg rng i j (moved cfg rng i j s)).PSOPart_position i j < 0.0 := by
        norm_num
        exact h0
      rw [moveStep_eq, if_pos a1, if_neg a2]
    · intro h0
      have a2 : (redraw cfg rng i j (moved cfg rng i j s)).PSOPart_position i j < 0.0 := by
        norm_num
        exact h0
      rw [moveStep_eq, if_pos a1, if_pos a2]
  · intro t
    refine ⟨?_, rfl, rfl⟩
    have hp := redraw_position cfg rng i j t i j
    rw [if_pos ⟨rfl, rfl⟩] at hp
    exact hp

/-! ## The redraw loops of a pass -/

section Redraws

theorem redraw_at (cfg : PSOConfig) (rng : ℕ → ℕ) (i j : ℕ) (s : PSOState) (i2 j2 : ℕ) :
    (redraw cfg rng i j s).PSOPart_position i2 j2
      = if i2 = i ∧ j2 = j then cfg.varMin + (cfg.varMax - cfg.varMin) * drawAt rng s.randCalls
        else s.PSOPart_position i2 j2 :=
  redraw_position cfg rng i j s i2 j2

theorem reseedStep_at (cfg : PSOConfig) (rng : ℕ → ℕ) (i j : ℕ) (s : PSOState) (i2 j2 : ℕ) :
    (reseedStep cfg rng i j s).PSOPart_position i2 j2
      = if i2 = i ∧ j2 = j then cfg.varMin + (cfg.varMax - cfg.varMin) * drawAt rng s.randCalls
        else s.PSOPart_position i2 j2 :=
  redraw_position cfg rng i j s i2 j2

theorem reseedStep_frame (cfg : PSOConfig) (rng : ℕ → ℕ) (i j : ℕ) (s : PSOState) :
    (reseedStep cfg rng i j s).randCalls = s.randCalls + 2
      ∧ (reseedStep cfg rng i j s).w = drawAt rng (s.randCalls + 1) := ⟨rfl, rfl⟩

/-- The loop that redraws every component of candidate `i`: component `j` receives the
`j`-th draw of the loop. -/
theorem foldl_redraw (cfg : PSOConfig) (rng : ℕ → ℕ) (i n : ℕ) (s : PSOState) :
    ((List.range n).foldl (fun s k => redraw cfg rng i k s) s).randCalls = s.randCalls + n
      ∧ ((List.range n).foldl (fun s k => redraw cfg rng i k s) s).w = s.w
      ∧ (∀ j < n, ((List.range n).foldl (fun s k => redraw cfg rng i k s) s).PSOPart_position i j
          = cfg.varMin + (cfg.varMax - cfg.varMin) * drawAt rng (s.randCalls + j))
      ∧ (∀ j, n ≤ j →
          ((List.range n).foldl (fun s k => redraw cfg rng i k s) s).PSOPart_position i j
            = s.PSOPart_position i j) := by
  induction n with
  | zero =>
    refine ⟨rfl, rfl, ?_, fun j _ => rfl⟩
    intro j hj
    omega
  | succ n ih =>
    obtain ⟨h1, h2, h3, h4⟩ := ih
    rw [List.range_succ, List.foldl_append]
    simp only [List.foldl_cons, List.foldl_nil]
    refine ⟨?_, ?_, ?_, ?_⟩
    · rw [(redraw_frame cfg rng i n _).2, h1]
      omega
    · rw [(redraw_frame cfg rng i n _).1, h2]
    · intro j hj
      rw [redraw_at]
      by_cases hjn : j = n
      · rw [if_pos ⟨rfl, hjn⟩, h1, hjn]
      · rw [if_neg (fun h => hjn h.2)]
        exact h3 j (by omega)
    · intro j hj
      rw [redraw_at, if_neg (fun h => by omega)]
      exact h4 j (by omega)

/-- The loop of the reset every `b`-th iteration: component `j` receives the first of the
two values drawn in pass `j` of the loop, and the inertia weight is left at the last value
drawn. -/
theorem foldl_reseed (cfg : PSOConfig) (rng : ℕ → ℕ) (i n : ℕ) (s : PSOState) :
    ((List.range n).foldl (fun s k => reseedStep cfg rng i k s) s).randCalls = s.randCalls + 2 * n
      ∧ (1 ≤ n → ((List.range n).foldl (fun s k => reseedStep cfg rng i k s) s).w
          = drawAt rng (s.randCalls + 2 * n - 1))
      ∧ (∀ j < n,
          ((List.range n).foldl (fun s k => reseedStep cfg rng i k s) s).PSOPart_position i j
            = cfg.varMin + (cfg.varMax - cfg.varMin) * drawAt rng (s.randCalls + 2 * j)) := by
  induction n with
  | zero =>
    refine ⟨rfl, fun h => by omega, ?_⟩
    intro j hj
    omega
  | succ n ih =>
    obtain ⟨h1, _, h3⟩ := ih
    rw [List.range_succ, List.foldl_append]
    simp only [List.foldl_cons, List.foldl_nil]
    refine ⟨?_, ?_, ?_⟩
    · rw [(reseedStep_frame cfg rng i n _).1, h1]
      omega
    · intro _
      rw [(reseedStep_frame cfg rng i n _).2, h1]
      congr 1
    · intro j hj
      rw [reseedStep_at]
      by_cases hjn : j = n
      · rw [if_pos ⟨rfl, hjn⟩, h1, hjn]
      · rw [if_neg (fun h => hjn h.2)]
        exact h3 j (by omega)

theorem updateCosts_w (cfg : PSOConfig) (i : ℕ) (s : PSOState) :
    (updateCosts cfg i s).w = s.w ∧ (updateCosts cfg i s).randCalls = s.randCalls := by
  unfold updateCosts
  simp only []
  split_ifs <;> exact ⟨rfl, rfl⟩

theorem updateCosts_record (cfg : PSOConfig) (i : ℕ) (s : PSOState) :
    (updateCosts cfg i s).evaluated
      = s.evaluated ++ [((List.range cfg.nVar).map (fun j => (updateCosts cfg i s).PSOPart_position i j),
          (updateCosts cfg i s).PSOPart_cost i)] := by
  rw [updateCosts_position, updateCosts_cost, Function.update_same]
  unfold updateCosts costOf
  simp only []
  split_ifs <;> rfl

/-- The memory that the pass over candidate `i` hands to the evaluation block. -/
theorem candidatePass_ok (cfg : PSOConfig) (rng : ℕ → ℕ) (u : PSOState) (i : ℕ)
    (ha : cfg.a ≠ 0) (hb : toUnsigned cfg.b ≠ 0) :
    candidatePass cfg rng u i
      = Except.ok (updateCosts cfg i
          (if u.iteration % toUnsigned cfg.b = 0 then
            (List.range cfg.nVar).foldl (fun s j => reseedStep cfg rng i j s)
              (if Int.tmod (i : ℤ) cfg.a = 0 then
                (List.range cfg.nVar).foldl (fun s j => redraw cfg rng i j s)
                  ((List.range cfg.nVar).foldl (fun s j => moveStep cfg rng i j s) u)
              else (List.range cfg.nVar).foldl (fun s j => moveStep cfg rng i j s) u)
          else
            (if Int.tmod (i : ℤ) cfg.a = 0 then
              (List.range cfg.nVar).foldl (fun s j => redraw cfg rng i j s)
                ((List.range cfg.nVar).foldl (fun s j => moveStep cfg rng i j s) u)
            else (List.range cfg.nVar).foldl (fun s j => moveStep cfg rng i j s) u))) := by
  have hm := (foldl_sameFrame _ (fun s j => moveStep_sameFrame cfg rng i j s)
    (List.range cfg.nVar) u).2.2.2.2.2.2.1
  have hr := (foldl_sameFrame _ (fun s j => redraw_sameFrame cfg rng i j s)
    (List.range cfg.nVar)
    ((List.range cfg.nVar).foldl (fun s j => moveStep cfg rng i j s) u)).2.2.2.2.2.2.1
  unfold candidatePass
  simp only [ha, hb, if_false]
  by_cases h1 : Int.tmod (i : ℤ) cfg.a = 0
  · simp only [h1, if_true, hr, hm]
  · simp only [h1, if_false, hm]

theorem foldlM_snoc_ok {β ε σ : Type} (f : σ → β → Except ε σ) (l : List β) (x : β) (s t : σ)
    (h : (l ++ [x]).foldlM f s = Except.ok t) :
    ∃ mid, l.foldlM f s = Except.ok mid ∧ f mid x = Except.ok t := by
  rw [List.foldlM_append] at h
  cases hl : l.foldlM f s with
  | error e => rw [hl] at h; cases h
  | ok mid =>
    rw [hl] at h
    refine ⟨mid, rfl, ?_⟩
    simp only [List.foldlM_cons, List.foldlM_nil] at h
    cases hx : f mid x with
    | error e =>
      have : (Except.ok mid >>= fun s => f s x >>= pure) = Except.error e := by
        show (f mid x >>= pure) = Except.error e
        rw [hx]; rfl
      rw [this] at h
      cases h
    | ok t2 =>
      have : (Except.ok mid >>= fun s => f s x >>= pure) = Except.ok t2 := by
        show (f mid x >>= pure) = Except.ok t2
        rw [hx]; rfl
      rw [this] at h
      exact h

theorem mod_unsigned (b : ℤ) (hb1 : 1 ≤ b) (hb2 : b < 2 ^ 31) (k : ℕ) :
    toUnsigned b ≠ 0 ∧ (k % toUnsigned b = 0 ↔ (k : ℤ) % b = 0) := by
  have hu := toUnsigned_of_nonneg b (by omega) (by omega)
  refine ⟨?_, ?_⟩
  · intro h
    rw [h] at hu
    simp at hu
    omega
  · have he : (k : ℤ) % b = ((k % toUnsigned b : ℕ) : ℤ) := by
      rw [Int.ofNat_emod, hu]
    rw [he]
    exact ⟨fun h => by rw [h]; rfl, fun h => by exact_mod_cast h⟩

end Redraws

/-! ## Which position a candidate is evaluated at, and the inertia weight after a pass -/

section PassShape

theorem candidatePass_defined (cfg : PSOConfig) (rng : ℕ → ℕ) (u : PSOState) (i : ℕ)
    (t : PSOState) (h : candidatePass cfg rng u i = Except.ok t) :
    cfg.a ≠ 0 ∧ toUnsigned cfg.b ≠ 0 := by
  unfold candidatePass at h
  simp only [] at h
  refine ⟨?_, ?_⟩
  · intro ha
    rw [if_pos ha] at h
    cases h
  · intro hb
    by_cases ha : cfg.a = 0
    · rw [if_pos ha] at h
      cases h
    · rw [if_neg ha, if_pos hb] at h
      cases h

theorem moveStep_randCalls (cfg : PSOConfig) (rng : ℕ → ℕ) (i j : ℕ) (s : PSOState) :
    s.randCalls ≤ (moveStep cfg rng i j s).randCalls := by
  have hm := (moved_frame cfg rng i j s).2.1
  rw [moveStep_eq]
  split_ifs
  all_goals simp only [(redraw_frame cfg rng i j _).2, hm]
  all_goals omega

theorem foldl_randCalls {β : Type} (f : PSOState → β → PSOState)
    (hf : ∀ s b, s.randCalls ≤ (f s b).randCalls) (l : List β) (s : PSOState) :
    s.randCalls ≤ (l.foldl f s).randCalls := by
  induction l generalizing s with
  | nil => exact le_refl _
  | cons b l ih => exact le_trans (hf s b) (ih (f s b))

theorem afterCandidates_w (cfg : PSOConfig) (s : PSOState) :
    (afterCandidates cfg s).w = s.w * cfg.wDamp := by
  unfold afterCandidates
  simp only []
  split_ifs <;> rfl

/-- The inertia weight and the count of draws after the pass over one candidate. -/
theorem candidatePass_w (cfg : PSOConfig) (rng : ℕ → ℕ) (u : PSOState) (i : ℕ)
    (t : PSOState) (h : candidatePass cfg rng u i = Except.ok t) :
    t.iteration = u.iteration ∧ u.randCalls ≤ t.randCalls
      ∧ (u.iteration % toUnsigned cfg.b ≠ 0 → t.w = u.w)
      ∧ (u.iteration % toUnsigned cfg.b = 0 → 1 ≤ cfg.nVar →
          u.randCalls < t.randCalls ∧ t.w = drawAt rng (t.randCalls - 1)) := by
  obtain ⟨ha, hb⟩ := candidatePass_defined cfg rng u i t h
  obtain ⟨s3, h3, hfr⟩ := candidatePass_eq cfg rng u i t h
  have hit : t.iteration = u.iteration := by
    rw [h3, updateCosts_iteration]
    exact hfr.2.2.2.2.2.2.1
  rw [candidatePass_ok cfg rng u i ha hb] at h
  injection h with h
  have hS1 : u.randCalls
      ≤ ((List.range cfg.nVar).foldl (fun s j => moveStep cfg rng i j s) u).randCalls :=
    foldl_randCalls _ (fun s j => moveStep_randCalls cfg rng i j s) _ u
  have hS1w : ((List.range cfg.nVar).foldl (fun s j => moveStep cfg rng i j s) u).w = u.w :=
    (moveSteps_before cfg rng i cfg.nVar u).1
  have hR := foldl_redraw cfg rng i cfg.nVar
    ((List.range cfg.nVar).foldl (fun s j => moveStep cfg rng i j s) u)
  refine ⟨hit, ?_⟩
  rw [← h]
  rw [(updateCosts_w cfg i _).1, (updateCosts_w cfg i _).2]
  by_cases hbk : u.iteration % toUnsigned cfg.b = 0
  · rw [if_pos hbk]
    refine ⟨?_, fun hn => absurd hbk hn, ?_⟩
    · rw [(foldl_reseed cfg rng i cfg.nVar _).1]
      split_ifs
      · rw [hR.1]; omega
      · omega
    · intro _ hv
      rw [(foldl_reseed cfg rng i cfg.nVar _).1, (foldl_reseed cfg rng i cfg.nVar _).2.1 hv]
      refine ⟨?_, rfl⟩
      split_ifs
      · rw [hR.1]; omega
      · omega
  · rw [if_neg hbk]
    refine ⟨?_, fun _ => ?_, fun h0 => absurd h0 hbk⟩
    · split_ifs
      · rw [hR.1]; omega
      · exact hS1
    · split_ifs
      · rw [hR.2.1, hS1w]
      · exact hS1w

end PassShape

/-- C24. For every `a ≥ 1` and every pass of the search loop of `PSOAlg_run_search`, a
candidate whose index `i` satisfies `i mod a = 0` (candidate 0 among them) is evaluated at
a position of which every component `j` is `varMin + (varMax - varMin) * r` for a draw `r`
made after the velocity updates of the candidate, a different draw for every component: the
`j`-th draw after the updates, or, when the reset of the `b`-th iteration applies too, the
first draw of pass `j` of the reset loop. A candidate with `i mod a ≠ 0` is evaluated at
the position the velocity updates left, unless the reset applies, which again gives every
component a draw of its own. The position evaluated is the one recorded with the cost. -/
theorem periodic_redraw (cfg : PSOConfig) (ha : 1 ≤ cfg.a) :
    (0 : ℤ) % cfg.a = 0
      ∧ (∀ (rng : ℕ → ℕ) (u : PSOState) (i : ℕ), toUnsigned cfg.b ≠ 0 →
          ∃ t, candidatePass cfg rng u i = Except.ok t)
      ∧ ∀ (rng : ℕ → ℕ) (u : PSOState) (i : ℕ) (t : PSOState),
          candidatePass cfg rng u i = Except.ok t →
          t.evaluated
              = u.evaluated
                ++ [((List.range cfg.nVar).map (fun j => t.PSOPart_position i j),
                      t.PSOPart_cost i)]
            ∧ ((i : ℤ) % cfg.a = 0 → u.iteration % toUnsigned cfg.b ≠ 0 →
                ∀ j < cfg.nVar, t.PSOPart_position i j
                  = cfg.varMin + (cfg.varMax - cfg.varMin)
                      * drawAt rng (((List.range cfg.nVar).foldl
                          (fun s k => moveStep cfg rng i k s) u).randCalls + j))
            ∧ ((i : ℤ) % cfg.a = 0 → u.iteration % toUnsigned cfg.b = 0 →
                ∀ j < cfg.nVar, t.PSOPart_position i j
                  = cfg.varMin + (cfg.varMax - cfg.varMin)
                      * drawAt rng (((List.range cfg.nVar).foldl
                          (fun s k => moveStep cfg rng i k s) u).randCalls + cfg.nVar + 2 * j))
            ∧ ((i : ℤ) % cfg.a ≠ 0 → u.iteration % toUnsigned cfg.b = 0 →
                ∀ j < cfg.nVar, t.PSOPart_position i j
                  = cfg.varMin + (cfg.varMax - cfg.varMin)
                      * drawAt rng (((List.range cfg.nVar).foldl
                          (fun s k => moveStep cfg rng i k s) u).randCalls + 2 * j))
            ∧ ((i : ℤ) % cfg.a ≠ 0 → u.iteration % toUnsigned cfg.b ≠ 0 →
                ∀ j, t.PSOPart_position i j
                  = ((List.range cfg.nVar).foldl
                      (fun s k => moveStep cfg rng i k s) u).PSOPart_position i j) := by
  have ha0 : cfg.a ≠ 0 := by omega
  refine ⟨Int.zero_emod _, ?_, ?_⟩
  · intro rng u i hb
    exact candidatePass_total cfg rng u i ha0 hb
  · intro rng u i t h
    obtain ⟨_, hb⟩ := candidatePass_defined cfg rng u i t h
    obtain ⟨s3, h3, hfr⟩ := candidatePass_eq cfg rng u i t h
    have hmod : Int.tmod (i : ℤ) cfg.a = (i : ℤ) % cfg.a :=
      Int.tmod_eq_emod (Int.natCast_nonneg i) (by omega)
    have hR := foldl_redraw cfg rng i cfg.nVar
      ((List.range cfg.nVar).foldl (fun s j => moveStep cfg rng i j s) u)
    refine ⟨?_, ?_⟩
    · rw [h3, updateCosts_record, hfr.2.2.2.2.2.2.2]
    · rw [candidatePass_ok cfg rng u i ha0 hb, hmod] at h
      injection h with h
      rw [← h]
      simp only [updateCosts_position]
      refine ⟨?_, ?_, ?_, ?_⟩
      · intro h1 h2 j hj
        rw [if_neg h2, if_pos h1]
        exact hR.2.2.1 j hj
      · intro h1 h2 j hj
        rw [if_pos h2, if_pos h1, (foldl_reseed cfg rng i cfg.nVar _).2.2 j hj, hR.1]
      · intro h1 h2 j hj
        rw [if_pos h2, if_neg h1, (foldl_reseed cfg rng i cfg.nVar _).2.2 j hj]
      · intro h1 h2 j
        rw [if_neg h2, if_neg h1]

theorem periodic_redraw_witness :
    1 ≤ witnessCfg.a ∧ (0 : ℤ) % witnessCfg.a = 0
      ∧ ∀ (rng : ℕ → ℕ) (u : PSOState) (i : ℕ), toUnsigned witnessCfg.b ≠ 0 →
          ∃ t, candidatePass witnessCfg rng u i = Except.ok t :=
  ⟨by decide, (periodic_redraw witnessCfg (by decide)).1,
    (periodic_redraw witnessCfg (by decide)).2.1⟩

/-- C25. Inertia recurrence of `PSOAlg_run_search` for `nPop ≥ 1`, `nVar ≥ 1`, `b ≥ 1`.
Let the pass with counter `k` start with weight `w_k`. When `k mod b ≠ 0` the weight with
which the next pass starts is `wDamp * w_k`. When `k mod b = 0` it is `wDamp` times the
value `(rand () mod 32767) / 32767` of the last call of `rand ()` made in the pass, which
is the last assignment to `w` in the reset loop of the last candidate: the reseeded value
is damped once and the weight before the pass plays no part. -/
theorem inertia_recurrence (cfg : PSOConfig) (hPop : 1 ≤ cfg.nPop) (hVar : 1 ≤ cfg.nVar)
    (hb1 : 1 ≤ cfg.b) (hb2 : cfg.b < 2 ^ 31) :
    (∀ (rng : ℕ → ℕ) (i j : ℕ) (u : PSOState),
        (reseedStep cfg rng i j u).w = drawAt rng ((reseedStep cfg rng i j u).randCalls - 1))
      ∧ (cfg.a ≠ 0 → ∀ (rng : ℕ → ℕ) (s : PSOState),
          ∃ s1, (List.range cfg.nPop).foldlM (candidatePass cfg rng) s = Except.ok s1)
      ∧ ∀ (rng : ℕ → ℕ) (s s1 : PSOState),
          (List.range cfg.nPop).foldlM (candidatePass cfg rng) s = Except.ok s1 →
          ((s.iteration : ℤ) % cfg.b ≠ 0 → (afterCandidates cfg s1).w = cfg.wDamp * s.w)
            ∧ ((s.iteration : ℤ) % cfg.b = 0 →
                s.randCalls < s1.randCalls
                  ∧ (afterCandidates cfg s1).w = cfg.wDamp * drawAt rng (s1.randCalls - 1))
            ∧ (∀ fuel : ℕ, ¬ stopSearch cfg (afterCandidates cfg s1) →
                searchLoop cfg rng (fuel + 1) s
                  = searchLoop cfg rng fuel
                      { afterCandidates cfg s1 with
                        iteration := ((afterCandidates cfg s1).iteration + 1) % 2 ^ 32 }) := by
  have hmod := mod_unsigned cfg.b hb1 hb2
  refine ⟨?_, ?_, ?_⟩
  · intro rng i j u
    rw [(reseedStep_frame cfg rng i j u).1, (reseedStep_frame cfg rng i j u).2]
    rfl
  · intro ha rng s
    exact pass_total cfg rng ha (hmod 0).1 (List.range cfg.nPop) s
  · intro rng s s1 hp
    refine ⟨?_, ?_, ?_⟩
    · intro hk
      have hk2 : s.iteration % toUnsigned cfg.b ≠ 0 := fun h => hk ((hmod s.iteration).2.mp h)
      have hinv := foldlM_except_inv
        (fun t : PSOState => t.iteration = s.iteration ∧ t.w = s.w)
        (candidatePass cfg rng)
        (fun u i t hu hP => by
          obtain ⟨h1, _, h3, _⟩ := candidatePass_w cfg rng u i t hu
          refine ⟨h1.trans hP.1, ?_⟩
          rw [h3 (by rw [hP.1]; exact hk2)]
          exact hP.2)
        (List.range cfg.nPop) s s1 hp ⟨rfl, rfl⟩
      rw [afterCandidates_w, hinv.2, mul_comm]
    · intro hk
      have hk2 : s.iteration % toUnsigned cfg.b = 0 := (hmod s.iteration).2.mpr hk
      obtain ⟨m, hm⟩ : ∃ m, cfg.nPop = m + 1 := ⟨cfg.nPop - 1, by omega⟩
      rw [hm, List.range_succ] at hp
      obtain ⟨mid, hmid, hlast⟩ := foldlM_snoc_ok _ _ _ _ _ hp
      have hinv := foldlM_except_inv
        (fun t : PSOState => t.iteration = s.iteration ∧ s.randCalls ≤ t.randCalls)
        (candidatePass cfg rng)
        (fun u i t hu hP => by
          obtain ⟨h1, h2, _, _⟩ := candidatePass_w cfg rng u i t hu
          exact ⟨h1.trans hP.1, le_trans hP.2 h2⟩)
        (List.range m) s mid hmid ⟨rfl, le_refl _⟩
      obtain ⟨_, _, _, h4⟩ := candidatePass_w cfg rng mid m s1 hlast
      obtain ⟨h5, h6⟩ := h4 (by rw [hinv.1]; exact hk2) hVar
      refine ⟨lt_of_le_of_lt hinv.2 h5, ?_⟩
      rw [afterCandidates_w, h6, mul_comm]
    · intro fuel hstop
      rw [searchLoop_succ cfg rng fuel s s1 hp, if_neg hstop]

theorem inertia_recurrence_witness :
    1 ≤ triangleCfg.nPop ∧ 1 ≤ triangleCfg.nVar ∧ 1 ≤ triangleCfg.b ∧ triangleCfg.b < 2 ^ 31
      ∧ ∀ (rng : ℕ → ℕ) (i j : ℕ) (u : PSOState),
          (reseedStep triangleCfg rng i j u).w
            = drawAt rng ((reseedStep triangleCfg rng i j u).randCalls - 1) :=
  ⟨by decide, by decide, by decide, by decide,
    (inertia_recurrence triangleCfg (by decide) (by decide) (by decide) (by decide)).1⟩

/-! ## The range of the orientation angle -/

section Kite

open Real

theorem quarter_cos :
    cos (((0 : ℕ) : ℝ) * (2 * π / ((4 : ℕ) : ℝ))) = 1
    ∧ cos (((1 : ℕ) : ℝ) * (2 * π / ((4 : ℕ) : ℝ))) = 0
    ∧ cos (((2 : ℕ) : ℝ) * (2 * π / ((4 : ℕ) : ℝ))) = -1
    ∧ cos (((3 : ℕ) : ℝ) * (2 * π / ((4 : ℕ) : ℝ))) = 0 := by
  refine ⟨?_, ?_, ?_, ?_⟩
  · simp
  · rw [show (((1 : ℕ) : ℝ) * (2 * π / ((4 : ℕ) : ℝ))) = π / 2 by push_cast; ring]
    exact Real.cos_pi_div_two
  · rw [show (((2 : ℕ) : ℝ) * (2 * π / ((4 : ℕ) : ℝ))) = π by push_cast; ring]
    exact Real.cos_pi
  · rw [show (((3 : ℕ) : ℝ) * (2 * π / ((4 : ℕ) : ℝ))) = π / 2 + π by push_cast; ring,
      Real.cos_add_pi, Real.cos_pi_div_two, neg_zero]

theorem quarter_sin :
    sin (((0 : ℕ) : ℝ) * (2 * π / ((4 : ℕ) : ℝ))) = 0
    ∧ sin (((1 : ℕ) : ℝ) * (2 * π / ((4 : ℕ) : ℝ))) = 1
    ∧ sin (((2 : ℕ) : ℝ) * (2 * π / ((4 : ℕ) : ℝ))) = 0
    ∧ sin (((3 : ℕ) : ℝ) * (2 * π / ((4 : ℕ) : ℝ))) = -1 := by
  refine ⟨?_, ?_, ?_, ?_⟩
  · simp
  · rw [show (((1 : ℕ) : ℝ) * (2 * π / ((4 : ℕ) : ℝ))) = π / 2 by push_cast; ring]
    exact Real.sin_pi_div_two
  · rw [show (((2 : ℕ) : ℝ) * (2 * π / ((4 : ℕ) : ℝ))) = π by push_cast; ring]
    exact Real.sin_pi
  · rw [show (((3 : ℕ) : ℝ) * (2 * π / ((4 : ℕ) : ℝ))) = π / 2 + π by push_cast; ring,
      Real.sin_add_pi, Real.sin_pi_div_two]

/-- The four vertices of the polygon with offsets `(1, 0, 0, 1)`. -/
theorem kite_vertices :
    (vertX kiteOffsets 4 0 = 180 ∧ vertY kiteOffsets 4 0 = 0)
    ∧ (vertX kiteOffsets 4 1 = 0 ∧ vertY kiteOffsets 4 1 = 5)
    ∧ (vertX kiteOffsets 4 2 = -5 ∧ vertY kiteOffsets 4 2 = 0)
    ∧ (vertX kiteOffsets 4 3 = 0 ∧ vertY kiteOffsets 4 3 = -180) := by
  obtain ⟨c0, c1, c2, c3⟩ := quarter_cos
  obtain ⟨s0, s1, s2, s3⟩ := quarter_sin
  simp only [vertX_eq, vertY_eq, c0, c1, c2, c3, s0, s1, s2, s3, kiteOffsets]
  norm_num

theorem nextIdx_four :
    nextIdx 4 0 = 1 ∧ nextIdx 4 1 = 2 ∧ nextIdx 4 2 = 3 ∧ nextIdx 4 3 = 0 := by
  decide

theorem kite_area : calc_area_pix 4 (vertX kiteOffsets 4) (vertY kiteOffsets 4) = 34225 / 2 := by
  obtain ⟨⟨x0, y0⟩, ⟨x1, y1⟩, ⟨x2, y2⟩, ⟨x3, y3⟩⟩ := kite_vertices
  obtain ⟨n0, n1, n2, n3⟩ := nextIdx_four
  rw [calc_area_pix_eq_sum]
  simp only [Finset.sum_range_succ, Finset.sum_range_zero, n0, n1, n2, n3,
    x0, y0, x1, y1, x2, y2, x3, y3]
  norm_num

theorem kite_centroidSums :
    centroidSums 4 (vertX kiteOffsets 4) (vertY kiteOffsets 4) = (5989375, -5989375) := by
  obtain ⟨⟨x0, y0⟩, ⟨x1, y1⟩, ⟨x2, y2⟩, ⟨x3, y3⟩⟩ := kite_vertices
  obtain ⟨n0, n1, n2, n3⟩ := nextIdx_four
  rw [centroidSums_eq_sum]
  simp only [Finset.sum_range_succ, Finset.sum_range_zero, n0, n1, n2, n3,
    x0, y0, x1, y1, x2, y2, x3, y3]
  congr 1 <;> norm_num

theorem kite_inertia (A cx cy : ℝ) :
    calc_inertia 4 (vertX kiteOffsets 4) (vertY kiteOffsets 4) A cx cy
      = (1078943125 / 12 - A * cy ^ 2, 1078943125 / 12 - A * cx ^ 2,
          -1048140625 / 24 - A * cx * cy) := by
  obtain ⟨⟨x0, y0⟩, ⟨x1, y1⟩, ⟨x2, y2⟩, ⟨x3, y3⟩⟩ := kite_vertices
  obtain ⟨n0, n1, n2, n3⟩ := nextIdx_four
  rw [calc_inertia_eq_sum]
  simp only [Finset.sum_range_succ, Finset.sum_range_zero, n0, n1, n2, n3,
    x0, y0, x1, y1, x2, y2, x3, y3]
  refine Prod.ext ?_ (Prod.ext ?_ ?_) <;> norm_num

theorem atan2_neg_zero {y : ℝ} (hy : y < 0) : atan2 y 0 = -(π / 2) := by
  unfold atan2
  exact Complex.arg_eq_neg_pi_div_two_iff.mpr ⟨rfl, hy⟩

theorem kite_orientation :
    orientationOf 4 (vertX kiteOffsets 4) (vertY kiteOffsets 4) = 3 * π / 4 := by
  unfold orientationOf calc_theta centreX centreY
  rw [kite_centroidSums, kite_area, kite_inertia]
  unfold calc_principal
  simp only []
  have hd : (1078943125 / 12 - 34225 / 2 * (-5989375 / (6.0 * (34225 / 2))) ^ 2
      - (1078943125 / 12 - 34225 / 2 * (5989375 / (6.0 * (34225 / 2))) ^ 2)) / 2 = (0 : ℝ) := by
    norm_num
  have hxy : -(-1048140625 / 24 - 34225 / 2 * (5989375 / (6.0 * (34225 / 2)))
      * (-5989375 / (6.0 * (34225 / 2)))) < (0 : ℝ) := by
    norm_num
  rw [hd, clampDiff_zero, atan2_neg_zero hxy]
  ring

/-- The orientation lies in `[0, π)` for every input. -/
theorem orientationOf_range (nDim : ℕ) (X Y : ℕ → ℝ) :
    0 ≤ orientationOf nDim X Y ∧ orientationOf nDim X Y < π := by
  unfold orientationOf calc_theta calc_principal atan2
  simp only []
  constructor
  · linarith [Complex.arg_le_pi
      (⟨clampDiff (((calc_inertia nDim X Y (calc_area_pix nDim X Y) (centreX nDim X Y)
          (centreY nDim X Y)).1
        - (calc_inertia nDim X Y (calc_area_pix nDim X Y) (centreX nDim X Y)
          (centreY nDim X Y)).2.1) / 2),
        -(calc_inertia nDim X Y (calc_area_pix nDim X Y) (centreX nDim X Y)
          (centreY nDim X Y)).2.2⟩ : ℂ)]
  · linarith [Complex.neg_pi_lt_arg
      (⟨clampDiff (((calc_inertia nDim X Y (calc_area_pix nDim X Y) (centreX nDim X Y)
          (centreY nDim X Y)).1
        - (calc_inertia nDim X Y (calc_area_pix nDim X Y) (centreX nDim X Y)
          (centreY nDim X Y)).2.1) / 2),
        -(calc_inertia nDim X Y (calc_area_pix nDim X Y) (centreX nDim X Y)
          (centreY nDim X Y)).2.2⟩ : ℂ)]

theorem gpp_majorAxisDeg (s : ℝ) (o : ℕ → ℝ) (n : ℕ) :
    (get_particle_parameters s o n).majorAxisDeg
      = if preWidth s n (vertX o n) (vertY o n) / preLength s n (vertX o n) (vertY o n) > 1
        then
          (if 180.0 - orientationOf n (vertX o n) (vertY o n) * 180.0 / π > 90.0
            then 180.0 - orientationOf n (vertX o n) (vertY o n) * 180.0 / π - 90.0
            else 180.0 - orientationOf n (vertX o n) (vertY o n) * 180.0 / π + 90.0)
        else 180.0 - orientationOf n (vertX o n) (vertY o n) * 180.0 / π :=
  rfl

end Kite

/-- C29 fails on the code. The value `orientation = M_PI / 2 - theta` of
`get_particle_parameters`, documented as running from `pi/2` to `-pi/2`, lies in `[0, π)`
for every input, because `theta` is half of an `atan2` value; it exceeds `π / 2` whenever
`theta` is negative. For the polygon with the four offsets `(1, 0, 0, 1)` the moments
`Ixx` and `Iyy` are equal, `Ixy` is positive, `theta = -π / 4`, and the orientation is
`3 π / 4`. -/
theorem orientation_out_of_range :
    orientationOf 4 (vertX kiteOffsets 4) (vertY kiteOffsets 4) = 3 * π / 4
      ∧ π / 2 < orientationOf 4 (vertX kiteOffsets 4) (vertY kiteOffsets 4)
      ∧ (∀ (nDim : ℕ) (X Y : ℕ → ℝ),
          0 ≤ orientationOf nDim X Y ∧ orientationOf nDim X Y < π)
      ∧ (∀ (s : ℝ) (o : ℕ → ℝ) (n : ℕ),
          ¬ preWidth s n (vertX o n) (vertY o n) / preLength s n (vertX o n) (vertY o n) > 1 →
          (get_particle_parameters s o n).majorAxisDeg
            = 180.0 - orientationOf n (vertX o n) (vertY o n) * 180.0 / π) := by
  refine ⟨kite_orientation, ?_, orientationOf_range, ?_⟩
  · rw [kite_orientation]
    linarith [Real.pi_pos]
  · intro s o n h
    rw [gpp_majorAxisDeg, if_neg h]

/-! ## The projection of a vertex on an axis -/

section Orthogonal

/-- The projection computed on an axis that is horizontal, vertical, or steeper and flatter
than the two thresholds of `calc_projection_length` lies on the line through the endpoints,
and its difference from the vertex is perpendicular to the line. -/
theorem projectPoint_orthogonal (x1 y1 x2 y2 : ℝ)
    (hax : y2 - y1 = 0 ∨ (0.5 < |y2 - y1| ∧ (x2 - x1 = 0 ∨ 0.5 < |x2 - x1|)))
    (px py : ℝ) :
    ((projectPoint x1 y1 x2 y2 px py).1 - x1) * (y2 - y1)
        = ((projectPoint x1 y1 x2 y2 px py).2 - y1) * (x2 - x1)
      ∧ ((projectPoint x1 y1 x2 y2 px py).1 - px) * (x2 - x1)
          + ((projectPoint x1 y1 x2 y2 px py).2 - py) * (y2 - y1) = 0 := by
  rcases hax with ha | ⟨ha, hb⟩
  · have hle : |y2 - y1| ≤ 0.5 := by
      rw [ha, abs_zero]
      norm_num
    rw [projectPoint_flat hle, ha]
    simp
  · have hna : ¬ |y2 - y1| ≤ 0.5 := not_le.mpr ha
    rcases hb with hb | hb
    · have hle : |x2 - x1| ≤ 0.5 := by
        rw [hb, abs_zero]
        norm_num
      rw [projectPoint_steep hna hle, hb]
      simp
    · have hnb : ¬ |x2 - x1| ≤ 0.5 := not_le.mpr hb
      have hb0 : x2 - x1 ≠ 0 := by
        intro h
        rw [h, abs_zero] at hb
        norm_num at hb
      have ha0 : y2 - y1 ≠ 0 := by
        intro h
        rw [h, abs_zero] at ha
        norm_num at ha
      have hs : (y2 - y1) ^ 2 + (x2 - x1) ^ 2 ≠ 0 := by positivity
      obtain ⟨e1, e2⟩ := projectPoint_oblique hna hnb px py
      constructor
      · rw [e2]
        field_simp
        ring
      · rw [e2, e1]
        field_simp
        ring

/-- Of two pairs of points on a line that is not vertical, the pair that is further apart
in x is further apart. -/
theorem dist_on_line (a b : ℝ) (hb : b ≠ 0) (dx dy ex ey : ℝ) (h1 : dx * a = dy * b)
    (h2 : ex * a = ey * b) (h3 : dx ^ 2 ≤ ex ^ 2) : dx ^ 2 + dy ^ 2 ≤ ex ^ 2 + ey ^ 2 := by
  have hb2 : 0 < b ^ 2 := by positivity
  have e1 : (dx ^ 2 + dy ^ 2) * b ^ 2 = dx ^ 2 * (a ^ 2 + b ^ 2) := by
    have : (dy * b) ^ 2 = (dx * a) ^ 2 := by rw [h1]
    nlinarith
  have e2 : (ex ^ 2 + ey ^ 2) * b ^ 2 = ex ^ 2 * (a ^ 2 + b ^ 2) := by
    have : (ey * b) ^ 2 = (ex * a) ^ 2 := by rw [h2]
    nlinarith
  have hle : (dx ^ 2 + dy ^ 2) * b ^ 2 ≤ (ex ^ 2 + ey ^ 2) * b ^ 2 := by
    rw [e1, e2]
    exact mul_le_mul_of_nonneg_right h3 (by positivity)
  exact le_of_mul_le_mul_right hle hb2

theorem sq_le_of_between {p q m M : ℝ} (hp1 : m ≤ p) (hp2 : p ≤ M) (hq1 : m ≤ q)
    (hq2 : q ≤ M) : (p - q) ^ 2 ≤ (M - m) ^ 2 :=
  sq_le_sq' (by linarith) (by linarith)

end Orthogonal

/-- C30 as stated fails on the code: on the axis from `(0, 0)` to `(1, 0.5)` the point
computed for the vertex `(1, 1)` is `(1, 0)`, which is not on the line through the
endpoints. -/
theorem projection_not_orthogonal :
    ¬ ∀ x1 y1 x2 y2 px py : ℝ,
        ((projectPoint x1 y1 x2 y2 px py).1 - x1) * (y2 - y1)
            = ((projectPoint x1 y1 x2 y2 px py).2 - y1) * (x2 - x1)
          ∧ ((projectPoint x1 y1 x2 y2 px py).1 - px) * (x2 - x1)
              + ((projectPoint x1 y1 x2 y2 px py).2 - py) * (y2 - y1) = 0 := by
  intro h
  have h1 := (h 0 0 1 0.5 1 1).1
  have hle : |(0.5 : ℝ) - 0| ≤ 0.5 := by
    rw [sub_zero, abs_of_nonneg (by norm_num)]
  rw [projectPoint_flat hle] at h1
  norm_num at h1

/-- C30, amended. For every axis that is horizontal (`y1 = y2`), or has
`|y2 - y1| > 0.5` and is vertical (`x1 = x2`) or has `|x2 - x1| > 0.5`, and every polygon
vertex, the point that `calc_projection_length` computes for the vertex is the orthogonal
projection of the vertex on the line through the two endpoints: it lies on that line and
its difference from the vertex is perpendicular to the line. With at least one vertex the
returned value is `imgScale` times the Euclidean distance between the projections of two
vertices, and when the endpoints differ no two projections are further apart than
these. -/
theorem projection_orthogonal (x1 y1 x2 y2 : ℝ)
    (hax : y2 - y1 = 0 ∨ (0.5 < |y2 - y1| ∧ (x2 - x1 = 0 ∨ 0.5 < |x2 - x1|))) :
    (∀ px py : ℝ,
        ((projectPoint x1 y1 x2 y2 px py).1 - x1) * (y2 - y1)
            = ((projectPoint x1 y1 x2 y2 px py).2 - y1) * (x2 - x1)
          ∧ ((projectPoint x1 y1 x2 y2 px py).1 - px) * (x2 - x1)
              + ((projectPoint x1 y1 x2 y2 px py).2 - py) * (y2 - y1) = 0)
      ∧ ∀ (nDim : ℕ) (dimsCoordMidX dimsCoordMidY : ℕ → ℝ) (imgScale : ℝ), 1 ≤ nDim →
          ∃ i < nDim, ∃ j < nDim,
            calc_projection_length x1 y1 x2 y2 nDim dimsCoordMidX dimsCoordMidY imgScale
                = imgScale
                  * √(((projectPoint x1 y1 x2 y2 (dimsCoordMidX i) (dimsCoordMidY i)).1
                        - (projectPoint x1 y1 x2 y2 (dimsCoordMidX j) (dimsCoordMidY j)).1) ^ 2
                      + ((projectPoint x1 y1 x2 y2 (dimsCoordMidX i) (dimsCoordMidY i)).2
                        - (projectPoint x1 y1 x2 y2 (dimsCoordMidX j) (dimsCoordMidY j)).2) ^ 2)
              ∧ (x2 - x1 ≠ 0 ∨ y2 - y1 ≠ 0 → ∀ k < nDim, ∀ l < nDim,
                  √(((projectPoint x1 y1 x2 y2 (dimsCoordMidX k) (dimsCoordMidY k)).1
                        - (projectPoint x1 y1 x2 y2 (dimsCoordMidX l) (dimsCoordMidY l)).1) ^ 2
                      + ((projectPoint x1 y1 x2 y2 (dimsCoordMidX k) (dimsCoordMidY k)).2
                        - (projectPoint x1 y1 x2 y2 (dimsCoordMidX l) (dimsCoordMidY l)).2) ^ 2)
                  ≤ √(((projectPoint x1 y1 x2 y2 (dimsCoordMidX i) (dimsCoordMidY i)).1
                        - (projectPoint x1 y1 x2 y2 (dimsCoordMidX j) (dimsCoordMidY j)).1) ^ 2
                      + ((projectPoint x1 y1 x2 y2 (dimsCoordMidX i) (dimsCoordMidY i)).2
                        - (projectPoint x1 y1 x2 y2 (dimsCoordMidX j) (dimsCoordMidY j)).2) ^ 2)) := by
  refine ⟨fun px py => projectPoint_orthogonal x1 y1 x2 y2 hax px py, ?_⟩
  intro nDim X Y s hn
  obtain ⟨i, hi, j, hj, hval, hx, hy⟩ := calc_projection_length_spec x1 y1 x2 y2 nDim hn X Y s
  refine ⟨i, hi, j, hj, ?_, ?_⟩
  · rw [hval, mul_comm]
  · intro hne k hk l hl
    apply Real.sqrt_le_sqrt
    have hon : ∀ m : ℕ,
        ((projectPoint x1 y1 x2 y2 (X m) (Y m)).1 - x1) * (y2 - y1)
          = ((projectPoint x1 y1 x2 y2 (X m) (Y m)).2 - y1) * (x2 - x1) :=
      fun m => (projectPoint_orthogonal x1 y1 x2 y2 hax (X m) (Y m)).1
    have diff : ∀ m n : ℕ,
        ((projectPoint x1 y1 x2 y2 (X m) (Y m)).1 - (projectPoint x1 y1 x2 y2 (X n) (Y n)).1)
            * (y2 - y1)
          = ((projectPoint x1 y1 x2 y2 (X m) (Y m)).2
              - (projectPoint x1 y1 x2 y2 (X n) (Y n)).2) * (x2 - x1) := by
      intro m n
      linear_combination hon m - hon n
    by_cases hb : |x2 - x1| > |y2 - y1|
    · obtain ⟨hmax, hmin⟩ := hx hb
      have hb0 : x2 - x1 ≠ 0 := by
        intro h
        rw [h, abs_zero] at hb
        exact absurd hb (not_lt.mpr (abs_nonneg _))
      exact dist_on_line (y2 - y1) (x2 - x1) hb0 _ _ _ _ (diff k l) (diff i j)
        (sq_le_of_between (hmin k hk) (hmax k hk) (hmin l hl) (hmax l hl))
    · obtain ⟨hmax, hmin⟩ := hy hb
      have ha0 : y2 - y1 ≠ 0 := by
        intro h
        rw [h, abs_zero] at hb
        have hb2 : |x2 - x1| ≤ 0 := not_lt.mp hb
        have : x2 - x1 = 0 := abs_nonpos_iff.mp hb2
        rcases hne with h1 | h1
        · exact h1 this
        · exact h1 h
      have := dist_on_line (x2 - x1) (y2 - y1) ha0 _ _ _ _ (diff k l).symm (diff i j).symm
        (sq_le_of_between (hmin k hk) (hmax k hk) (hmin l hl) (hmax l hl))
      linarith

theorem projection_orthogonal_witness :
    ((0 : ℝ) - 0 = 0 ∨ (0.5 < |(0 : ℝ) - 0| ∧ ((1 : ℝ) - 0 = 0 ∨ 0.5 < |(1 : ℝ) - 0|)))
      ∧ ∀ px py : ℝ,
          ((projectPoint 0 0 1 0 px py).1 - 0) * ((0 : ℝ) - 0)
              = ((projectPoint 0 0 1 0 px py).2 - 0) * ((1 : ℝ) - 0)
            ∧ ((projectPoint 0 0 1 0 px py).1 - px) * ((1 : ℝ) - 0)
                + ((projectPoint 0 0 1 0 px py).2 - py) * ((0 : ℝ) - 0) = 0 :=
  ⟨Or.inl (sub_zero 0), (projection_orthogonal 0 0 1 0 (Or.inl (sub_zero 0))).1⟩

/-! ## The axis test -/

section AxisTest

open Real

variable (s : ℝ) (o : ℕ → ℝ) (n : ℕ)

theorem gpp_majorAxisDeg_pre :
    (get_particle_parameters s o n).majorAxisDeg
      = if preWidth s n (vertX o n) (vertY o n) / preLength s n (vertX o n) (vertY o n) > 1
        then (if preMajorAxisDeg n (vertX o n) (vertY o n) > 90
          then preMajorAxisDeg n (vertX o n) (vertY o n) - 90
          else preMajorAxisDeg n (vertX o n) (vertY o n) + 90)
        else preMajorAxisDeg n (vertX o n) (vertY o n) := by
  rw [gpp_majorAxisDeg]
  unfold preMajorAxisDeg
  norm_num

end AxisTest

section Hexagon

open Real

end Hexagon

section HexagonAxes

open Real

end HexagonAxes

section AxisVectors

open Real

end AxisVectors

section ScaleInvariance

open Real

theorem sqrt_scale {s : ℝ} (hs : 0 < s) (c : ℝ) : √(s ^ 2 * c) = s * √c := by
  rw [Real.sqrt_mul (sq_nonneg s), Real.sqrt_sq hs.le]

/-- The half axis `CEDiameter / (2 * imgScale)` in pixels does not depend on a positive
scale. -/
theorem ceDiameter_scale {s : ℝ} (hs : 0 < s) (n : ℕ) (X Y : ℕ → ℝ) (a : ℝ) :
    a * ceDiameter s n X Y / (2 * s) = a * ceDiameter 1 n X Y / (2 * 1) := by
  unfold ceDiameter
  rw [show s ^ 2 * calc_area_pix n X Y * 4 / π = s ^ 2 * (calc_area_pix n X Y * 4 / π) by ring,
    sqrt_scale hs, show (1 : ℝ) ^ 2 * calc_area_pix n X Y * 4 / π
      = calc_area_pix n X Y * 4 / π by ring]
  field_simp
  ring

theorem calc_projection_length_scale (x1 y1 x2 y2 : ℝ) (n : ℕ) (X Y : ℕ → ℝ) (s : ℝ) :
    calc_projection_length x1 y1 x2 y2 n X Y s
      = calc_projection_length x1 y1 x2 y2 n X Y 1 * s := by
  unfold calc_projection_length
  cases projectionExtremes x1 y1 x2 y2 n X Y with
  | none => simp
  | some v => simp

theorem preLength_scale {s : ℝ} (hs : 0 < s) (n : ℕ) (X Y : ℕ → ℝ) :
    preLength s n X Y = preLength 1 n X Y * s := by
  unfold preLength
  simp only [ceDiameter_scale hs]
  exact calc_projection_length_scale _ _ _ _ n X Y s

theorem preWidth_scale {s : ℝ} (hs : 0 < s) (n : ℕ) (X Y : ℕ → ℝ) :
    preWidth s n X Y = preWidth 1 n X Y * s := by
  unfold preWidth
  simp only [ceDiameter_scale hs]
  exact calc_projection_length_scale _ _ _ _ n X Y s

theorem ratio_scale {s : ℝ} (hs : 0 < s) (n : ℕ) (X Y : ℕ → ℝ) :
    preWidth s n X Y / preLength s n X Y = preWidth 1 n X Y / preLength 1 n X Y
      ∧ preLength s n X Y / preWidth s n X Y = preLength 1 n X Y / preWidth 1 n X Y := by
  rw [preWidth_scale hs, preLength_scale hs]
  exact ⟨mul_div_mul_right _ _ hs.ne', mul_div_mul_right _ _ hs.ne'⟩

end ScaleInvariance

/-- C32. For `nDim ≥ 3`, offsets in `[0, 1]` and every `imgScale > 0`, the dimensionless
outputs of `get_particle_parameters` (circularity, HSCircularity, convexity, solidity,
aspectRatio, elongation, majorAxisDeg) are those computed at scale 1, and `calculate_cost`
at that scale is `calculate_cost` at scale 1, the value the optimizer works with. -/
theorem scale_invariance (imgScale : ℝ) (dimsValues : ℕ → ℝ) (nDim : ℕ) (hn : 3 ≤ nDim)
    (ho : ∀ i < nDim, 0 ≤ dimsValues i ∧ dimsValues i ≤ 1) (hs : 0 < imgScale) :
    (get_particle_parameters imgScale dimsValues nDim).circularity
        = (get_particle_parameters 1 dimsValues nDim).circularity
      ∧ (get_particle_parameters imgScale dimsValues nDim).HSCircularity
        = (get_particle_parameters 1 dimsValues nDim).HSCircularity
      ∧ (get_particle_parameters imgScale dimsValues nDim).convexity
        = (get_particle_parameters 1 dimsValues nDim).convexity
      ∧ (get_particle_parameters imgScale dimsValues nDim).solidity
        = (get_particle_parameters 1 dimsValues nDim).solidity
      ∧ (get_particle_parameters imgScale dimsValues nDim).aspectRatio
        = (get_particle_parameters 1 dimsValues nDim).aspectRatio
      ∧ (get_particle_parameters imgScale dimsValues nDim).elongation
        = (get_particle_parameters 1 dimsValues nDim).elongation
      ∧ (get_particle_parameters imgScale dimsValues nDim).majorAxisDeg
        = (get_particle_parameters 1 dimsValues nDim).majorAxisDeg
      ∧ ∀ init_circularity init_convexity init_elongation : ℝ,
          calculate_cost imgScale init_circularity init_convexity init_elongation nDim
              dimsValues
            = calculate_cost 1 init_circularity init_convexity init_elongation nDim
              dimsValues := by
  have hP := perimeter_pos hn ho
  obtain ⟨r1, r2⟩ := ratio_scale hs nDim (vertX dimsValues nDim) (vertY dimsValues nDim)
  have e1 : (get_particle_parameters imgScale dimsValues nDim).circularity
      = (get_particle_parameters 1 dimsValues nDim).circularity := by
    rw [gpp_circularity, gpp_circularity]
    unfold perimeterUm
    rw [show Real.pi * (imgScale ^ 2 * calc_area_pix nDim (vertX dimsValues nDim)
        (vertY dimsValues nDim)) = imgScale ^ 2 * (Real.pi * calc_area_pix nDim
        (vertX dimsValues nDim) (vertY dimsValues nDim)) by ring, sqrt_scale hs,
      show Real.pi * ((1 : ℝ) ^ 2 * calc_area_pix nDim (vertX dimsValues nDim)
        (vertY dimsValues nDim)) = Real.pi * calc_area_pix nDim
        (vertX dimsValues nDim) (vertY dimsValues nDim) by ring]
    field_simp
    ring
  have e3 : (get_particle_parameters imgScale dimsValues nDim).convexity
      = (get_particle_parameters 1 dimsValues nDim).convexity := by
    rw [gpp_convexity, gpp_convexity]
    unfold perimeterUm
    rw [mul_one, mul_one]
    exact mul_div_mul_right _ _ hs.ne'
  have e6 : (get_particle_parameters imgScale dimsValues nDim).elongation
      = (get_particle_parameters 1 dimsValues nDim).elongation := by
    rw [gpp_elongation, gpp_elongation, r1, r2]
  refine ⟨e1, ?_, e3, ?_, ?_, e6, ?_, ?_⟩
  · rw [gpp_HSCircularity, gpp_HSCircularity]
    unfold perimeterUm
    field_simp
    ring
  · rw [gpp_solidity, gpp_solidity]
  · rw [gpp_aspectRatio, gpp_aspectRatio, r1, r2]
  · rw [gpp_majorAxisDeg_pre, gpp_majorAxisDeg_pre, r1]
  · intro c1 c2 c3
    unfold calculate_cost
    simp only [e1, e3, e6]

theorem scale_invariance_witness :
    (3 ≤ 8 ∧ (∀ i < 8, 0 ≤ halfOffsets i ∧ halfOffsets i ≤ 1) ∧ (0 : ℝ) < 2)
      ∧ (get_particle_parameters 2 halfOffsets 8).elongation
        = (get_particle_parameters 1 halfOffsets 8).elongation :=
  ⟨⟨by norm_num, half_offsets_ok, by norm_num⟩,
    (scale_invariance 2 halfOffsets 8 (by norm_num) half_offsets_ok (by norm_num)).2.2.2.2.2.1⟩

/-! ## The projection lengths and the greatest vertex distance -/

section MaxDistance

open Real

end MaxDistance

section Distributions

end Distributions

section FirstMatch

/-- A search loop with `break`: the state after `n` passes holds the value of the first
index that passes the test and the flag, or the initial value and no flag when no index
below `n` passes. -/
theorem first_match {α : Type} (p : ℕ → Prop) [DecidablePred p] (val : ℕ → α) (d : α) (n : ℕ) :
    (((List.range n).foldl
          (fun (st : α × Bool) i => if st.2 then st else if p i then (val i, true) else st)
          (d, false)).2 = true →
        ∃ i < n, p i ∧ (∀ k < i, ¬ p k)
          ∧ ((List.range n).foldl
              (fun (st : α × Bool) i => if st.2 then st else if p i then (val i, true) else st)
              (d, false)).1 = val i)
      ∧ (((List.range n).foldl
          (fun (st : α × Bool) i => if st.2 then st else if p i then (val i, true) else st)
          (d, false)).2 = false →
        (∀ k < n, ¬ p k)
          ∧ ((List.range n).foldl
              (fun (st : α × Bool) i => if st.2 then st else if p i then (val i, true) else st)
              (d, false)).1 = d) := by
  induction n with
  | zero =>
    simp
  | succ m ih =>
    rw [List.range_succ, List.foldl_append, List.foldl_cons, List.foldl_nil]
    obtain ⟨ih1, ih2⟩ := ih
    cases hflag : ((List.range m).foldl
          (fun (st : α × Bool) i => if st.2 then st else if p i then (val i, true) else st)
          (d, false)).2 with
    | true =>
      obtain ⟨i, hi, hp, hfirst, hv⟩ := ih1 hflag
      simp only [hflag, if_true]
      exact ⟨fun _ => ⟨i, Nat.lt_succ_of_lt hi, hp, hfirst, hv⟩, fun h => absurd h (by decide)⟩
    | false =>
      obtain ⟨hnone, hv⟩ := ih2 hflag
      simp only [hflag, Bool.false_eq_true, if_false]
      by_cases hp : p m
      · simp only [hp, if_true]
        exact ⟨fun _ => ⟨m, Nat.lt_succ_self m, hp, hnone, rfl⟩,
          fun h => absurd h (by decide)⟩
      · simp only [hp, if_false]
        refine ⟨fun h => ?_, fun _ => ⟨?_, hv⟩⟩
        · rw [hflag] at h
          exact absurd h (by decide)
        · intro k hk
          rcases Nat.lt_succ_iff_lt_or_eq.mp hk with hk | hk
          · exact hnone k hk
          · rw [hk]; exact hp

/-- The result of a search loop with `break`, by cases on whether some index passes. -/
theorem first_match_value {α : Type} (p : ℕ → Prop) [DecidablePred p] (val : ℕ → α) (d : α)
    (n : ℕ) :
    ((∃ i < n, p i) →
        ∃ i < n, p i ∧ (∀ k < i, ¬ p k)
          ∧ ((List.range n).foldl
              (fun (st : α × Bool) i => if st.2 then st else if p i then (val i, true) else st)
              (d, false)).1 = val i)
      ∧ ((∀ i < n, ¬ p i) →
          ((List.range n).foldl
              (fun (st : α × Bool) i => if st.2 then st else if p i then (val i, true) else st)
              (d, false)).1 = d) := by
  obtain ⟨h1, h2⟩ := first_match p val d n
  cases hflag : ((List.range n).foldl
          (fun (st : α × Bool) i => if st.2 then st else if p i then (val i, true) else st)
          (d, false)).2 with
  | true =>
    obtain ⟨i, hi, hp, hfirst, hv⟩ := h1 hflag
    exact ⟨fun _ => ⟨i, hi, hp, hfirst, hv⟩, fun hnone => absurd hp (hnone i hi)⟩
  | false =>
    obtain ⟨hnone, hv⟩ := h2 hflag
    exact ⟨fun ⟨i, hi, hp⟩ => absurd hp (hnone i hi), fun _ => hv⟩

end FirstMatch

/-- C38. For every array `normDiff` with a positive entry among its 100 entries,
`calc_boundaries` returns as `leftBndChannel` the least index with `normDiff > 0` and as
`rightBndChannel` the greatest one, so `0 ≤ left ≤ right ≤ 99` and every entry outside
`[left, right]` is at most 0; when no entry is positive it returns `(0, 99)`. -/
theorem calc_boundaries_spec {K : Type} [LinearOrderedField K] (normDiff : ℕ → K) :
    ((∃ i < 100, normDiff i > 0) →
        (calc_boundaries normDiff).1 ≤ (calc_boundaries normDiff).2
          ∧ (calc_boundaries normDiff).2 ≤ 99
          ∧ normDiff (calc_boundaries normDiff).1 > 0
          ∧ normDiff (calc_boundaries normDiff).2 > 0
          ∧ (∀ i < 100, normDiff i > 0 →
              (calc_boundaries normDiff).1 ≤ i ∧ i ≤ (calc_boundaries normDiff).2)
          ∧ (∀ i < 100, i < (calc_boundaries normDiff).1 ∨ (calc_boundaries normDiff).2 < i →
              normDiff i ≤ 0))
      ∧ ((∀ i < 100, ¬ normDiff i > 0) → calc_boundaries normDiff = (0, 99)) := by
  have hl := first_match_value (fun i => normDiff i > 0) (fun i => i) 0 100
  have hr := first_match_value (fun i => normDiff (99 - i) > 0) (fun i => 99 - i) 99 100
  beta_reduce at hl hr
  obtain ⟨l1, l2⟩ := hl
  obtain ⟨r1, r2⟩ := hr
  unfold calc_boundaries
  simp only []
  constructor
  · rintro ⟨i0, hi0, hpos⟩
    obtain ⟨l, hl, hlp, hlfirst, hlv⟩ := l1 ⟨i0, hi0, hpos⟩
    obtain ⟨r, hr, hrp, hrfirst, hrv⟩ := r1 ⟨99 - i0, by omega, by
      rw [show 99 - (99 - i0) = i0 by omega]
      exact hpos⟩
    have hbetween : ∀ i < 100, normDiff i > 0 → l ≤ i ∧ i ≤ 99 - r := by
      intro i hi hp
      constructor
      · by_contra hlt
        exact hlfirst i (by omega) hp
      · by_contra hgt
        have hk : 99 - i < r := by omega
        apply hrfirst (99 - i) hk
        rw [show 99 - (99 - i) = i by omega]
        exact hp
    rw [hlv, hrv]
    refine ⟨?_, by omega, hlp, hrp, hbetween, ?_⟩
    · exact le_trans (hbetween l hl hlp).1 (hbetween l hl hlp).2
    · intro i hi hout
      by_contra hp
      have := hbetween i hi (not_le.mp hp)
      omega
  · intro hnone
    rw [l2 hnone, r2 (fun i _ => hnone (99 - i) (by omega))]

theorem calc_boundaries_spec_witness :
    (∃ i < 100, (fun i : ℕ => if i = 3 ∨ i = 7 then (1 : ℚ) else 0) i > 0)
      ∧ (calc_boundaries (fun i : ℕ => if i = 3 ∨ i = 7 then (1 : ℚ) else 0)).1
          ≤ (calc_boundaries (fun i : ℕ => if i = 3 ∨ i = 7 then (1 : ℚ) else 0)).2 :=
  ⟨⟨3, by norm_num, by norm_num⟩,
    ((calc_boundaries_spec (fun i : ℕ => if i = 3 ∨ i = 7 then (1 : ℚ) else 0)).1
      ⟨3, by norm_num, by norm_num⟩).1⟩

section CountArrays

end CountArrays

section ValueFromDistribution

theorem distribution_random_double_range (n : ℕ) :
    (0 : ℝ) ≤ DistributionTreatment.random_double n
      ∧ (DistributionTreatment.random_double n : ℝ) < 1 := by
  unfold DistributionTreatment.random_double
  have h : n % 32767 < 32767 := Nat.mod_lt _ (by norm_num)
  have hc : ((n % 32767 : ℕ) : ℝ) < 32767 := by exact_mod_cast h
  constructor
  · positivity
  · rw [div_lt_one (by norm_num)]
    exact hc

/-- The value `prob` of the channel search of `get_value_from_distribution`. -/
theorem channelProb_spec (normDiff chLower chUpper : ℕ → ℝ) (x : ℝ) :
    ((∃ i < 100, x ≥ chLower i ∧ x ≤ chUpper i) →
        ∃ i < 100, (x ≥ chLower i ∧ x ≤ chUpper i)
          ∧ (∀ k < i, ¬ (x ≥ chLower k ∧ x ≤ chUpper k))
          ∧ channelProb normDiff chLower chUpper x = normDiff i)
      ∧ ((∀ i < 100, ¬ (x ≥ chLower i ∧ x ≤ chUpper i)) →
          channelProb normDiff chLower chUpper x = 1) := by
  have h := first_match_value (fun i => x ≥ chLower i ∧ x ≤ chUpper i) (fun i => normDiff i)
    (1 : ℝ) 100
  beta_reduce at h
  unfold channelProb
  exact h

/-- One pass of the loop of `get_value_from_distribution` on the linear scale. -/
theorem get_value_step (rng : ℕ → ℕ) (normDiff chLower chUpper : ℕ → ℝ)
    (leftBndChannel rightBndChannel fuel calls : ℕ) :
    get_value_from_distribution rng normDiff chLower chUpper 0 leftBndChannel rightBndChannel
        (fuel + 1) calls
      = if (DistributionTreatment.random_double (rng (calls + 1)) : ℝ)
            < channelProb normDiff chLower chUpper
                (chLower leftBndChannel + (chUpper rightBndChannel - chLower leftBndChannel)
                  * DistributionTreatment.random_double (rng calls))
        then some (chLower leftBndChannel + (chUpper rightBndChannel - chLower leftBndChannel)
                  * DistributionTreatment.random_double (rng calls))
        else get_value_from_distribution rng normDiff chLower chUpper 0 leftBndChannel
          rightBndChannel fuel (calls + 2) := by
  rw [get_value_from_distribution]
  simp only [ne_eq, not_true_eq_false, if_false]

end ValueFromDistribution

/-- C39. On the linear scale (`logScale = 0`) with
`L = chLower[leftBndChannel] ≤ R = chUpper[rightBndChannel]`, every value `x` that
`get_value_from_distribution` returns, on any stream of `rand ()` values and from any
point of it, satisfies `L ≤ x ≤ R`, and if a channel holds `x` then the first such channel
has `normDiff > 0`. In a pass of the loop, a value whose first channel has `normDiff ≤ 0`
is rejected and a value that no channel holds is returned. -/
theorem value_from_distribution (rng : ℕ → ℕ) (normDiff chLower chUpper : ℕ → ℝ)
    (leftBndChannel rightBndChannel : ℕ)
    (hLR : chLower leftBndChannel ≤ chUpper rightBndChannel) :
    (∀ (fuel calls : ℕ) (x : ℝ),
        get_value_from_distribution rng normDiff chLower chUpper 0 leftBndChannel
            rightBndChannel fuel calls = some x →
        chLower leftBndChannel ≤ x ∧ x ≤ chUpper rightBndChannel
          ∧ ∀ i < 100, (chLower i ≤ x ∧ x ≤ chUpper i) →
              (∀ k < i, ¬ (chLower k ≤ x ∧ x ≤ chUpper k)) → normDiff i > 0)
      ∧ (∀ (fuel calls : ℕ) (i : ℕ), i < 100 →
          (chLower i ≤ chLower leftBndChannel
                + (chUpper rightBndChannel - chLower leftBndChannel)
                  * DistributionTreatment.random_double (rng calls)
            ∧ chLower leftBndChannel + (chUpper rightBndChannel - chLower leftBndChannel)
                  * DistributionTreatment.random_double (rng calls) ≤ chUpper i) →
          (∀ k < i, ¬ (chLower k ≤ chLower leftBndChannel
                + (chUpper rightBndChannel - chLower leftBndChannel)
                  * DistributionTreatment.random_double (rng calls)
            ∧ chLower leftBndChannel + (chUpper rightBndChannel - chLower leftBndChannel)
                  * DistributionTreatment.random_double (rng calls) ≤ chUpper k)) →
          normDiff i ≤ 0 →
          get_value_from_distribution rng normDiff chLower chUpper 0 leftBndChannel
              rightBndChannel (fuel + 1) calls
            = get_value_from_distribution rng normDiff chLower chUpper 0 leftBndChannel
              rightBndChannel fuel (calls + 2))
      ∧ (∀ (fuel calls : ℕ),
          (∀ i < 100, ¬ (chLower i ≤ chLower leftBndChannel
                + (chUpper rightBndChannel - chLower leftBndChannel)
                  * DistributionTreatment.random_double (rng calls)
            ∧ chLower leftBndChannel + (chUpper rightBndChannel - chLower leftBndChannel)
                  * DistributionTreatment.random_double (rng calls) ≤ chUpper i)) →
          get_value_from_distribution rng normDiff chLower chUpper 0 leftBndChannel
              rightBndChannel (fuel + 1) calls
            = some (chLower leftBndChannel
                + (chUpper rightBndChannel - chLower leftBndChannel)
                  * DistributionTreatment.random_double (rng calls))) := by
  have hfirst : ∀ (x : ℝ) (i : ℕ), i < 100 → (chLower i ≤ x ∧ x ≤ chUpper i) →
      (∀ k < i, ¬ (chLower k ≤ x ∧ x ≤ chUpper k)) →
      channelProb normDiff chLower chUpper x = normDiff i := by
    intro x i hi hin hbefore
    obtain ⟨i2, hi2, hin2, hbefore2, hval⟩ :=
      (channelProb_spec normDiff chLower chUpper x).1 ⟨i, hi, hin⟩
    have e : i2 = i := by
      rcases Nat.lt_trichotomy i2 i with h | h | h
      · exact absurd hin2 (hbefore i2 h)
      · exact h
      · exact absurd hin (hbefore2 i h)
    rw [hval, e]
  refine ⟨?_, ?_, ?_⟩
  · intro fuel
    induction fuel with
    | zero =>
      intro calls x h
      rw [get_value_from_distribution] at h
      exact absurd h (by simp)
    | succ f ih =>
      intro calls x h
      rw [get_value_step] at h
      obtain ⟨r0, r1⟩ := distribution_random_double_range (rng calls)
      obtain ⟨q0, q1⟩ := distribution_random_double_range (rng (calls + 1))
      by_cases hacc : (DistributionTreatment.random_double (rng (calls + 1)) : ℝ)
            < channelProb normDiff chLower chUpper
                (chLower leftBndChannel + (chUpper rightBndChannel - chLower leftBndChannel)
                  * DistributionTreatment.random_double (rng calls))
      · rw [if_pos hacc] at h
        have hx := Option.some.inj h
        rw [← hx]
        refine ⟨?_, ?_, ?_⟩
        · nlinarith
        · nlinarith
        · intro i hi hin hbefore
          rw [hfirst _ i hi hin hbefore] at hacc
          linarith
      · rw [if_neg hacc] at h
        exact ih (calls + 2) x h
  · intro fuel calls i hi hin hbefore hzero
    obtain ⟨q0, q1⟩ := distribution_random_double_range (rng (calls + 1))
    rw [get_value_step, hfirst _ i hi hin hbefore, if_neg (by linarith)]
  · intro fuel calls hnone
    obtain ⟨q0, q1⟩ := distribution_random_double_range (rng (calls + 1))
    rw [get_value_step, (channelProb_spec normDiff chLower chUpper _).2 hnone, if_pos q1]

theorem value_from_distribution_witness :
    ((fun _ : ℕ => (0 : ℝ)) 0 ≤ (fun _ : ℕ => (1 : ℝ)) 0)
      ∧ get_value_from_distribution (fun _ => 0) (fun _ => 1) (fun _ => 0) (fun _ => 1) 0 0 0
          1 0 = some 0
      ∧ ∀ (fuel calls : ℕ) (x : ℝ),
          get_value_from_distribution (fun _ => 0) (fun _ => 1) (fun _ => 0) (fun _ => 1) 0 0 0
              fuel calls = some x →
          (0 : ℝ) ≤ x ∧ x ≤ 1 := by
  have hw := value_from_distribution (fun _ => 0) (fun _ => 1) (fun _ => 0) (fun _ => 1) 0 0
    (by norm_num)
  refine ⟨by norm_num, ?_, fun fuel calls x h => ⟨(hw.1 fuel calls x h).1, (hw.1 fuel calls x h).2.1⟩⟩
  have hp : channelProb (fun _ => (1 : ℝ)) (fun _ => 0) (fun _ => 1) 0 = 1 := by
    obtain ⟨i, _, _, _, hv⟩ :=
      (channelProb_spec (fun _ => (1 : ℝ)) (fun _ => 0) (fun _ => 1) 0).1
        ⟨0, by norm_num, by norm_num, by norm_num⟩
    exact hv
  rw [get_value_step]
  simp only [DistributionTreatment.random_double, Nat.zero_mod, Nat.cast_zero, zero_div,
    mul_zero, add_zero, hp]
  norm_num

/-! ## The search below the wrap of the iteration counter -/

section BelowWrap

theorem afterCandidates_evaluated (cfg : PSOConfig) (s : PSOState) :
    (afterCandidates cfg s).evaluated = s.evaluated := by
  unfold afterCandidates
  simp only []
  split_ifs <;> rfl

/-- The evaluation of a candidate does not raise the global best cost. -/
theorem candidatePass_globalBest_le (cfg : PSOConfig) (rng : ℕ → ℕ) (s : PSOState) (i : ℕ)
    (t : PSOState) (h : candidatePass cfg rng s i = Except.ok t) :
    t.globalBestCost ≤ s.globalBestCost := by
  obtain ⟨s3, rfl, hf⟩ := candidatePass_eq cfg rng s i t h
  rw [updateCosts_globalBestCost, hf.2.2.2.1]
  split_ifs with hlt
  · exact hlt.le
  · exact le_refl _

/-- A pass over the population does not raise the global best cost. -/
theorem pass_globalBest_le (cfg : PSOConfig) (rng : ℕ → ℕ) (l : List ℕ) (s t : PSOState)
    (h : l.foldlM (candidatePass cfg rng) s = Except.ok t) :
    t.globalBestCost ≤ s.globalBestCost :=
  foldlM_except_inv (fun u => u.globalBestCost ≤ s.globalBestCost) (candidatePass cfg rng)
    (fun u b v hv hu => le_trans (candidatePass_globalBest_le cfg rng u b v hv) hu) l s t h
    (le_refl _)

/-- The loop returns with a counter at least the one it started with, while the counter
does not wrap. -/
theorem searchLoop_counter (cfg : PSOConfig) (rng : ℕ → ℕ) :
    ∀ (fuel : ℕ) (s res : PSOState), s.iteration + fuel ≤ 2 ^ 32 →
      searchLoop cfg rng fuel s = Except.ok res →
      s.iteration ≤ res.iteration ∧ res.iteration + 1 ≤ s.iteration + fuel := by
  intro fuel
  induction fuel with
  | zero =>
    intro s res _ h
    rw [searchLoop] at h
    cases h
  | succ f ih =>
    intro s res hfuel h
    cases hp : (List.range cfg.nPop).foldlM (candidatePass cfg rng) s with
    | error e =>
      rw [searchLoop, hp] at h
      cases h
    | ok s1 =>
      rw [searchLoop_succ cfg rng f s s1 hp] at h
      have hit2 : (afterCandidates cfg s1).iteration = s.iteration := by
        rw [afterCandidates_iteration, (pass_frame cfg rng _ s s1 hp).1]
      by_cases hstop : stopSearch cfg (afterCandidates cfg s1)
      · rw [if_pos hstop] at h
        cases h
        rw [hit2]
        exact ⟨le_refl _, by omega⟩
      · rw [if_neg hstop] at h
        rcases Nat.eq_zero_or_pos f with hf0 | hfpos
        · rw [hf0, searchLoop] at h
          cases h
        · have hnext : (s.iteration + 1) % 2 ^ 32 = s.iteration + 1 :=
            Nat.mod_eq_of_lt (by omega)
          obtain ⟨r1, r2⟩ := ih
            { afterCandidates cfg s1 with
              iteration := ((afterCandidates cfg s1).iteration + 1) % 2 ^ 32 } res
            (by show ((afterCandidates cfg s1).iteration + 1) % 2 ^ 32 + f ≤ 2 ^ 32
                rw [hit2, hnext]; omega) h
          have e : ((afterCandidates cfg s1).iteration + 1) % 2 ^ 32 = s.iteration + 1 := by
            rw [hit2, hnext]
          have r1' : s.iteration + 1 ≤ res.iteration := by rw [← e]; exact r1
          have r2' : res.iteration + 1 ≤ s.iteration + 1 + f := by rw [← e]; exact r2
          exact ⟨by omega, by omega⟩

/-- The evaluations of a run that returns: those of INIT and of at least one pass. -/
theorem searchLoop_evaluated (cfg : PSOConfig) (rng : ℕ → ℕ) :
    ∀ (fuel : ℕ) (s res : PSOState), searchLoop cfg rng fuel s = Except.ok res →
      s.evaluated.length + cfg.nPop ≤ res.evaluated.length := by
  intro fuel
  induction fuel with
  | zero =>
    intro s res h
    rw [searchLoop] at h
    cases h
  | succ f ih =>
    intro s res h
    cases hp : (List.range cfg.nPop).foldlM (candidatePass cfg rng) s with
    | error e =>
      rw [searchLoop, hp] at h
      cases h
    | ok s1 =>
      rw [searchLoop_succ cfg rng f s s1 hp] at h
      have hlen : (afterCandidates cfg s1).evaluated.length
          = s.evaluated.length + cfg.nPop := by
        rw [afterCandidates_evaluated, (pass_frame cfg rng _ s s1 hp).2.2, List.length_range]
      by_cases hstop : stopSearch cfg (afterCandidates cfg s1)
      · rw [if_pos hstop] at h
        cases h
        rw [hlen]
      · rw [if_neg hstop] at h
        have := ih { afterCandidates cfg s1 with
              iteration := ((afterCandidates cfg s1).iteration + 1) % 2 ^ 32 } res h
        have e : ({ afterCandidates cfg s1 with
              iteration := ((afterCandidates cfg s1).iteration + 1) % 2 ^ 32 } :
              PSOState).evaluated = (afterCandidates cfg s1).evaluated := rfl
        rw [e, hlen] at this
        omega

end BelowWrap

section FirstPass

/-- The memory after the loop over the candidates in the first pass of the search loop. -/
theorem first_pass (cfg : PSOConfig) (rng : ℕ → ℕ) (mem : PSOState) (ha : cfg.a ≠ 0)
    (hb : toUnsigned cfg.b ≠ 0) :
    ∃ s1, (List.range cfg.nPop).foldlM (candidatePass cfg rng) (psoInit cfg rng mem)
        = Except.ok s1
      ∧ (afterCandidates cfg s1).iteration = 1
      ∧ (afterCandidates cfg s1).evaluated.length = 2 * cfg.nPop
      ∧ (afterCandidates cfg s1).globalBestCost ≤ (psoInit cfg rng mem).globalBestCost := by
  obtain ⟨s1, hp⟩ := pass_total cfg rng ha hb (List.range cfg.nPop) (psoInit cfg rng mem)
  obtain ⟨h1, _, h3⟩ := pass_frame cfg rng _ _ s1 hp
  obtain ⟨c1, c2⟩ := psoInit_counts cfg rng mem
  refine ⟨s1, hp, ?_, ?_, ?_⟩
  · rw [afterCandidates_iteration, h1, c1]
  · rw [afterCandidates_evaluated, h3, c2, List.length_range]
    omega
  · rw [(afterCandidates_bests cfg s1).1]
    exact pass_globalBest_le cfg rng _ _ s1 hp

end FirstPass

/-- C36, amended. With periods `a` and `b` that are not zero, `PSOAlg_run_search` completes
the loop over the candidates of a first pass after INIT, and the limits are tested on the
memory after that pass only: a run returns that memory or goes on from it. Every run that
returns has evaluated the population at INIT and in at least one pass, and returns
`iteration ≥ 1` if it returns within `2 ^ 32 - 1` passes (the unsigned counter wraps to 0
after that). With the precision limit enabled and the best cost of INIT already at most
`precisionLimit` the run returns after exactly one pass with `iteration = 1`, and so it
does with the iteration limit enabled and `iterLimit = 0`. -/
theorem one_full_iteration (cfg : PSOConfig) (rng : ℕ → ℕ) (mem : PSOState)
    (ha : cfg.a ≠ 0) (hb : toUnsigned cfg.b ≠ 0) :
    ∃ s1, (List.range cfg.nPop).foldlM (candidatePass cfg rng) (psoInit cfg rng mem)
        = Except.ok s1
      ∧ (∀ fuel, PSOAlg_run_search cfg rng mem (fuel + 1)
          = if stopSearch cfg (afterCandidates cfg s1) then Except.ok (afterCandidates cfg s1)
            else searchLoop cfg rng fuel
              { afterCandidates cfg s1 with
                iteration := ((afterCandidates cfg s1).iteration + 1) % 2 ^ 32 })
      ∧ (∀ fuel res, PSOAlg_run_search cfg rng mem fuel = Except.ok res →
          2 * cfg.nPop ≤ res.evaluated.length)
      ∧ (∀ fuel res, fuel < 2 ^ 32 → PSOAlg_run_search cfg rng mem fuel = Except.ok res →
          1 ≤ res.iteration)
      ∧ (cfg.usePrecisionLimit ≠ 0 →
          (psoInit cfg rng mem).globalBestCost ≤ (cfg.precisionLimit : WithTop ℝ) →
          ∀ fuel, PSOAlg_run_search cfg rng mem (fuel + 1)
              = Except.ok (afterCandidates cfg s1)
            ∧ (afterCandidates cfg s1).iteration = 1
            ∧ (afterCandidates cfg s1).evaluated.length = 2 * cfg.nPop)
      ∧ (cfg.useIterLimit ≠ 0 → cfg.iterLimit = 0 →
          ∀ fuel, PSOAlg_run_search cfg rng mem (fuel + 1)
              = Except.ok (afterCandidates cfg s1)
            ∧ (afterCandidates cfg s1).iteration = 1
            ∧ (afterCandidates cfg s1).evaluated.length = 2 * cfg.nPop) := by
  obtain ⟨s1, hp, hit, hlen, hg⟩ := first_pass cfg rng mem ha hb
  have hrun : ∀ fuel, PSOAlg_run_search cfg rng mem (fuel + 1)
      = if stopSearch cfg (afterCandidates cfg s1) then Except.ok (afterCandidates cfg s1)
        else searchLoop cfg rng fuel
          { afterCandidates cfg s1 with
            iteration := ((afterCandidates cfg s1).iteration + 1) % 2 ^ 32 } := by
    intro fuel
    unfold PSOAlg_run_search
    exact searchLoop_succ cfg rng fuel _ s1 hp
  refine ⟨s1, hp, hrun, ?_, ?_, ?_, ?_⟩
  · intro fuel res h
    have := searchLoop_evaluated cfg rng fuel _ res h
    rw [(psoInit_counts cfg rng mem).2] at this
    omega
  · intro fuel res hfuel h
    have := (searchLoop_counter cfg rng fuel _ res
      (by rw [(psoInit_counts cfg rng mem).1]; omega) h).1
    rw [(psoInit_counts cfg rng mem).1] at this
    exact this
  · intro huse hle fuel
    have hstop : stopSearch cfg (afterCandidates cfg s1) :=
      Or.inr ⟨huse, le_trans hg hle⟩
    rw [hrun fuel, if_pos hstop]
    exact ⟨rfl, hit, hlen⟩
  · intro huse hlim fuel
    have hstop : stopSearch cfg (afterCandidates cfg s1) := by
      left
      refine ⟨huse, ?_⟩
      rw [hlim]
      exact Nat.zero_le _
    rw [hrun fuel, if_pos hstop]
    exact ⟨rfl, hit, hlen⟩

theorem one_full_iteration_witness :
    (zeroLimitCfg.a ≠ 0 ∧ toUnsigned zeroLimitCfg.b ≠ 0)
      ∧ ∃ res, PSOAlg_run_search zeroLimitCfg (fun _ => 0) witnessMem 1 = Except.ok res
          ∧ res.iteration = 1 := by
  have ha : zeroLimitCfg.a ≠ 0 := by decide
  have hb : toUnsigned zeroLimitCfg.b ≠ 0 := by
    unfold toUnsigned; simp [zeroLimitCfg, witnessCfg]
  obtain ⟨s1, _, _, _, _, _, h6⟩ := one_full_iteration zeroLimitCfg (fun _ => 0) witnessMem ha hb
  exact ⟨⟨ha, hb⟩, afterCandidates zeroLimitCfg s1,
    (h6 (by decide) rfl 0).1, (h6 (by decide) rfl 0).2.1⟩

section Still

/-- With `c1 = c2 = 0`, a zero velocity and a position in `[0, 1]`, the update of a
component changes neither, makes two draws and no redraw. -/
theorem moveStep_still (cfg : PSOConfig) (rng : ℕ → ℕ) (i j : ℕ) (s : PSOState)
    (hc1 : cfg.c1 = 0) (hc2 : cfg.c2 = 0) (hv : s.PSOPart_velocity i j = 0)
    (hp : 0 ≤ s.PSOPart_position i j ∧ s.PSOPart_position i j ≤ 1) :
    moveStep cfg rng i j s = moved cfg rng i j s
      ∧ (moved cfg rng i j s).PSOPart_velocity i j = 0
      ∧ (moved cfg rng i j s).PSOPart_position i j = s.PSOPart_position i j := by
  have hvel : (moved cfg rng i j s).PSOPart_velocity i j = 0 := by
    rw [moved_velocity, hv, hc1, hc2]
    ring
  have hpos : (moved cfg rng i j s).PSOPart_position i j = s.PSOPart_position i j := by
    rw [moved_position, hvel, add_zero]
  refine ⟨?_, hvel, hpos⟩
  rw [moveStep_eq]
  have h1 : ¬ (moved cfg rng i j s).PSOPart_position i j > 1.0 := by
    rw [hpos]
    norm_num
    exact hp.2
  rw [if_neg h1]
  have h0 : ¬ (moved cfg rng i j s).PSOPart_position i j < 0.0 := by
    rw [hpos]
    norm_num
    exact hp.1
  rw [if_neg h0]

/-- The loop over the components under the conditions of `moveStep_still`: two draws per
component, positions and velocities as they were. -/
theorem moveFold_still (cfg : PSOConfig) (rng : ℕ → ℕ) (i : ℕ) (s : PSOState)
    (hc1 : cfg.c1 = 0) (hc2 : cfg.c2 = 0) (n : ℕ)
    (hv : ∀ j < n, s.PSOPart_velocity i j = 0)
    (hp : ∀ j < n, 0 ≤ s.PSOPart_position i j ∧ s.PSOPart_position i j ≤ 1) :
    ((List.range n).foldl (fun s k => moveStep cfg rng i k s) s).randCalls
        = s.randCalls + 2 * n
      ∧ (∀ i2 j2, ((List.range n).foldl (fun s k => moveStep cfg rng i k s) s).PSOPart_position
          i2 j2 = s.PSOPart_position i2 j2)
      ∧ (∀ i2 j2, ((List.range n).foldl (fun s k => moveStep cfg rng i k s) s).PSOPart_velocity
          i2 j2 = s.PSOPart_velocity i2 j2) := by
  induction n with
  | zero => exact ⟨rfl, fun _ _ => rfl, fun _ _ => rfl⟩
  | succ m ih =>
    obtain ⟨r, p, v⟩ := ih (fun j hj => hv j (Nat.lt_succ_of_lt hj))
      (fun j hj => hp j (Nat.lt_succ_of_lt hj))
    rw [List.range_succ, List.foldl_append, List.foldl_cons, List.foldl_nil]
    obtain ⟨e, ev, ep⟩ := moveStep_still cfg rng i m
      ((List.range m).foldl (fun s k => moveStep cfg rng i k s) s) hc1 hc2
      (by rw [v]; exact hv m (Nat.lt_succ_self m))
      (by rw [p]; exact hp m (Nat.lt_succ_self m))
    rw [e]
    refine ⟨?_, ?_, ?_⟩
    · rw [(moved_frame cfg rng i m _).2.1, r]
      ring
    · intro i2 j2
      by_cases hc : i2 = i ∧ j2 = m
      · rw [hc.1, hc.2, ep, p]
      · rw [moved_position_other cfg rng i m _ i2 j2 hc, p]
    · intro i2 j2
      by_cases hc : i2 = i ∧ j2 = m
      · rw [hc.1, hc.2, ev, hv m (Nat.lt_succ_self m)]
      · rw [moved_velocity_other cfg rng i m _ i2 j2 hc, v]

/-- The pass over a candidate with `c1 = c2 = 0`, `a = b = 1`, zero velocity and position
in `[0, 1]`: five draws per component, and the evaluated position is the one drawn in the
reseeding loop. -/
theorem candidatePass_still (cfg : PSOConfig) (rng : ℕ → ℕ) (s : PSOState) (i : ℕ)
    (hc1 : cfg.c1 = 0) (hc2 : cfg.c2 = 0) (ha : cfg.a = 1) (hb : cfg.b = 1)
    (hv : ∀ j < cfg.nVar, s.PSOPart_velocity i j = 0)
    (hp : ∀ j < cfg.nVar, 0 ≤ s.PSOPart_position i j ∧ s.PSOPart_position i j ≤ 1) :
    ∃ s3, candidatePass cfg rng s i = Except.ok (updateCosts cfg i s3)
      ∧ SameFrame s s3
      ∧ s3.randCalls = s.randCalls + 5 * cfg.nVar
      ∧ (∀ j < cfg.nVar, s3.PSOPart_position i j
          = cfg.varMin + (cfg.varMax - cfg.varMin)
              * drawAt rng (s.randCalls + 3 * cfg.nVar + 2 * j))
      ∧ (∀ j < cfg.nVar, s3.PSOPart_velocity i j = 0) := by
  have ha0 : cfg.a ≠ 0 := by rw [ha]; decide
  have hbu : toUnsigned cfg.b = 1 := by rw [hb]; rfl
  have hb0 : toUnsigned cfg.b ≠ 0 := by rw [hbu]; decide
  have hmodb : s.iteration % toUnsigned cfg.b = 0 := by rw [hbu]; exact Nat.mod_one _
  have hmoda : Int.tmod (i : ℤ) cfg.a = 0 := by rw [ha]; exact Int.tmod_one _
  obtain ⟨mr, mp, mv⟩ := moveFold_still cfg rng i s hc1 hc2 cfg.nVar hv hp
  have mf : SameFrame s ((List.range cfg.nVar).foldl (fun s k => moveStep cfg rng i k s) s) :=
    foldl_sameFrame _ (fun s k => moveStep_sameFrame cfg rng i k s) _ s
  obtain ⟨dr, _, _, _⟩ := foldl_redraw cfg rng i cfg.nVar
    ((List.range cfg.nVar).foldl (fun s k => moveStep cfg rng i k s) s)
  have dv : ((List.range cfg.nVar).foldl (fun s k => redraw cfg rng i k s)
      ((List.range cfg.nVar).foldl (fun s k => moveStep cfg rng i k s) s)).PSOPart_velocity
      = ((List.range cfg.nVar).foldl
          (fun s k => moveStep cfg rng i k s) s).PSOPart_velocity :=
    foldl_preserve (fun s => s.PSOPart_velocity) _ (fun s k => redraw_velocity cfg rng i k s) _ _
  have df : SameFrame ((List.range cfg.nVar).foldl (fun s k => moveStep cfg rng i k s) s)
      ((List.range cfg.nVar).foldl (fun s k => redraw cfg rng i k s)
        ((List.range cfg.nVar).foldl (fun s k => moveStep cfg rng i k s) s)) :=
    foldl_sameFrame _ (fun s k => redraw_sameFrame cfg rng i k s) _ _
  obtain ⟨sr, _, sp⟩ := foldl_reseed cfg rng i cfg.nVar
    ((List.range cfg.nVar).foldl (fun s k => redraw cfg rng i k s)
      ((List.range cfg.nVar).foldl (fun s k => moveStep cfg rng i k s) s))
  have sv : ((List.range cfg.nVar).foldl (fun s k => reseedStep cfg rng i k s)
      ((List.range cfg.nVar).foldl (fun s k => redraw cfg rng i k s)
        ((List.range cfg.nVar).foldl
          (fun s k => moveStep cfg rng i k s) s))).PSOPart_velocity
      = ((List.range cfg.nVar).foldl (fun s k => redraw cfg rng i k s)
        ((List.range cfg.nVar).foldl
          (fun s k => moveStep cfg rng i k s) s)).PSOPart_velocity :=
    foldl_preserve (fun s => s.PSOPart_velocity) _
      (fun s k => reseedStep_velocity cfg rng i k s) _ _
  have sf : SameFrame ((List.range cfg.nVar).foldl (fun s k => redraw cfg rng i k s)
        ((List.range cfg.nVar).foldl (fun s k => moveStep cfg rng i k s) s))
      ((List.range cfg.nVar).foldl (fun s k => reseedStep cfg rng i k s)
        ((List.range cfg.nVar).foldl (fun s k => redraw cfg rng i k s)
          ((List.range cfg.nVar).foldl (fun s k => moveStep cfg rng i k s) s))) :=
    foldl_sameFrame _ (fun s k => reseedStep_sameFrame cfg rng i k s) _ _
  refine ⟨(List.range cfg.nVar).foldl (fun s k => reseedStep cfg rng i k s)
        ((List.range cfg.nVar).foldl (fun s k => redraw cfg rng i k s)
          ((List.range cfg.nVar).foldl (fun s k => moveStep cfg rng i k s) s)), ?_,
    SameFrame.comp (SameFrame.comp mf df) sf, ?_, ?_, ?_⟩
  · rw [candidatePass_ok cfg rng s i ha0 hb0, if_pos hmodb, if_pos hmoda]
  · rw [sr, dr, mr]
    ring
  · intro j hj
    rw [sp j hj, dr, mr]
    congr 3
    ring
  · intro j hj
    rw [sv, dv, mv, hv j hj]

theorem afterCandidates_arrays (cfg : PSOConfig) (s : PSOState) :
    (afterCandidates cfg s).PSOPart_position = s.PSOPart_position
      ∧ (afterCandidates cfg s).PSOPart_velocity = s.PSOPart_velocity
      ∧ (afterCandidates cfg s).randCalls = s.randCalls := by
  unfold afterCandidates
  simp only []
  split_ifs <;> exact ⟨rfl, rfl, rfl⟩

theorem foldlM_single {ε σ β : Type} (f : σ → β → Except ε σ) (s : σ) (b : β) :
    [b].foldlM f s = f s b := by
  rw [List.foldlM_cons]
  simp only [List.foldlM_nil]
  exact bind_pure _

end Still

section WrapRun

theorem flat_elongation : (get_particle_parameters 1 flatOffsets 8).elongation = 35 / 36 := by
  rw [gpp_elongation, flat_preLength, flat_preWidth]
  have h : ¬ ((10 : ℝ) / 360 > 1) := by norm_num
  rw [if_neg h]
  norm_num

theorem half_elongation : (get_particle_parameters 1 halfOffsets 8).elongation = 0 := by
  rw [gpp_elongation, half_preLength one_pos, half_preWidth one_pos]
  have h : ¬ ((2 * 92.5 * 1 : ℝ) / (2 * 92.5 * 1) > 1) := by norm_num
  rw [if_neg h]
  norm_num

theorem wrap_cost_flat : costOf wrapCfg flatOffsets = 0 := by
  unfold costOf calculate_cost
  simp only [wrapCfg]
  norm_num

theorem wrap_cost_half : 0 < costOf wrapCfg halfOffsets := by
  unfold costOf calculate_cost
  simp only [wrapCfg]
  apply Real.sqrt_pos.mpr
  have e : ((get_particle_parameters 1 flatOffsets 8).elongation
      - (get_particle_parameters 1.0 halfOffsets 8).elongation) ^ 2 = (35 / 36) ^ 2 := by
    rw [flat_elongation]
    norm_num
    rw [half_elongation]
    norm_num
  rw [e]
  positivity

theorem wrapStream_low {n : ℕ} (h : n < 8 + 40 * (2 ^ 32 - 1)) :
    drawAt wrapStream n = 16383 / 32767 := by
  unfold drawAt wrapStream
  rw [if_pos h]
  norm_num

theorem wrapStream_high (j : ℕ) :
    drawAt wrapStream (8 + 40 * (2 ^ 32 - 1) + 3 * 8 + 2 * j)
      = if j = 0 ∨ j = 4 then 32766 / 32767 else 0 := by
  unfold drawAt wrapStream
  rw [if_neg (by omega)]
  by_cases hj : j = 0 ∨ j = 4
  · rw [if_pos hj, if_pos (by omega)]
    norm_num
  · rw [if_neg hj, if_neg (by omega)]
    norm_num

theorem wrapCfg_stop (s : PSOState) :
    stopSearch wrapCfg s ↔ s.globalBestCost ≤ (0 : WithTop ℝ) := by
  unfold stopSearch
  have h1 : wrapCfg.useIterLimit = 0 := rfl
  have h2 : wrapCfg.usePrecisionLimit ≠ 0 := by decide
  have h3 : ((wrapCfg.precisionLimit : ℝ) : WithTop ℝ) = 0 := rfl
  rw [h1, h3]
  constructor
  · rintro (⟨h, _⟩ | ⟨_, h⟩)
    · exact absurd rfl h
    · exact h
  · intro h
    exact Or.inr ⟨h2, h⟩

/-- One pass of `wrapCfg` on any stream from a memory with zero velocities and positions in
`[0, 1]`. -/
theorem wrap_pass (rng : ℕ → ℕ) (s : PSOState)
    (hv : ∀ j < 8, s.PSOPart_velocity 0 j = 0)
    (hp : ∀ j < 8, 0 ≤ s.PSOPart_position 0 j ∧ s.PSOPart_position 0 j ≤ 1) :
    ∃ s3, (List.range wrapCfg.nPop).foldlM (candidatePass wrapCfg rng) s
        = Except.ok (updateCosts wrapCfg 0 s3)
      ∧ SameFrame s s3
      ∧ s3.randCalls = s.randCalls + 40
      ∧ (∀ j < 8, s3.PSOPart_position 0 j
          = 32767 / 32766 * drawAt rng (s.randCalls + 3 * 8 + 2 * j))
      ∧ (∀ j < 8, s3.PSOPart_velocity 0 j = 0) := by
  obtain ⟨s3, h1, h2, h3, h4, h5⟩ := candidatePass_still wrapCfg rng s 0 rfl rfl rfl rfl hv hp
  refine ⟨s3, ?_, h2, h3, ?_, h5⟩
  · have hn : List.range wrapCfg.nPop = [0] := rfl
    rw [hn, foldlM_single]
    exact h1
  · intro j hj
    have := h4 j hj
    rw [this]
    have e1 : wrapCfg.varMin = 0 := rfl
    have e2 : wrapCfg.varMax = 32767 / 32766 := rfl
    have e3 : wrapCfg.nVar = 8 := rfl
    rw [e1, e2, e3]
    ring

/-- A pass of the run before the wrap: the candidate stays at the offsets 0.5. -/
theorem wrap_step (s : PSOState) (k : ℕ) (hk : k < 2 ^ 32 - 1) (h : HalfState s k)
    (fuel : ℕ) :
    ∃ s2, searchLoop wrapCfg wrapStream (fuel + 1) s = searchLoop wrapCfg wrapStream fuel s2
      ∧ HalfState s2 (k + 1) := by
  obtain ⟨hit, hr, hpos, hvel, hg, harr⟩ := h
  obtain ⟨s3, hpass, hf, r3, p3, v3⟩ := wrap_pass wrapStream s hvel
    (fun j hj => by rw [hpos j hj]; norm_num)
  have hp3 : ∀ j < 8, s3.PSOPart_position 0 j = 1 / 2 := by
    intro j hj
    rw [p3 j hj, wrapStream_low (by rw [hr]; omega)]
    norm_num
  have hcost : costOf wrapCfg (fun j => s3.PSOPart_position 0 j) = costOf wrapCfg halfOffsets := by
    unfold costOf
    apply calculate_cost_congr
    intro j hj
    rw [hp3 j hj]
    unfold halfOffsets
    norm_num
  have hg3 : (updateCosts wrapCfg 0 s3).globalBestCost
      = ((costOf wrapCfg halfOffsets : ℝ) : WithTop ℝ) := by
    rw [updateCosts_globalBestCost, hcost, hf.2.2.2.1, hg, if_neg (lt_irrefl _)]
  have hit3 : (updateCosts wrapCfg 0 s3).iteration = k + 1 := by
    rw [updateCosts_iteration, hf.2.2.2.2.2.2.1, hit, Nat.mod_eq_of_lt (by omega)]
  have hnostop : ¬ stopSearch wrapCfg (afterCandidates wrapCfg (updateCosts wrapCfg 0 s3)) := by
    rw [wrapCfg_stop, (afterCandidates_bests wrapCfg _).1, hg3]
    intro hle
    have := WithTop.coe_le_coe.mp hle
    linarith [wrap_cost_half]
  refine ⟨{ afterCandidates wrapCfg (updateCosts wrapCfg 0 s3) with
      iteration := ((afterCandidates wrapCfg (updateCosts wrapCfg 0 s3)).iteration + 1)
        % 2 ^ 32 }, ?_, ?_, ?_, ?_, ?_, ?_, ?_⟩
  · rw [searchLoop_succ wrapCfg wrapStream fuel s _ hpass, if_neg hnostop]
  · show ((afterCandidates wrapCfg (updateCosts wrapCfg 0 s3)).iteration + 1) % 2 ^ 32
      = (k + 1 + 1) % 2 ^ 32
    rw [afterCandidates_iteration, hit3]
  · show (afterCandidates wrapCfg (updateCosts wrapCfg 0 s3)).randCalls = 8 + 40 * (k + 1)
    rw [(afterCandidates_arrays wrapCfg _).2.2, (updateCosts_w wrapCfg 0 s3).2, r3, hr]
    ring
  · intro j hj
    show (afterCandidates wrapCfg (updateCosts wrapCfg 0 s3)).PSOPart_position 0 j = 1 / 2
    rw [(afterCandidates_arrays wrapCfg _).1, updateCosts_position, hp3 j hj]
  · intro j hj
    show (afterCandidates wrapCfg (updateCosts wrapCfg 0 s3)).PSOPart_velocity 0 j = 0
    rw [(afterCandidates_arrays wrapCfg _).2.1, updateCosts_velocity, v3 j hj]
  · show (afterCandidates wrapCfg (updateCosts wrapCfg 0 s3)).globalBestCost = _
    rw [(afterCandidates_bests wrapCfg _).1, hg3]
  · intro _
    show (afterCandidates wrapCfg (updateCosts wrapCfg 0 s3)).arrayBestCosts 1 = _
    rw [afterCandidates_record, hit3, hg3, updateCosts_arrayBestCosts, hf.2.2.2.2.2.1]
    have hlim : toUnsigned wrapCfg.iterLimit = 2 := rfl
    have hplot : wrapCfg.showErrorPlot ≠ 0 := by decide
    rw [hlim]
    rcases Nat.eq_zero_or_pos k with hk0 | hkpos
    · rw [hk0, if_pos ⟨hplot, by norm_num⟩, Function.update_same]
    · rw [if_neg (fun hc => by omega)]
      exact harr hkpos

/-- The passes of the run before the wrap. -/
theorem wrap_loop (d : ℕ) :
    ∀ (k : ℕ) (s : PSOState), k + d = 2 ^ 32 - 1 → HalfState s k → ∀ fuel : ℕ,
      ∃ s2, searchLoop wrapCfg wrapStream (fuel + d) s
          = searchLoop wrapCfg wrapStream fuel s2
        ∧ HalfState s2 (2 ^ 32 - 1) := by
  induction d with
  | zero =>
    intro k s hk h fuel
    have e : k = 2 ^ 32 - 1 := by omega
    rw [e] at h
    exact ⟨s, rfl, h⟩
  | succ d ih =>
    intro k s hk h fuel
    obtain ⟨s1, e1, h1⟩ := wrap_step s k (by omega) h (fuel + d)
    obtain ⟨s2, e2, h2⟩ := ih (k + 1) s1 (by omega) h1 fuel
    exact ⟨s2, by rw [← e2, ← e1]; rfl, h2⟩

/-- The pass of the run with the counter at 0: the candidate is moved to the target, the
cost 0 is recorded at index 0, and the search returns. -/
theorem wrap_last (s : PSOState) (h : HalfState s (2 ^ 32 - 1)) :
    ∃ res, searchLoop wrapCfg wrapStream 1 s = Except.ok res
      ∧ res.iteration = 0 ∧ res.globalBestCost = 0 ∧ res.arrayBestCosts 0 = 0
      ∧ res.arrayBestCosts 1 = ((costOf wrapCfg halfOffsets : ℝ) : WithTop ℝ) := by
  obtain ⟨hit, hr, hpos, hvel, hg, harr⟩ := h
  obtain ⟨s3, hpass, hf, r3, p3, v3⟩ := wrap_pass wrapStream s hvel
    (fun j hj => by rw [hpos j hj]; norm_num)
  have hp3 : ∀ j < 8, s3.PSOPart_position 0 j = flatOffsets j := by
    intro j hj
    rw [p3 j hj, hr, wrapStream_high j]
    unfold flatOffsets
    split_ifs <;> norm_num
  have hcost : costOf wrapCfg (fun j => s3.PSOPart_position 0 j) = 0 := by
    rw [← wrap_cost_flat]
    unfold costOf
    apply calculate_cost_congr
    intro j hj
    exact hp3 j hj
  have hg3 : (updateCosts wrapCfg 0 s3).globalBestCost = 0 := by
    rw [updateCosts_globalBestCost, hcost, hf.2.2.2.1, hg,
      if_pos (WithTop.coe_lt_coe.mpr wrap_cost_half)]
    rfl
  have hit3 : (updateCosts wrapCfg 0 s3).iteration = 0 := by
    rw [updateCosts_iteration, hf.2.2.2.2.2.2.1, hit]
    norm_num
  have hstop : stopSearch wrapCfg (afterCandidates wrapCfg (updateCosts wrapCfg 0 s3)) := by
    rw [wrapCfg_stop, (afterCandidates_bests wrapCfg _).1, hg3]
  have hlim : toUnsigned wrapCfg.iterLimit = 2 := rfl
  have hplot : wrapCfg.showErrorPlot ≠ 0 := by decide
  refine ⟨afterCandidates wrapCfg (updateCosts wrapCfg 0 s3), ?_, ?_, ?_, ?_, ?_⟩
  · rw [searchLoop_succ wrapCfg wrapStream 0 s _ hpass, if_pos hstop]
  · rw [afterCandidates_iteration, hit3]
  · rw [(afterCandidates_bests wrapCfg _).1, hg3]
  · rw [afterCandidates_record, hit3, hg3, hlim, if_pos ⟨hplot, by norm_num⟩,
      Function.update_same]
  · rw [afterCandidates_record, hit3, hg3, hlim, if_pos ⟨hplot, by norm_num⟩,
      Function.update_noteq (by norm_num), updateCosts_arrayBestCosts, hf.2.2.2.2.2.1]
    exact harr (by norm_num)

/-- The memory after INIT of the run of `wrapCfg` on `wrapStream`. -/
theorem wrap_init : HalfState (psoInit wrapCfg wrapStream witnessMem) 0 := by
  have hdrawn : psoInitDrawn wrapCfg wrapStream witnessMem
      = (List.range 8).foldl (fun s j => redraw wrapCfg wrapStream 0 j s)
          { witnessMem with
            iteration := 1, globalBestCost := ⊤,
            PSOPart_bestCost := fun i =>
              if i < wrapCfg.nPop then (⊤ : WithTop ℝ) else witnessMem.PSOPart_bestCost i,
            w := wrapCfg.w, randCalls := 0, evaluated := [] } := rfl
  obtain ⟨dr, _, dp, _⟩ := foldl_redraw wrapCfg wrapStream 0 8
    { witnessMem with
      iteration := 1, globalBestCost := ⊤,
      PSOPart_bestCost := fun i =>
        if i < wrapCfg.nPop then (⊤ : WithTop ℝ) else witnessMem.PSOPart_bestCost i,
      w := wrapCfg.w, randCalls := 0, evaluated := [] }
  have hfr := psoInitDrawn_frame wrapCfg wrapStream witnessMem
  have hpos : ∀ j < 8, (psoInitDrawn wrapCfg wrapStream witnessMem).PSOPart_position 0 j
      = 1 / 2 := by
    intro j hj
    rw [hdrawn, dp j hj, wrapStream_low (by show 0 + j < _; omega)]
    have e1 : wrapCfg.varMin = 0 := rfl
    have e2 : wrapCfg.varMax = 32767 / 32766 := rfl
    rw [e1, e2]
    norm_num
  have hinit : psoInit wrapCfg wrapStream witnessMem
      = initRecord wrapCfg (updateCosts wrapCfg 0 (psoInitDrawn wrapCfg wrapStream witnessMem)) :=
    rfl
  have hrec : ∀ u : PSOState, (initRecord wrapCfg u).iteration = u.iteration
      ∧ (initRecord wrapCfg u).randCalls = u.randCalls
      ∧ (initRecord wrapCfg u).PSOPart_position = u.PSOPart_position
      ∧ (initRecord wrapCfg u).PSOPart_velocity = u.PSOPart_velocity
      ∧ (initRecord wrapCfg u).globalBestCost = u.globalBestCost := by
    intro u
    unfold initRecord
    split_ifs <;> exact ⟨rfl, rfl, rfl, rfl, rfl⟩
  have hcost : costOf wrapCfg
      (fun j => (psoInitDrawn wrapCfg wrapStream witnessMem).PSOPart_position 0 j)
      = costOf wrapCfg halfOffsets := by
    unfold costOf
    apply calculate_cost_congr
    intro j hj
    rw [hpos j hj]
    unfold halfOffsets
    norm_num
  refine ⟨(psoInit_counts wrapCfg wrapStream witnessMem).1, ?_, ?_, ?_, ?_, ?_⟩
  · rw [hinit, (hrec _).2.1, (updateCosts_w wrapCfg 0 _).2, hdrawn, dr]
  · intro j hj
    rw [hinit, (hrec _).2.2.1, updateCosts_position, hpos j hj]
  · intro j hj
    rw [(psoInit_fields wrapCfg wrapStream witnessMem).2.1]
    rfl
  · rw [hinit, (hrec _).2.2.2.2, updateCosts_globalBestCost, hcost, hfr.2.2.2.1,
      if_pos (WithTop.coe_lt_top _)]
  · intro h
    omega

/-- The run of `wrapCfg` on `wrapStream` returns in pass `2 ^ 32`, with the counter at 0
and the cost 0 recorded at index 0 below the cost recorded at index 1. -/
theorem wrap_run :
    ∃ res, PSOAlg_run_search wrapCfg wrapStream witnessMem (2 ^ 32) = Except.ok res
      ∧ res.iteration = 0 ∧ res.globalBestCost = 0 ∧ res.arrayBestCosts 0 = 0
      ∧ res.arrayBestCosts 1 = ((costOf wrapCfg halfOffsets : ℝ) : WithTop ℝ) := by
  obtain ⟨s2, e2, h2⟩ := wrap_loop (2 ^ 32 - 1) 0 _ (by norm_num) wrap_init 1
  obtain ⟨res, e, r⟩ := wrap_last s2 h2
  refine ⟨res, ?_, r⟩
  unfold PSOAlg_run_search
  rw [show (2 : ℕ) ^ 32 = 1 + (2 ^ 32 - 1) by norm_num, e2, e]

end WrapRun

/-- C36 as stated fails on the code. With the period `a = 0` the first pass does not
complete: the remainder `i % a` has no value. And the run of `wrapCfg` on the stream
`wrapStream` returns in pass `2 ^ 32`, in which the unsigned counter has wrapped, with
`iteration = 0`. -/
theorem iteration_counter_wraps :
    (zeroPeriodCfg.a = 0
        ∧ ∀ fuel, PSOAlg_run_search zeroPeriodCfg (fun _ => 0) witnessMem (fuel + 1)
            = Except.error PSOError.divisionByZero)
      ∧ (wrapCfg.a ≠ 0 ∧ toUnsigned wrapCfg.b ≠ 0
        ∧ ∃ res, PSOAlg_run_search wrapCfg wrapStream witnessMem (2 ^ 32) = Except.ok res
            ∧ res.iteration = 0) := by
  refine ⟨⟨rfl, ?_⟩, by decide, by decide, ?_⟩
  · intro fuel
    unfold PSOAlg_run_search
    rw [searchLoop]
    have hp : List.range zeroPeriodCfg.nPop = [0] := rfl
    have hc : candidatePass zeroPeriodCfg (fun _ => 0)
        (psoInit zeroPeriodCfg (fun _ => 0) witnessMem) 0
        = Except.error PSOError.divisionByZero := by
      unfold candidatePass
      have ha : zeroPeriodCfg.a = 0 := rfl
      simp only [ha, if_true]
    rw [hp, foldlM_single, hc]
  · obtain ⟨res, hrun, hit, _⟩ := wrap_run
    exact ⟨res, hrun, hit⟩

end PSG
